import Mathlib

/-!
# DKFrame: the hierarchical frame tree of DKLib (DK/DKFramework/DKFrame.cpp)

A shallow embedding of `DKFrame` and of the part of `DKScreen` it talks to.

* A `DKFrame*` is a `FramePtr` (a natural number naming a heap cell); a nullable
  pointer argument or field is an `Option FramePtr`.  The heap is the function
  `World.frames`; every cell holds a frame, so a cell that was never touched
  holds a freshly constructed frame (`DKFrame.fresh`, the C++ constructor).
* `float` values are exact rationals: rounding error, infinities and NaN are
  not modelled.  `floor(x + 0.5f)` converted to `uint32_t` is `roundU32`, exact
  for a value in the range of `uint32_t` (`FitsU32`); the theorems that state
  what a conversion gives take the values in that range.
* Recursion through the heap (`IsDescendantOf` up the superframe links,
  `Load`, `Unload`, `UpdateContentResolution` down the subframe lists) takes a
  fuel argument and returns `none` when the fuel is exhausted.
* The virtual hooks (`OnLoaded`, `OnUnload`, `OnContentResized`, and the
  notifications sent by the screen) are the empty default implementations:
  they do not touch the state.
* Reference counting (`DKObject<DKFrame>`) and destruction are not modelled:
  a frame stays in the heap after it is unlinked.
* The subframe array (`DKArray<DKObject<DKFrame>>`) is a list: `Insert(x, 0)`
  puts `x` in front, `Add(x)` appends it, `Remove(i)` erases index `i`.
-/

namespace DKFramework

/-! ## Data model -/

abbrev FramePtr := Nat
abbrev ScreenPtr := Nat
abbrev TexturePtr := Nat
abbrev DeviceId := Int
abbrev DKPixelFormat := Nat
abbrev DKBlendState := Nat

/-- DKSize: a width and a height. -/
structure DKSize where
  width : ℚ
  height : ℚ
deriving DecidableEq

/-- DKPoint / DKVector2: a point of the plane. -/
structure DKVector2 where
  x : ℚ
  y : ℚ
deriving DecidableEq

abbrev DKPoint := DKVector2

/-- DKMatrix3: a 3x3 matrix, rows first. -/
structure DKMatrix3 where
  m11 : ℚ
  m12 : ℚ
  m13 : ℚ
  m21 : ℚ
  m22 : ℚ
  m23 : ℚ
  m31 : ℚ
  m32 : ℚ
  m33 : ℚ
deriving DecidableEq

/-- DKMatrix3::identity. -/
def DKMatrix3.identity : DKMatrix3 :=
  { m11 := 1, m12 := 0, m13 := 0, m21 := 0, m22 := 1, m23 := 0, m31 := 0, m32 := 0, m33 := 1 }

/-- Modelled from the spec: DKVector2::Transform(const DKMatrix3&) lives in DKVector2.cpp, which is
not among the sources.  The spec calls the frame transforms affine maps; the frame code applies
them to row vectors (`v.Transform(a); v.Transform(b)` is `v * a * b`), so the point `(x, y)`
goes to `(x, y, 1) * m`, of which the first two components are kept. -/
def DKVector2.Transform (v : DKVector2) (m : DKMatrix3) : DKVector2 :=
  { x := v.x * m.m11 + v.y * m.m21 + m.m31
    y := v.x * m.m12 + v.y * m.m22 + m.m32 }

/-- Modelled from the spec: the difference of two DKVector2 (`operator -` of DKVector2.h, which
is not among the sources), taken componentwise. -/
def DKVector2.sub (a b : DKVector2) : DKVector2 :=
  { x := a.x - b.x, y := a.y - b.y }

/-- Modelled from the spec: DKVector2::Length (DKVector2.cpp is not among the sources), the
length `sqrt(x*x + y*y)` of an edge; the square root of the C library is the parameter
`sqrtf`. -/
def DKVector2.Length (sqrtf : ℚ → ℚ) (v : DKVector2) : ℚ :=
  sqrtf (v.x * v.x + v.y * v.y)

/-- The private state of a DKFrame (DKFrame.h), plus the subframe array. -/
structure DKFrame where
  transform : DKMatrix3
  transformInverse : DKMatrix3
  superframe : Option FramePtr
  subframes : List FramePtr
  screen : Option ScreenPtr
  loaded : Bool
  drawSurface : Bool
  contentResolution : DKSize
  contentScale : DKSize
  contentTransform : DKMatrix3
  contentTransformInverse : DKMatrix3
  color : Nat
  blendState : DKBlendState
  hidden : Bool
  enabled : Bool
  pixelFormat : DKPixelFormat
  renderTarget : Option TexturePtr

/-- DKFrame::DKFrame(): the state of a freshly constructed frame.  The colour is
`DKColor(1,1,1,1).RGBA32Value()`; blend state and pixel format are the handles 0. -/
def DKFrame.fresh : DKFrame :=
  { transform := DKMatrix3.identity
    transformInverse := DKMatrix3.identity
    superframe := none
    subframes := []
    screen := none
    loaded := false
    drawSurface := false
    contentResolution := { width := 1, height := 1 }
    contentScale := { width := 1, height := 1 }
    contentTransform := DKMatrix3.identity
    contentTransformInverse := DKMatrix3.identity
    color := 0xffffffff
    blendState := 0
    hidden := false
    enabled := true
    pixelFormat := 0
    renderTarget := none }

/-- Modelled from the spec: DKScreen is declared in DKScreen.h, which is not among the sources.
The spec gives the screen a root frame, a resolution, and three claim tables keyed by input-device
id, each mapping a device to at most one frame: hover, mouse capture (focus) and keyboard
capture (key). -/
structure DKScreen where
  rootFrame : Option FramePtr
  resolution : DKSize
  hoverFrames : DeviceId → Option FramePtr
  focusFrames : DeviceId → Option FramePtr
  keyFrames : DeviceId → Option FramePtr

/-- The heap: every frame and every screen, by address. -/
structure World where
  frames : FramePtr → DKFrame
  screens : ScreenPtr → DKScreen

/-- A write through a frame pointer. -/
def World.modFrame (w : World) (p : FramePtr) (g : DKFrame → DKFrame) : World :=
  { w with frames := fun q => if q = p then g (w.frames q) else w.frames q }

/-- A write through a screen pointer. -/
def World.modScreen (w : World) (s : ScreenPtr) (g : DKScreen → DKScreen) : World :=
  { w with screens := fun t => if t = s then g (w.screens t) else w.screens t }

/-- The subframe array of every frame. -/
def World.children (w : World) : FramePtr → List FramePtr :=
  fun p => (w.frames p).subframes

/-- The superframe pointer of every frame. -/
def World.parent (w : World) : FramePtr → Option FramePtr :=
  fun p => (w.frames p).superframe

/-! ## The screen's claim tables -/

/-- Modelled from the spec: remove-if-matches on one claim table, for every device: the entries
that refer to `frame` are cleared, the others are kept. -/
def removeClaims (table : DeviceId → Option FramePtr) (frame : FramePtr) :
    DeviceId → Option FramePtr :=
  fun d => if table d = some frame then none else table d

/-- Modelled from the spec: DKScreen::LeaveHoverFrame(frame) (DKScreen.cpp is not among the
sources) removes `frame` from the hover table of every device. -/
def DKScreen.LeaveHoverFrame (s : DKScreen) (frame : FramePtr) : DKScreen :=
  { s with hoverFrames := removeClaims s.hoverFrames frame }

/-- Modelled from the spec: DKScreen::RemoveFocusFrameForAnyDevices(frame, notify) removes `frame`
from the mouse-capture table of every device; `notify` only selects whether the frame is told. -/
def DKScreen.RemoveFocusFrameForAnyDevices (s : DKScreen) (frame : FramePtr) (_notify : Bool) :
    DKScreen :=
  { s with focusFrames := removeClaims s.focusFrames frame }

/-- Modelled from the spec: DKScreen::RemoveKeyFrameForAnyDevices(frame, notify) removes `frame`
from the keyboard-capture table of every device; `notify` only selects whether the frame is
told. -/
def DKScreen.RemoveKeyFrameForAnyDevices (s : DKScreen) (frame : FramePtr) (_notify : Bool) :
    DKScreen :=
  { s with keyFrames := removeClaims s.keyFrames frame }

/-- The three calls `LeaveHoverFrame(frame)`, `RemoveFocusFrameForAnyDevices(frame, notify)`,
`RemoveKeyFrameForAnyDevices(frame, notify)` on the screen `s`, in the order in which Unload and
RemoveSubframe make them. -/
def releaseClaims (w : World) (s : ScreenPtr) (frame : FramePtr) (notify : Bool) : World :=
  let w1 := w.modScreen s (fun sc => sc.LeaveHoverFrame frame)
  let w2 := w1.modScreen s (fun sc => sc.RemoveFocusFrameForAnyDevices frame notify)
  w2.modScreen s (fun sc => sc.RemoveKeyFrameForAnyDevices frame notify)

/-! ## Redraw flag -/

/-- DKFrame::SetRedraw: `drawSurface = true`. -/
def SetRedraw (w : World) (this : FramePtr) : World :=
  w.modFrame this (fun f => { f with drawSurface := true })

/-- DKFrame::DiscardSurface: `renderTarget = nullptr; SetRedraw()`. -/
def DiscardSurface (w : World) (this : FramePtr) : World :=
  SetRedraw (w.modFrame this (fun f => { f with renderTarget := none })) this

/-! ## Coordinate conversions used by the resolution computation -/

/-- DKFrame::LocalToSuper(const DKPoint&). -/
def LocalToSuper (w : World) (this : FramePtr) (pt : DKPoint) : DKPoint :=
  let f := w.frames this
  match f.superframe with
  | some _ =>
    let v := pt.Transform f.contentTransform
    let v : DKVector2 := { x := v.x / f.contentScale.width, y := v.y / f.contentScale.height }
    v.Transform f.transform
  | none => pt

/-- DKFrame::LocalToPixel(const DKPoint&). -/
def LocalToPixel (w : World) (this : FramePtr) (pt : DKPoint) : DKPoint :=
  let f := w.frames this
  let v := pt.Transform f.contentTransform
  let v : DKVector2 := { x := v.x / f.contentScale.width, y := v.y / f.contentScale.height }
  { x := v.x * f.contentResolution.width, y := v.y * f.contentResolution.height }

/-- The C expression `floor(x + 0.5f)`, as an integer. -/
def roundHalfUp (x : ℚ) : ℤ :=
  ⌊x + 1 / 2⌋

/-- The C expression `(uint32_t)floor(x + 0.5f)`, for a value that fits 32 bits (`FitsU32`
below): outside that range the conversion of the source wraps or is undefined, and the value
here (0 for a negative value, the value itself from 2^32 on) says nothing about it. -/
def roundU32 (x : ℚ) : Nat :=
  (roundHalfUp x).toNat

/-- The constant `maxTexSize = 1 << 14` of UpdateContentResolution. -/
def maxTexSize : Nat := 2 ^ 14

/-- Modelled from the spec: the template `Clamp<uint32_t>(v, lo, hi)` (DKMath.h is not among the
sources), which clamps `v` to `[lo, hi]`.  The templates `Max<uint32_t>` and `Max<float>` of the
same header are `max`. -/
def Clamp (v lo hi : Nat) : Nat :=
  if v < lo then lo else if v > hi then hi else v

/-- DKFrame::CalculateContentResolution. -/
def CalculateContentResolution (sqrtf : ℚ → ℚ) (w : World) (this : FramePtr) : DKSize :=
  let f := w.frames this
  match f.superframe with
  | some sup =>
    let superRes := (w.frames sup).contentResolution
    if superRes.width > 0 ∧ superRes.height > 0 then
      let cw := f.contentScale.width
      let ch := f.contentScale.height
      let lt := LocalToPixel w sup (LocalToSuper w this { x := 0, y := 0 })
      let rt := LocalToPixel w sup (LocalToSuper w this { x := cw, y := 0 })
      let lb := LocalToPixel w sup (LocalToSuper w this { x := 0, y := ch })
      let rb := LocalToPixel w sup (LocalToSuper w this { x := cw, y := ch })
      let horizontal1 := rb.sub lb
      let horizontal2 := rt.sub lt
      let vertical1 := lt.sub lb
      let vertical2 := rt.sub rb
      let rw := max (horizontal1.Length sqrtf) (horizontal2.Length sqrtf)
      let rh := max (vertical1.Length sqrtf) (vertical2.Length sqrtf)
      { width := (roundHalfUp rw : ℚ), height := (roundHalfUp rh : ℚ) }
    else f.contentResolution
  | none => f.contentResolution

/-- Whether `this` is the root frame of the screen it points to:
`screen && screen->RootFrame() == this`. -/
def isRootFrame (w : World) (this : FramePtr) : Bool :=
  match (w.frames this).screen with
  | some s => decide ((w.screens s).rootFrame = some this)
  | none => false

/-- The body of DKFrame::UpdateContentResolution for a loaded frame, up to the loop over the
subframes. -/
def updateOwnResolution (sqrtf : ℚ → ℚ) (w : World) (this : FramePtr) : World :=
  let f := w.frames this
  if isRootFrame w this then
    match f.screen with
    | some s =>
      let size := (w.screens s).resolution
      let width := max (roundU32 size.width) 1
      let height := max (roundU32 size.height) 1
      if roundU32 f.contentResolution.width ≠ width ∨
          roundU32 f.contentResolution.height ≠ height then
        let w1 := w.modFrame this
          (fun g => { g with contentResolution := { width := (width : ℚ), height := (height : ℚ) } })
        -- resized: OnContentResized(); SetRedraw()
        SetRedraw w1 this
      else w
    | none => w
  else
    let size := CalculateContentResolution sqrtf w this
    let width := Clamp (roundU32 size.width) 1 maxTexSize
    let height := Clamp (roundU32 size.height) 1 maxTexSize
    if roundU32 f.contentResolution.width ≠ width ∨
        roundU32 f.contentResolution.height ≠ height then
      let w1 := w.modFrame this
        (fun g => { g with contentResolution := { width := (width : ℚ), height := (height : ℚ) } })
      let w2 := DiscardSurface w1 this
      -- resized: OnContentResized(); SetRedraw()
      SetRedraw w2 this
    else w

/-- DKFrame::UpdateContentResolution. -/
def UpdateContentResolution (sqrtf : ℚ → ℚ) : Nat → World → FramePtr → Option World
  | 0, _, _ => none
  | fuel + 1, w, this =>
    if (w.frames this).loaded = false then some w
    else
      let w1 := updateOwnResolution sqrtf w this
      let frames := (w1.frames this).subframes
      frames.foldlM (fun acc frame => UpdateContentResolution sqrtf fuel acc frame) w1

/-! ## Load and Unload -/

/-- DKFrame::Unload.  Calling through `this->screen` while it is null has no defined behaviour:
the model has no result there. -/
def Unload : Nat → World → FramePtr → Option World
  | 0, _, _ => none
  | fuel + 1, w, this =>
    let frames := (w.frames this).subframes
    (frames.foldlM (fun acc frame => Unload fuel acc frame) w).bind fun w1 =>
      if (w1.frames this).loaded then
        match (w1.frames this).screen with
        | some s =>
          let w2 := releaseClaims w1 s this false
          -- OnUnload()
          let w3 := w2.modFrame this (fun f => { f with renderTarget := none })
          some (w3.modFrame this (fun f => { f with screen := none, loaded := false }))
        | none => none
      else
        some (w1.modFrame this (fun f => { f with screen := none, loaded := false }))

/-- The assignments of DKFrame::Load between the call of Unload and the call of
UpdateContentResolution, for a non-null screen `s`: the screen pointer, the clamped resolution,
the calculated resolution, and the loaded flag. -/
def loadOwnState (sqrtf : ℚ → ℚ) (w : World) (this : FramePtr) (s : ScreenPtr)
    (resolution : DKSize) : World :=
  let w2 := w.modFrame this (fun f => { f with screen := some s })
  let res : DKSize :=
    { width := if resolution.width < 1 then 1 else resolution.width
      height := if resolution.height < 1 then 1 else resolution.height }
  let w3 := w2.modFrame this (fun f => { f with contentResolution := res })
  let w4 := w3.modFrame this
    (fun f => { f with contentResolution := CalculateContentResolution sqrtf w3 this })
  -- OnLoaded()
  w4.modFrame this (fun f => { f with loaded := true })

/-- DKFrame::Load. -/
def Load (sqrtf : ℚ → ℚ) : Nat → World → FramePtr → Option ScreenPtr → DKSize → Option World
  | 0, _, _, _, _ => none
  | fuel + 1, w, this, screen, resolution =>
    if (w.frames this).screen ≠ screen then
      (Unload (fuel + 1) w this).bind fun w1 =>
        match screen with
        | some s =>
          let w5 := loadOwnState sqrtf w1 this s resolution
          -- OnContentResized()
          (UpdateContentResolution sqrtf (fuel + 1) w5 this).bind fun w6 =>
            let frames := (w6.frames this).subframes
            (frames.foldlM (fun acc frame => Load sqrtf fuel acc frame screen resolution) w6).bind
              fun w7 => some (SetRedraw w7 this)
        | none => some (w1.modFrame this (fun f => { f with screen := none }))
    else some w

/-! ## Structural operations -/

/-- DKFrame::IsDescendantOf. -/
def IsDescendantOf : Nat → World → FramePtr → Option FramePtr → Option Bool
  | 0, _, _, _ => none
  | fuel + 1, w, this, frame =>
    match frame with
    | none => some false
    | some f =>
      if f = this then some true
      else
        match (w.frames this).superframe with
        | none => some false
        | some sup => IsDescendantOf fuel w sup frame

/-- The two assignments of DKFrame::AddSubframe: `subframes.Insert(frame, 0)` and
`frame->superframe = this`. -/
def linkSubframe (w : World) (this : FramePtr) (f : FramePtr) : World :=
  let w1 := w.modFrame this (fun g => { g with subframes := f :: g.subframes })
  w1.modFrame f (fun g => { g with superframe := some this })

/-- DKFrame::AddSubframe: the result and the heap after the call. -/
def AddSubframe (sqrtf : ℚ → ℚ) (fuel : Nat) (w : World) (this : FramePtr)
    (frame : Option FramePtr) : Option (Bool × World) :=
  match frame with
  | none => some (false, w)
  | some f =>
    if (w.frames f).superframe = none then
      match IsDescendantOf fuel w this (some f) with
      | none => none
      | some true => some (false, w)
      | some false =>
        let w2 := linkSubframe w this f
        if (w2.frames this).loaded then
          (Load sqrtf fuel w2 f (w2.frames this).screen (w2.frames this).contentResolution).bind
            fun w3 =>
              (UpdateContentResolution sqrtf fuel w3 f).bind fun w4 =>
                some (true, SetRedraw w4 this)
        else some (true, w2)
    else some (false, w)

/-- The loop `for (index = 0; index < subframes.Count(); ++index) if (subframes.Value(index) ==
frame)`: the first index at which `frame` is found, if any. -/
def findSubframe : List FramePtr → FramePtr → Option Nat
  | [], _ => none
  | x :: rest, frame =>
    if x = frame then some 0 else (findSubframe rest frame).map (fun i => i + 1)

/-- The statements of DKFrame::RemoveSubframe once the frame is found at `index`:
`frame->superframe = nullptr; subframes.Remove(index); SetRedraw()`. -/
def unlinkSubframe (w : World) (this : FramePtr) (f : FramePtr) (index : Nat) : World :=
  let w2 := w.modFrame f (fun g => { g with superframe := none })
  let w3 := w2.modFrame this (fun g => { g with subframes := g.subframes.eraseIdx index })
  SetRedraw w3 this

/-- DKFrame::RemoveSubframe. -/
def RemoveSubframe (w : World) (this : FramePtr) (frame : Option FramePtr) : World :=
  match frame with
  | none => w
  | some f =>
    if (w.frames f).superframe = some this then
      let w1 :=
        match (w.frames f).screen with
        | some s => releaseClaims w s f true
        | none => w
      match findSubframe (w1.frames this).subframes f with
      | some index => unlinkSubframe w1 this f index
      | none => w1
    else w

/-- DKFrame::RemoveFromSuperframe. -/
def RemoveFromSuperframe (w : World) (this : FramePtr) : World :=
  match (w.frames this).superframe with
  | some sup => RemoveSubframe w sup (some this)
  | none => w

/-- The statements of DKFrame::BringSubframeToFront for a frame found at an index above 0:
`subframes.Remove(index); subframes.Insert(frame, 0); SetRedraw()`. -/
def moveToFront (w : World) (this : FramePtr) (f : FramePtr) (index : Nat) : World :=
  let w1 := w.modFrame this (fun g => { g with subframes := g.subframes.eraseIdx index })
  let w2 := w1.modFrame this (fun g => { g with subframes := f :: g.subframes })
  SetRedraw w2 this

/-- DKFrame::BringSubframeToFront: the result and the heap after the call. -/
def BringSubframeToFront (w : World) (this : FramePtr) (frame : Option FramePtr) : Bool × World :=
  match frame with
  | none => (false, w)
  | some f =>
    if (w.frames f).superframe = some this then
      match findSubframe (w.frames this).subframes f with
      | some index => if index > 0 then (true, moveToFront w this f index) else (true, w)
      | none => (false, w)
    else (false, w)

/-- The statements of DKFrame::SendSubframeToBack for a frame found at an index that is not the
last: `subframes.Remove(index); subframes.Add(frame); SetRedraw()`. -/
def moveToBack (w : World) (this : FramePtr) (f : FramePtr) (index : Nat) : World :=
  let w1 := w.modFrame this (fun g => { g with subframes := g.subframes.eraseIdx index })
  let w2 := w1.modFrame this (fun g => { g with subframes := g.subframes ++ [f] })
  SetRedraw w2 this

/-- The statement `if (screen) screen->LeaveHoverFrame(this)` of SendSubframeToBack. -/
def leaveHover (w : World) (this : FramePtr) : World :=
  match (w.frames this).screen with
  | some s => w.modScreen s (fun sc => sc.LeaveHoverFrame this)
  | none => w

/-- DKFrame::SendSubframeToBack: the result and the heap after the call. -/
def SendSubframeToBack (w : World) (this : FramePtr) (frame : Option FramePtr) : Bool × World :=
  match frame with
  | none => (false, w)
  | some f =>
    if (w.frames f).superframe = some this then
      let w0 := leaveHover w this
      match findSubframe (w0.frames this).subframes f with
      | some index =>
        if index + 1 < (w0.frames this).subframes.length then (true, moveToBack w0 this f index)
        else (true, w0)
      | none => (false, w0)
    else (false, w)

/-! ## Content scale -/

/-- The constant FLT_EPSILON of <float.h>: 2^-23. -/
def FLT_EPSILON : ℚ := 1 / 2 ^ 23

/-- DKFrame::SetContentScale.  DKCanvas::minimumScaleFactor is defined in DKCanvas.cpp, which is
not among the sources: it is the parameter `minimumScaleFactor`. -/
def SetContentScale (minimumScaleFactor : ℚ) (w : World) (this : FramePtr) (s : DKSize) : World :=
  let sw := max s.width minimumScaleFactor
  let sh := max s.height minimumScaleFactor
  let f := w.frames this
  if |sw - f.contentScale.width| < FLT_EPSILON ∧ |sh - f.contentScale.height| < FLT_EPSILON then
    w
  else
    let w1 := w.modFrame this (fun g => { g with contentScale := { width := sw, height := sh } })
    SetRedraw w1 this

/-! ## Matrices, placement and content transform, colour, blend state, pixel format -/

/-- Modelled from the spec: DKMatrix3::Determinant (DKMatrix3.cpp is not among the sources), the
determinant of the 3x3 matrix. -/
def DKMatrix3.Determinant (m : DKMatrix3) : ℚ :=
  m.m11 * (m.m22 * m.m33 - m.m23 * m.m32) - m.m12 * (m.m21 * m.m33 - m.m23 * m.m31) +
    m.m13 * (m.m21 * m.m32 - m.m22 * m.m31)

/-- Modelled from the spec: the product of two DKMatrix3 (`operator *`, DKMatrix3.cpp is not among
the sources), rows of `a` by columns of `b`. -/
def DKMatrix3.mul (a b : DKMatrix3) : DKMatrix3 :=
  { m11 := a.m11 * b.m11 + a.m12 * b.m21 + a.m13 * b.m31
    m12 := a.m11 * b.m12 + a.m12 * b.m22 + a.m13 * b.m32
    m13 := a.m11 * b.m13 + a.m12 * b.m23 + a.m13 * b.m33
    m21 := a.m21 * b.m11 + a.m22 * b.m21 + a.m23 * b.m31
    m22 := a.m21 * b.m12 + a.m22 * b.m22 + a.m23 * b.m32
    m23 := a.m21 * b.m13 + a.m22 * b.m23 + a.m23 * b.m33
    m31 := a.m31 * b.m11 + a.m32 * b.m21 + a.m33 * b.m31
    m32 := a.m31 * b.m12 + a.m32 * b.m22 + a.m33 * b.m32
    m33 := a.m31 * b.m13 + a.m32 * b.m23 + a.m33 * b.m33 }

/-- The adjugate of a 3x3 matrix divided by `d`. -/
def DKMatrix3.adjugateOver (m : DKMatrix3) (d : ℚ) : DKMatrix3 :=
  { m11 := (m.m22 * m.m33 - m.m23 * m.m32) / d
    m12 := (m.m13 * m.m32 - m.m12 * m.m33) / d
    m13 := (m.m12 * m.m23 - m.m13 * m.m22) / d
    m21 := (m.m23 * m.m31 - m.m21 * m.m33) / d
    m22 := (m.m11 * m.m33 - m.m13 * m.m31) / d
    m23 := (m.m13 * m.m21 - m.m11 * m.m23) / d
    m31 := (m.m21 * m.m32 - m.m22 * m.m31) / d
    m32 := (m.m12 * m.m31 - m.m11 * m.m32) / d
    m33 := (m.m11 * m.m22 - m.m12 * m.m21) / d }

/-- Modelled from the spec: DKMatrix3::InverseMatrix(bool* invertible) (DKMatrix3.cpp is not among
the sources): the inverse matrix and the flag `true` when the determinant is not zero; the flag
`false` (with the identity for a matrix) when the matrix has no inverse. -/
def DKMatrix3.InverseMatrix (m : DKMatrix3) : DKMatrix3 × Bool :=
  if m.Determinant = 0 then (DKMatrix3.identity, false)
  else (m.adjugateOver m.Determinant, true)

/-- Modelled from the spec: DKMatrix3::Inverse() (DKMatrix3.cpp is not among the sources) turns the
matrix into its inverse.  The spec does not say what it leaves of a matrix without inverse: the
model leaves the matrix as it is. -/
def DKMatrix3.Inverse (m : DKMatrix3) : DKMatrix3 :=
  if m.InverseMatrix.2 then m.InverseMatrix.1 else m

/-- The matrix is affine: its third column is (0, 0, 1), so that it maps row vectors `(x, y, 1)`
to row vectors `(x', y', 1)`. -/
def DKMatrix3.IsAffine (m : DKMatrix3) : Prop :=
  m.m13 = 0 ∧ m.m23 = 0 ∧ m.m33 = 1

instance DKMatrix3.IsAffine.instDecidable (m : DKMatrix3) : Decidable m.IsAffine :=
  inferInstanceAs (Decidable (m.m13 = 0 ∧ m.m23 = 0 ∧ m.m33 = 1))

/-- DKColor: red, green, blue and alpha. -/
structure DKColor where
  r : ℚ
  g : ℚ
  b : ℚ
  a : ℚ

/-- DKFrame::SetTransform. -/
def SetTransform (sqrtf : ℚ → ℚ) (fuel : Nat) (w : World) (this : FramePtr)
    (transform : DKMatrix3) : Option World :=
  if isRootFrame w this then
    -- DKLog("RootFrame's transform cannot be changed.")
    some w
  else if (w.frames this).transform ≠ transform then
    let w1 := w.modFrame this (fun f => { f with transform := transform })
    let w2 := w1.modFrame this (fun f => { f with transformInverse := transform.Inverse })
    (UpdateContentResolution sqrtf fuel w2 this).bind fun w3 =>
      match (w3.frames this).superframe with
      | some sup => some (SetRedraw w3 sup)
      | none => some w3
  else some w

/-- DKFrame::SetContentTransform. -/
def SetContentTransform (w : World) (this : FramePtr) (m : DKMatrix3) : World :=
  if (w.frames this).contentTransform ≠ m then
    let w1 :=
      if m.InverseMatrix.2 then
        (w.modFrame this (fun f => { f with contentTransform := m })).modFrame this
          (fun f => { f with contentTransformInverse := m.InverseMatrix.1 })
      else
        (w.modFrame this (fun f => { f with contentTransform := DKMatrix3.identity })).modFrame this
          (fun f => { f with contentTransformInverse := DKMatrix3.identity })
    SetRedraw w1 this
  else w

/-- DKFrame::SuperToLocal(const DKPoint&). -/
def SuperToLocal (w : World) (this : FramePtr) (pt : DKPoint) : DKPoint :=
  let f := w.frames this
  match f.superframe with
  | some _ =>
    let v := pt.Transform f.transformInverse
    let v : DKVector2 := { x := v.x * f.contentScale.width, y := v.y * f.contentScale.height }
    v.Transform f.contentTransformInverse
  | none => pt

/-- DKFrame::PixelToLocal(const DKPoint&). -/
def PixelToLocal (w : World) (this : FramePtr) (pt : DKPoint) : DKPoint :=
  let f := w.frames this
  let v : DKVector2 := { x := pt.x / f.contentResolution.width, y := pt.y / f.contentResolution.height }
  let v : DKVector2 := { x := v.x * f.contentScale.width, y := v.y * f.contentScale.height }
  v.Transform f.contentTransformInverse

/-- DKFrame::SetColor.  DKColor::RGBA32Value is defined outside the sources: it is the parameter
`RGBA32Value`. -/
def SetColor (RGBA32Value : DKColor → Nat) (w : World) (this : FramePtr) (color : DKColor) :
    World :=
  if isRootFrame w this then
    -- DKLog("RootFrame's color cannot be changed.")
    w
  else
    let w1 := w.modFrame this (fun f => { f with color := RGBA32Value color })
    match (w1.frames this).superframe with
    | some sup => SetRedraw w1 sup
    | none => w1

/-- DKFrame::SetBlendState. -/
def SetBlendState (w : World) (this : FramePtr) (blend : DKBlendState) : World :=
  if isRootFrame w this then
    -- DKLog("RootFrame's blend state cannot be changed.")
    w
  else
    let w1 := w.modFrame this (fun f => { f with blendState := blend })
    match (w1.frames this).superframe with
    | some sup => SetRedraw w1 sup
    | none => w1

/-- DKFrame::SetPixelFormat.  DKPixelFormatIsColorFormat is defined outside the sources: it is the
parameter `DKPixelFormatIsColorFormat`. -/
def SetPixelFormat (DKPixelFormatIsColorFormat : DKPixelFormat → Bool) (w : World)
    (this : FramePtr) (fmt : DKPixelFormat) : World :=
  if isRootFrame w this then
    -- DKLogE("The pixel format setting of the root frame has not yet been implemented.")
    w
  else if (w.frames this).pixelFormat ≠ fmt then
    if DKPixelFormatIsColorFormat fmt then
      let w1 := w.modFrame this (fun f => { f with pixelFormat := fmt })
      let w2 := w1.modFrame this (fun f => { f with renderTarget := none })
      SetRedraw w2 this
    else
      -- DKLogE("PixelFormat: 0x%x is not a valid color format")
      w
  else w

/-! ## Predicates used to state the properties -/

/-- The frame reached from `p` by following `n` superframe links, if all of them exist. -/
def ancestorAt (par : FramePtr → Option FramePtr) : Nat → FramePtr → Option FramePtr
  | 0, p => some p
  | n + 1, p => (par p).bind (ancestorAt par n)

/-- The frames of the subtree of `c`: `c` itself and what is found by going down subframe
arrays. -/
inductive Reach (ch : FramePtr → List FramePtr) : FramePtr → FramePtr → Prop
  | refl (c : FramePtr) : Reach ch c c
  | step {c y x : FramePtr} : y ∈ ch c → Reach ch y x → Reach ch c x

/-- Every path down the subframe arrays from `c` has fewer than `n` links. -/
def DepthAtMost (ch : FramePtr → List FramePtr) : Nat → FramePtr → Prop
  | 0, _ => False
  | n + 1, c => ∀ x ∈ ch c, DepthAtMost ch n x

instance DepthAtMost.instDecidable (ch : FramePtr → List FramePtr) :
    (n : Nat) → (c : FramePtr) → Decidable (DepthAtMost ch n c)
  | 0, _ => isFalse (fun h => h)
  | n + 1, c =>
    have : ∀ x, Decidable (DepthAtMost ch n x) := fun x => DepthAtMost.instDecidable ch n x
    inferInstanceAs (Decidable (∀ x ∈ ch c, DepthAtMost ch n x))

/-- The frames met by going down the subframe arrays from `c` through fewer than `n` links: the
whole subtree of `c` when its depth is at most `n`. -/
def subtree (ch : FramePtr → List FramePtr) : Nat → FramePtr → List FramePtr
  | 0, _ => []
  | n + 1, c => c :: (ch c).flatMap (subtree ch n)

/-- The value of a projection of the frame state is the same for every frame in both heaps. -/
def Keeps {α : Type} (π : DKFrame → α) (w w' : World) : Prop :=
  ∀ q, π (w'.frames q) = π (w.frames q)

/-- A property of the frame state that holds of a frame before holds of it after. -/
def Pres (P : DKFrame → Prop) (w w' : World) : Prop :=
  ∀ q, P (w.frames q) → P (w'.frames q)

/-- The links of a frame: its superframe pointer and its subframe array. -/
def links (f : DKFrame) : Option FramePtr × List FramePtr :=
  (f.superframe, f.subframes)

/-- Both components of the content resolution are at least 1. -/
def ResOK (f : DKFrame) : Prop :=
  1 ≤ f.contentResolution.width ∧ 1 ≤ f.contentResolution.height

/-- The frame is loaded on the screen `s` with a content resolution of at least 1x1. -/
def LoadedOn (s : ScreenPtr) (f : DKFrame) : Prop :=
  f.screen = some s ∧ f.loaded = true ∧ ResOK f

/-- A loaded frame has a screen. -/
def Sane (f : DKFrame) : Prop :=
  f.loaded = true → f.screen ≠ none

/-- The frame is unloaded: no screen, not loaded. -/
def Unloaded (f : DKFrame) : Prop :=
  f.screen = none ∧ f.loaded = false

/-- The load state of a frame: its screen pointer and its loaded flag. -/
def loadState (f : DKFrame) : Option ScreenPtr × Bool :=
  (f.screen, f.loaded)

/-- The load state of a frame together with its content resolution. -/
def loadRes (f : DKFrame) : Option ScreenPtr × Bool × DKSize :=
  (f.screen, f.loaded, f.contentResolution)

/-- The load state of a frame together with its cached surface. -/
def surfaceState (f : DKFrame) : Bool × Option ScreenPtr × Option TexturePtr :=
  (f.loaded, f.screen, f.renderTarget)

/-- The value is a whole number or at least 1. -/
def IntOrGe1 (q : ℚ) : Prop :=
  (∃ z : ℤ, q = (z : ℚ)) ∨ 1 ≤ q

/-- What a call that works on the subtree of another frame may do to the frame: its load state
is kept, and its content resolution stays at least 1x1 if it was. -/
def Outside (w w' : World) (Y : FramePtr) : Prop :=
  loadState (w'.frames Y) = loadState (w.frames Y) ∧ (ResOK (w.frames Y) → ResOK (w'.frames Y))

/-- Load consistency of the frame `X` with respect to the screen `s`: the frame is sane, and if it
is on `s` then its whole subtree is loaded on `s`. -/
def SubtreeOK (s : ScreenPtr) (ch : FramePtr → List FramePtr) (w : World) (X : FramePtr) : Prop :=
  Sane (w.frames X) ∧
    ((w.frames X).screen = some s → ∀ Z, Reach ch X Z → LoadedOn s (w.frames Z))

instance Sane.instDecidable (f : DKFrame) : Decidable (Sane f) :=
  inferInstanceAs (Decidable (f.loaded = true → f.screen ≠ none))

instance ResOK.instDecidable (f : DKFrame) : Decidable (ResOK f) :=
  inferInstanceAs (Decidable (1 ≤ f.contentResolution.width ∧ 1 ≤ f.contentResolution.height))

instance LoadedOn.instDecidable (s : ScreenPtr) (f : DKFrame) : Decidable (LoadedOn s f) :=
  inferInstanceAs (Decidable (f.screen = some s ∧ f.loaded = true ∧ ResOK f))

/-- Tree well-formedness, on the superframe pointers `par` and the subframe arrays `ch`: a frame
is in the array of `p` exactly when its superframe is `p`, no array holds a frame twice, no frame
is in two arrays, and every chain of superframe links ends. -/
structure WellFormedLinks (par : FramePtr → Option FramePtr) (ch : FramePtr → List FramePtr) :
    Prop where
  child_iff : ∀ c p, c ∈ ch p ↔ par c = some p
  nodup : ∀ p, (ch p).Nodup
  one_parent : ∀ c p q, c ∈ ch p → c ∈ ch q → p = q
  chain_ends : ∀ p, ∃ n, ancestorAt par n p = none

/-- Tree well-formedness of a heap. -/
def WellFormed (w : World) : Prop :=
  WellFormedLinks w.parent w.children

/-- The heaps obtained from heaps of unlinked frames (no superframe, no subframes, any other
state) by the structural operations of DKFrame. -/
inductive Reachable (sqrtf : ℚ → ℚ) : World → Prop
  | start (w : World) :
      (∀ p, (w.frames p).superframe = none ∧ (w.frames p).subframes = []) → Reachable sqrtf w
  | add {w w' : World} (fuel : Nat) (this : FramePtr) (frame : Option FramePtr) (r : Bool) :
      Reachable sqrtf w → AddSubframe sqrtf fuel w this frame = some (r, w') → Reachable sqrtf w'
  | remove {w : World} (this : FramePtr) (frame : Option FramePtr) :
      Reachable sqrtf w → Reachable sqrtf (RemoveSubframe w this frame)
  | removeFromSuper {w : World} (this : FramePtr) :
      Reachable sqrtf w → Reachable sqrtf (RemoveFromSuperframe w this)
  | toFront {w : World} (this : FramePtr) (frame : Option FramePtr) :
      Reachable sqrtf w → Reachable sqrtf (BringSubframeToFront w this frame).2
  | toBack {w : World} (this : FramePtr) (frame : Option FramePtr) :
      Reachable sqrtf w → Reachable sqrtf (SendSubframeToBack w this frame).2

/-! ## Example heaps -/

/-- A heap of freshly constructed frames, and of screens without a root frame and without
claims. -/
def World.fresh : World :=
  { frames := fun _ => DKFrame.fresh
    screens := fun _ =>
      { rootFrame := none
        resolution := { width := 1, height := 1 }
        hoverFrames := fun _ => none
        focusFrames := fun _ => none
        keyFrames := fun _ => none } }

/-- A stand-in for the square root of the C library in the examples: the integer square root of
the integer part. -/
def exampleSqrt (q : ℚ) : ℚ :=
  (Nat.sqrt ⌊q⌋.toNat : ℚ)

/-- A screen of 800x600 whose root frame is frame 0, with hover, mouse-capture and keyboard-capture
claims of the frames 1, 2 and 3 on the devices 0 and 1. -/
def exampleScreen : DKScreen :=
  { rootFrame := some 0
    resolution := { width := 800, height := 600 }
    hoverFrames := fun d => if d = 0 then some 1 else if d = 1 then some 3 else none
    focusFrames := fun d => if d = 0 then some 1 else none
    keyFrames := fun d => if d = 0 then some 2 else if d = 1 then some 1 else none }

/-- A heap with a tree loaded on screen 0 (the root frame 0 with the subframes 1 and 3, in this
order, and frame 2 under frame 1; frame 1 holds the render target 7) and an unloaded tree
(frame 4 with the subframe 5).  Every other frame is freshly constructed. -/
def exampleHeap : World :=
  { frames := fun p =>
      if p = 0 then
        { DKFrame.fresh with
          subframes := [1, 3], screen := some 0, loaded := true
          contentResolution := { width := 800, height := 600 } }
      else if p = 1 then
        { DKFrame.fresh with
          superframe := some 0, subframes := [2], screen := some 0, loaded := true
          renderTarget := some 7 }
      else if p = 2 then
        { DKFrame.fresh with superframe := some 1, screen := some 0, loaded := true }
      else if p = 3 then
        { DKFrame.fresh with superframe := some 0, screen := some 0, loaded := true }
      else if p = 4 then
        { DKFrame.fresh with subframes := [5] }
      else if p = 5 then
        { DKFrame.fresh with superframe := some 4 }
      else DKFrame.fresh
    screens := fun _ => exampleScreen }

/-- The heap reached from fresh frames by `0.AddSubframe(1)`, `0.AddSubframe(2)` and
`0.BringSubframeToFront(1)`. -/
def exampleReached : World :=
  (BringSubframeToFront (linkSubframe (linkSubframe World.fresh 0 1) 0 2) 0 (some 1)).2

/-! ## The operations as steps -/

/-- What the frame code takes from outside the sources: the square root of the C library,
DKCanvas::minimumScaleFactor, DKColor::RGBA32Value and DKPixelFormatIsColorFormat. -/
structure Externals where
  sqrtf : ℚ → ℚ
  minimumScaleFactor : ℚ
  RGBA32Value : DKColor → Nat
  DKPixelFormatIsColorFormat : DKPixelFormat → Bool

/-- One call of a state-changing operation of DKFrame that returns, from the heap before to the
heap after.  `okT` says which matrices are given to SetTransform and `okC` which are given to
SetContentTransform. -/
inductive Step (ext : Externals) (okT okC : DKMatrix3 → Prop) : World → World → Prop
  | load {w w' : World} (fuel : Nat) (this : FramePtr) (screen : Option ScreenPtr)
      (resolution : DKSize) :
      Load ext.sqrtf fuel w this screen resolution = some w' → Step ext okT okC w w'
  | unload {w w' : World} (fuel : Nat) (this : FramePtr) :
      Unload fuel w this = some w' → Step ext okT okC w w'
  | addSubframe {w w' : World} (fuel : Nat) (this : FramePtr) (frame : Option FramePtr)
      (r : Bool) :
      AddSubframe ext.sqrtf fuel w this frame = some (r, w') → Step ext okT okC w w'
  | removeSubframe (w : World) (this : FramePtr) (frame : Option FramePtr) :
      Step ext okT okC w (RemoveSubframe w this frame)
  | removeFromSuperframe (w : World) (this : FramePtr) :
      Step ext okT okC w (RemoveFromSuperframe w this)
  | bringSubframeToFront (w : World) (this : FramePtr) (frame : Option FramePtr) :
      Step ext okT okC w (BringSubframeToFront w this frame).2
  | sendSubframeToBack (w : World) (this : FramePtr) (frame : Option FramePtr) :
      Step ext okT okC w (SendSubframeToBack w this frame).2
  | setTransform {w w' : World} (fuel : Nat) (this : FramePtr) (m : DKMatrix3) :
      okT m → SetTransform ext.sqrtf fuel w this m = some w' → Step ext okT okC w w'
  | setContentScale (w : World) (this : FramePtr) (s : DKSize) :
      Step ext okT okC w (SetContentScale ext.minimumScaleFactor w this s)
  | setContentTransform (w : World) (this : FramePtr) (m : DKMatrix3) :
      okC m → Step ext okT okC w (SetContentTransform w this m)
  | updateContentResolution {w w' : World} (fuel : Nat) (this : FramePtr) :
      UpdateContentResolution ext.sqrtf fuel w this = some w' → Step ext okT okC w w'
  | setColor (w : World) (this : FramePtr) (color : DKColor) :
      Step ext okT okC w (SetColor ext.RGBA32Value w this color)
  | setBlendState (w : World) (this : FramePtr) (blend : DKBlendState) :
      Step ext okT okC w (SetBlendState w this blend)
  | setPixelFormat (w : World) (this : FramePtr) (fmt : DKPixelFormat) :
      Step ext okT okC w (SetPixelFormat ext.DKPixelFormatIsColorFormat w this fmt)

/-- The heaps reached from `w` by any number of calls. -/
inductive Steps (ext : Externals) (okT okC : DKMatrix3 → Prop) : World → World → Prop
  | here (w : World) : Steps ext okT okC w w
  | next {w w1 w2 : World} : Steps ext okT okC w w1 → Step ext okT okC w1 w2 →
      Steps ext okT okC w w2

/-- Any matrix. -/
def anyMatrix (_m : DKMatrix3) : Prop := True

/-- An affine matrix with an inverse. -/
def invertibleAffine (m : DKMatrix3) : Prop :=
  m.IsAffine ∧ m.Determinant ≠ 0

/-- Applying `a` and then `b` to a point gives the point back, and so does applying `b` and
then `a`. -/
def InversePair (a b : DKMatrix3) : Prop :=
  ∀ v : DKVector2, (v.Transform a).Transform b = v ∧ (v.Transform b).Transform a = v

/-- The content transform of the frame has an inverse, the stored inverse is that inverse, and the
product of the two is the identity. -/
def ContentPairOK (f : DKFrame) : Prop :=
  f.contentTransform.Determinant ≠ 0 ∧
    f.contentTransformInverse = f.contentTransform.InverseMatrix.1 ∧
    f.contentTransform.mul f.contentTransformInverse = DKMatrix3.identity

/-- The stored inverse of the content transform undoes the content transform. -/
def ContentInverseOK (f : DKFrame) : Prop :=
  InversePair f.contentTransform f.contentTransformInverse

/-- The projection `π` of the frame state does not depend on the links, the load state, the redraw
flag, the cached surface, the colour, the blend state and the pixel format of the frame. -/
structure IgnoresBookkeeping {α : Type} (π : DKFrame → α) : Prop where
  superframe : ∀ (f : DKFrame) s, π { f with superframe := s } = π f
  subframes : ∀ (f : DKFrame) l, π { f with subframes := l } = π f
  drawSurface : ∀ (f : DKFrame) b, π { f with drawSurface := b } = π f
  renderTarget : ∀ (f : DKFrame) t, π { f with renderTarget := t } = π f
  loadState : ∀ (f : DKFrame) s l, π { f with screen := s, loaded := l } = π f
  color : ∀ (f : DKFrame) c, π { f with color := c } = π f
  blendState : ∀ (f : DKFrame) b, π { f with blendState := b } = π f
  pixelFormat : ∀ (f : DKFrame) p, π { f with pixelFormat := p } = π f

/-- The content transform of a frame with its stored inverse. -/
def contentPair (f : DKFrame) : DKMatrix3 × DKMatrix3 :=
  (f.contentTransform, f.contentTransformInverse)

/-- The four matrices of a frame: placement transform, content transform, and their stored
inverses. -/
def matrices (f : DKFrame) : DKMatrix3 × DKMatrix3 × DKMatrix3 × DKMatrix3 :=
  (f.transform, f.transformInverse, f.contentTransform, f.contentTransformInverse)

/-- Both stored inverses undo their transforms. -/
def MatricesOK (f : DKFrame) : Prop :=
  InversePair f.transform f.transformInverse ∧
    InversePair f.contentTransform f.contentTransformInverse

/-! ## Example parameters and matrices -/

/-- Example values for what comes from outside the sources: the stand-in square root, a minimum
scale factor of one millionth, a colour packing that keeps the rounded-down red component, and
pixel formats below 100 as the colour formats. -/
def exampleExternals : Externals :=
  { sqrtf := exampleSqrt
    minimumScaleFactor := 1 / 1000000
    RGBA32Value := fun c => ⌊c.r⌋.toNat
    DKPixelFormatIsColorFormat := fun p => decide (p < 100) }

/-- The affine matrix that scales by `sx` and `sy` and then moves by `(tx, ty)`. -/
def scaleTranslate (sx sy tx ty : ℚ) : DKMatrix3 :=
  { m11 := sx, m12 := 0, m13 := 0, m21 := 0, m22 := sy, m23 := 0, m31 := tx, m32 := ty, m33 := 1 }

/-- The heap after `0.AddSubframe(1)` and `1.SetTransform(m)` on freshly constructed frames, for
a matrix `m` other than the identity. -/
def placedHeap (m : DKMatrix3) : World :=
  SetRedraw (((linkSubframe World.fresh 0 1).modFrame 1
    (fun f => { f with transform := m })).modFrame 1
    (fun f => { f with transformInverse := m.Inverse })) 0

/-- The example heap after `6.SetTransform(m)` with the matrix `m` that scales by 1/10000: frame 6
is not linked and not loaded, so only its transform and inverse change. -/
def tinyHeap : World :=
  (exampleHeap.modFrame 6
    (fun f => { f with transform := scaleTranslate (1 / 10000) (1 / 10000) 0 0 })).modFrame 6
    (fun f => { f with transformInverse := (scaleTranslate (1 / 10000) (1 / 10000) 0 0).Inverse })

/-! ## Visibility on screen and event dispatch -/

/-- DKFrame::IsVisibleOnScreen. -/
def IsVisibleOnScreen : Nat → World → FramePtr → Option Bool
  | 0, _, _ => none
  | fuel + 1, w, this =>
    match (w.frames this).screen with
    | none => some false
    | some s =>
      if (w.screens s).rootFrame = some this then some true
      else if (w.frames this).hidden then some false
      else
        match (w.frames this).superframe with
        | some sup => IsVisibleOnScreen fuel w sup
        | none => some false

/-- DKWindow::KeyboardEvent and DKWindow::MouseEvent are declared outside the sources; the frame
code only hands them on, so an event is a bare identifier. -/
abbrev KeyboardEvent := Nat

abbrev MouseEvent := Nat

/-- The virtual member functions of DKFrame that the dispatch code asks for an answer
(DKFrame.h is not among the sources): the two intercept hooks, the two hit tests, and
UserInputEventEnabled.  Each is a function of the frame it is called on and of its arguments;
none changes the heap. -/
structure Hooks where
  PreprocessKeyboardEvent : FramePtr → KeyboardEvent → Bool
  PreprocessMouseEvent : FramePtr → MouseEvent → DKPoint → DKVector2 → Bool
  HitTest : FramePtr → DKPoint → Bool
  ContentHitTest : FramePtr → DKPoint → Bool
  UserInputEventEnabled : FramePtr → Bool

/-- A call made by the dispatch code, with its arguments: an intercept hook, a handler, or
ProcessMouseEvent on a subframe. -/
inductive Call
  | PreprocessKeyboardEvent (frame : FramePtr) (event : KeyboardEvent)
  | OnKeyboardEvent (frame : FramePtr) (event : KeyboardEvent)
  | PreprocessMouseEvent (frame : FramePtr) (event : MouseEvent) (pos : DKPoint)
      (delta : DKVector2)
  | OnMouseEvent (frame : FramePtr) (event : MouseEvent) (pos : DKPoint) (delta : DKVector2)
  | ProcessMouseEvent (frame : FramePtr) (event : MouseEvent) (pos : DKPoint)
      (delta : DKVector2) (propagate : Bool)
deriving DecidableEq

/-- DKFrame::CanHandleKeyboard. -/
def CanHandleKeyboard (h : Hooks) (w : World) (this : FramePtr) : Bool :=
  (w.frames this).enabled && h.UserInputEventEnabled this

/-- DKFrame::CanHandleMouse: `IsEnabled() && IsVisibleOnScreen() && UserInputEventEnabled()`. -/
def CanHandleMouse (h : Hooks) (fuel : Nat) (w : World) (this : FramePtr) : Option Bool :=
  if (w.frames this).enabled then
    (IsVisibleOnScreen fuel w this).map fun v => v && h.UserInputEventEnabled this
  else some false

/-- The functor `Preprocess` of DKFrame::ProcessKeyboardEvent: the answer, and the calls made in
the order they are made. -/
def ProcessKeyboardEvent.Preprocess (h : Hooks) :
    Nat → World → FramePtr → KeyboardEvent → Option (Bool × List Call)
  | 0, _, _, _ => none
  | fuel + 1, w, frame, ep =>
    let own : Bool × List Call :=
      (h.PreprocessKeyboardEvent frame ep, [Call.PreprocessKeyboardEvent frame ep])
    match (w.frames frame).superframe with
    | some sup =>
      (ProcessKeyboardEvent.Preprocess h fuel w sup ep).bind fun parent =>
        if parent.1 then some (true, parent.2)
        else some (own.1, parent.2 ++ own.2)
    | none => some own

/-- DKFrame::ProcessKeyboardEvent: the result, and the calls made in the order they are made. -/
def ProcessKeyboardEvent (h : Hooks) (fuel : Nat) (w : World) (this : FramePtr)
    (event : KeyboardEvent) : Option (Bool × List Call) :=
  (ProcessKeyboardEvent.Preprocess h fuel w this event).bind fun pre =>
    if pre.1 then some (true, pre.2)
    else if CanHandleKeyboard h w this then
      some (true, pre.2 ++ [Call.OnKeyboardEvent this event])
    else some (false, pre.2)

/-- Modelled from the spec: DKRect (DKRect.h is not among the sources), a rectangle given by its
origin and its size. -/
structure DKRect where
  origin : DKPoint
  size : DKSize

/-- Modelled from the spec: DKRect::IsPointInside (DKRect.cpp is not among the sources).  The spec
takes the box of a frame as the unit square `[0,1]×[0,1]`, borders included. -/
def DKRect.IsPointInside (r : DKRect) (pt : DKPoint) : Bool :=
  decide (r.origin.x ≤ pt.x ∧ pt.x ≤ r.origin.x + r.size.width ∧
    r.origin.y ≤ pt.y ∧ pt.y ≤ r.origin.y + r.size.height)

/-- The functor `Preprocess` of DKFrame::ProcessMouseEvent: the answer, and the calls made in the
order they are made. -/
def ProcessMouseEvent.Preprocess (h : Hooks) :
    Nat → World → FramePtr → MouseEvent → DKPoint → DKPoint → Option (Bool × List Call)
  | 0, _, _, _, _, _ => none
  | fuel + 1, w, frame, event, pos, posOld =>
    let own : Bool × List Call :=
      (h.PreprocessMouseEvent frame event pos (pos.sub posOld),
        [Call.PreprocessMouseEvent frame event pos (pos.sub posOld)])
    match (w.frames frame).superframe with
    | some sup =>
      let pos2 := LocalToSuper w frame pos
      let posOld2 := LocalToSuper w frame posOld
      (ProcessMouseEvent.Preprocess h fuel w sup event pos2 posOld2).bind fun parent =>
        if parent.1 then some (true, parent.2)
        else some (own.1, parent.2 ++ own.2)
    | none => some own

/-- The loop `for (DKFrame* frame : subframes)` of DKFrame::ProcessMouseEvent; `call` is the
recursive call `frame->ProcessMouseEvent(event, posInFrame, deltaInFrame, propagate)`.  The answer
is `true` when the loop is left by `return true`. -/
def ProcessMouseEvent.subframesLoop (w : World) (event : MouseEvent) (propagate : Bool)
    (localPos localPosOld : DKVector2)
    (call : FramePtr → DKPoint → DKVector2 → Option (Bool × List Call)) :
    List FramePtr → Option (Bool × List Call)
  | [] => some (false, [])
  | frame :: rest =>
    if (w.frames frame).hidden then
      ProcessMouseEvent.subframesLoop w event propagate localPos localPosOld call rest
    else
      let tm := (w.frames frame).transformInverse
      let posInFrame := localPos.Transform tm
      if DKRect.IsPointInside ⟨⟨0, 0⟩, ⟨1, 1⟩⟩ posInFrame then
        let oldPosInFrame := localPosOld.Transform tm
        let deltaInFrame := posInFrame.sub oldPosInFrame
        (call frame posInFrame deltaInFrame).bind fun r =>
          let calls := Call.ProcessMouseEvent frame event posInFrame deltaInFrame propagate :: r.2
          if r.1 then some (true, calls)
          else
            (ProcessMouseEvent.subframesLoop w event propagate localPos localPosOld call rest).map
              fun s => (s.1, calls ++ s.2)
      else ProcessMouseEvent.subframesLoop w event propagate localPos localPosOld call rest

/-- The end of DKFrame::ProcessMouseEvent, from the comment "no frames can handle event. should
process by this. or mouse has been captured by this." on. -/
def ProcessMouseEvent.bySelf (h : Hooks) (up : Nat) (w : World) (this : FramePtr)
    (event : MouseEvent) (localPos localPosOld : DKVector2) (propagate : Bool) :
    Option (Bool × List Call) :=
  (CanHandleMouse h up w this).bind fun can =>
    if can then
      let handler := Call.OnMouseEvent this event localPos (localPos.sub localPosOld)
      if propagate then
        (ProcessMouseEvent.Preprocess h up w this event localPos localPosOld).bind fun pre =>
          if pre.1 then some (true, pre.2)
          else some (true, pre.2 ++ [handler])
      else some (true, [handler])
    else some (false, [])

/-- DKFrame::ProcessMouseEvent: the result, and the calls made in the order they are made.  The
fuel `up` bounds the walks up the superframe chain (Preprocess, IsVisibleOnScreen), the other
fuel the depth of the recursion into the subframes. -/
def ProcessMouseEvent (h : Hooks) (up : Nat) :
    Nat → World → FramePtr → MouseEvent → DKPoint → DKVector2 → Bool →
      Option (Bool × List Call)
  | 0, _, _, _, _, _, _ => none
  | fuel + 1, w, this, event, pos, delta, propagate =>
    let f := w.frames this
    let localPos := DKVector2.Transform
      ⟨pos.x * f.contentScale.width, pos.y * f.contentScale.height⟩ f.contentTransformInverse
    let localPosOld := DKVector2.Transform
      ⟨(pos.x - delta.x) * f.contentScale.width, (pos.y - delta.y) * f.contentScale.height⟩
      f.contentTransformInverse
    if propagate then
      if !h.HitTest this localPos then some (false, [])
      else
        let children :=
          if h.ContentHitTest this localPos then
            ProcessMouseEvent.subframesLoop w event propagate localPos localPosOld
              (fun frame p d => ProcessMouseEvent h up fuel w frame event p d propagate)
              f.subframes
          else some (false, [])
        children.bind fun r =>
          if r.1 then some (true, r.2)
          else
            (ProcessMouseEvent.bySelf h up w this event localPos localPosOld propagate).map
              fun s => (s.1, r.2 ++ s.2)
    else
      (ProcessMouseEvent.Preprocess h up w this event localPos localPosOld).bind fun pre =>
        if pre.1 then some (true, pre.2)
        else
          (ProcessMouseEvent.bySelf h up w this event localPos localPosOld propagate).map
            fun s => (s.1, pre.2 ++ s.2)

/-- The elements of the list up to and including the first one that satisfies `p`; the whole list
when none does. -/
def takeThrough {α : Type} (p : α → Bool) : List α → List α
  | [] => []
  | x :: xs => if p x then [x] else x :: takeThrough p xs

/-- The superframe chain of `frame`, topmost frame first and `frame` last, as far as `n` links
go. -/
def superChain (par : FramePtr → Option FramePtr) : Nat → FramePtr → List FramePtr
  | 0, frame => [frame]
  | n + 1, frame =>
    match par frame with
    | some sup => superChain par n sup ++ [frame]
    | none => [frame]

/-- The position `pos`, given in the space of `frame`, in the space of the frame `n` superframe
links up: LocalToSuper applied `n` times, each time by the next frame of the chain. -/
def superPos (w : World) : Nat → FramePtr → DKPoint → DKPoint
  | 0, _, pos => pos
  | n + 1, frame, pos =>
    match (w.frames frame).superframe with
    | some sup => superPos w n sup (LocalToSuper w frame pos)
    | none => pos

/-- The superframe chain of `frame`, topmost frame first, each frame with the positions `pos` and
`posOld` mapped into its space by successive LocalToSuper. -/
def mouseChain (w : World) : Nat → FramePtr → DKPoint → DKPoint →
    List (FramePtr × DKPoint × DKPoint)
  | 0, frame, pos, posOld => [(frame, pos, posOld)]
  | n + 1, frame, pos, posOld =>
    match (w.frames frame).superframe with
    | some sup =>
      mouseChain w n sup (LocalToSuper w frame pos) (LocalToSuper w frame posOld) ++
        [(frame, pos, posOld)]
    | none => [(frame, pos, posOld)]

/-- The chain of superframe links up from `N` reaches the root frame of a screen, and every frame
of the chain below that root frame is attached to a screen and not hidden. -/
def VisibleChain (w : World) (N : FramePtr) : Prop :=
  ∃ k r, ancestorAt w.parent k N = some r ∧ isRootFrame w r = true ∧
    ∀ j a, j < k → ancestorAt w.parent j N = some a →
      (w.frames a).screen ≠ none ∧ (w.frames a).hidden = false

/-- The outcome of ProcessKeyboardEvent on the frame `N` in the words of the spec, for the
superframe chain `chain` of `N` given topmost frame first: the intercept hook is offered the event
along the chain and the pass stops at the first frame whose hook claims it, with result true and
no handler; if none claims it, the handler of `N` is called once and the result is true when `N`
is enabled and has user input events enabled, and otherwise no handler is called and the result
is false. -/
def keyboardOutcome (h : Hooks) (w : World) (N : FramePtr) (event : KeyboardEvent)
    (chain : List FramePtr) : Bool × List Call :=
  if chain.any (fun a => h.PreprocessKeyboardEvent a event) then
    (true, (takeThrough (fun a => h.PreprocessKeyboardEvent a event) chain).map
      (fun a => Call.PreprocessKeyboardEvent a event))
  else if (w.frames N).enabled && h.UserInputEventEnabled N then
    (true, chain.map (fun a => Call.PreprocessKeyboardEvent a event) ++
      [Call.OnKeyboardEvent N event])
  else (false, chain.map (fun a => Call.PreprocessKeyboardEvent a event))

/-- Example hooks: the keyboard intercept hook of frame 1 claims the event 7 and the mouse
intercept hook of frame 1 claims the event 8; every hit test passes; every frame but frame 3 has
user input events enabled. -/
def exampleHooks : Hooks :=
  { PreprocessKeyboardEvent := fun frame event => decide (frame = 1 ∧ event = 7)
    PreprocessMouseEvent := fun frame event _ _ => decide (frame = 1 ∧ event = 8)
    HitTest := fun _ _ => true
    ContentHitTest := fun _ _ => true
    UserInputEventEnabled := fun frame => decide (frame ≠ 3) }

/-- The position `pos`, given in the normalized space of the frame, in the content space of the
frame: the value `localPos` of ProcessMouseEvent.  The value `localPosOld` is that of
`pos - delta`. -/
def toContent (w : World) (this : FramePtr) (pos : DKPoint) : DKVector2 :=
  DKVector2.Transform
    ⟨pos.x * (w.frames this).contentScale.width, pos.y * (w.frames this).contentScale.height⟩
    (w.frames this).contentTransformInverse

/-- The position `localPos`, given in the content space of the superframe of `frame`, in the
normalized space of `frame`: the value `posInFrame` of ProcessMouseEvent. -/
def toSubframe (w : World) (frame : FramePtr) (localPos : DKVector2) : DKVector2 :=
  localPos.Transform (w.frames frame).transformInverse

/-- The subframe `frame` is not hidden and the position, mapped through its transformInverse,
lies in the unit square `[0,1]×[0,1]`. -/
def receives (w : World) (localPos : DKVector2) (frame : FramePtr) : Bool :=
  !(w.frames frame).hidden && DKRect.IsPointInside ⟨⟨0, 0⟩, ⟨1, 1⟩⟩ (toSubframe w frame localPos)

/-- The call of ProcessMouseEvent on the subframe `frame` made by the loop over the subframes. -/
def subframeCall (w : World) (event : MouseEvent) (localPos localPosOld : DKVector2)
    (frame : FramePtr) : Call :=
  Call.ProcessMouseEvent frame event (toSubframe w frame localPos)
    ((toSubframe w frame localPos).sub (toSubframe w frame localPosOld)) true

/-- The dispatch of a mouse event to the subframes `subframes` in the words of the spec, where
`res c` is the outcome of ProcessMouseEvent on the subframe `c`: the subframes are visited front
to back, a subframe receives the event if and only if it is not hidden, the mapped position lies
in its unit square and no earlier subframe returned handled; the answer is whether one returned
handled. -/
def subframesOutcome (w : World) (event : MouseEvent) (localPos localPosOld : DKVector2)
    (res : FramePtr → Bool × List Call) (subframes : List FramePtr) : Bool × List Call :=
  let visited := takeThrough (fun c => (res c).1) (subframes.filter (receives w localPos))
  (visited.any (fun c => (res c).1),
    visited.flatMap (fun c => subframeCall w event localPos localPosOld c :: (res c).2))

/-- The own handling of a mouse event by the frame `N` as the code does it, for the superframe
chain `chain` of `N` given topmost frame first with the mapped positions, and for the value
`visible` of IsVisibleOnScreen: with `propagate` set and a frame that cannot handle mouse events
(not enabled, not visible on screen, or without user input events) nothing is called and the
result is false; otherwise PreprocessMouseEvent is called along the chain and the pass stops with
result true at the first frame whose hook claims the event; if none claims it, OnMouseEvent of
`N` is called with result true when `N` can handle mouse events, and the result is false when
it cannot. -/
def mouseOutcome (h : Hooks) (w : World) (N : FramePtr) (event : MouseEvent)
    (localPos localPosOld : DKVector2) (propagate visible : Bool)
    (chain : List (FramePtr × DKPoint × DKPoint)) : Bool × List Call :=
  let can := (w.frames N).enabled && visible && h.UserInputEventEnabled N
  let claims := fun e : FramePtr × DKPoint × DKPoint =>
    h.PreprocessMouseEvent e.1 event e.2.1 (e.2.1.sub e.2.2)
  let hook := fun e : FramePtr × DKPoint × DKPoint =>
    Call.PreprocessMouseEvent e.1 event e.2.1 (e.2.1.sub e.2.2)
  if propagate && !can then (false, [])
  else if chain.any claims then (true, (takeThrough claims chain).map hook)
  else if can then
    (true, chain.map hook ++ [Call.OnMouseEvent N event localPos (localPos.sub localPosOld)])
  else (false, chain.map hook)

/-- Hooks of which every intercept hook claims every event and every test passes. -/
def claimAll : Hooks :=
  { PreprocessKeyboardEvent := fun _ _ => true
    PreprocessMouseEvent := fun _ _ _ _ => true
    HitTest := fun _ _ => true
    ContentHitTest := fun _ _ => true
    UserInputEventEnabled := fun _ => true }

/-- A scene on screen 0: the root frame 0 with the subframes 2 and 1, in this order (frame 2 in
front).  Frame 1 covers the unit box of frame 0; frame 2 covers its left half.  All three are
loaded; every other frame is freshly constructed. -/
def sceneHeap : World :=
  { frames := fun p =>
      if p = 0 then
        { DKFrame.fresh with
          subframes := [2, 1], screen := some 0, loaded := true
          contentResolution := { width := 800, height := 600 } }
      else if p = 1 then
        { DKFrame.fresh with
          superframe := some 0, screen := some 0, loaded := true
          contentResolution := { width := 800, height := 600 } }
      else if p = 2 then
        { DKFrame.fresh with
          superframe := some 0, screen := some 0, loaded := true
          transform := scaleTranslate (1 / 2) 1 0 0
          transformInverse := scaleTranslate 2 1 0 0
          contentResolution := { width := 400, height := 600 } }
      else DKFrame.fresh
    screens := fun _ => exampleScreen }

/-! ## Statement of the resolution update -/

/-- What UpdateContentResolution makes of the state `f` of a frame for the target resolution
`width` x `height`: if the rounded resolution of the frame differs from the target, the frame
takes the target and is marked for redraw, and (when `discard` is set) loses its cached surface;
otherwise the frame is left as it is. -/
def resized (f : DKFrame) (width height : Nat) (discard : Bool) : DKFrame :=
  if roundU32 f.contentResolution.width ≠ width ∨ roundU32 f.contentResolution.height ≠ height then
    { f with
      contentResolution := { width := (width : ℚ), height := (height : ℚ) }
      drawSurface := true
      renderTarget := if discard then none else f.renderTarget }
  else f

/-- The target resolution of a frame in the heap `w`: for the root frame of a screen, the
resolution of the screen, rounded, at least 1; for another frame, the calculated footprint,
rounded and clamped to `[1, maxTexSize]`. -/
def targetResolution (sqrtf : ℚ → ℚ) (w : World) (this : FramePtr) : Nat × Nat :=
  if isRootFrame w this then
    match (w.frames this).screen with
    | some s =>
      (max (roundU32 (w.screens s).resolution.width) 1,
        max (roundU32 (w.screens s).resolution.height) 1)
    | none =>
      (roundU32 (w.frames this).contentResolution.width,
        roundU32 (w.frames this).contentResolution.height)
  else
    (Clamp (roundU32 (CalculateContentResolution sqrtf w this).width) 1 maxTexSize,
      Clamp (roundU32 (CalculateContentResolution sqrtf w this).height) 1 maxTexSize)

/-- The heap `w'` with the state of the frame `X` put back to what it is in `w`. -/
def World.withOld (w' w : World) (X : FramePtr) : World :=
  w'.modFrame X (fun _ => w.frames X)

/-- The part of a screen that the frame code never writes: its root frame and its resolution. -/
def screenStatic (s : DKScreen) : Option FramePtr × DKSize :=
  (s.rootFrame, s.resolution)

/-- The calls on the subtrees of the frames of `L` leave the heap `b` like `a` outside these
subtrees: same links, same root frame and resolution of every screen, and same state of every
frame that is in none of the subtrees. -/
def SameOutside (L : List FramePtr) (a b : World) : Prop :=
  b.children = a.children ∧ (∀ t, screenStatic (b.screens t) = screenStatic (a.screens t)) ∧
    ∀ Y, (∀ x ∈ L, ¬ Reach a.children x Y) → b.frames Y = a.frames Y

/-- Freshly constructed frames under the example screen (800x600, root frame 0): the state
before the screen loads its root frame. -/
def unloadedRootHeap : World :=
  { frames := fun _ => DKFrame.fresh
    screens := fun _ => exampleScreen }

/-- The example screen after its resolution went from 800x600 to 1600x1200. -/
def resizedScreen : DKScreen :=
  { exampleScreen with resolution := { width := 1600, height := 1200 } }

/-- A tree loaded at 800x600 under the resized screen: the root frame 0, its subframe 1 with
content scale 100x100, and the subframe 2 of frame 1, all placed by the identity.  Frame 1 has
the resolution 800x600 and frame 2 the resolution 8x6; both hold a cached surface and no redraw
flag is set. -/
def resizeHeap : World :=
  { frames := fun p =>
      if p = 0 then
        { DKFrame.fresh with
          subframes := [1], screen := some 0, loaded := true
          contentResolution := { width := 800, height := 600 } }
      else if p = 1 then
        { DKFrame.fresh with
          superframe := some 0, subframes := [2], screen := some 0, loaded := true
          contentScale := { width := 100, height := 100 }
          contentResolution := { width := 800, height := 600 }
          renderTarget := some 7 }
      else if p = 2 then
        { DKFrame.fresh with
          superframe := some 1, screen := some 0, loaded := true
          contentResolution := { width := 8, height := 6 }
          renderTarget := some 8 }
      else DKFrame.fresh
    screens := fun _ => resizedScreen }

/-- A tree loaded at 800x600 under the resized screen: the root frame 0 and its subframe 1, which
is scaled by 1/10000, has the resolution 1x1 and holds a cached surface; no redraw flag is
set. -/
def tinyResizeHeap : World :=
  { frames := fun p =>
      if p = 0 then
        { DKFrame.fresh with
          subframes := [1], screen := some 0, loaded := true
          contentResolution := { width := 800, height := 600 } }
      else if p = 1 then
        { DKFrame.fresh with
          superframe := some 0, screen := some 0, loaded := true
          transform := scaleTranslate (1 / 10000) (1 / 10000) 0 0
          transformInverse := scaleTranslate 10000 10000 0 0
          renderTarget := some 7 }
      else DKFrame.fresh
    screens := fun _ => resizedScreen }

/-- Newton iteration for the integer square root of `n` from the guess `x`, at most `fuel`
steps. -/
def newtonSqrt : Nat → Nat → Nat → Nat
  | 0, _, x => x
  | fuel + 1, n, x =>
    if (x + n / x) / 2 < x then newtonSqrt fuel n ((x + n / x) / 2) else x

/-- A stand-in for the square root of the C library in the examples with large values: the
integer square root of the integer part, by Newton iteration. -/
def exampleNewtonSqrt (q : ℚ) : ℚ :=
  if ⌊q⌋.toNat = 0 then 0 else (newtonSqrt 64 ⌊q⌋.toNat ⌊q⌋.toNat : ℚ)

/-! ## Hover resolution -/

/-- The loop `for (DKFrame* frame : subframes)` of DKFrame::FindHoverFrame; `call` is the
recursive call `frame->FindHoverFrame(DKVector2(localPos).Transform(tm))`.  The answer is the
frame `hover` when the loop is left by `return hover`, and null when it runs to its end. -/
def FindHoverFrame.subframesLoop (w : World) (localPos : DKVector2)
    (call : FramePtr → DKPoint → Option (Option FramePtr)) :
    List FramePtr → Option (Option FramePtr)
  | [] => some none
  | frame :: rest =>
    let tm := (w.frames frame).transformInverse
    (call frame (localPos.Transform tm)).bind fun hover =>
      if hover.isSome then some hover
      else FindHoverFrame.subframesLoop w localPos call rest

/-- DKFrame::FindHoverFrame: the frame found, or null.  The fuel `up` bounds the walk up the
superframe chain of CanHandleMouse, the other fuel the depth of the recursion into the
subframes. -/
def FindHoverFrame (h : Hooks) (up : Nat) :
    Nat → World → FramePtr → DKPoint → Option (Option FramePtr)
  | 0, _, _, _ => none
  | fuel + 1, w, this, pos =>
    let f := w.frames this
    if !f.hidden then
      if DKRect.IsPointInside ⟨⟨0, 0⟩, ⟨1, 1⟩⟩ pos then
        let localPos := DKVector2.Transform
          ⟨pos.x * f.contentScale.width, pos.y * f.contentScale.height⟩ f.contentTransformInverse
        if h.HitTest this localPos then
          let children :=
            if h.ContentHitTest this localPos then
              FindHoverFrame.subframesLoop w localPos
                (fun frame p => FindHoverFrame h up fuel w frame p) f.subframes
            else some none
          children.bind fun hover =>
            if hover.isSome then some hover
            else
              (CanHandleMouse h up w this).map fun can => if can then some this else none
        else some none
      else some none
    else some none

/-- A path down the subframe arrays from the frame `N` to the frame `H` along which every frame
is not hidden and contains the position in its unit square `[0,1]×[0,1]`, the position `pos`
given in the normalized space of `N` being mapped from a frame to its subframe as FindHoverFrame
does it (content scale and contentTransformInverse of the frame, then transformInverse of the
subframe). -/
inductive HoverPath (w : World) : FramePtr → DKPoint → FramePtr → Prop
  | here (N : FramePtr) (pos : DKPoint) :
      (w.frames N).hidden = false → DKRect.IsPointInside ⟨⟨0, 0⟩, ⟨1, 1⟩⟩ pos = true →
      HoverPath w N pos N
  | down (N : FramePtr) (pos : DKPoint) (c H : FramePtr) :
      (w.frames N).hidden = false → DKRect.IsPointInside ⟨⟨0, 0⟩, ⟨1, 1⟩⟩ pos = true →
      c ∈ (w.frames N).subframes → HoverPath w c (toSubframe w c (toContent w N pos)) H →
      HoverPath w N pos H

/-- The frames whose OnMouseEvent handler is called, in the order of the calls. -/
def handlerFrames (calls : List Call) : List FramePtr :=
  calls.filterMap fun c =>
    match c with
    | Call.OnMouseEvent frame _ _ _ => some frame
    | _ => none

/-- Hooks of which no intercept hook claims an event, HitTest passes everywhere, ContentHitTest
fails on frame 0 and passes on every other frame, and every frame has user input events
enabled. -/
def opaqueRootHooks : Hooks :=
  { PreprocessKeyboardEvent := fun _ _ => false
    PreprocessMouseEvent := fun _ _ _ _ => false
    HitTest := fun _ _ => true
    ContentHitTest := fun frame _ => decide (frame ≠ 0)
    UserInputEventEnabled := fun _ => true }

/-- Hooks of which no intercept hook claims an event, every test passes, and every frame has user
input events enabled. -/
def passAll : Hooks :=
  { PreprocessKeyboardEvent := fun _ _ => false
    PreprocessMouseEvent := fun _ _ _ _ => false
    HitTest := fun _ _ => true
    ContentHitTest := fun _ _ => true
    UserInputEventEnabled := fun _ => true }

/-! ## Drawing -/

/-- What the drawing code takes from outside the sources, as parameters: DKRect::IntersectRect
(DKRect.cpp), and whether and with what the factories answer when a frame asks them:
`screen->CreateCanvas()` (true when the canvas is not null), the texture made by
`deviceContext->Device()->CreateTexture(desc)` for the width, height and pixel format of the
descriptor (none when it is null), and `screen->CommandQueue()` (true when the queue is not
null). -/
structure DrawEnv where
  IntersectRect : DKRect → DKRect → DKMatrix3 → Bool
  CreateCanvas : FramePtr → ScreenPtr → Bool
  CreateTexture : FramePtr → ℤ → ℤ → DKPixelFormat → Option TexturePtr
  CommandQueue : FramePtr → ScreenPtr → Bool

/-- A call made by the drawing code: DrawInternal on a subframe (with the frame that calls), a
request to one of the factories, a paint hook, a quad drawn on the canvas of a frame, or the
commit of that canvas.  The settings of the canvas (viewport, content bounds, content transform)
are not recorded. -/
inductive DrawCall
  | DrawInternal (caller frame : FramePtr)
  | CreateCanvas (frame : FramePtr)
  | CreateTexture (frame : FramePtr) (width height : ℤ) (pixelFormat : DKPixelFormat)
  | CreateCommandBuffer (frame : FramePtr)
  | OnDraw (frame : FramePtr)
  | DrawRect (frame child : FramePtr) (transform : DKMatrix3) (texture : TexturePtr)
      (color : Nat) (blendState : DKBlendState)
  | OnDrawOverlay (frame : FramePtr)
  | Commit (frame : FramePtr)
deriving DecidableEq

/-- DKFrame::Bounds: `DKRect(0, 0, contentScale.width, contentScale.height)`. -/
def Bounds (w : World) (this : FramePtr) : DKRect :=
  ⟨⟨0, 0⟩, ⟨(w.frames this).contentScale.width, (w.frames this).contentScale.height⟩⟩

/-- DKFrame::InsideFrameRect: the result, and the value written to `covered`. -/
def InsideFrameRect (env : DrawEnv) (w : World) (this : FramePtr) (rect : DKRect)
    (tm invTm : DKMatrix3) : Bool × Bool :=
  let f := w.frames this
  let m := invTm.mul f.transformInverse
  let p0 := DKVector2.Transform ⟨rect.origin.x, rect.origin.y⟩ m
  let p1 := DKVector2.Transform ⟨rect.origin.x, rect.origin.y + rect.size.height⟩ m
  let p2 := DKVector2.Transform
    ⟨rect.origin.x + rect.size.width, rect.origin.y + rect.size.height⟩ m
  let p3 := DKVector2.Transform ⟨rect.origin.x + rect.size.width, rect.origin.y⟩ m
  if 0 ≤ p0.x ∧ p0.x ≤ 1 ∧ 0 ≤ p0.y ∧ p0.y ≤ 1 ∧
      0 ≤ p1.x ∧ p1.x ≤ 1 ∧ 0 ≤ p1.y ∧ p1.y ≤ 1 ∧
      0 ≤ p2.x ∧ p2.x ≤ 1 ∧ 0 ≤ p2.y ∧ p2.y ≤ 1 ∧
      0 ≤ p3.x ∧ p3.x ≤ 1 ∧ 0 ≤ p3.y ∧ p3.y ≤ 1 then (true, true)
  else (env.IntersectRect rect ⟨⟨0, 0⟩, ⟨1, 1⟩⟩ (f.transform.mul tm), false)

/-- The statement `if (this->drawSurface && frame->renderTarget == nullptr) frame->SetRedraw();`
of the loop over the subframes in DKFrame::DrawInternal. -/
def DrawInternal.markSubframe (w : World) (this frame : FramePtr) : World :=
  if (w.frames this).drawSurface && (w.frames frame).renderTarget.isNone then SetRedraw w frame
  else w

/-- The loop `for (DKFrame* frame : subframes)` of DKFrame::DrawInternal, from the value
`drawSelf` and the heap `w` on; `call` is the recursive call `frame->DrawInternal()`.  The answer
is the value of `drawSelf` after the loop, the heap, and the calls made. -/
def DrawInternal.subframesLoop (env : DrawEnv) (this : FramePtr) (bounds : DKRect)
    (call : World → FramePtr → Option (Bool × World × List DrawCall)) :
    List FramePtr → Bool → World → Option (Bool × World × List DrawCall)
  | [], drawSelf, w => some (drawSelf, w, [])
  | frame :: rest, drawSelf, w =>
    if (w.frames frame).hidden then
      DrawInternal.subframesLoop env this bounds call rest drawSelf w
    else if (InsideFrameRect env w frame bounds (w.frames this).contentTransform
        (w.frames this).contentTransformInverse).1 = false then
      DrawInternal.subframesLoop env this bounds call rest drawSelf w
    else
      (call (DrawInternal.markSubframe w this frame) frame).bind fun r =>
        (DrawInternal.subframesLoop env this bounds call rest (drawSelf || r.1) r.2.1).map
          fun s => (s.1, s.2.1, DrawCall.DrawInternal this frame :: r.2.2 ++ s.2.2)

/-- The part of DKFrame::DrawInternal that obtains the canvas, inside
`if (drawSelf || this->drawSurface)`: whether `canvas` is not null, the heap, and the requests
made. -/
def DrawInternal.canvas (env : DrawEnv) (w : World) (this : FramePtr) :
    Bool × World × List DrawCall :=
  let f := w.frames this
  let root : Option ScreenPtr :=
    match f.screen with
    | some s => if (w.screens s).rootFrame = some this then some s else none
    | none => none
  match root with
  | some s =>
    (env.CreateCanvas this s, w.modFrame this (fun g => { g with renderTarget := none }),
      [DrawCall.CreateCanvas this])
  | none =>
    let made : World × List DrawCall :=
      if f.renderTarget.isNone then
        match f.screen with
        | some _ =>
          let width := roundHalfUp f.contentResolution.width
          let height := roundHalfUp f.contentResolution.height
          (w.modFrame this (fun g =>
              { g with
                renderTarget := env.CreateTexture this width height f.pixelFormat
                drawSurface := true }),
            [DrawCall.CreateTexture this width height f.pixelFormat])
        | none => (w, [])
      else (w, [])
    if (made.1.frames this).renderTarget.isSome then
      match (made.1.frames this).screen with
      | some s =>
        if env.CommandQueue this s then
          (true, made.1, made.2 ++ [DrawCall.CreateCommandBuffer this])
        else (false, made.1, made.2)
      | none => (false, made.1, made.2)
    else (false, made.1, made.2)

/-- The loop `for (long i = (long)subframes.Count() - 1; i >= 0; --i)` of DKFrame::DrawInternal
from the index `n - 1` down: the quads drawn on the canvas of `this`. -/
def DrawInternal.drawSubframes (w : World) (this : FramePtr) : Nat → List DrawCall
  | 0 => []
  | i + 1 =>
    match (w.frames this).subframes[i]? with
    | some frame =>
      if (w.frames frame).hidden then DrawInternal.drawSubframes w this i
      else
        match (w.frames frame).renderTarget with
        | some texture =>
          DrawCall.DrawRect this frame (w.frames frame).transform texture (w.frames frame).color
              (w.frames frame).blendState ::
            DrawInternal.drawSubframes w this i
        | none => DrawInternal.drawSubframes w this i
    | none => DrawInternal.drawSubframes w this i

/-- The end of DKFrame::DrawInternal, from `if (drawSelf || this->drawSurface)` on: the result,
the heap, and the calls made. -/
def DrawInternal.paint (env : DrawEnv) (w : World) (this : FramePtr) (drawSelf : Bool) :
    Bool × World × List DrawCall :=
  if drawSelf || (w.frames this).drawSurface then
    let c := DrawInternal.canvas env w this
    if c.1 then
      (true, c.2.1.modFrame this (fun g => { g with drawSurface := false }),
        c.2.2 ++ DrawCall.OnDraw this ::
          (DrawInternal.drawSubframes c.2.1 this (c.2.1.frames this).subframes.length ++
            [DrawCall.OnDrawOverlay this, DrawCall.Commit this]))
    else (false, c.2.1, c.2.2)
  else (false, w, [])

/-- DKFrame::DrawInternal: the result, the heap, and the calls made in the order they are made.
The debug assertions are left out. -/
def DrawInternal (env : DrawEnv) : Nat → World → FramePtr → Option (Bool × World × List DrawCall)
  | 0, _, _ => none
  | fuel + 1, w, this =>
    (DrawInternal.subframesLoop env this (Bounds w this)
      (fun w1 frame => DrawInternal env fuel w1 frame) (w.frames this).subframes false w).map
      fun r =>
        let p := DrawInternal.paint env r.2.1 this r.1
        (p.1, p.2.1, r.2.2 ++ p.2.2)

/-- The quad that DrawInternal on the frame `N` draws for the subframe `c`, if any: none for a
hidden subframe or one without cached texture, otherwise the texture of `c` with the transform,
colour and blend state of `c`. -/
def childQuad (w : World) (N c : FramePtr) : Option DrawCall :=
  if (w.frames c).hidden then none
  else (w.frames c).renderTarget.map fun texture =>
    DrawCall.DrawRect N c (w.frames c).transform texture (w.frames c).color
      (w.frames c).blendState

/-- The state of a frame that drawing does not write: everything but the redraw flag and the
cached texture. -/
def drawStatic (f : DKFrame) : DKFrame :=
  { f with drawSurface := false, renderTarget := none }

/-- The heap `b` differs from the heap `a` at most in redraw flags and cached textures of
frames. -/
def DrawSame (a b : World) : Prop :=
  b.screens = a.screens ∧ ∀ Z, drawStatic (b.frames Z) = drawStatic (a.frames Z)

/-- The frame `Z` is reached by the draw pass on `N`: a path down the subframe arrays from `N` to
`Z` on which every frame below `N` is not hidden and not culled by InsideFrameRect against the
bounds and content transform of its superframe. -/
inductive Drawn (env : DrawEnv) (w : World) : FramePtr → FramePtr → Prop
  | here (N : FramePtr) : Drawn env w N N
  | down (N c Z : FramePtr) :
      c ∈ (w.frames N).subframes → (w.frames c).hidden = false →
      (InsideFrameRect env w c (Bounds w N) (w.frames N).contentTransform
        (w.frames N).contentTransformInverse).1 = true →
      Drawn env w c Z → Drawn env w N Z

/-- The frame that makes the call. -/
def DrawCall.source : DrawCall → FramePtr
  | DrawCall.DrawInternal caller _ => caller
  | DrawCall.CreateCanvas frame => frame
  | DrawCall.CreateTexture frame _ _ _ => frame
  | DrawCall.CreateCommandBuffer frame => frame
  | DrawCall.OnDraw frame => frame
  | DrawCall.DrawRect frame _ _ _ _ _ => frame
  | DrawCall.OnDrawOverlay frame => frame
  | DrawCall.Commit frame => frame

/-- The call is a request to a factory: for a canvas, a texture or a command buffer. -/
def DrawCall.isRequest : DrawCall → Bool
  | DrawCall.CreateCanvas _ => true
  | DrawCall.CreateTexture _ _ _ _ => true
  | DrawCall.CreateCommandBuffer _ => true
  | _ => false

/-- The call is DrawInternal on a subframe. -/
def DrawCall.isDescent : DrawCall → Bool
  | DrawCall.DrawInternal _ _ => true
  | _ => false

/-- No paint surface can be obtained for the frame `N`: for the root frame of a screen the
canvas of the screen is null; for another frame there is no screen, or it has no cached texture
and the texture cannot be made, or the screen has no command queue. -/
def NoSurface (env : DrawEnv) (w : World) (N : FramePtr) : Prop :=
  match (w.frames N).screen with
  | none => True
  | some s =>
    if (w.screens s).rootFrame = some N then env.CreateCanvas N s = false
    else
      ((w.frames N).renderTarget = none ∧
          env.CreateTexture N (roundHalfUp (w.frames N).contentResolution.width)
            (roundHalfUp (w.frames N).contentResolution.height) (w.frames N).pixelFormat =
            none) ∨
        env.CommandQueue N s = false

/-- Surface creation always succeeds: every canvas, texture and command queue asked for is
there. -/
def DrawEnv.succeeds (env : DrawEnv) : Prop :=
  (∀ f s, env.CreateCanvas f s = true) ∧
    (∀ f a b pf, (env.CreateTexture f a b pf).isSome = true) ∧
    ∀ f s, env.CommandQueue f s = true

/-- An environment in which surface creation always succeeds; the texture made for the frame `f`
is the handle `100 + f`, and IntersectRect always holds. -/
def okEnv : DrawEnv :=
  { IntersectRect := fun _ _ _ => true
    CreateCanvas := fun _ _ => true
    CreateTexture := fun f _ _ _ => some (100 + f)
    CommandQueue := fun _ _ => true }

/-- An environment in which the screens give no canvas; textures and command queues are
there. -/
def noCanvasEnv : DrawEnv :=
  { okEnv with CreateCanvas := fun _ _ => false }

/-- A scene to draw on screen 0: the root frame 0, marked for redraw, with the subframes 2, 3
and 1, in this order.  Frame 1 covers the unit box of frame 0 and has the cached texture 11;
frame 2 covers its left half and has the cached texture 12; frame 3 is hidden and has the cached
texture 13. -/
def drawHeap : World :=
  { frames := fun p =>
      if p = 0 then
        { DKFrame.fresh with
          subframes := [2, 3, 1], screen := some 0, loaded := true, drawSurface := true
          contentResolution := { width := 800, height := 600 } }
      else if p = 1 then
        { DKFrame.fresh with
          superframe := some 0, screen := some 0, loaded := true
          contentResolution := { width := 800, height := 600 }
          color := 0xff0000ff, blendState := 1, renderTarget := some 11 }
      else if p = 2 then
        { DKFrame.fresh with
          superframe := some 0, screen := some 0, loaded := true
          transform := scaleTranslate (1 / 2) 1 0 0
          transformInverse := scaleTranslate 2 1 0 0
          contentResolution := { width := 400, height := 600 }
          renderTarget := some 12 }
      else if p = 3 then
        { DKFrame.fresh with
          superframe := some 0, screen := some 0, loaded := true, hidden := true
          contentResolution := { width := 800, height := 600 }
          renderTarget := some 13 }
      else DKFrame.fresh
    screens := fun _ => exampleScreen }

/-- A scene on screen 0 in which only a subframe is marked for redraw: the root frame 0, clean,
with the one subframe 1, which covers the unit box of frame 0, is marked for redraw and has no
cached texture. -/
def childDirtyHeap : World :=
  { frames := fun p =>
      if p = 0 then
        { DKFrame.fresh with
          subframes := [1], screen := some 0, loaded := true
          contentResolution := { width := 800, height := 600 } }
      else if p = 1 then
        { DKFrame.fresh with
          superframe := some 0, screen := some 0, loaded := true, drawSurface := true
          contentResolution := { width := 800, height := 600 } }
      else DKFrame.fresh
    screens := fun _ => exampleScreen }

/-- An invertible matrix that is not affine: its third column is (1, 0, 2), its determinant
is 1. -/
def perspectiveMatrix : DKMatrix3 :=
  { m11 := 1, m12 := 0, m13 := 1, m21 := 0, m22 := 1, m23 := 0, m31 := 1, m32 := 0, m33 := 2 }

/-- The value `floor(x + 0.5f)` lies in the range of `uint32_t`, so that its conversion to
`uint32_t` keeps it. -/
def FitsU32 (x : ℚ) : Prop :=
  0 ≤ roundHalfUp x ∧ roundHalfUp x < 2 ^ 32

instance FitsU32.instDecidable (x : ℚ) : Decidable (FitsU32 x) :=
  inferInstanceAs (Decidable (0 ≤ roundHalfUp x ∧ roundHalfUp x < 2 ^ 32))

/-- Both components of the size convert to `uint32_t` without loss. -/
def SizeFits (s : DKSize) : Prop :=
  FitsU32 s.width ∧ FitsU32 s.height

instance SizeFits.instDecidable (s : DKSize) : Decidable (SizeFits s) :=
  inferInstanceAs (Decidable (FitsU32 s.width ∧ FitsU32 s.height))

/-- A tree loaded at 800x600 under the resized screen: the root frame 0 and its subframe 1, which
is mirrored (scale -1 along x, moved back into the box of frame 0), has the resolution 800x600
and holds a cached surface. -/
def mirrorResizeHeap : World :=
  { frames := fun p =>
      if p = 0 then
        { DKFrame.fresh with
          subframes := [1], screen := some 0, loaded := true
          contentResolution := { width := 800, height := 600 } }
      else if p = 1 then
        { DKFrame.fresh with
          superframe := some 0, screen := some 0, loaded := true
          transform := scaleTranslate (-1) 1 1 0
          transformInverse := scaleTranslate (-1) 1 1 0
          contentResolution := { width := 800, height := 600 }
          renderTarget := some 7 }
      else DKFrame.fresh
    screens := fun _ => resizedScreen }

/-! ## Basic facts about heap writes -/

@[simp] theorem modFrame_frames_same (w : World) (p : FramePtr) (g : DKFrame → DKFrame) :
    (w.modFrame p g).frames p = g (w.frames p) := by
  simp [World.modFrame]

theorem modFrame_frames_ne (w : World) {p q : FramePtr} (g : DKFrame → DKFrame) (h : q ≠ p) :
    (w.modFrame p g).frames q = w.frames q := by
  simp [World.modFrame, h]

@[simp] theorem modFrame_screens (w : World) (p : FramePtr) (g : DKFrame → DKFrame) :
    (w.modFrame p g).screens = w.screens := rfl

@[simp] theorem modScreen_frames (w : World) (s : ScreenPtr) (g : DKScreen → DKScreen) :
    (w.modScreen s g).frames = w.frames := rfl

@[simp] theorem releaseClaims_frames (w : World) (s : ScreenPtr) (f : FramePtr) (n : Bool) :
    (releaseClaims w s f n).frames = w.frames := rfl

theorem Keeps_refl {α : Type} (π : DKFrame → α) (w : World) : Keeps π w w :=
  fun _ => rfl

theorem Keeps_trans {α : Type} {π : DKFrame → α} {a b c : World}
    (h1 : Keeps π a b) (h2 : Keeps π b c) : Keeps π a c :=
  fun q => (h2 q).trans (h1 q)

theorem Keeps_modFrame {α : Type} {π : DKFrame → α} (w : World) (p : FramePtr)
    (g : DKFrame → DKFrame) (h : ∀ f, π (g f) = π f) : Keeps π w (w.modFrame p g) := by
  intro q
  by_cases hq : q = p
  · subst hq; simp [h]
  · rw [modFrame_frames_ne w g hq]

theorem Keeps_of_frames_eq {α : Type} {π : DKFrame → α} {w w' : World}
    (h : w'.frames = w.frames) : Keeps π w w' :=
  fun q => by rw [h]

theorem Pres_refl (P : DKFrame → Prop) (w : World) : Pres P w w :=
  fun _ h => h

theorem Pres_trans {P : DKFrame → Prop} {a b c : World}
    (h1 : Pres P a b) (h2 : Pres P b c) : Pres P a c :=
  fun q h => h2 q (h1 q h)

theorem Pres_modFrame {P : DKFrame → Prop} (w : World) (p : FramePtr)
    (g : DKFrame → DKFrame) (h : ∀ f, P f → P (g f)) : Pres P w (w.modFrame p g) := by
  intro q hq
  by_cases hqp : q = p
  · subst hqp; simpa using h _ hq
  · rwa [modFrame_frames_ne w g hqp]

/-- A relation that is reflexive, transitive and holds across every step of a loop over a subframe
array holds across the loop. -/
theorem foldlM_rel {R : World → World → Prop} (hr : ∀ a, R a a)
    (ht : ∀ a b c, R a b → R b c → R a c) (step : World → FramePtr → Option World) :
    ∀ (l : List FramePtr) (w w' : World),
      (∀ a x b, x ∈ l → step a x = some b → R a b) → l.foldlM step w = some w' → R w w' := by
  intro l
  induction l with
  | nil =>
    intro w w' _ h
    simp at h
    subst h
    exact hr w
  | cons x rest ih =>
    intro w w' hstep h
    simp only [List.foldlM_cons, Option.bind_eq_bind, Option.bind_eq_some] at h
    obtain ⟨w1, h1, h2⟩ := h
    exact ht _ _ _ (hstep w x w1 (List.mem_cons_self _ _) h1)
      (ih w1 w' (fun a y b hy => hstep a y b (List.mem_cons_of_mem _ hy)) h2)

/-! ## What the recursive operations leave alone -/

theorem SetRedraw_keeps {α : Type} {π : DKFrame → α}
    (hπ : ∀ (f : DKFrame) b, π { f with drawSurface := b } = π f) (w : World) (p : FramePtr) :
    Keeps π w (SetRedraw w p) :=
  Keeps_modFrame w p _ (fun f => hπ f true)

theorem DiscardSurface_keeps {α : Type} {π : DKFrame → α}
    (hd : ∀ (f : DKFrame) b, π { f with drawSurface := b } = π f)
    (hr : ∀ (f : DKFrame) t, π { f with renderTarget := t } = π f) (w : World) (p : FramePtr) :
    Keeps π w (DiscardSurface w p) :=
  Keeps_trans (Keeps_modFrame w p _ (fun f => hr f none)) (SetRedraw_keeps hd _ p)

theorem updateOwnResolution_keeps {α : Type} {π : DKFrame → α}
    (hd : ∀ (f : DKFrame) b, π { f with drawSurface := b } = π f)
    (hr : ∀ (f : DKFrame) t, π { f with renderTarget := t } = π f)
    (hc : ∀ (f : DKFrame) c, π { f with contentResolution := c } = π f)
    (sqrtf : ℚ → ℚ) (w : World) (p : FramePtr) :
    Keeps π w (updateOwnResolution sqrtf w p) := by
  unfold updateOwnResolution
  simp only
  split_ifs
  · split
    · split_ifs
      · exact Keeps_trans (Keeps_modFrame w p _ (fun f => hc f _)) (SetRedraw_keeps hd _ p)
      · exact Keeps_refl _ _
    · exact Keeps_refl _ _
  · exact Keeps_trans (Keeps_trans (Keeps_modFrame w p _ (fun f => hc f _))
      (DiscardSurface_keeps hd hr _ p)) (SetRedraw_keeps hd _ p)
  · exact Keeps_refl _ _

theorem UpdateContentResolution_keeps {α : Type} {π : DKFrame → α}
    (hd : ∀ (f : DKFrame) b, π { f with drawSurface := b } = π f)
    (hr : ∀ (f : DKFrame) t, π { f with renderTarget := t } = π f)
    (hc : ∀ (f : DKFrame) c, π { f with contentResolution := c } = π f)
    (sqrtf : ℚ → ℚ) :
    ∀ (fuel : Nat) (w : World) (p : FramePtr) (w' : World),
      UpdateContentResolution sqrtf fuel w p = some w' → Keeps π w w' := by
  intro fuel
  induction fuel with
  | zero => intro w p w' h; simp [UpdateContentResolution] at h
  | succ n ih =>
    intro w p w' h
    unfold UpdateContentResolution at h
    split_ifs at h with hl
    · cases h; exact Keeps_refl _ _
    · exact Keeps_trans (updateOwnResolution_keeps hd hr hc sqrtf w p)
        (foldlM_rel (Keeps_refl π) (fun _ _ _ => Keeps_trans) _ _ _ _
          (fun a x b _ hx => ih a x b hx) h)

theorem Unload_keeps {α : Type} {π : DKFrame → α}
    (hr : ∀ (f : DKFrame) t, π { f with renderTarget := t } = π f)
    (hs : ∀ (f : DKFrame) s l, π { f with screen := s, loaded := l } = π f) :
    ∀ (fuel : Nat) (w : World) (p : FramePtr) (w' : World),
      Unload fuel w p = some w' → Keeps π w w' := by
  intro fuel
  induction fuel with
  | zero => intro w p w' h; simp [Unload] at h
  | succ n ih =>
    intro w p w' h
    unfold Unload at h
    simp only [Option.bind_eq_some] at h
    obtain ⟨w1, h1, h2⟩ := h
    have k1 : Keeps π w w1 :=
      foldlM_rel (Keeps_refl π) (fun _ _ _ => Keeps_trans) _ _ _ _
        (fun a x b _ hx => ih a x b hx) h1
    split_ifs at h2 with hl
    · split at h2
      · cases h2
        refine Keeps_trans k1 (Keeps_trans (Keeps_trans ?_ (Keeps_modFrame _ p _ (fun f => hr f _)))
          (Keeps_modFrame _ p _ (fun f => hs f _ _)))
        exact Keeps_of_frames_eq rfl
      · cases h2
    · cases h2
      exact Keeps_trans k1 (Keeps_modFrame _ p _ (fun f => hs f _ _))

theorem loadOwnState_keeps {α : Type} {π : DKFrame → α}
    (hc : ∀ (f : DKFrame) c, π { f with contentResolution := c } = π f)
    (hs : ∀ (f : DKFrame) s l, π { f with screen := s, loaded := l } = π f)
    (sqrtf : ℚ → ℚ) (w : World) (p : FramePtr) (s : ScreenPtr) (res : DKSize) :
    Keeps π w (loadOwnState sqrtf w p s res) := by
  have hs1 : ∀ (f : DKFrame) s, π { f with screen := s } = π f := fun f s => hs f s f.loaded
  have hs2 : ∀ (f : DKFrame) l, π { f with loaded := l } = π f := fun f l => hs f f.screen l
  exact Keeps_trans (Keeps_trans (Keeps_trans (Keeps_modFrame _ p _ (fun f => hs1 f _))
    (Keeps_modFrame _ p _ (fun f => hc f _))) (Keeps_modFrame _ p _ (fun f => hc f _)))
    (Keeps_modFrame _ p _ (fun f => hs2 f _))

theorem Load_keeps {α : Type} {π : DKFrame → α}
    (hd : ∀ (f : DKFrame) b, π { f with drawSurface := b } = π f)
    (hr : ∀ (f : DKFrame) t, π { f with renderTarget := t } = π f)
    (hc : ∀ (f : DKFrame) c, π { f with contentResolution := c } = π f)
    (hs : ∀ (f : DKFrame) s l, π { f with screen := s, loaded := l } = π f)
    (sqrtf : ℚ → ℚ) :
    ∀ (fuel : Nat) (w : World) (p : FramePtr) (sc : Option ScreenPtr) (res : DKSize) (w' : World),
      Load sqrtf fuel w p sc res = some w' → Keeps π w w' := by
  intro fuel
  induction fuel with
  | zero => intro w p sc res w' h; simp [Load] at h
  | succ n ih =>
    intro w p sc res w' h
    unfold Load at h
    by_cases hne : (w.frames p).screen ≠ sc
    swap
    · rw [if_neg hne] at h
      cases h; exact Keeps_refl _ _
    · rw [if_pos hne] at h
      simp only [Option.bind_eq_some] at h
      obtain ⟨w1, h1, h2⟩ := h
      have k1 : Keeps π w w1 := Unload_keeps hr hs _ _ _ _ h1
      cases sc with
      | none =>
        simp only at h2
        cases h2
        exact Keeps_trans k1 (Keeps_modFrame _ p _ (fun f => hs f none f.loaded))
      | some s =>
        simp only [Option.bind_eq_some] at h2
        obtain ⟨w6, h6, w7, h7, h8⟩ := h2
        cases h8
        have k6 := UpdateContentResolution_keeps hd hr hc sqrtf _ _ _ _ h6
        have k7 : Keeps π w6 w7 :=
          foldlM_rel (Keeps_refl π) (fun _ _ _ => Keeps_trans) _ _ _ _
            (fun a x b _ hx => ih a x _ _ b hx) h7
        exact Keeps_trans k1 (Keeps_trans (loadOwnState_keeps hc hs sqrtf w1 p s res)
          (Keeps_trans k6 (Keeps_trans k7 (SetRedraw_keeps hd _ p))))

/-! ## Ancestor chains and IsDescendantOf -/

theorem ancestorAt_succ_of_parent {par : FramePtr → Option FramePtr} {p q : FramePtr}
    (h : par p = some q) (n : Nat) : ancestorAt par (n + 1) p = ancestorAt par n q := by
  simp [ancestorAt, h]

theorem ancestorAt_succ_of_root {par : FramePtr → Option FramePtr} {p : FramePtr}
    (h : par p = none) (n : Nat) : ancestorAt par (n + 1) p = none := by
  simp [ancestorAt, h]

/-- With enough fuel, IsDescendantOf answers true when `f` is on the ancestor chain of `p`. -/
theorem IsDescendantOf_true (w : World) (f : FramePtr) :
    ∀ (fuel k : Nat) (p : FramePtr), k < fuel → ancestorAt w.parent k p = some f →
      IsDescendantOf fuel w p (some f) = some true := by
  intro fuel
  induction fuel with
  | zero => intro k p hk; omega
  | succ n ih =>
    intro k p hk h
    unfold IsDescendantOf
    by_cases hfp : f = p
    · simp [hfp]
    · simp only [hfp, if_false]
      cases k with
      | zero => simp [ancestorAt] at h; exact absurd h.symm hfp
      | succ k =>
        cases hp : (w.frames p).superframe with
        | none => rw [ancestorAt_succ_of_root (by simpa [World.parent] using hp)] at h; cases h
        | some q =>
          rw [ancestorAt_succ_of_parent (by simpa [World.parent] using hp)] at h
          exact ih k q (by omega) h

/-- With enough fuel, IsDescendantOf answers false when the ancestor chain of `p` ends without
meeting `f`. -/
theorem IsDescendantOf_false (w : World) (f : FramePtr) :
    ∀ (fuel n : Nat) (p : FramePtr), n ≤ fuel → ancestorAt w.parent n p = none →
      (∀ k, ancestorAt w.parent k p ≠ some f) → IsDescendantOf fuel w p (some f) = some false := by
  intro fuel
  induction fuel with
  | zero =>
    intro n p hn h
    have : n = 0 := by omega
    subst this
    simp [ancestorAt] at h
  | succ m ih =>
    intro n p hn h hnot
    unfold IsDescendantOf
    have hfp : f ≠ p := fun e => hnot 0 (by simp [ancestorAt, e])
    simp only [hfp, if_false]
    cases hp : (w.frames p).superframe with
    | none => rfl
    | some q =>
      have hq : w.parent p = some q := by simpa [World.parent] using hp
      cases n with
      | zero => simp [ancestorAt] at h
      | succ n =>
        rw [ancestorAt_succ_of_parent hq] at h
        refine ih n q (by omega) h (fun k hk => hnot (k + 1) ?_)
        rw [ancestorAt_succ_of_parent hq]; exact hk

/-- When IsDescendantOf answers false, the ancestor chain of `p` ends and `f` is not on it. -/
theorem IsDescendantOf_false_inv (w : World) (f : FramePtr) :
    ∀ (fuel : Nat) (p : FramePtr), IsDescendantOf fuel w p (some f) = some false →
      (∃ n, n ≤ fuel ∧ ancestorAt w.parent n p = none) ∧
        ∀ k, ancestorAt w.parent k p ≠ some f := by
  intro fuel
  induction fuel with
  | zero => intro p h; simp [IsDescendantOf] at h
  | succ m ih =>
    intro p h
    unfold IsDescendantOf at h
    by_cases hfp : f = p
    · simp [hfp] at h
    · simp only [hfp, if_false] at h
      cases hp : (w.frames p).superframe with
      | none =>
        have hq : w.parent p = none := by simpa [World.parent] using hp
        refine ⟨⟨1, by omega, ancestorAt_succ_of_root hq 0⟩, fun k => ?_⟩
        cases k with
        | zero => simpa [ancestorAt] using fun e : p = f => hfp e.symm
        | succ k => rw [ancestorAt_succ_of_root hq]; simp
      | some q =>
        have hq : w.parent p = some q := by simpa [World.parent] using hp
        rw [hp] at h
        obtain ⟨⟨n, hn, hnone⟩, hnot⟩ := ih q h
        refine ⟨⟨n + 1, by omega, by rw [ancestorAt_succ_of_parent hq]; exact hnone⟩, fun k => ?_⟩
        cases k with
        | zero => simpa [ancestorAt] using fun e : p = f => hfp e.symm
        | succ k => rw [ancestorAt_succ_of_parent hq]; exact hnot k

/-! ## The links are not touched by loading, unloading and resolution updates -/

theorem UpdateContentResolution_links (sqrtf : ℚ → ℚ) {fuel : Nat} {w w' : World} {p : FramePtr}
    (h : UpdateContentResolution sqrtf fuel w p = some w') : Keeps links w w' :=
  UpdateContentResolution_keeps (π := links) (fun _ _ => rfl) (fun _ _ => rfl) (fun _ _ => rfl)
    sqrtf _ _ _ _ h

theorem updateOwnResolution_links (sqrtf : ℚ → ℚ) (w : World) (p : FramePtr) :
    Keeps links w (updateOwnResolution sqrtf w p) :=
  updateOwnResolution_keeps (π := links) (fun _ _ => rfl) (fun _ _ => rfl) (fun _ _ => rfl)
    sqrtf w p

theorem Unload_links {fuel : Nat} {w w' : World} {p : FramePtr}
    (h : Unload fuel w p = some w') : Keeps links w w' :=
  Unload_keeps (π := links) (fun _ _ => rfl) (fun _ _ _ => rfl) _ _ _ _ h

theorem Load_links (sqrtf : ℚ → ℚ) {fuel : Nat} {w w' : World} {p : FramePtr}
    {sc : Option ScreenPtr} {res : DKSize} (h : Load sqrtf fuel w p sc res = some w') :
    Keeps links w w' :=
  Load_keeps (π := links) (fun _ _ => rfl) (fun _ _ => rfl) (fun _ _ => rfl) (fun _ _ _ => rfl)
    sqrtf _ _ _ _ _ _ h

/-! ## Subtrees -/

theorem Reach_trans {ch : FramePtr → List FramePtr} {a b c : FramePtr}
    (h1 : Reach ch a b) (h2 : Reach ch b c) : Reach ch a c := by
  induction h1 with
  | refl _ => exact h2
  | step hy _ ih => exact Reach.step hy (ih h2)

theorem Reach_child {ch : FramePtr → List FramePtr} {c x : FramePtr} (h : x ∈ ch c) :
    Reach ch c x :=
  Reach.step h (Reach.refl x)

theorem Reach_head {ch : FramePtr → List FramePtr} {c x : FramePtr} (h : Reach ch c x) :
    x = c ∨ ∃ y, y ∈ ch c ∧ Reach ch y x := by
  cases h with
  | refl => exact Or.inl rfl
  | step hy hr => exact Or.inr ⟨_, hy, hr⟩

/-- Reachability only looks at the subframe arrays of the frames of the subtree. -/
theorem Reach_congr {ch ch' : FramePtr → List FramePtr} {c x : FramePtr} (h : Reach ch c x)
    (hsame : ∀ y, Reach ch c y → ch' y = ch y) : Reach ch' c x := by
  induction h with
  | refl _ => exact Reach.refl _
  | step hy _ ih =>
    refine Reach.step (by rw [hsame _ (Reach.refl _)]; exact hy) (ih ?_)
    intro z hz
    exact hsame z (Reach.step hy hz)

theorem DepthAtMost_mono {ch : FramePtr → List FramePtr} :
    ∀ {n m : Nat} {c : FramePtr}, DepthAtMost ch n c → n ≤ m → DepthAtMost ch m c := by
  intro n
  induction n with
  | zero => intro m c h; exact absurd h (by simp [DepthAtMost])
  | succ n ih =>
    intro m c h hnm
    cases m with
    | zero => omega
    | succ m =>
      intro x hx
      exact ih (h x hx) (by omega)

theorem DepthAtMost_of_reach {ch : FramePtr → List FramePtr} {c x : FramePtr}
    (hr : Reach ch c x) : ∀ {n : Nat}, DepthAtMost ch n c → DepthAtMost ch n x := by
  induction hr with
  | refl _ => intro n h; exact h
  | step hy _ ih =>
    intro n h
    cases n with
    | zero => exact absurd h (by simp [DepthAtMost])
    | succ n => exact DepthAtMost_mono (ih (h _ hy)) (by omega)

/-- A frame of bounded depth is not in the subtree of one of its own subframes. -/
theorem DepthAtMost_no_cycle {ch : FramePtr → List FramePtr} :
    ∀ {n : Nat} {c y : FramePtr}, DepthAtMost ch n c → y ∈ ch c → ¬ Reach ch y c := by
  intro n
  induction n with
  | zero => intro c y h; exact absurd h (by simp [DepthAtMost])
  | succ n ih =>
    intro c y h hy hr
    exact ih (DepthAtMost_of_reach hr (h y hy)) hy hr

theorem DepthAtMost_congr {ch ch' : FramePtr → List FramePtr} :
    ∀ {n : Nat} {c : FramePtr}, DepthAtMost ch n c → (∀ y, Reach ch c y → ch' y = ch y) →
      DepthAtMost ch' n c := by
  intro n
  induction n with
  | zero => intro c h; exact absurd h (by simp [DepthAtMost])
  | succ n ih =>
    intro c h hsame x hx
    rw [hsame c (Reach.refl c)] at hx
    exact ih (h x hx) (fun y hy => hsame y (Reach.step hx hy))

theorem Keeps_children {w w' : World} (h : Keeps links w w') : w'.children = w.children := by
  funext q
  have := h q
  simp only [links, Prod.mk.injEq] at this
  exact this.2

theorem Keeps_parent {w w' : World} (h : Keeps links w w') : w'.parent = w.parent := by
  funext q
  have := h q
  simp only [links, Prod.mk.injEq] at this
  exact this.1

/-! ## Termination of the recursive operations -/

theorem UpdateContentResolution_total (sqrtf : ℚ → ℚ) :
    ∀ (fuel n : Nat) (w : World) (c : FramePtr), DepthAtMost w.children n c → n ≤ fuel →
      ∃ w', UpdateContentResolution sqrtf fuel w c = some w' := by
  intro fuel
  induction fuel with
  | zero =>
    intro n w c h hn
    have : n = 0 := by omega
    subst this
    exact absurd h (by simp [DepthAtMost])
  | succ m ih =>
    intro n w c h hn
    unfold UpdateContentResolution
    split_ifs with hl
    · exact ⟨w, rfl⟩
    · cases n with
      | zero => exact absurd h (by simp [DepthAtMost])
      | succ n =>
        have key : ∀ (l : List FramePtr) (a : World), a.children = w.children →
            (∀ x ∈ l, DepthAtMost w.children n x) →
            ∃ w', l.foldlM (fun acc frame => UpdateContentResolution sqrtf m acc frame) a =
              some w' := by
          intro l
          induction l with
          | nil => intro a _ _; exact ⟨a, rfl⟩
          | cons x rest ihl =>
            intro a ha hd
            obtain ⟨a1, h1⟩ := ih n a x (by rw [ha]; exact hd x (List.mem_cons_self _ _))
              (by omega)
            have k1 : a1.children = w.children := by
              rw [← ha]
              exact Keeps_children (UpdateContentResolution_links sqrtf h1)
            obtain ⟨a2, h2⟩ := ihl a1 k1 (fun y hy => hd y (List.mem_cons_of_mem _ hy))
            exact ⟨a2, by simp [List.foldlM_cons, h1, h2]⟩
        have k0 : Keeps links w (updateOwnResolution sqrtf w c) :=
          updateOwnResolution_links sqrtf w c
        refine key _ _ (Keeps_children k0) ?_
        intro x hx
        have : x ∈ w.children c := by
          rw [← Keeps_children k0]; exact hx
        exact h x this

/-- Unload returns once the fuel covers the depth of the subtree, leaves the frames outside the
subtree alone, and leaves every frame of the subtree unloaded. -/
theorem Unload_spec :
    ∀ (fuel n : Nat) (w : World) (c : FramePtr), DepthAtMost w.children n c → n ≤ fuel →
      (∀ X, Reach w.children c X → Sane (w.frames X)) →
      ∃ w', Unload fuel w c = some w' ∧
        (∀ Y, ¬ Reach w.children c Y → w'.frames Y = w.frames Y) ∧
        (∀ X, Reach w.children c X → Unloaded (w'.frames X)) := by
  intro fuel
  induction fuel with
  | zero =>
    intro n w c h hn
    have : n = 0 := by omega
    subst this
    exact absurd h (by simp [DepthAtMost])
  | succ m ih =>
    intro n w c h hn hsane
    cases n with
    | zero => exact absurd h (by simp [DepthAtMost])
    | succ n =>
    have key : ∀ (l : List FramePtr) (a : World), a.children = w.children →
        (∀ x ∈ l, DepthAtMost w.children n x) →
        (∀ x ∈ l, ∀ X, Reach w.children x X → Sane (a.frames X)) →
        ∃ a', l.foldlM (fun acc frame => Unload m acc frame) a = some a' ∧
          a'.children = w.children ∧
          (∀ Y, (∀ x ∈ l, ¬ Reach w.children x Y) → a'.frames Y = a.frames Y) ∧
          (∀ x ∈ l, ∀ X, Reach w.children x X → Unloaded (a'.frames X)) := by
      intro l
      induction l with
      | nil =>
        intro a ha _ _
        exact ⟨a, rfl, ha, fun _ _ => rfl, fun x hx => absurd hx (List.not_mem_nil _)⟩
      | cons x rest ihl =>
        intro a ha hd hs
        obtain ⟨a1, h1, hA1, hB1⟩ := ih n a x (by rw [ha]; exact hd x (List.mem_cons_self _ _))
          (by omega) (by rw [ha]; exact hs x (List.mem_cons_self _ _))
        rw [ha] at hA1 hB1
        have k1 : a1.children = w.children := by
          rw [← ha]; exact Keeps_children (Unload_links h1)
        have hs1 : ∀ y ∈ rest, ∀ X, Reach w.children y X → Sane (a1.frames X) := by
          intro y hy X hX
          by_cases hx : Reach w.children x X
          · intro hl
            rw [(hB1 X hx).2] at hl
            cases hl
          · rw [hA1 X hx]
            exact hs y (List.mem_cons_of_mem _ hy) X hX
        obtain ⟨a2, h2, k2, hA2, hB2⟩ :=
          ihl a1 k1 (fun y hy => hd y (List.mem_cons_of_mem _ hy)) hs1
        refine ⟨a2, by simp [List.foldlM_cons, h1, h2], k2, ?_, ?_⟩
        · intro Y hY
          rw [hA2 Y (fun y hy => hY y (List.mem_cons_of_mem _ hy)),
            hA1 Y (hY x (List.mem_cons_self _ _))]
        · intro y hy X hX
          by_cases hex : ∃ z ∈ rest, Reach w.children z X
          · obtain ⟨z, hz, hzX⟩ := hex
            exact hB2 z hz X hzX
          · have hno : ∀ z ∈ rest, ¬ Reach w.children z X := fun z hz hzX => hex ⟨z, hz, hzX⟩
            rcases List.mem_cons.mp hy with rfl | hy'
            · rw [hA2 X hno]
              exact hB1 X hX
            · exact absurd hX (hno y hy')
    obtain ⟨w1, h1, _, hA1, hB1⟩ := key (w.children c) w rfl (fun x hx => h x hx)
      (fun x hx X hX => hsane X (Reach.step hx hX))
    have hc : w1.frames c = w.frames c :=
      hA1 c (fun x hx => DepthAtMost_no_cycle h hx)
    have hout : ∀ Y, ¬ Reach w.children c Y → Y ≠ c ∧ w1.frames Y = w.frames Y := by
      intro Y hY
      refine ⟨fun e => hY (by rw [e]; exact Reach.refl c),
        hA1 Y (fun x hx hxY => hY (Reach.step hx hxY))⟩
    have hin : ∀ X, Reach w.children c X → X ≠ c → Unloaded (w1.frames X) := by
      intro X hX hne
      rcases Reach_head hX with rfl | ⟨y, hy, hyX⟩
      · exact absurd rfl hne
      · exact hB1 y hy X hyX
    unfold Unload
    have h1' : List.foldlM (fun acc frame => Unload m acc frame) w (w.frames c).subframes =
        some w1 := h1
    simp only [h1', Option.some_bind]
    by_cases hl : (w1.frames c).loaded = true
    · rw [if_pos hl]
      have hs : (w.frames c).screen ≠ none := hsane c (Reach.refl c) (by rw [← hc]; exact hl)
      obtain ⟨s, hs⟩ := Option.ne_none_iff_exists'.mp hs
      rw [hc, hs]
      refine ⟨_, rfl, ?_, ?_⟩
      · intro Y hY
        obtain ⟨hne, hY1⟩ := hout Y hY
        rw [modFrame_frames_ne _ _ hne, modFrame_frames_ne _ _ hne, releaseClaims_frames, hY1]
      · intro X hX
        by_cases hXc : X = c
        · subst hXc
          simp [Unloaded]
        · rw [modFrame_frames_ne _ _ hXc, modFrame_frames_ne _ _ hXc, releaseClaims_frames]
          exact hin X hX hXc
    · rw [if_neg hl]
      refine ⟨_, rfl, ?_, ?_⟩
      · intro Y hY
        obtain ⟨hne, hY1⟩ := hout Y hY
        rw [modFrame_frames_ne _ _ hne, hY1]
      · intro X hX
        by_cases hXc : X = c
        · subst hXc
          simp [Unloaded]
        · rw [modFrame_frames_ne _ _ hXc]
          exact hin X hX hXc

/-! ## Content resolution stays at least 1x1 -/

theorem roundU32_ge_one {q : ℚ} (hq : IntOrGe1 q) (h : 1 ≤ roundU32 q) : 1 ≤ q := by
  rcases hq with ⟨z, rfl⟩ | hq
  · have hz : roundHalfUp (z : ℚ) = z := by
      unfold roundHalfUp
      rw [Int.floor_eq_iff]
      constructor
      · linarith
      · linarith
    unfold roundU32 at h
    rw [hz] at h
    have : (1 : ℤ) ≤ z := by omega
    exact_mod_cast this
  · exact hq

theorem Clamp_ge_one (v : Nat) : 1 ≤ Clamp v 1 maxTexSize := by
  unfold Clamp maxTexSize
  split_ifs <;> omega

theorem natCast_resOK (f : DKFrame) {a b : Nat} (ha : 1 ≤ a) (hb : 1 ≤ b) :
    ResOK { f with contentResolution := { width := (a : ℚ), height := (b : ℚ) } } := by
  constructor
  · show (1 : ℚ) ≤ (a : ℚ)
    exact_mod_cast ha
  · show (1 : ℚ) ≤ (b : ℚ)
    exact_mod_cast hb

theorem SetRedraw_frames_resOK (w : World) (p q : FramePtr) :
    ResOK ((SetRedraw w p).frames q) ↔ ResOK (w.frames q) := by
  unfold SetRedraw
  by_cases h : q = p
  · subst h; simp [ResOK]
  · rw [modFrame_frames_ne _ _ h]

theorem DiscardSurface_frames_resOK (w : World) (p q : FramePtr) :
    ResOK ((DiscardSurface w p).frames q) ↔ ResOK (w.frames q) := by
  unfold DiscardSurface
  rw [SetRedraw_frames_resOK]
  by_cases h : q = p
  · subst h; simp [ResOK]
  · rw [modFrame_frames_ne _ _ h]

/-- After the resolution update of a frame, both components of its resolution are at least 1,
provided each was a whole number or at least 1 before. -/
theorem updateOwnResolution_resOK (sqrtf : ℚ → ℚ) (w : World) (p : FramePtr)
    (hw : IntOrGe1 (w.frames p).contentResolution.width)
    (hh : IntOrGe1 (w.frames p).contentResolution.height) :
    ResOK ((updateOwnResolution sqrtf w p).frames p) := by
  unfold updateOwnResolution
  simp only
  by_cases hroot : isRootFrame w p = true
  · rw [if_pos hroot]
    cases hs : (w.frames p).screen with
    | none => simp [isRootFrame, hs] at hroot
    | some s =>
      simp only
      split_ifs with hne
      · rw [SetRedraw_frames_resOK, modFrame_frames_same]
        exact natCast_resOK _ (le_max_right _ _) (le_max_right _ _)
      · simp only [not_or, not_not] at hne
        refine ⟨roundU32_ge_one hw ?_, roundU32_ge_one hh ?_⟩
        · rw [hne.1]; exact le_max_right _ _
        · rw [hne.2]; exact le_max_right _ _
  · rw [if_neg hroot]
    split_ifs with hne
    · rw [SetRedraw_frames_resOK, DiscardSurface_frames_resOK, modFrame_frames_same]
      exact natCast_resOK _ (Clamp_ge_one _) (Clamp_ge_one _)
    · simp only [not_or, not_not] at hne
      refine ⟨roundU32_ge_one hw ?_, roundU32_ge_one hh ?_⟩
      · rw [hne.1]; exact Clamp_ge_one _
      · rw [hne.2]; exact Clamp_ge_one _

theorem updateOwnResolution_pres (sqrtf : ℚ → ℚ) (w : World) (p : FramePtr) :
    Pres ResOK w (updateOwnResolution sqrtf w p) := by
  intro q hq
  by_cases hqp : q = p
  · subst hqp
    exact updateOwnResolution_resOK sqrtf w q (Or.inr hq.1) (Or.inr hq.2)
  · unfold updateOwnResolution
    simp only
    split_ifs
    · split
      · split_ifs
        · rw [SetRedraw_frames_resOK, modFrame_frames_ne _ _ hqp]; exact hq
        · exact hq
      · exact hq
    · rw [SetRedraw_frames_resOK, DiscardSurface_frames_resOK, modFrame_frames_ne _ _ hqp]
      exact hq
    · exact hq

theorem UpdateContentResolution_pres (sqrtf : ℚ → ℚ) :
    ∀ (fuel : Nat) (w : World) (p : FramePtr) (w' : World),
      UpdateContentResolution sqrtf fuel w p = some w' → Pres ResOK w w' := by
  intro fuel
  induction fuel with
  | zero => intro w p w' h; simp [UpdateContentResolution] at h
  | succ n ih =>
    intro w p w' h
    unfold UpdateContentResolution at h
    split_ifs at h with hl
    · cases h; exact Pres_refl _ _
    · exact Pres_trans (updateOwnResolution_pres sqrtf w p)
        (foldlM_rel (Pres_refl ResOK) (fun _ _ _ => Pres_trans) _ _ _ _
          (fun a x b _ hx => ih a x b hx) h)

/-- After UpdateContentResolution on a loaded frame, both components of its resolution are at
least 1, provided each was a whole number or at least 1 before. -/
theorem UpdateContentResolution_resOK (sqrtf : ℚ → ℚ) {fuel : Nat} {w w' : World} {p : FramePtr}
    (hl : (w.frames p).loaded = true)
    (hw : IntOrGe1 (w.frames p).contentResolution.width)
    (hh : IntOrGe1 (w.frames p).contentResolution.height)
    (h : UpdateContentResolution sqrtf fuel w p = some w') : ResOK (w'.frames p) := by
  cases fuel with
  | zero => simp [UpdateContentResolution] at h
  | succ n =>
    unfold UpdateContentResolution at h
    rw [if_neg (by simp [hl])] at h
    have hp : Pres ResOK (updateOwnResolution sqrtf w p) w' :=
      foldlM_rel (Pres_refl ResOK) (fun _ _ _ => Pres_trans) _ _ _ _
        (fun a x b _ hx => UpdateContentResolution_pres sqrtf n a x b hx) h
    exact hp p (updateOwnResolution_resOK sqrtf w p hw hh)

theorem UpdateContentResolution_loadState (sqrtf : ℚ → ℚ) {fuel : Nat} {w w' : World}
    {p : FramePtr} (h : UpdateContentResolution sqrtf fuel w p = some w') :
    Keeps loadState w w' :=
  UpdateContentResolution_keeps (π := loadState) (fun _ _ => rfl) (fun _ _ => rfl)
    (fun _ _ => rfl) sqrtf _ _ _ _ h

theorem CalculateContentResolution_intOrGe1 (sqrtf : ℚ → ℚ) (w : World) (p : FramePtr)
    (h : ResOK (w.frames p)) :
    IntOrGe1 (CalculateContentResolution sqrtf w p).width ∧
      IntOrGe1 (CalculateContentResolution sqrtf w p).height := by
  unfold CalculateContentResolution
  simp only
  split
  · split_ifs
    · exact ⟨Or.inl ⟨_, rfl⟩, Or.inl ⟨_, rfl⟩⟩
    · exact ⟨Or.inr h.1, Or.inr h.2⟩
  · exact ⟨Or.inr h.1, Or.inr h.2⟩

/-! ## Load -/

theorem Outside_refl (w : World) (Y : FramePtr) : Outside w w Y :=
  ⟨rfl, fun h => h⟩

theorem Outside_trans {a b c : World} {Y : FramePtr} (h1 : Outside a b Y) (h2 : Outside b c Y) :
    Outside a c Y :=
  ⟨h2.1.trans h1.1, fun h => h2.2 (h1.2 h)⟩

theorem Outside_of_eq {w w' : World} {Y : FramePtr} (h : w'.frames Y = w.frames Y) :
    Outside w w' Y := by
  unfold Outside
  rw [h]
  exact ⟨rfl, fun h => h⟩

theorem Outside_loadedOn {w w' : World} {Y : FramePtr} {s : ScreenPtr} (h : Outside w w' Y)
    (hl : LoadedOn s (w.frames Y)) : LoadedOn s (w'.frames Y) := by
  obtain ⟨h1, h2⟩ := h
  simp only [loadState, Prod.mk.injEq] at h1
  exact ⟨by rw [h1.1]; exact hl.1, by rw [h1.2]; exact hl.2.1, h2 hl.2.2⟩

theorem loadOwnState_frames_ne (sqrtf : ℚ → ℚ) (w : World) {p q : FramePtr} (s : ScreenPtr)
    (res : DKSize) (h : q ≠ p) : (loadOwnState sqrtf w p s res).frames q = w.frames q := by
  unfold loadOwnState
  simp only
  rw [modFrame_frames_ne _ _ h, modFrame_frames_ne _ _ h, modFrame_frames_ne _ _ h,
    modFrame_frames_ne _ _ h]

theorem loadOwnState_frames_same (sqrtf : ℚ → ℚ) (w : World) (p : FramePtr) (s : ScreenPtr)
    (res : DKSize) :
    ((loadOwnState sqrtf w p s res).frames p).screen = some s ∧
      ((loadOwnState sqrtf w p s res).frames p).loaded = true ∧
      IntOrGe1 ((loadOwnState sqrtf w p s res).frames p).contentResolution.width ∧
      IntOrGe1 ((loadOwnState sqrtf w p s res).frames p).contentResolution.height := by
  unfold loadOwnState
  simp only [modFrame_frames_same]
  refine ⟨trivial, trivial, ?_⟩
  apply CalculateContentResolution_intOrGe1
  rw [modFrame_frames_same]
  constructor
  · show (1 : ℚ) ≤ (if res.width < 1 then 1 else res.width)
    split_ifs with h
    · exact le_refl _
    · exact not_lt.mp h
  · show (1 : ℚ) ≤ (if res.height < 1 then 1 else res.height)
    split_ifs with h
    · exact le_refl _
    · exact not_lt.mp h

/-- Load consistency of a frame survives a call that loads the subtree of `x` on `s`. -/
theorem SubtreeOK_step {s : ScreenPtr} {ch : FramePtr → List FramePtr} {w w' : World}
    {x X : FramePtr} (hA : ∀ Y, ¬ Reach ch x Y → Outside w w' Y)
    (hB : ∀ Z, Reach ch x Z → LoadedOn s (w'.frames Z)) (h : SubtreeOK s ch w X) :
    SubtreeOK s ch w' X := by
  by_cases hx : Reach ch x X
  · refine ⟨fun _ => ?_, fun _ Z hZ => hB Z (Reach_trans hx hZ)⟩
    rw [(hB X hx).1]; simp
  · have hO := hA X hx
    have h1 := hO.1
    simp only [loadState, Prod.mk.injEq] at h1
    refine ⟨?_, ?_⟩
    · intro hl
      rw [h1.1]
      exact h.1 (by rw [← h1.2]; exact hl)
    · intro hs Z hZ
      by_cases hz : Reach ch x Z
      · exact hB Z hz
      · exact Outside_loadedOn (hA Z hz) (h.2 (by rw [← h1.1]; exact hs) Z hZ)

theorem Outside_sane {w w' : World} {Y : FramePtr} (h : Outside w w' Y)
    (hs : Sane (w.frames Y)) : Sane (w'.frames Y) := by
  have h1 := h.1
  simp only [loadState, Prod.mk.injEq] at h1
  intro hl
  rw [h1.1]
  exact hs (by rw [← h1.2]; exact hl)

theorem LoadedOn_sane {s : ScreenPtr} {f : DKFrame} (h : LoadedOn s f) : Sane f := by
  intro _
  rw [h.1]; simp

/-- Load on a non-null screen `s` returns once the fuel covers the depth of the subtree and keeps
the load state of the frames outside the subtree; if the subtree was load-consistent, every frame
of it ends loaded on `s` with a content resolution of at least 1x1. -/
theorem Load_spec (sqrtf : ℚ → ℚ) (s : ScreenPtr) (res : DKSize) :
    ∀ (fuel n : Nat) (w : World) (c : FramePtr), DepthAtMost w.children n c → n ≤ fuel →
      (∀ X, Reach w.children c X → Sane (w.frames X)) →
      ∃ w', Load sqrtf fuel w c (some s) res = some w' ∧
        (∀ Y, ¬ Reach w.children c Y → Outside w w' Y) ∧
        (∀ X, Reach w.children c X → Sane (w'.frames X)) ∧
        ((∀ X, Reach w.children c X → SubtreeOK s w.children w X) →
          ∀ X, Reach w.children c X → LoadedOn s (w'.frames X)) := by
  intro fuel
  induction fuel with
  | zero =>
    intro n w c h hn
    have : n = 0 := by omega
    subst this
    exact absurd h (by simp [DepthAtMost])
  | succ m ih =>
    intro n w c h hn hsane
    cases n with
    | zero => exact absurd h (by simp [DepthAtMost])
    | succ n =>
    have key : ∀ (l : List FramePtr) (a : World), a.children = w.children →
        (∀ x ∈ l, DepthAtMost w.children n x) →
        (∀ x ∈ l, ∀ X, Reach w.children x X → Sane (a.frames X)) →
        ∃ a', l.foldlM (fun acc frame => Load sqrtf m acc frame (some s) res) a = some a' ∧
          a'.children = w.children ∧
          (∀ Y, (∀ x ∈ l, ¬ Reach w.children x Y) → Outside a a' Y) ∧
          (∀ x ∈ l, ∀ X, Reach w.children x X → Sane (a'.frames X)) ∧
          ((∀ x ∈ l, ∀ X, Reach w.children x X → SubtreeOK s w.children a X) →
            ∀ x ∈ l, ∀ X, Reach w.children x X → LoadedOn s (a'.frames X)) := by
      intro l
      induction l with
      | nil =>
        intro a ha _ _
        exact ⟨a, rfl, ha, fun _ _ => Outside_refl _ _,
          fun x hx => absurd hx (List.not_mem_nil _),
          fun _ x hx => absurd hx (List.not_mem_nil _)⟩
      | cons x rest ihl =>
        intro a ha hd hs
        obtain ⟨a1, h1, hA1, hS1, hB1⟩ :=
          ih n a x (by rw [ha]; exact hd x (List.mem_cons_self _ _))
            (by omega) (by rw [ha]; exact hs x (List.mem_cons_self _ _))
        rw [ha] at hA1 hS1 hB1
        have k1 : a1.children = w.children := by
          rw [← ha]; exact Keeps_children (Load_links sqrtf h1)
        have hs1 : ∀ y ∈ rest, ∀ X, Reach w.children y X → Sane (a1.frames X) := by
          intro y hy X hX
          by_cases hx : Reach w.children x X
          · exact hS1 X hx
          · exact Outside_sane (hA1 X hx) (hs y (List.mem_cons_of_mem _ hy) X hX)
        obtain ⟨a2, h2, k2, hA2, hS2, hB2⟩ :=
          ihl a1 k1 (fun y hy => hd y (List.mem_cons_of_mem _ hy)) hs1
        refine ⟨a2, by simp [List.foldlM_cons, h1, h2], k2, ?_, ?_, ?_⟩
        · intro Y hY
          exact Outside_trans (hA1 Y (hY x (List.mem_cons_self _ _)))
            (hA2 Y (fun y hy => hY y (List.mem_cons_of_mem _ hy)))
        · intro y hy X hX
          by_cases hex : ∃ z ∈ rest, Reach w.children z X
          · obtain ⟨z, hz, hzX⟩ := hex
            exact hS2 z hz X hzX
          · have hno : ∀ z ∈ rest, ¬ Reach w.children z X := fun z hz hzX => hex ⟨z, hz, hzX⟩
            rcases List.mem_cons.mp hy with rfl | hy'
            · exact Outside_sane (hA2 X hno) (hS1 X hX)
            · exact absurd hX (hno y hy')
        · intro hok y hy X hX
          have hB1' := hB1 (hok x (List.mem_cons_self _ _))
          have hB2' := hB2 (fun y hy X hX =>
            SubtreeOK_step hA1 hB1' (hok y (List.mem_cons_of_mem _ hy) X hX))
          by_cases hex : ∃ z ∈ rest, Reach w.children z X
          · obtain ⟨z, hz, hzX⟩ := hex
            exact hB2' z hz X hzX
          · have hno : ∀ z ∈ rest, ¬ Reach w.children z X := fun z hz hzX => hex ⟨z, hz, hzX⟩
            rcases List.mem_cons.mp hy with rfl | hy'
            · exact Outside_loadedOn (hA2 X hno) (hB1' X hX)
            · exact absurd hX (hno y hy')
    unfold Load
    by_cases hsc : (w.frames c).screen ≠ some s
    swap
    · rw [if_neg hsc]
      exact ⟨w, rfl, fun _ _ => Outside_refl _ _, hsane,
        fun hpre X hX => (hpre c (Reach.refl c)).2 (not_not.mp hsc) X hX⟩
    rw [if_pos hsc]
    obtain ⟨w1, hU, hA1, hB1⟩ := Unload_spec (m + 1) (n + 1) w c h hn hsane
    have k1 : w1.children = w.children := Keeps_children (Unload_links hU)
    have k5 : (loadOwnState sqrtf w1 c s res).children = w.children := by
      rw [← k1]
      exact Keeps_children (loadOwnState_keeps (π := links) (fun _ _ => rfl) (fun _ _ _ => rfl)
        sqrtf w1 c s res)
    obtain ⟨w6, hUp⟩ := UpdateContentResolution_total sqrtf (m + 1) (n + 1)
      (loadOwnState sqrtf w1 c s res) c (by rw [k5]; exact h) hn
    have k6 : w6.children = w.children := by
      rw [← k5]; exact Keeps_children (UpdateContentResolution_links sqrtf hUp)
    obtain ⟨hs5, hl5, hw5, hh5⟩ := loadOwnState_frames_same sqrtf w1 c s res
    have hls6 := UpdateContentResolution_loadState sqrtf hUp
    have hO56 : ∀ Y, Outside (loadOwnState sqrtf w1 c s res) w6 Y :=
      fun Y => ⟨hls6 Y, UpdateContentResolution_pres sqrtf _ _ _ _ hUp Y⟩
    have hc6 : LoadedOn s (w6.frames c) := by
      have := hls6 c
      simp only [loadState, Prod.mk.injEq] at this
      exact ⟨by rw [this.1]; exact hs5, by rw [this.2]; exact hl5,
        UpdateContentResolution_resOK sqrtf hl5 hw5 hh5 hUp⟩
    have hun6 : ∀ X, Reach w.children c X → X ≠ c → Unloaded (w6.frames X) := by
      intro X hX hne
      have := hls6 X
      simp only [loadState, Prod.mk.injEq] at this
      rw [loadOwnState_frames_ne sqrtf w1 s res hne] at this
      have hu := hB1 X hX
      exact ⟨by rw [this.1]; exact hu.1, by rw [this.2]; exact hu.2⟩
    have hnc : ∀ y ∈ w.children c, ∀ X, Reach w.children y X → X ≠ c := by
      intro y hy X hX e
      subst e
      exact DepthAtMost_no_cycle h hy hX
    have hun6' : ∀ y ∈ w.children c, ∀ X, Reach w.children y X → Unloaded (w6.frames X) :=
      fun y hy X hX => hun6 X (Reach.step hy hX) (hnc y hy X hX)
    obtain ⟨w7, h7, _, hA7, _, hB7⟩ := key (w.children c) w6 k6 (fun x hx => h x hx) (by
      intro y hy X hX hl
      rw [(hun6' y hy X hX).2] at hl; cases hl)
    have hB7' := hB7 (by
      intro y hy X hX
      have hu := hun6' y hy X hX
      refine ⟨fun hl => ?_, fun hs => ?_⟩
      · rw [hu.2] at hl; cases hl
      · rw [hu.1] at hs; cases hs)
    have h7' : List.foldlM (fun acc frame => Load sqrtf m acc frame (some s) res) w6
        (w6.frames c).subframes = some w7 := by
      have : (w6.frames c).subframes = w.children c := congrFun k6 c
      rw [this]; exact h7
    simp only [hU, Option.some_bind, hUp, h7']
    have hall : ∀ X, Reach w.children c X → LoadedOn s ((SetRedraw w7 c).frames X) := by
      intro X hX
      by_cases hXc : X = c
      · subst hXc
        have hc7 : LoadedOn s (w7.frames X) :=
          Outside_loadedOn (hA7 X (fun x hx => DepthAtMost_no_cycle h hx)) hc6
        unfold SetRedraw
        rw [modFrame_frames_same]
        exact hc7
      · unfold SetRedraw
        rw [modFrame_frames_ne _ _ hXc]
        rcases Reach_head hX with rfl | ⟨y, hy, hyX⟩
        · exact absurd rfl hXc
        · exact hB7' y hy X hyX
    refine ⟨_, rfl, ?_, fun X hX => LoadedOn_sane (hall X hX), fun _ => hall⟩
    intro Y hY
    have hne : Y ≠ c := fun e => hY (by rw [e]; exact Reach.refl c)
    have hY7 := hA7 Y (fun x hx hxY => hY (Reach.step hx hxY))
    have hY1 : Outside w w1 Y := Outside_of_eq (hA1 Y hY)
    have hY5 : Outside w1 (loadOwnState sqrtf w1 c s res) Y :=
      Outside_of_eq (loadOwnState_frames_ne sqrtf w1 s res hne)
    refine Outside_trans (Outside_trans (Outside_trans (Outside_trans hY1 hY5) (hO56 Y)) hY7) ?_
    exact Outside_of_eq (modFrame_frames_ne _ _ hne)

/-- Load on the null screen returns once the fuel covers the depth of the subtree. -/
theorem Load_null_total (sqrtf : ℚ → ℚ) (res : DKSize) (fuel n : Nat) (w : World) (c : FramePtr)
    (h : DepthAtMost w.children n c) (hn : n ≤ fuel)
    (hsane : ∀ X, Reach w.children c X → Sane (w.frames X)) :
    ∃ w', Load sqrtf fuel w c none res = some w' := by
  cases fuel with
  | zero =>
    have : n = 0 := by omega
    subst this
    exact absurd h (by simp [DepthAtMost])
  | succ m =>
    unfold Load
    by_cases hsc : (w.frames c).screen ≠ none
    · rw [if_pos hsc]
      obtain ⟨w1, hU, _, _⟩ := Unload_spec (m + 1) n w c h hn hsane
      simp only [hU, Option.some_bind]
      exact ⟨_, rfl⟩
    · rw [if_neg hsc]
      exact ⟨w, rfl⟩

/-! ## The subtree as a list -/

theorem mem_subtree_reach {ch : FramePtr → List FramePtr} :
    ∀ {n : Nat} {c x : FramePtr}, x ∈ subtree ch n c → Reach ch c x := by
  intro n
  induction n with
  | zero => intro c x h; simp [subtree] at h
  | succ n ih =>
    intro c x h
    simp only [subtree, List.mem_cons, List.mem_flatMap] at h
    rcases h with rfl | ⟨y, hy, hx⟩
    · exact Reach.refl _
    · exact Reach.step hy (ih hx)

theorem reach_mem_subtree {ch : FramePtr → List FramePtr} :
    ∀ {n : Nat} {c x : FramePtr}, DepthAtMost ch n c → Reach ch c x → x ∈ subtree ch n c := by
  intro n
  induction n with
  | zero => intro c x h; exact absurd h (by simp [DepthAtMost])
  | succ n ih =>
    intro c x h hr
    simp only [subtree, List.mem_cons, List.mem_flatMap]
    rcases Reach_head hr with rfl | ⟨y, hy, hyx⟩
    · exact Or.inl rfl
    · exact Or.inr ⟨y, hy, ih (h y hy) hyx⟩

/-! ## The search loop over the subframe array -/

theorem findSubframe_none {l : List FramePtr} {f : FramePtr} :
    findSubframe l f = none ↔ f ∉ l := by
  induction l with
  | nil => simp [findSubframe]
  | cons x rest ih =>
    unfold findSubframe
    by_cases hx : x = f
    · simp [hx]
    · simp only [hx, if_false, Option.map_eq_none', ih, List.mem_cons, not_or]
      exact ⟨fun h => ⟨fun e => hx e.symm, h⟩, fun h => h.2⟩

theorem findSubframe_some {l : List FramePtr} {f : FramePtr} :
    ∀ {i : Nat}, findSubframe l f = some i → l[i]? = some f ∧ l.eraseIdx i = l.erase f := by
  induction l with
  | nil => intro i h; simp [findSubframe] at h
  | cons x rest ih =>
    intro i h
    unfold findSubframe at h
    by_cases hx : x = f
    · simp only [hx, if_true, Option.some.injEq] at h
      subst h
      subst hx
      simp
    · simp only [hx, if_false, Option.map_eq_some'] at h
      obtain ⟨j, hj, rfl⟩ := h
      obtain ⟨h1, h2⟩ := ih hj
      refine ⟨by simpa using h1, ?_⟩
      rw [List.eraseIdx_cons_succ, h2, List.erase_cons_tail (by simpa using hx)]

theorem findSubframe_mem {l : List FramePtr} {f : FramePtr} {i : Nat}
    (h : findSubframe l f = some i) : f ∈ l := by
  by_contra hf
  rw [findSubframe_none.mpr hf] at h
  cases h

theorem findSubframe_of_getElem? {l : List FramePtr} (hn : l.Nodup) {f : FramePtr} :
    ∀ {i : Nat}, l[i]? = some f → findSubframe l f = some i := by
  induction l with
  | nil => intro i h; simp at h
  | cons x rest ih =>
    intro i h
    have hn' := List.nodup_cons.mp hn
    unfold findSubframe
    cases i with
    | zero =>
      simp only [List.getElem?_cons_zero, Option.some.injEq] at h
      simp [h]
    | succ j =>
      rw [List.getElem?_cons_succ] at h
      have hmem : f ∈ rest := List.mem_iff_getElem?.mpr ⟨j, h⟩
      have hx : x ≠ f := fun e => hn'.1 (e ▸ hmem)
      simp [hx, ih hn'.2 h]

theorem findSubframe_head (l : List FramePtr) (f : FramePtr) :
    findSubframe (f :: l) f = some 0 := by
  simp [findSubframe]

theorem findSubframe_last {l : List FramePtr} {f : FramePtr} (h : f ∉ l) :
    findSubframe (l ++ [f]) f = some l.length := by
  induction l with
  | nil => simp [findSubframe]
  | cons x rest ih =>
    have hx : x ≠ f := fun e => h (by simp [e])
    have hr : f ∉ rest := fun e => h (List.mem_cons_of_mem _ e)
    simp [findSubframe, hx, ih hr]

theorem erase_eq_filter_ne {l : List FramePtr} (hn : l.Nodup) (f : FramePtr) :
    l.erase f = l.filter (fun c => decide (c ≠ f)) := by
  rw [hn.erase_eq_filter]
  congr 1
  funext x
  by_cases h : x = f <;> simp [h]

/-! ## AddSubframe -/

theorem ancestorAt_none_of_le {par : FramePtr → Option FramePtr} :
    ∀ {n k : Nat} {p : FramePtr}, ancestorAt par n p = none → n ≤ k → ancestorAt par k p = none := by
  intro n
  induction n with
  | zero => intro k p h; simp [ancestorAt] at h
  | succ n ih =>
    intro k p h hk
    cases k with
    | zero => omega
    | succ k =>
      cases hp : par p with
      | none => exact ancestorAt_succ_of_root hp k
      | some q =>
        rw [ancestorAt_succ_of_parent hp] at h ⊢
        exact ih h (by omega)

/-- C1: `P.AddSubframe(F)` returns false and leaves the whole heap as it was (subframe arrays,
superframe pointers, redraw flags, load state, and everything else) when `F` is null, when `F`
already has a superframe, or when `F` is on the ancestor chain of `P` (`P` itself included), the
fuel covering the position `k` of `F` on that chain. -/
theorem AddSubframe_rejects (sqrtf : ℚ → ℚ) (fuel : Nat) (w : World) (P : FramePtr)
    (frame : Option FramePtr)
    (h : frame = none ∨ (∃ f, frame = some f ∧ (w.frames f).superframe ≠ none) ∨
      (∃ f k, frame = some f ∧ k < fuel ∧ ancestorAt w.parent k P = some f)) :
    AddSubframe sqrtf fuel w P frame = some (false, w) := by
  rcases h with rfl | ⟨f, rfl, hf⟩ | ⟨f, k, rfl, hk, hanc⟩
  · rfl
  · unfold AddSubframe
    simp only [hf, if_false]
  · unfold AddSubframe
    simp only [IsDescendantOf_true w f fuel k P hk hanc]
    split_ifs <;> rfl

theorem AddSubframe_rejects_witness :
    (exampleHeap.frames 0).superframe = none ∧ ancestorAt exampleHeap.parent 2 2 = some 0 ∧
      AddSubframe id 3 exampleHeap 2 (some 0) = some (false, exampleHeap) :=
  ⟨by decide, by decide,
    AddSubframe_rejects id 3 exampleHeap 2 (some 0)
      (Or.inr (Or.inr ⟨0, 2, rfl, by decide, by decide⟩))⟩

theorem linkSubframe_children (w : World) (P F : FramePtr) :
    (linkSubframe w P F).children = fun q => if q = P then F :: w.children q else w.children q := by
  funext q
  show ((linkSubframe w P F).frames q).subframes = _
  unfold linkSubframe
  have h1 := Keeps_modFrame (π := fun f => f.subframes)
    (w.modFrame P (fun g => { g with subframes := F :: g.subframes })) F
    (fun g => { g with superframe := some P }) (fun _ => rfl) q
  simp only at h1 ⊢
  rw [h1]
  by_cases hP : q = P
  · subst hP
    rw [modFrame_frames_same]
    simp [World.children]
  · rw [modFrame_frames_ne _ _ hP]
    simp [hP, World.children]

theorem linkSubframe_parent (w : World) (P F : FramePtr) :
    (linkSubframe w P F).parent = fun q => if q = F then some P else w.parent q := by
  funext q
  show ((linkSubframe w P F).frames q).superframe = _
  unfold linkSubframe
  simp only
  by_cases hF : q = F
  · subst hF
    simp only [modFrame_frames_same, if_true]
  · rw [modFrame_frames_ne _ _ hF]
    have h1 := Keeps_modFrame (π := fun f => f.superframe) w P
      (fun g => { g with subframes := F :: g.subframes }) (fun _ => rfl) q
    simp only at h1
    rw [h1]
    simp [hF, World.parent]

theorem linkSubframe_loadRes (w : World) (P F : FramePtr) :
    Keeps loadRes w (linkSubframe w P F) :=
  Keeps_trans
    (Keeps_modFrame (π := loadRes) w P (fun g => { g with subframes := F :: g.subframes })
      (fun _ => rfl))
    (Keeps_modFrame (π := loadRes) _ F (fun g => { g with superframe := some P }) (fun _ => rfl))

theorem loadRes_sane {f g : DKFrame} (h : loadRes g = loadRes f) : Sane f → Sane g := by
  simp only [loadRes, Prod.mk.injEq] at h
  intro hs hl
  rw [h.1]
  exact hs (by rw [← h.2.1]; exact hl)

theorem loadRes_loadedOn {s : ScreenPtr} {f g : DKFrame} (h : loadRes g = loadRes f) :
    LoadedOn s f → LoadedOn s g := by
  simp only [loadRes, Prod.mk.injEq] at h
  intro hl
  refine ⟨by rw [h.1]; exact hl.1, by rw [h.2.1]; exact hl.2.1, ?_⟩
  unfold ResOK
  rw [h.2.2]
  exact hl.2.2

/-- Reachability in the other direction: what is reached through arrays that agree on the subtree
is in the subtree. -/
theorem Reach_congr_rev {ch ch' : FramePtr → List FramePtr} {c x : FramePtr}
    (h : Reach ch' c x) : (∀ y, Reach ch c y → ch' y = ch y) → Reach ch c x := by
  induction h with
  | refl _ => intro _; exact Reach.refl _
  | step hy _ ih =>
    intro hsame
    rw [hsame _ (Reach.refl _)] at hy
    exact Reach.step hy (ih (fun z hz => hsame z (Reach.step hy hz)))

/-- The accepting path of AddSubframe: with enough fuel the call returns true; the links are
those set by the two assignments; a receiver that is not loaded leaves it at that; a receiver
loaded on `s` leaves a load-consistent subtree of the new subframe loaded on `s`, and has its
redraw flag set. -/
theorem AddSubframe_accept_core (sqrtf : ℚ → ℚ) (fuel n d : Nat) (w : World) (P F : FramePtr)
    (hsuper : (w.frames F).superframe = none)
    (hchain : ancestorAt w.parent n P = none)
    (hnot : ∀ k, k < n → ancestorAt w.parent k P ≠ some F)
    (hn : n ≤ fuel)
    (hdepth : DepthAtMost w.children d F) (hd : d ≤ fuel)
    (hsub : ¬ Reach w.children F P)
    (hsane : ∀ X, Reach w.children F X → Sane (w.frames X)) :
    ∃ w', AddSubframe sqrtf fuel w P (some F) = some (true, w') ∧
      Keeps links (linkSubframe w P F) w' ∧
      ((w.frames P).loaded = false → w' = linkSubframe w P F) ∧
      (∀ s, (w.frames P).loaded = true → (w.frames P).screen = some s →
        (∀ X, Reach w.children F X → SubtreeOK s w.children w X) →
        (∀ X, Reach w.children F X → LoadedOn s (w'.frames X)) ∧
          (w'.frames P).drawSurface = true) := by
  have hnot' : ∀ k, ancestorAt w.parent k P ≠ some F := by
    intro k
    by_cases hk : k < n
    · exact hnot k hk
    · rw [ancestorAt_none_of_le hchain (by omega)]; simp
  have hdesc := IsDescendantOf_false w F fuel n P hn hchain hnot'
  have hlr := linkSubframe_loadRes w P F
  have hlrP := hlr P
  simp only [loadRes, Prod.mk.injEq] at hlrP
  have hsame : ∀ y, Reach w.children F y → (linkSubframe w P F).children y = w.children y := by
    intro y hy
    rw [linkSubframe_children]
    have : y ≠ P := fun e => hsub (e ▸ hy)
    simp [this]
  have hreach : ∀ X, Reach (linkSubframe w P F).children F X → Reach w.children F X :=
    fun X hX => Reach_congr_rev hX hsame
  have hdepth2 : DepthAtMost (linkSubframe w P F).children d F := DepthAtMost_congr hdepth hsame
  have hsane2 : ∀ X, Reach (linkSubframe w P F).children F X →
      Sane ((linkSubframe w P F).frames X) :=
    fun X hX => loadRes_sane (hlr X) (hsane X (hreach X hX))
  unfold AddSubframe
  simp only [hsuper, if_true, hdesc]
  by_cases hl : (w.frames P).loaded = true
  swap
  · rw [if_neg (by rw [hlrP.2.1]; exact hl)]
    refine ⟨_, rfl, Keeps_refl _ _, fun _ => rfl, fun s hl' => absurd hl' hl⟩
  rw [if_pos (by rw [hlrP.2.1]; exact hl), hlrP.1]
  cases hsc : (w.frames P).screen with
  | none =>
    obtain ⟨w3, h3⟩ := Load_null_total sqrtf ((linkSubframe w P F).frames P).contentResolution
      fuel d (linkSubframe w P F) F hdepth2 hd hsane2
    have k3 := Load_links sqrtf h3
    obtain ⟨w4, h4⟩ := UpdateContentResolution_total sqrtf fuel d w3 F
      (by rw [Keeps_children k3]; exact hdepth2) hd
    have k4 := UpdateContentResolution_links sqrtf h4
    simp only [h3, h4, Option.some_bind]
    refine ⟨_, rfl, Keeps_trans (Keeps_trans k3 k4) (SetRedraw_keeps (π := links) (fun _ _ => rfl) _ _),
      fun hl' => ?_, fun s _ hs => ?_⟩
    · rw [hl] at hl'; cases hl'
    · cases hs
  | some s =>
    obtain ⟨w3, h3, hA3, _, hB3⟩ := Load_spec sqrtf s
      ((linkSubframe w P F).frames P).contentResolution fuel d (linkSubframe w P F) F hdepth2 hd
      hsane2
    have k3 := Load_links sqrtf h3
    obtain ⟨w4, h4⟩ := UpdateContentResolution_total sqrtf fuel d w3 F
      (by rw [Keeps_children k3]; exact hdepth2) hd
    have k4 := UpdateContentResolution_links sqrtf h4
    simp only [h3, h4, Option.some_bind]
    refine ⟨_, rfl, Keeps_trans (Keeps_trans k3 k4) (SetRedraw_keeps (π := links) (fun _ _ => rfl) _ _),
      fun hl' => ?_, fun s' _ hs hok => ?_⟩
    · rw [hl] at hl'; cases hl'
    · cases hs
      have hok2 : ∀ X, Reach (linkSubframe w P F).children F X →
          SubtreeOK s (linkSubframe w P F).children (linkSubframe w P F) X := by
        intro X hX
        have hX' := hreach X hX
        obtain ⟨h1, h2⟩ := hok X hX'
        refine ⟨loadRes_sane (hlr X) h1, fun hs Z hZ => ?_⟩
        have hsX : (w.frames X).screen = some s := by
          have := hlr X
          simp only [loadRes, Prod.mk.injEq] at this
          rw [← this.1]; exact hs
        have hZ' : Reach w.children X Z :=
          Reach_congr_rev hZ (fun y hy => hsame y (Reach_trans hX' hy))
        exact loadRes_loadedOn (hlr Z) (h2 hsX Z hZ')
      have hB3' := hB3 hok2
      have hls4 := UpdateContentResolution_loadState sqrtf h4
      have hp4 := UpdateContentResolution_pres sqrtf _ _ _ _ h4
      refine ⟨fun X hX => ?_, ?_⟩
      · have hX2 : Reach (linkSubframe w P F).children F X := Reach_congr hX hsame
        have h3X := hB3' X hX2
        have h4X : LoadedOn s (w4.frames X) :=
          Outside_loadedOn ⟨hls4 X, hp4 X⟩ h3X
        unfold SetRedraw
        by_cases hXP : X = P
        · subst hXP
          rw [modFrame_frames_same]; exact h4X
        · rw [modFrame_frames_ne _ _ hXP]; exact h4X
      · unfold SetRedraw
        rw [modFrame_frames_same]

/-- C2: for a frame `F` without superframe that is not on the ancestor chain of `P` (the chain
has `n` frames and `F` is none of them), `P.AddSubframe(F)` returns true, and afterwards the
subframe array of `P` is `F` followed by the former array (so `F` is at index 0 and the count is
one more) and the superframe of `F` is `P`; no other subframe array and no other superframe
pointer changes.  The call returns once the fuel covers the chain of `P` and the depth `d` of the
subtree of `F`, in a heap in which `P` is not in the subtree of `F` and loaded frames of that
subtree have a screen. -/
theorem AddSubframe_accepts (sqrtf : ℚ → ℚ) (fuel n d : Nat) (w : World) (P F : FramePtr)
    (hsuper : (w.frames F).superframe = none)
    (hchain : ancestorAt w.parent n P = none)
    (hnot : ∀ k, k < n → ancestorAt w.parent k P ≠ some F)
    (hn : n ≤ fuel)
    (hdepth : DepthAtMost w.children d F) (hd : d ≤ fuel)
    (hsub : P ∉ subtree w.children d F)
    (hsane : ∀ X ∈ subtree w.children d F, Sane (w.frames X)) :
    ∃ w', AddSubframe sqrtf fuel w P (some F) = some (true, w') ∧
      (w'.frames P).subframes = F :: (w.frames P).subframes ∧
      (w'.frames P).subframes[0]? = some F ∧
      (w'.frames P).subframes.length = (w.frames P).subframes.length + 1 ∧
      (w'.frames F).superframe = some P ∧
      (∀ q, q ≠ P → (w'.frames q).subframes = (w.frames q).subframes) ∧
      (∀ q, q ≠ F → (w'.frames q).superframe = (w.frames q).superframe) := by
  obtain ⟨w', h1, h2, _, _⟩ := AddSubframe_accept_core sqrtf fuel n d w P F hsuper hchain hnot hn
    hdepth hd (fun hr => hsub (reach_mem_subtree hdepth hr))
    (fun X hX => hsane X (reach_mem_subtree hdepth hX))
  have hch : ∀ q, (w'.frames q).subframes = if q = P then F :: w.children q else w.children q := by
    intro q
    have := congrFun (Keeps_children h2) q
    rw [linkSubframe_children] at this
    exact this
  have hpar : ∀ q, (w'.frames q).superframe = if q = F then some P else w.parent q := by
    intro q
    have := congrFun (Keeps_parent h2) q
    rw [linkSubframe_parent] at this
    exact this
  have hP : (w'.frames P).subframes = F :: (w.frames P).subframes := by
    rw [hch P]; simp [World.children]
  refine ⟨w', h1, hP, by rw [hP]; simp, by rw [hP]; simp, ?_, ?_, ?_⟩
  · rw [hpar F]; simp
  · intro q hq
    rw [hch q]; simp [hq, World.children]
  · intro q hq
    rw [hpar q]; simp [hq, World.parent]

theorem AddSubframe_accepts_witness :
    ∃ w', AddSubframe exampleSqrt 2 exampleHeap 3 (some 4) = some (true, w') ∧
      (w'.frames 3).subframes = 4 :: (exampleHeap.frames 3).subframes ∧
      (w'.frames 3).subframes[0]? = some 4 ∧
      (w'.frames 3).subframes.length = (exampleHeap.frames 3).subframes.length + 1 ∧
      (w'.frames 4).superframe = some 3 ∧
      (∀ q, q ≠ 3 → (w'.frames q).subframes = (exampleHeap.frames q).subframes) ∧
      (∀ q, q ≠ 4 → (w'.frames q).superframe = (exampleHeap.frames q).superframe) :=
  AddSubframe_accepts exampleSqrt 2 2 2 exampleHeap 3 4 (by decide) (by decide) (by decide)
    (by decide) (by decide) (by decide) (by decide) (by decide)

theorem Unload_idem :
    ∀ (fuel n : Nat) (w : World) (c : FramePtr), DepthAtMost w.children n c → n ≤ fuel →
      (∀ X, Reach w.children c X → Unloaded (w.frames X)) → Unload fuel w c = some w := by
  intro fuel
  induction fuel with
  | zero =>
    intro n w c h hn
    have : n = 0 := by omega
    subst this
    exact absurd h (by simp [DepthAtMost])
  | succ m ih =>
    intro n w c h hn hun
    cases n with
    | zero => exact absurd h (by simp [DepthAtMost])
    | succ n =>
      have hfold : ∀ l : List FramePtr, (∀ x ∈ l, x ∈ w.children c) →
          l.foldlM (fun acc frame => Unload m acc frame) w = some w := by
        intro l
        induction l with
        | nil => intro _; rfl
        | cons x rest ihl =>
          intro hl
          have hx := hl x (List.mem_cons_self _ _)
          rw [List.foldlM_cons, ih n w x (h x hx) (by omega)
            (fun X hX => hun X (Reach.step hx hX))]
          exact ihl (fun y hy => hl y (List.mem_cons_of_mem _ hy))
      obtain ⟨hc1, hc2⟩ := hun c (Reach.refl c)
      unfold Unload
      simp only
      rw [hfold (w.frames c).subframes (fun x hx => hx)]
      simp only [Option.some_bind, hc2, Bool.false_eq_true, if_false, Option.some.injEq]
      cases w with
      | mk frames screens =>
        simp only [World.modFrame, World.mk.injEq, and_true]
        funext q
        by_cases hq : q = c
        · subst hq
          simp only [if_true]
          simp only at hc1 hc2
          cases hf : frames q
          rw [hf] at hc1 hc2
          simp only at hc1 hc2
          simp [hc1, hc2]
        · simp [hq]

theorem Load_skip_unload (sqrtf : ℚ → ℚ) (s : ScreenPtr) (res : DKSize) (m : Nat)
    (w w1 : World) (c : FramePtr) (hne : (w.frames c).screen ≠ some s)
    (h1 : Unload (m + 1) w c = some w1) (h2 : Unload (m + 1) w1 c = some w1)
    (hs1 : (w1.frames c).screen ≠ some s) :
    Load sqrtf (m + 1) w c (some s) res = Load sqrtf (m + 1) w1 c (some s) res := by
  unfold Load
  rw [if_pos hne, if_pos hs1, h1, h2]

/-- Load on a non-null screen `s` of a frame that is not on `s` leaves every frame of its subtree
loaded on `s` with a content resolution of at least 1x1: Unload first clears the whole
subtree. -/
theorem Load_fresh (sqrtf : ℚ → ℚ) (s : ScreenPtr) (res : DKSize) (fuel n : Nat) (w : World)
    (c : FramePtr) (hd : DepthAtMost w.children n c) (hn : n ≤ fuel)
    (hsane : ∀ X, Reach w.children c X → Sane (w.frames X))
    (hne : (w.frames c).screen ≠ some s) :
    ∃ w', Load sqrtf fuel w c (some s) res = some w' ∧
      ∀ X, Reach w.children c X → LoadedOn s (w'.frames X) := by
  obtain ⟨w1, hu, _, hun⟩ := Unload_spec fuel n w c hd hn hsane
  have hch : w1.children = w.children := Keeps_children (Unload_links hu)
  have hd1 : DepthAtMost w1.children n c := by rw [hch]; exact hd
  have hun1 : ∀ X, Reach w1.children c X → Unloaded (w1.frames X) := by
    intro X hX
    rw [hch] at hX
    exact hun X hX
  have hidem := Unload_idem fuel n w1 c hd1 hn hun1
  have hs1 : (w1.frames c).screen ≠ some s := by
    rw [(hun c (Reach.refl c)).1]
    simp
  obtain ⟨w', hl, _, _, hB⟩ := Load_spec sqrtf s res fuel n w1 c hd1 hn
    (fun X hX h => by rw [(hun1 X hX).2] at h; cases h)
  obtain ⟨m, rfl⟩ : ∃ m, fuel = m + 1 := by
    cases fuel with
    | zero => simp [Unload] at hu
    | succ m => exact ⟨m, rfl⟩
  refine ⟨w', ?_, fun X hX => ?_⟩
  · rw [Load_skip_unload sqrtf s res m w w1 c hne hu hidem hs1]
    exact hl
  · apply hB
    · intro Y hY
      refine ⟨fun h => (by rw [(hun1 Y hY).2] at h; cases h), fun hs => ?_⟩
      rw [(hun1 Y hY).1] at hs
      exact absurd hs (by simp)
    · rw [hch]; exact hX

theorem AddSubframe_loaded_unfold (sqrtf : ℚ → ℚ) (fuel : Nat) (w : World) (P F : FramePtr)
    (s : ScreenPtr) (hsuper : (w.frames F).superframe = none)
    (hdesc : IsDescendantOf fuel w P (some F) = some false)
    (hl : (w.frames P).loaded = true) (hs : (w.frames P).screen = some s) :
    AddSubframe sqrtf fuel w P (some F) =
      (Load sqrtf fuel (linkSubframe w P F) F (some s)
        ((linkSubframe w P F).frames P).contentResolution).bind fun w3 =>
          (UpdateContentResolution sqrtf fuel w3 F).bind fun w4 =>
            some (true, SetRedraw w4 P) := by
  have hlrP := linkSubframe_loadRes w P F P
  simp only [loadRes, Prod.mk.injEq] at hlrP
  unfold AddSubframe
  simp only [hsuper, if_true, hdesc]
  rw [if_pos (by rw [hlrP.2.1]; exact hl), hlrP.1, hs]

/-- C6 (amended): when `P.AddSubframe(F)` accepts `F` (hooks do nothing; loaded frames of the
subtree of `F` have a screen), then: if `P` is not loaded, no loaded flag and no screen pointer
changes.  If `P` is loaded on the screen `s`, the redraw flag of `P` is set afterwards, and: when
`F` was not on `s`, `F` and every frame of the subtree `F` had before the call is loaded on `s`,
each with both components of its content resolution at least 1; when `F` was already on `s`, Load
is skipped: no loaded flag and no screen pointer changes, and a content resolution of at least
1x1 stays so. -/
theorem AddSubframe_loads (sqrtf : ℚ → ℚ) (fuel n d : Nat) (w : World) (P F : FramePtr)
    (hsuper : (w.frames F).superframe = none)
    (hchain : ancestorAt w.parent n P = none)
    (hnot : ∀ k, k < n → ancestorAt w.parent k P ≠ some F)
    (hn : n ≤ fuel)
    (hdepth : DepthAtMost w.children d F) (hd : d ≤ fuel)
    (hsub : P ∉ subtree w.children d F)
    (hsane : ∀ X ∈ subtree w.children d F, Sane (w.frames X)) :
    ∃ w', AddSubframe sqrtf fuel w P (some F) = some (true, w') ∧
      ((w.frames P).loaded = false →
        ∀ q, (w'.frames q).loaded = (w.frames q).loaded ∧
          (w'.frames q).screen = (w.frames q).screen) ∧
      (∀ s, (w.frames P).loaded = true → (w.frames P).screen = some s →
        (w'.frames P).drawSurface = true ∧
        ((w.frames F).screen ≠ some s →
          ∀ X ∈ subtree w.children d F,
            (w'.frames X).loaded = true ∧ (w'.frames X).screen = some s ∧
              1 ≤ (w'.frames X).contentResolution.width ∧
              1 ≤ (w'.frames X).contentResolution.height) ∧
        ((w.frames F).screen = some s →
          ∀ q, (w'.frames q).loaded = (w.frames q).loaded ∧
            (w'.frames q).screen = (w.frames q).screen ∧
            (ResOK (w.frames q) → ResOK (w'.frames q)))) := by
  have hsubR : ¬ Reach w.children F P := fun hr => hsub (reach_mem_subtree hdepth hr)
  have hsaneR : ∀ X, Reach w.children F X → Sane (w.frames X) :=
    fun X hX => hsane X (reach_mem_subtree hdepth hX)
  obtain ⟨w', h1, _, h3, _⟩ := AddSubframe_accept_core sqrtf fuel n d w P F hsuper hchain hnot hn
    hdepth hd hsubR hsaneR
  have hlr := linkSubframe_loadRes w P F
  refine ⟨w', h1, ?_, ?_⟩
  · intro hl q
    rw [h3 hl]
    have := hlr q
    simp only [loadRes, Prod.mk.injEq] at this
    exact ⟨this.2.1, this.1⟩
  · intro s hl hs
    have hnot' : ∀ k, ancestorAt w.parent k P ≠ some F := by
      intro k
      by_cases hk : k < n
      · exact hnot k hk
      · rw [ancestorAt_none_of_le hchain (by omega)]; simp
    have hdesc := IsDescendantOf_false w F fuel n P hn hchain hnot'
    have hun := AddSubframe_loaded_unfold sqrtf fuel w P F s hsuper hdesc hl hs
    rw [hun] at h1
    simp only [Option.bind_eq_some, Option.some.injEq, Prod.mk.injEq, true_and] at h1
    obtain ⟨w3, hload, w4, hupd, hw'⟩ := h1
    have hls4 := UpdateContentResolution_loadState sqrtf hupd
    have hp4 := UpdateContentResolution_pres sqrtf _ _ _ _ hupd
    have hsame : ∀ y, Reach w.children F y → (linkSubframe w P F).children y = w.children y := by
      intro y hy
      rw [linkSubframe_children]
      have : y ≠ P := fun e => hsubR (e ▸ hy)
      simp [this]
    have hfin : ∀ q, loadState (w'.frames q) = loadState (w4.frames q) ∧
        (ResOK (w4.frames q) → ResOK (w'.frames q)) := by
      intro q
      rw [← hw']
      unfold SetRedraw
      by_cases hq : q = P
      · subst hq
        rw [modFrame_frames_same]
        exact ⟨rfl, fun h => h⟩
      · rw [modFrame_frames_ne _ _ hq]
        exact ⟨rfl, fun h => h⟩
    refine ⟨?_, ?_, ?_⟩
    · rw [← hw']
      unfold SetRedraw
      rw [modFrame_frames_same]
    · intro hne X hX
      have hXr : Reach w.children F X := mem_subtree_reach hX
      have hne2 : ((linkSubframe w P F).frames F).screen ≠ some s := by
        have := hlr F
        simp only [loadRes, Prod.mk.injEq] at this
        rw [this.1]
        exact hne
      obtain ⟨w3', hload', hL⟩ := Load_fresh sqrtf s
        ((linkSubframe w P F).frames P).contentResolution fuel d (linkSubframe w P F) F
        (DepthAtMost_congr hdepth hsame) hd
        (fun Y hY => loadRes_sane (hlr Y) (hsaneR Y (Reach_congr_rev hY hsame))) hne2
      rw [hload] at hload'
      have e := Option.some.inj hload'
      subst e
      have h3X := hL X (Reach_congr hXr hsame)
      have h4X : LoadedOn s (w4.frames X) := Outside_loadedOn ⟨hls4 X, hp4 X⟩ h3X
      obtain ⟨f1, f2⟩ := hfin X
      simp only [loadState, Prod.mk.injEq] at f1
      have hr := f2 h4X.2.2
      exact ⟨by rw [f1.2]; exact h4X.2.1, by rw [f1.1]; exact h4X.1, hr.1, hr.2⟩
    · intro heq q
      have heq2 : ((linkSubframe w P F).frames F).screen = some s := by
        have := hlr F
        simp only [loadRes, Prod.mk.injEq] at this
        rw [this.1]
        exact heq
      obtain ⟨m, rfl⟩ : ∃ m, fuel = m + 1 := by
        cases fuel with
        | zero => simp [Load] at hload
        | succ m => exact ⟨m, rfl⟩
      unfold Load at hload
      rw [if_neg (by simp [heq2])] at hload
      have e := Option.some.inj hload
      subst e
      obtain ⟨f1, f2⟩ := hfin q
      have g1 := hls4 q
      have g0 := hlr q
      simp only [loadState, loadRes, Prod.mk.injEq] at f1 g1 g0
      refine ⟨by rw [f1.2, g1.2, g0.2.1], by rw [f1.1, g1.1, g0.1], fun hr => ?_⟩
      apply f2
      apply hp4 q
      unfold ResOK at hr ⊢
      rw [g0.2.2]
      exact hr

theorem AddSubframe_loads_witness :
    (exampleHeap.frames 3).loaded = true ∧ (exampleHeap.frames 3).screen = some 0 ∧
      (exampleHeap.frames 4).screen ≠ some 0 ∧
      subtree exampleHeap.children 2 4 = [4, 5] ∧
      ∃ w', AddSubframe exampleSqrt 2 exampleHeap 3 (some 4) = some (true, w') ∧
        (∀ X ∈ subtree exampleHeap.children 2 4,
          (w'.frames X).loaded = true ∧ (w'.frames X).screen = some 0 ∧
            1 ≤ (w'.frames X).contentResolution.width ∧
            1 ≤ (w'.frames X).contentResolution.height) ∧
          (w'.frames 3).drawSurface = true := by
  obtain ⟨w', h1, _, h3⟩ := AddSubframe_loads exampleSqrt 2 2 2 exampleHeap 3 4 (by decide)
    (by decide) (by decide) (by decide) (by decide) (by decide) (by decide) (by decide)
  obtain ⟨a1, a2, _⟩ := h3 0 (by decide) (by decide)
  exact ⟨by decide, by decide, by decide, by decide, w', h1, a2 (by decide), a1⟩

/-! ## Well-formedness of the links -/

theorem ancestorAt_add (par : FramePtr → Option FramePtr) :
    ∀ (a b : Nat) (p : FramePtr),
      ancestorAt par (a + b) p = (ancestorAt par a p).bind (ancestorAt par b) := by
  intro a
  induction a with
  | zero => intro b p; simp [ancestorAt]
  | succ a ih =>
    intro b p
    have : a + 1 + b = (a + b) + 1 := by omega
    rw [this]
    cases hp : par p with
    | none => simp [ancestorAt, hp]
    | some q => simp [ancestorAt, hp, ih]

/-- A chain of superframe links that ends never returns to its first frame. -/
theorem no_return {par : FramePtr → Option FramePtr} {f : FramePtr}
    (h : ∃ n, ancestorAt par n f = none) : ∀ k, 0 < k → ancestorAt par k f ≠ some f := by
  intro k hk hret
  obtain ⟨n, hn⟩ := h
  have hmul : ∀ j, ancestorAt par (j * k) f = some f := by
    intro j
    induction j with
    | zero => simp [ancestorAt]
    | succ j ih =>
      have : (j + 1) * k = j * k + k := by ring
      rw [this, ancestorAt_add, ih]
      exact hret
  have hle : n ≤ n * k := Nat.le_mul_of_pos_right n hk
  have := ancestorAt_none_of_le hn hle
  rw [hmul n] at this
  cases this

theorem WellFormedLinks_of {par : FramePtr → Option FramePtr} {ch : FramePtr → List FramePtr}
    (h1 : ∀ c p, c ∈ ch p ↔ par c = some p) (h2 : ∀ p, (ch p).Nodup)
    (h3 : ∀ p, ∃ n, ancestorAt par n p = none) : WellFormedLinks par ch :=
  { child_iff := h1
    nodup := h2
    one_parent := by
      intro c p q hp hq
      have := ((h1 c p).mp hp).symm.trans ((h1 c q).mp hq)
      exact Option.some.inj this
    chain_ends := h3 }

/-- Well-formedness after the links of AddSubframe are set. -/
theorem wf_add {par : FramePtr → Option FramePtr} {ch : FramePtr → List FramePtr}
    (h : WellFormedLinks par ch) {P F : FramePtr} (hF : par F = none)
    (hnot : ∀ k, ancestorAt par k P ≠ some F) :
    WellFormedLinks (fun q => if q = F then some P else par q)
      (fun q => if q = P then F :: ch q else ch q) := by
  have hFP : F ≠ P := fun e => hnot 0 (by simp [ancestorAt, e])
  have hFch : ∀ p, F ∉ ch p := by
    intro p hp
    rw [h.child_iff, hF] at hp
    cases hp
  apply WellFormedLinks_of
  · intro c p
    by_cases hc : c = F
    · subst hc
      by_cases hp : p = P
      · subst hp; simp
      · simp only [hp, if_false, if_true, Option.some.injEq]
        constructor
        · intro hm; exact absurd hm (hFch p)
        · intro e; exact absurd e.symm hp
    · by_cases hp : p = P
      · subst hp
        simp only [if_true, hc, if_false, List.mem_cons, false_or]
        exact h.child_iff c p
      · simp only [hp, hc, if_false]
        exact h.child_iff c p
  · intro p
    by_cases hp : p = P
    · subst hp
      simp only [if_true]
      exact List.nodup_cons.mpr ⟨hFch p, h.nodup p⟩
    · simp only [hp, if_false]
      exact h.nodup p
  · have step1 : ∀ (n : Nat) (p : FramePtr), ancestorAt par n p = none →
        (∀ k, ancestorAt par k p ≠ some F) →
        ancestorAt (fun q => if q = F then some P else par q) n p = none := by
      intro n
      induction n with
      | zero => intro p hp; simp [ancestorAt] at hp
      | succ n ih =>
        intro p hp hk
        have hpF : p ≠ F := fun e => hk 0 (by simp [ancestorAt, e])
        cases hq : par p with
        | none => exact ancestorAt_succ_of_root (by simp [hpF, hq]) n
        | some q =>
          rw [ancestorAt_succ_of_parent hq] at hp
          rw [ancestorAt_succ_of_parent (q := q) (by simp [hpF, hq])]
          refine ih q hp (fun k hk' => hk (k + 1) ?_)
          rw [ancestorAt_succ_of_parent hq]; exact hk'
    obtain ⟨nP, hnP⟩ := h.chain_ends P
    have hP' := step1 nP P hnP hnot
    have step2 : ∀ (n : Nat) (p : FramePtr), ancestorAt par n p = none →
        ∃ m, ancestorAt (fun q => if q = F then some P else par q) m p = none := by
      intro n
      induction n with
      | zero => intro p hp; simp [ancestorAt] at hp
      | succ n ih =>
        intro p hp
        by_cases hpF : p = F
        · subst hpF
          exact ⟨nP + 1, by rw [ancestorAt_succ_of_parent (q := P) (by simp)]; exact hP'⟩
        · cases hq : par p with
          | none => exact ⟨1, ancestorAt_succ_of_root (by simp [hpF, hq]) 0⟩
          | some q =>
            rw [ancestorAt_succ_of_parent hq] at hp
            obtain ⟨m, hm⟩ := ih q hp
            exact ⟨m + 1, by rw [ancestorAt_succ_of_parent (q := q) (by simp [hpF, hq])]; exact hm⟩
    intro p
    obtain ⟨n, hn⟩ := h.chain_ends p
    exact step2 n p hn

/-- Well-formedness after the links of RemoveSubframe are cut. -/
theorem wf_remove {par : FramePtr → Option FramePtr} {ch : FramePtr → List FramePtr}
    (h : WellFormedLinks par ch) {P F : FramePtr} (hF : par F = some P) :
    WellFormedLinks (fun q => if q = F then none else par q)
      (fun q => if q = P then (ch q).erase F else ch q) := by
  apply WellFormedLinks_of
  · intro c p
    by_cases hc : c = F
    · subst hc
      simp only [if_true]
      constructor
      · intro hm
        exfalso
        by_cases hp : p = P
        · subst hp
          simp only [if_true] at hm
          exact absurd hm (by rw [(h.nodup p).mem_erase_iff]; simp)
        · simp only [hp, if_false] at hm
          rw [h.child_iff, hF] at hm
          exact hp (Option.some.inj hm).symm
      · intro e; cases e
    · simp only [hc, if_false]
      by_cases hp : p = P
      · subst hp
        simp only [if_true]
        rw [(h.nodup p).mem_erase_iff, h.child_iff]
        simp [hc]
      · simp only [hp, if_false]
        exact h.child_iff c p
  · intro p
    by_cases hp : p = P
    · subst hp
      simp only [if_true]
      exact (h.nodup p).erase F
    · simp only [hp, if_false]
      exact h.nodup p
  · have step : ∀ (n : Nat) (p : FramePtr), ancestorAt par n p = none →
        ∃ m, ancestorAt (fun q => if q = F then none else par q) m p = none := by
      intro n
      induction n with
      | zero => intro p hp; simp [ancestorAt] at hp
      | succ n ih =>
        intro p hp
        by_cases hpF : p = F
        · exact ⟨1, ancestorAt_succ_of_root (by simp [hpF]) 0⟩
        · cases hq : par p with
          | none => exact ⟨1, ancestorAt_succ_of_root (by simp [hpF, hq]) 0⟩
          | some q =>
            rw [ancestorAt_succ_of_parent hq] at hp
            obtain ⟨m, hm⟩ := ih q hp
            exact ⟨m + 1, by rw [ancestorAt_succ_of_parent (q := q) (by simp [hpF, hq])]; exact hm⟩
    intro p
    obtain ⟨n, hn⟩ := h.chain_ends p
    exact step n p hn

/-- Well-formedness after the subframe arrays are reordered. -/
theorem wf_perm {par : FramePtr → Option FramePtr} {ch ch' : FramePtr → List FramePtr}
    (h : WellFormedLinks par ch) (hp : ∀ q, (ch' q).Perm (ch q)) : WellFormedLinks par ch' := by
  apply WellFormedLinks_of
  · intro c p
    rw [(hp p).mem_iff]
    exact h.child_iff c p
  · intro p
    rw [(hp p).nodup_iff]
    exact h.nodup p
  · exact h.chain_ends

/-- In a well-formed heap the subtree of `F` holds exactly frames that have `F` on their ancestor
chain: a frame `P` whose chain does not meet `F` is not in the subtree of `F`. -/
theorem Reach_ancestor {w : World} (hw : WellFormed w) {F X : FramePtr}
    (h : Reach w.children F X) : ∃ k, ancestorAt w.parent k X = some F := by
  induction h with
  | refl c => exact ⟨0, rfl⟩
  | step hy _ ih =>
    obtain ⟨k, hk⟩ := ih
    refine ⟨k + 1, ?_⟩
    rw [ancestorAt_add, hk]
    simp [ancestorAt, (hw.child_iff _ _).mp hy]

/-! ## The links after each structural operation -/

theorem modFrame_frames (w : World) (p q : FramePtr) (g : DKFrame → DKFrame) :
    (w.modFrame p g).frames q = if q = p then g (w.frames q) else w.frames q := rfl

theorem unlinkSubframe_children (w : World) (P f : FramePtr) (index : Nat) :
    (unlinkSubframe w P f index).children =
      fun q => if q = P then (w.children q).eraseIdx index else w.children q := by
  funext q
  show ((unlinkSubframe w P f index).frames q).subframes = _
  unfold unlinkSubframe SetRedraw World.children
  simp only [modFrame_frames]
  by_cases hP : q = P
  · subst hP
    by_cases hf : q = f
    · subst hf; simp
    · simp [hf]
  · by_cases hf : q = f
    · subst hf; simp [hP]
    · simp [hP, hf]

theorem unlinkSubframe_parent (w : World) (P f : FramePtr) (index : Nat) :
    (unlinkSubframe w P f index).parent = fun q => if q = f then none else w.parent q := by
  funext q
  show ((unlinkSubframe w P f index).frames q).superframe = _
  unfold unlinkSubframe SetRedraw World.parent
  simp only [modFrame_frames]
  by_cases hP : q = P
  · subst hP
    by_cases hf : q = f
    · subst hf; simp
    · simp [hf]
  · by_cases hf : q = f
    · subst hf; simp [hP]
    · simp [hP, hf]

theorem moveToFront_children (w : World) (P f : FramePtr) (index : Nat) :
    (moveToFront w P f index).children =
      fun q => if q = P then f :: (w.children q).eraseIdx index else w.children q := by
  funext q
  show ((moveToFront w P f index).frames q).subframes = _
  unfold moveToFront SetRedraw World.children
  simp only [modFrame_frames]
  by_cases hP : q = P <;> simp [hP]

theorem moveToFront_parent (w : World) (P f : FramePtr) (index : Nat) :
    (moveToFront w P f index).parent = w.parent := by
  funext q
  show ((moveToFront w P f index).frames q).superframe = _
  unfold moveToFront SetRedraw World.parent
  simp only [modFrame_frames]
  by_cases hP : q = P <;> simp [hP]

theorem moveToBack_children (w : World) (P f : FramePtr) (index : Nat) :
    (moveToBack w P f index).children =
      fun q => if q = P then (w.children q).eraseIdx index ++ [f] else w.children q := by
  funext q
  show ((moveToBack w P f index).frames q).subframes = _
  unfold moveToBack SetRedraw World.children
  simp only [modFrame_frames]
  by_cases hP : q = P <;> simp [hP]

theorem moveToBack_parent (w : World) (P f : FramePtr) (index : Nat) :
    (moveToBack w P f index).parent = w.parent := by
  funext q
  show ((moveToBack w P f index).frames q).superframe = _
  unfold moveToBack SetRedraw World.parent
  simp only [modFrame_frames]
  by_cases hP : q = P <;> simp [hP]

theorem WellFormed_of_frames_eq {w w' : World} (h : w'.frames = w.frames) (hw : WellFormed w) :
    WellFormed w' := by
  unfold WellFormed World.parent World.children at *
  rw [h]; exact hw

/-- RemoveSubframe keeps the heap well-formed. -/
theorem WellFormed_RemoveSubframe {w : World} (hw : WellFormed w) (P : FramePtr)
    (frame : Option FramePtr) : WellFormed (RemoveSubframe w P frame) := by
  unfold RemoveSubframe
  cases frame with
  | none => exact hw
  | some f =>
    simp only
    by_cases hs : (w.frames f).superframe = some P
    swap
    · rw [if_neg hs]; exact hw
    rw [if_pos hs]
    have key : ∀ w1 : World, w1.frames = w.frames →
        WellFormed (match findSubframe (w1.frames P).subframes f with
          | some index => unlinkSubframe w1 P f index
          | none => w1) := by
      intro w1 h1
      have hw1 := WellFormed_of_frames_eq h1 hw
      cases hfind : findSubframe (w1.frames P).subframes f with
      | none => exact hw1
      | some index =>
        simp only
        have herase := (findSubframe_some hfind).2
        unfold WellFormed
        rw [unlinkSubframe_children, unlinkSubframe_parent]
        have hpar : w1.parent f = some P := by
          show (w1.frames f).superframe = some P
          rw [h1]; exact hs
        have := wf_remove hw1 hpar
        have hfun : (fun q => if q = P then (w1.children q).eraseIdx index else w1.children q) =
            (fun q => if q = P then (w1.children q).erase f else w1.children q) := by
          funext q
          by_cases hq : q = P
          · subst hq
            simp only [if_true]
            exact herase
          · simp [hq]
        rw [hfun]
        exact this
    cases (w.frames f).screen with
    | none => exact key w rfl
    | some s => exact key (releaseClaims w s f true) rfl

/-- RemoveFromSuperframe keeps the heap well-formed. -/
theorem WellFormed_RemoveFromSuperframe {w : World} (hw : WellFormed w) (F : FramePtr) :
    WellFormed (RemoveFromSuperframe w F) := by
  unfold RemoveFromSuperframe
  cases (w.frames F).superframe with
  | none => exact hw
  | some sup => exact WellFormed_RemoveSubframe hw sup (some F)

/-- BringSubframeToFront keeps the heap well-formed. -/
theorem WellFormed_BringSubframeToFront {w : World} (hw : WellFormed w) (P : FramePtr)
    (frame : Option FramePtr) : WellFormed (BringSubframeToFront w P frame).2 := by
  unfold BringSubframeToFront
  cases frame with
  | none => exact hw
  | some f =>
    simp only
    split_ifs with hs
    · cases hfind : findSubframe (w.frames P).subframes f with
      | none => exact hw
      | some index =>
        simp only
        split_ifs
        · unfold WellFormed
          rw [moveToFront_children, moveToFront_parent]
          refine wf_perm hw (fun q => ?_)
          by_cases hq : q = P
          · subst hq
            simp only [if_true]
            have h1 := findSubframe_some hfind
            have h2 : (w.children q).eraseIdx index = (w.children q).erase f := h1.2
            rw [h2]
            exact (List.perm_cons_erase (findSubframe_mem hfind)).symm
          · simp [hq]
        · exact hw
    · exact hw

/-- SendSubframeToBack keeps the heap well-formed. -/
theorem WellFormed_SendSubframeToBack {w : World} (hw : WellFormed w) (P : FramePtr)
    (frame : Option FramePtr) : WellFormed (SendSubframeToBack w P frame).2 := by
  unfold SendSubframeToBack
  cases frame with
  | none => exact hw
  | some f =>
    simp only
    split_ifs with hs
    swap
    · exact hw
    have key : ∀ w0 : World, w0.frames = w.frames →
        WellFormed (match findSubframe (w0.frames P).subframes f with
          | some index =>
            if index + 1 < (w0.frames P).subframes.length then (true, moveToBack w0 P f index)
            else (true, w0)
          | none => (false, w0)).2 := by
      intro w0 h0
      have hw0 := WellFormed_of_frames_eq h0 hw
      cases hfind : findSubframe (w0.frames P).subframes f with
      | none => exact hw0
      | some index =>
        simp only
        split_ifs
        · unfold WellFormed
          rw [moveToBack_children, moveToBack_parent]
          refine wf_perm hw0 (fun q => ?_)
          by_cases hq : q = P
          · subst hq
            simp only [if_true]
            have h1 := findSubframe_some hfind
            have h2 : (w0.children q).eraseIdx index = (w0.children q).erase f := h1.2
            rw [h2]
            exact (List.perm_append_singleton f _).trans
              (List.perm_cons_erase (findSubframe_mem hfind)).symm
          · simp [hq]
        · exact hw0
    refine key (leaveHover w P) ?_
    unfold leaveHover
    cases (w.frames P).screen <;> rfl

/-- What AddSubframe did when it returns: nothing, or the two link assignments on a frame without
superframe that is not on the ancestor chain of the receiver, followed by steps that keep the
links. -/
theorem AddSubframe_inv {sqrtf : ℚ → ℚ} {fuel : Nat} {w w' : World} {P : FramePtr}
    {frame : Option FramePtr} {r : Bool}
    (h : AddSubframe sqrtf fuel w P frame = some (r, w')) :
    (r = false ∧ w' = w) ∨
      ∃ f, frame = some f ∧ r = true ∧ (w.frames f).superframe = none ∧
        IsDescendantOf fuel w P (some f) = some false ∧ Keeps links (linkSubframe w P f) w' := by
  unfold AddSubframe at h
  cases frame with
  | none =>
    simp only [Option.some.injEq, Prod.mk.injEq] at h
    exact Or.inl ⟨h.1.symm, h.2.symm⟩
  | some f =>
    simp only at h
    by_cases hs : (w.frames f).superframe = none
    swap
    · rw [if_neg hs] at h
      simp only [Option.some.injEq, Prod.mk.injEq] at h
      exact Or.inl ⟨h.1.symm, h.2.symm⟩
    rw [if_pos hs] at h
    cases hd : IsDescendantOf fuel w P (some f) with
    | none => rw [hd] at h; cases h
    | some b =>
      rw [hd] at h
      cases b with
      | true =>
        simp only [Option.some.injEq, Prod.mk.injEq] at h
        exact Or.inl ⟨h.1.symm, h.2.symm⟩
      | false =>
        simp only at h
        refine Or.inr ⟨f, rfl, ?_, hs, hd, ?_⟩
        · split_ifs at h
          · simp only [Option.bind_eq_some, Option.some.injEq, Prod.mk.injEq] at h
            obtain ⟨_, _, _, _, h5, _⟩ := h
            exact h5.symm
          · simp only [Option.some.injEq, Prod.mk.injEq] at h
            exact h.1.symm
        · split_ifs at h
          · simp only [Option.bind_eq_some, Option.some.injEq, Prod.mk.injEq] at h
            obtain ⟨w3, h3, w4, h4, _, h6⟩ := h
            rw [← h6]
            exact Keeps_trans (Keeps_trans (Load_links sqrtf h3)
              (UpdateContentResolution_links sqrtf h4))
              (SetRedraw_keeps (π := links) (fun _ _ => rfl) _ _)
          · simp only [Option.some.injEq, Prod.mk.injEq] at h
            rw [← h.2]
            exact Keeps_refl _ _

/-- AddSubframe keeps the heap well-formed. -/
theorem WellFormed_AddSubframe {sqrtf : ℚ → ℚ} {fuel : Nat} {w w' : World} {P : FramePtr}
    {frame : Option FramePtr} {r : Bool} (hw : WellFormed w)
    (h : AddSubframe sqrtf fuel w P frame = some (r, w')) : WellFormed w' := by
  rcases AddSubframe_inv h with ⟨_, rfl⟩ | ⟨f, _, _, hs, hd, hk⟩
  · exact hw
  · obtain ⟨_, hnot⟩ := IsDescendantOf_false_inv w f fuel P hd
    unfold WellFormed
    rw [Keeps_children hk, Keeps_parent hk, linkSubframe_children, linkSubframe_parent]
    exact wf_add hw hs hnot

/-! ## The structural operations keep the tree well-formed -/

theorem Reachable_WellFormed {sqrtf : ℚ → ℚ} {w : World} (h : Reachable sqrtf w) :
    WellFormed w := by
  induction h with
  | start w hfresh =>
    apply WellFormedLinks_of
    · intro c p
      simp [World.children, World.parent, (hfresh p).2, (hfresh c).1]
    · intro p
      simp [World.children, (hfresh p).2]
    · intro p
      exact ⟨1, ancestorAt_succ_of_root (by simp [World.parent, (hfresh p).1]) 0⟩
  | add fuel this frame r _ hadd ih => exact WellFormed_AddSubframe ih hadd
  | remove this frame _ ih => exact WellFormed_RemoveSubframe ih this frame
  | removeFromSuper this _ ih => exact WellFormed_RemoveFromSuperframe ih this
  | toFront this frame _ ih => exact WellFormed_BringSubframeToFront ih this frame
  | toBack this frame _ ih => exact WellFormed_SendSubframeToBack ih this frame

/-- C3: in every heap obtained from unlinked frames by AddSubframe, RemoveSubframe,
RemoveFromSuperframe, BringSubframeToFront and SendSubframeToBack, a frame `c` is in the subframe
array of `p` exactly when the superframe of `c` is `p`, no subframe array holds a frame twice, no
frame is in two subframe arrays, and following superframe links from a frame never returns to
that frame. -/
theorem structural_operations_keep_tree (sqrtf : ℚ → ℚ) (w : World) (h : Reachable sqrtf w) :
    (∀ c p, c ∈ (w.frames p).subframes ↔ (w.frames c).superframe = some p) ∧
      (∀ p, (w.frames p).subframes.Nodup) ∧
      (∀ c p q, c ∈ (w.frames p).subframes → c ∈ (w.frames q).subframes → p = q) ∧
      (∀ f n, 0 < n → ancestorAt w.parent n f ≠ some f) := by
  have hw := Reachable_WellFormed h
  exact ⟨hw.child_iff, hw.nodup, hw.one_parent, fun f n hn => no_return (hw.chain_ends f) n hn⟩

theorem structural_operations_keep_tree_witness :
    (exampleReached.frames 0).subframes = [1, 2] ∧
      (∀ c p, c ∈ (exampleReached.frames p).subframes ↔
        (exampleReached.frames c).superframe = some p) ∧
      (∀ p, (exampleReached.frames p).subframes.Nodup) ∧
      (∀ c p q, c ∈ (exampleReached.frames p).subframes →
        c ∈ (exampleReached.frames q).subframes → p = q) ∧
      (∀ f n, 0 < n → ancestorAt exampleReached.parent n f ≠ some f) :=
  ⟨by decide,
    structural_operations_keep_tree exampleSqrt exampleReached
      (Reachable.toFront 0 (some 1)
        (Reachable.add 1 0 (some 2) true
          (Reachable.add 1 0 (some 1) true
            (Reachable.start World.fresh (fun _ => ⟨rfl, rfl⟩)) rfl) rfl))⟩

/-! ## RemoveSubframe -/

theorem RemoveSubframe_found {w : World} {P F : FramePtr} {i : Nat}
    (hs : (w.frames F).superframe = some P)
    (hfind : findSubframe (w.frames P).subframes F = some i) :
    RemoveSubframe w P (some F) =
      unlinkSubframe (match (w.frames F).screen with
        | some s => releaseClaims w s F true
        | none => w) P F i := by
  unfold RemoveSubframe
  simp only [hs, if_true]
  cases (w.frames F).screen with
  | none => simp only [hfind]
  | some s => simp only [releaseClaims_frames, hfind]

theorem unlinkSubframe_surfaceState (w : World) (P F : FramePtr) (i : Nat) :
    Keeps surfaceState w (unlinkSubframe w P F i) :=
  Keeps_trans (Keeps_trans
    (Keeps_modFrame (π := surfaceState) w F (fun g => { g with superframe := none })
      (fun _ => rfl))
    (Keeps_modFrame (π := surfaceState) _ P
      (fun g => { g with subframes := g.subframes.eraseIdx i }) (fun _ => rfl)))
    (SetRedraw_keeps (π := surfaceState) (fun _ _ => rfl) _ P)

theorem RemoveSubframe_surfaceState (w : World) (P : FramePtr) (frame : Option FramePtr) :
    Keeps surfaceState w (RemoveSubframe w P frame) := by
  unfold RemoveSubframe
  cases frame with
  | none => exact Keeps_refl _ _
  | some f =>
    simp only
    split_ifs
    swap
    · exact Keeps_refl _ _
    have key : ∀ w1 : World, w1.frames = w.frames →
        Keeps surfaceState w (match findSubframe (w1.frames P).subframes f with
          | some index => unlinkSubframe w1 P f index
          | none => w1) := by
      intro w1 h1
      have k1 : Keeps surfaceState w w1 := Keeps_of_frames_eq h1
      cases findSubframe (w1.frames P).subframes f with
      | none => exact k1
      | some index => exact Keeps_trans k1 (unlinkSubframe_surfaceState w1 P f index)
    cases (w.frames f).screen with
    | none => exact key w rfl
    | some s => exact key (releaseClaims w s f true) rfl

/-- C4: `P.RemoveSubframe(F)` leaves the whole heap as it was when `F` is null or the superframe
of `F` is not `P`.  When the superframe of `F` is `P` (and, as in a well-formed tree, `F` is in the
subframe array of `P`, which holds no frame twice), afterwards `F` is absent from the array, the
array is the former one without `F` (the others in their former order), the superframe of `F` is
null, the redraw flag of `P` is set, and the other frames are as they were. -/
theorem RemoveSubframe_spec (w : World) (P : FramePtr) (frame : Option FramePtr) :
    ((frame = none ∨ ∃ f, frame = some f ∧ (w.frames f).superframe ≠ some P) →
        RemoveSubframe w P frame = w) ∧
      (∀ F, frame = some F → (w.frames F).superframe = some P →
        F ∈ (w.frames P).subframes → (w.frames P).subframes.Nodup →
        F ∉ ((RemoveSubframe w P frame).frames P).subframes ∧
          ((RemoveSubframe w P frame).frames P).subframes =
            (w.frames P).subframes.filter (fun c => decide (c ≠ F)) ∧
          ((RemoveSubframe w P frame).frames F).superframe = none ∧
          ((RemoveSubframe w P frame).frames P).drawSurface = true ∧
          ∀ q, q ≠ P → q ≠ F → (RemoveSubframe w P frame).frames q = w.frames q) := by
  constructor
  · rintro (rfl | ⟨f, rfl, hf⟩)
    · rfl
    · unfold RemoveSubframe
      simp only [hf, if_false]
  · rintro F rfl hs hmem hnd
    cases hfind : findSubframe (w.frames P).subframes F with
    | none => exact absurd hmem (findSubframe_none.mp hfind)
    | some i =>
      rw [RemoveSubframe_found hs hfind]
      have herase := (findSubframe_some hfind).2
      have hframes : (match (w.frames F).screen with
          | some s => releaseClaims w s F true
          | none => w).frames = w.frames := by
        cases (w.frames F).screen <;> rfl
      generalize (match (w.frames F).screen with
          | some s => releaseClaims w s F true
          | none => w) = w1 at hframes ⊢
      have hch : ((unlinkSubframe w1 P F i).frames P).subframes = (w.frames P).subframes.erase F := by
        have := congrFun (unlinkSubframe_children w1 P F i) P
        simp only [World.children, if_true] at this
        rw [this, hframes, herase]
      have hpar : ((unlinkSubframe w1 P F i).frames F).superframe = none := by
        have := congrFun (unlinkSubframe_parent w1 P F i) F
        simp only [World.parent, if_true] at this
        exact this
      refine ⟨?_, ?_, hpar, ?_, ?_⟩
      · rw [hch, hnd.mem_erase_iff]; simp
      · rw [hch, erase_eq_filter_ne hnd]
      · unfold unlinkSubframe SetRedraw
        rw [modFrame_frames_same]
      · intro q hqP hqF
        unfold unlinkSubframe SetRedraw
        simp only
        rw [modFrame_frames_ne _ _ hqP, modFrame_frames_ne _ _ hqP, modFrame_frames_ne _ _ hqF,
          hframes]

theorem RemoveSubframe_spec_witness :
    RemoveSubframe exampleHeap 3 (some 1) = exampleHeap ∧
      1 ∉ ((RemoveSubframe exampleHeap 0 (some 1)).frames 0).subframes ∧
      ((RemoveSubframe exampleHeap 0 (some 1)).frames 0).subframes =
        (exampleHeap.frames 0).subframes.filter (fun c => decide (c ≠ 1)) ∧
      ((RemoveSubframe exampleHeap 0 (some 1)).frames 1).superframe = none ∧
      ((RemoveSubframe exampleHeap 0 (some 1)).frames 0).drawSurface = true ∧
      ∀ q, q ≠ 0 → q ≠ 1 → (RemoveSubframe exampleHeap 0 (some 1)).frames q =
        exampleHeap.frames q :=
  ⟨(RemoveSubframe_spec exampleHeap 3 (some 1)).1 (Or.inr ⟨1, rfl, by decide⟩),
    (RemoveSubframe_spec exampleHeap 0 (some 1)).2 1 rfl (by decide) (by decide) (by decide)⟩

/-- C5 fails as stated: in the example heap the loaded frame 1 is a subframe of the loaded
frame 0, and after `0.RemoveSubframe(1)` frame 1 is still loaded, still points to screen 0 and
still holds its render target; frame 2 below it is still loaded too. -/
theorem RemoveSubframe_unloads_counterexample :
    (exampleHeap.frames 0).loaded = true ∧ (exampleHeap.frames 1).loaded = true ∧
      (exampleHeap.frames 1).superframe = some 0 ∧ 1 ∈ (exampleHeap.frames 0).subframes ∧
      ((RemoveSubframe exampleHeap 0 (some 1)).frames 1).loaded = true ∧
      ((RemoveSubframe exampleHeap 0 (some 1)).frames 1).screen = some 0 ∧
      ((RemoveSubframe exampleHeap 0 (some 1)).frames 1).renderTarget = some 7 ∧
      ((RemoveSubframe exampleHeap 0 (some 1)).frames 2).loaded = true ∧
      ((RemoveFromSuperframe exampleHeap 1).frames 1).loaded = true := by
  decide

/-- C5, amended: RemoveSubframe and RemoveFromSuperframe change no loaded flag, no screen pointer
and no render target: the removed frame and every frame of its subtree keep their load state and
their cached surface.  Hence a heap in which only loaded frames hold a render target is still
such a heap after a removal. -/
theorem RemoveSubframe_keeps_load_state (w : World) (P F : FramePtr) (frame : Option FramePtr) :
    (∀ q, ((RemoveSubframe w P frame).frames q).loaded = (w.frames q).loaded ∧
        ((RemoveSubframe w P frame).frames q).screen = (w.frames q).screen ∧
        ((RemoveSubframe w P frame).frames q).renderTarget = (w.frames q).renderTarget) ∧
      (∀ q, ((RemoveFromSuperframe w F).frames q).loaded = (w.frames q).loaded ∧
        ((RemoveFromSuperframe w F).frames q).screen = (w.frames q).screen ∧
        ((RemoveFromSuperframe w F).frames q).renderTarget = (w.frames q).renderTarget) ∧
      ((∀ q, (w.frames q).renderTarget ≠ none → (w.frames q).loaded = true) →
        ∀ q, ((RemoveSubframe w P frame).frames q).renderTarget ≠ none →
          ((RemoveSubframe w P frame).frames q).loaded = true) := by
  have h1 : ∀ (P : FramePtr) (frame : Option FramePtr) (q : FramePtr),
      ((RemoveSubframe w P frame).frames q).loaded = (w.frames q).loaded ∧
        ((RemoveSubframe w P frame).frames q).screen = (w.frames q).screen ∧
        ((RemoveSubframe w P frame).frames q).renderTarget = (w.frames q).renderTarget := by
    intro P frame q
    have := RemoveSubframe_surfaceState w P frame q
    simp only [surfaceState, Prod.mk.injEq] at this
    exact this
  refine ⟨h1 P frame, ?_, ?_⟩
  · intro q
    unfold RemoveFromSuperframe
    cases (w.frames F).superframe with
    | none => exact ⟨rfl, rfl, rfl⟩
    | some sup => exact h1 sup (some F) q
  · intro hinv q hq
    obtain ⟨a, _, c⟩ := h1 P frame q
    rw [a]
    exact hinv q (by rw [← c]; exact hq)

/-! ## BringSubframeToFront and SendSubframeToBack -/

theorem World_ext {a b : World} (h1 : a.frames = b.frames) (h2 : a.screens = b.screens) :
    a = b := by
  cases a; cases b
  simp only at h1 h2
  subst h1; subst h2
  rfl

theorem moveToFront_frames_ne (w : World) {P q : FramePtr} (f : FramePtr) (i : Nat)
    (h : q ≠ P) : (moveToFront w P f i).frames q = w.frames q := by
  unfold moveToFront SetRedraw
  simp only
  rw [modFrame_frames_ne _ _ h, modFrame_frames_ne _ _ h, modFrame_frames_ne _ _ h]

theorem moveToBack_frames_ne (w : World) {P q : FramePtr} (f : FramePtr) (i : Nat)
    (h : q ≠ P) : (moveToBack w P f i).frames q = w.frames q := by
  unfold moveToBack SetRedraw
  simp only
  rw [modFrame_frames_ne _ _ h, modFrame_frames_ne _ _ h, modFrame_frames_ne _ _ h]

/-- C7: for a subframe `F` of `P` at index `i` of the subframe array `L` (which holds no frame
twice), `P.BringSubframeToFront(F)` returns true and leaves the array equal to `F` followed by
`L` without `F`; the call sets the redraw flag of `P` when `i > 0` and changes nothing at all
when `i = 0`; a second call returns true and changes nothing more; the other frames and the
screens are as they were.  For a null frame, a frame whose superframe is not `P`, or a frame that
is not in the array, the call returns false and changes nothing. -/
theorem BringSubframeToFront_spec (w : World) (P F : FramePtr) (i : Nat)
    (hsuper : (w.frames F).superframe = some P)
    (hidx : (w.frames P).subframes[i]? = some F)
    (hnodup : (w.frames P).subframes.Nodup) :
    (BringSubframeToFront w P (some F)).1 = true ∧
      ((BringSubframeToFront w P (some F)).2.frames P).subframes =
        F :: (w.frames P).subframes.eraseIdx i ∧
      ((BringSubframeToFront w P (some F)).2.frames P).subframes =
        F :: (w.frames P).subframes.filter (fun c => decide (c ≠ F)) ∧
      (0 < i → ((BringSubframeToFront w P (some F)).2.frames P).drawSurface = true) ∧
      (i = 0 → (BringSubframeToFront w P (some F)).2 = w) ∧
      BringSubframeToFront (BringSubframeToFront w P (some F)).2 P (some F) =
        (true, (BringSubframeToFront w P (some F)).2) ∧
      (∀ q, q ≠ P → (BringSubframeToFront w P (some F)).2.frames q = w.frames q) ∧
      (BringSubframeToFront w P (some F)).2.screens = w.screens ∧
      (∀ frame, (frame = none ∨ ∃ f, frame = some f ∧
          ((w.frames f).superframe ≠ some P ∨ f ∉ (w.frames P).subframes)) →
        BringSubframeToFront w P frame = (false, w)) := by
  have hfind := findSubframe_of_getElem? hnodup hidx
  have herase := (findSubframe_some hfind).2
  have hfilter := erase_eq_filter_ne hnodup F
  have hfail : ∀ frame, (frame = none ∨ ∃ f, frame = some f ∧
      ((w.frames f).superframe ≠ some P ∨ f ∉ (w.frames P).subframes)) →
      BringSubframeToFront w P frame = (false, w) := by
    rintro frame (rfl | ⟨f, rfl, hf | hf⟩)
    · rfl
    · unfold BringSubframeToFront
      simp only [hf, if_false]
    · unfold BringSubframeToFront
      simp only [findSubframe_none.mpr hf]
      split_ifs <;> rfl
  by_cases hi : i = 0
  · subst hi
    have hr : BringSubframeToFront w P (some F) = (true, w) := by
      unfold BringSubframeToFront
      simp [hsuper, hfind]
    rw [hr]
    have hhead : (w.frames P).subframes = F :: (w.frames P).subframes.eraseIdx 0 := by
      cases hL : (w.frames P).subframes with
      | nil => rw [hL] at hidx; simp at hidx
      | cons x rest =>
        rw [hL] at hidx
        simp only [List.getElem?_cons_zero, Option.some.injEq] at hidx
        simp [hidx]
    refine ⟨rfl, hhead, ?_, fun h => absurd h (by omega), fun _ => rfl, hr, fun _ _ => rfl, rfl,
      hfail⟩
    rw [← hfilter, ← herase]; exact hhead
  · have hpos : 0 < i := Nat.pos_of_ne_zero hi
    have hr : BringSubframeToFront w P (some F) = (true, moveToFront w P F i) := by
      unfold BringSubframeToFront
      simp [hsuper, hfind, hpos]
    rw [hr]
    have hch : ((moveToFront w P F i).frames P).subframes =
        F :: (w.frames P).subframes.eraseIdx i := by
      have := congrFun (moveToFront_children w P F i) P
      simp only [World.children, if_true] at this
      exact this
    have hpar : ((moveToFront w P F i).frames F).superframe = some P := by
      have := congrFun (moveToFront_parent w P F i) F
      simp only [World.parent] at this
      rw [this]; exact hsuper
    refine ⟨rfl, hch, ?_, ?_, fun h => absurd h hi, ?_, ?_, rfl, hfail⟩
    · rw [hch, herase, hfilter]
    · intro _
      unfold moveToFront SetRedraw
      rw [modFrame_frames_same]
    · show BringSubframeToFront (moveToFront w P F i) P (some F) = (true, moveToFront w P F i)
      unfold BringSubframeToFront
      simp only [hpar, if_true, hch, findSubframe_head]
      simp
    · intro q hq
      exact moveToFront_frames_ne w F i hq

theorem BringSubframeToFront_spec_witness :
    (exampleHeap.frames 0).subframes = [1, 3] ∧
      (BringSubframeToFront exampleHeap 0 (some 3)).1 = true ∧
      ((BringSubframeToFront exampleHeap 0 (some 3)).2.frames 0).subframes =
        3 :: (exampleHeap.frames 0).subframes.eraseIdx 1 ∧
      ((BringSubframeToFront exampleHeap 0 (some 3)).2.frames 0).subframes =
        3 :: (exampleHeap.frames 0).subframes.filter (fun c => decide (c ≠ 3)) ∧
      (0 < 1 → ((BringSubframeToFront exampleHeap 0 (some 3)).2.frames 0).drawSurface = true) ∧
      (1 = 0 → (BringSubframeToFront exampleHeap 0 (some 3)).2 = exampleHeap) ∧
      BringSubframeToFront (BringSubframeToFront exampleHeap 0 (some 3)).2 0 (some 3) =
        (true, (BringSubframeToFront exampleHeap 0 (some 3)).2) ∧
      (∀ q, q ≠ 0 → (BringSubframeToFront exampleHeap 0 (some 3)).2.frames q =
        exampleHeap.frames q) ∧
      (BringSubframeToFront exampleHeap 0 (some 3)).2.screens = exampleHeap.screens ∧
      (∀ frame, (frame = none ∨ ∃ f, frame = some f ∧
          ((exampleHeap.frames f).superframe ≠ some 0 ∨ f ∉ (exampleHeap.frames 0).subframes)) →
        BringSubframeToFront exampleHeap 0 frame = (false, exampleHeap)) :=
  ⟨by decide, BringSubframeToFront_spec exampleHeap 0 3 1 (by decide) (by decide) (by decide)⟩

theorem leaveHover_frames (w : World) (P : FramePtr) : (leaveHover w P).frames = w.frames := by
  unfold leaveHover
  cases (w.frames P).screen <;> rfl

theorem removeClaims_idem (t : DeviceId → Option FramePtr) (f : FramePtr) :
    removeClaims (removeClaims t f) f = removeClaims t f := by
  funext d
  unfold removeClaims
  by_cases h : t d = some f
  · simp [h]
  · simp [h]

/-- Leaving the hover table a second time changes nothing. -/
theorem leaveHover_again {w a : World} {P : FramePtr}
    (hs : (a.frames P).screen = (w.frames P).screen)
    (hsc : a.screens = (leaveHover w P).screens) : leaveHover a P = a := by
  apply World_ext
  · exact leaveHover_frames a P
  · unfold leaveHover at hsc ⊢
    rw [hs]
    cases hscr : (w.frames P).screen with
    | none => rfl
    | some s =>
      rw [hscr] at hsc
      simp only at hsc ⊢
      funext t
      unfold World.modScreen at hsc ⊢
      simp only at hsc ⊢
      rw [hsc]
      by_cases ht : t = s
      · simp only [ht, if_true]
        unfold DKScreen.LeaveHoverFrame
        simp only [removeClaims_idem]
      · simp only [ht, if_false]

theorem eraseIdx_last_append {f : FramePtr} :
    ∀ {l : List FramePtr} {i : Nat}, l[i]? = some f → i + 1 = l.length →
      l.eraseIdx i ++ [f] = l := by
  intro l
  induction l with
  | nil => intro i h; simp at h
  | cons x rest ih =>
    intro i h hlen
    cases i with
    | zero =>
      simp only [List.getElem?_cons_zero, Option.some.injEq] at h
      simp only [List.length_cons] at hlen
      have : rest = [] := List.length_eq_zero.mp (by omega)
      subst this
      simp [h]
    | succ j =>
      rw [List.getElem?_cons_succ] at h
      simp only [List.length_cons] at hlen
      rw [List.eraseIdx_cons_succ, List.cons_append, ih h (by omega)]

/-- C8: for a subframe `F` of `P` at index `i` of the subframe array `L` (which holds no frame
twice), `P.SendSubframeToBack(F)` returns true and leaves the array equal to `L` without `F`
followed by `F`; the call sets the redraw flag of `P` when `i + 1 < n`, `n` the length of `L`,
and leaves every frame (arrays and redraw flags included) as it was when `F` is the last one; a
second call returns true and changes nothing more; the other frames are as they were, and of the
screens only the hover table of the screen of `P` is visited (`LeaveHoverFrame(P)`).  For a null
frame or a frame whose superframe is not `P` the call returns false and changes nothing; for a
frame that is not in the array it returns false and leaves every frame as it was. -/
theorem SendSubframeToBack_spec (w : World) (P F : FramePtr) (i : Nat)
    (hsuper : (w.frames F).superframe = some P)
    (hidx : (w.frames P).subframes[i]? = some F)
    (hnodup : (w.frames P).subframes.Nodup) :
    (SendSubframeToBack w P (some F)).1 = true ∧
      ((SendSubframeToBack w P (some F)).2.frames P).subframes =
        (w.frames P).subframes.eraseIdx i ++ [F] ∧
      ((SendSubframeToBack w P (some F)).2.frames P).subframes =
        (w.frames P).subframes.filter (fun c => decide (c ≠ F)) ++ [F] ∧
      (i + 1 < (w.frames P).subframes.length →
        ((SendSubframeToBack w P (some F)).2.frames P).drawSurface = true) ∧
      (i + 1 = (w.frames P).subframes.length →
        (SendSubframeToBack w P (some F)).2.frames = w.frames) ∧
      SendSubframeToBack (SendSubframeToBack w P (some F)).2 P (some F) =
        (true, (SendSubframeToBack w P (some F)).2) ∧
      (∀ q, q ≠ P → (SendSubframeToBack w P (some F)).2.frames q = w.frames q) ∧
      (SendSubframeToBack w P (some F)).2.screens = (leaveHover w P).screens ∧
      (∀ frame, (frame = none ∨ ∃ f, frame = some f ∧ (w.frames f).superframe ≠ some P) →
        SendSubframeToBack w P frame = (false, w)) ∧
      (∀ f, f ∉ (w.frames P).subframes →
        (SendSubframeToBack w P (some f)).1 = false ∧
          (SendSubframeToBack w P (some f)).2.frames = w.frames) := by
  have hfr := leaveHover_frames w P
  have hfind : findSubframe ((leaveHover w P).frames P).subframes F = some i := by
    rw [hfr]; exact findSubframe_of_getElem? hnodup hidx
  have herase : (w.frames P).subframes.eraseIdx i = (w.frames P).subframes.erase F :=
    (findSubframe_some (findSubframe_of_getElem? hnodup hidx)).2
  have hfilter := erase_eq_filter_ne hnodup F
  have hlt : i < (w.frames P).subframes.length := by
    obtain ⟨h, _⟩ := List.getElem?_eq_some.mp hidx
    exact h
  have hfail1 : ∀ frame, (frame = none ∨ ∃ f, frame = some f ∧
      (w.frames f).superframe ≠ some P) → SendSubframeToBack w P frame = (false, w) := by
    rintro frame (rfl | ⟨f, rfl, hf⟩)
    · rfl
    · unfold SendSubframeToBack
      simp only [hf, if_false]
  have hfail2 : ∀ f, f ∉ (w.frames P).subframes →
      (SendSubframeToBack w P (some f)).1 = false ∧
        (SendSubframeToBack w P (some f)).2.frames = w.frames := by
    intro f hf
    unfold SendSubframeToBack
    simp only [hfr, findSubframe_none.mpr hf]
    split_ifs
    · exact ⟨rfl, hfr⟩
    · exact ⟨rfl, rfl⟩
  by_cases hlast : i + 1 < (w.frames P).subframes.length
  · have hr : SendSubframeToBack w P (some F) = (true, moveToBack (leaveHover w P) P F i) := by
      unfold SendSubframeToBack
      simp only [hsuper, if_true, hfind]
      rw [if_pos (by rw [hfr]; exact hlast)]
    rw [hr]
    have hch : ((moveToBack (leaveHover w P) P F i).frames P).subframes =
        (w.frames P).subframes.eraseIdx i ++ [F] := by
      have := congrFun (moveToBack_children (leaveHover w P) P F i) P
      simp only [World.children, if_true] at this
      rw [this, hfr]
    have hpar : ((moveToBack (leaveHover w P) P F i).frames F).superframe = some P := by
      have := congrFun (moveToBack_parent (leaveHover w P) P F i) F
      simp only [World.parent] at this
      rw [this, hfr]; exact hsuper
    have hscr : ((moveToBack (leaveHover w P) P F i).frames P).screen = (w.frames P).screen := by
      unfold moveToBack SetRedraw
      simp only [modFrame_frames_same]
      rw [hfr]
    have hagain : leaveHover (moveToBack (leaveHover w P) P F i) P =
        moveToBack (leaveHover w P) P F i := leaveHover_again hscr rfl
    have hnot : F ∉ (w.frames P).subframes.eraseIdx i := by
      rw [herase, hnodup.mem_erase_iff]; simp
    refine ⟨rfl, hch, ?_, ?_, fun h => absurd h (by omega), ?_, ?_, rfl, hfail1, hfail2⟩
    · rw [hch, herase, hfilter]
    · intro _
      unfold moveToBack SetRedraw
      rw [modFrame_frames_same]
    · show SendSubframeToBack (moveToBack (leaveHover w P) P F i) P (some F) =
        (true, moveToBack (leaveHover w P) P F i)
      unfold SendSubframeToBack
      simp only [hpar, if_true, hagain, hch, findSubframe_last hnot]
      simp
    · intro q hq
      show (moveToBack (leaveHover w P) P F i).frames q = w.frames q
      rw [moveToBack_frames_ne _ F i hq, hfr]
  · have hend : i + 1 = (w.frames P).subframes.length := by omega
    have hr : SendSubframeToBack w P (some F) = (true, leaveHover w P) := by
      unfold SendSubframeToBack
      simp only [hsuper, if_true, hfind]
      rw [if_neg (by rw [hfr]; exact hlast)]
    rw [hr]
    have hsame := eraseIdx_last_append hidx hend
    have hagain : leaveHover (leaveHover w P) P = leaveHover w P :=
      leaveHover_again (by rw [hfr]) rfl
    refine ⟨rfl, ?_, ?_, fun h => absurd h hlast, fun _ => hfr, ?_, ?_, rfl, hfail1, hfail2⟩
    · show ((leaveHover w P).frames P).subframes = _
      rw [hfr, hsame]
    · show ((leaveHover w P).frames P).subframes = _
      rw [hfr, ← hfilter, ← herase, hsame]
    · show SendSubframeToBack (leaveHover w P) P (some F) = (true, leaveHover w P)
      unfold SendSubframeToBack
      rw [hfr] at hfind
      simp only [hfr, hsuper, if_true, hagain, hfind]
      rw [if_neg hlast]
    · intro q _
      show (leaveHover w P).frames q = w.frames q
      rw [hfr]

theorem SendSubframeToBack_spec_witness :
    (exampleHeap.frames 0).subframes = [1, 3] ∧
      (SendSubframeToBack exampleHeap 0 (some 1)).1 = true ∧
      ((SendSubframeToBack exampleHeap 0 (some 1)).2.frames 0).subframes =
        (exampleHeap.frames 0).subframes.eraseIdx 0 ++ [1] ∧
      ((SendSubframeToBack exampleHeap 0 (some 1)).2.frames 0).subframes =
        (exampleHeap.frames 0).subframes.filter (fun c => decide (c ≠ 1)) ++ [1] ∧
      (0 + 1 < (exampleHeap.frames 0).subframes.length →
        ((SendSubframeToBack exampleHeap 0 (some 1)).2.frames 0).drawSurface = true) ∧
      (0 + 1 = (exampleHeap.frames 0).subframes.length →
        (SendSubframeToBack exampleHeap 0 (some 1)).2.frames = exampleHeap.frames) ∧
      SendSubframeToBack (SendSubframeToBack exampleHeap 0 (some 1)).2 0 (some 1) =
        (true, (SendSubframeToBack exampleHeap 0 (some 1)).2) ∧
      (∀ q, q ≠ 0 → (SendSubframeToBack exampleHeap 0 (some 1)).2.frames q =
        exampleHeap.frames q) ∧
      (SendSubframeToBack exampleHeap 0 (some 1)).2.screens = (leaveHover exampleHeap 0).screens ∧
      (∀ frame, (frame = none ∨ ∃ f, frame = some f ∧
          (exampleHeap.frames f).superframe ≠ some 0) →
        SendSubframeToBack exampleHeap 0 frame = (false, exampleHeap)) ∧
      (∀ f, f ∉ (exampleHeap.frames 0).subframes →
        (SendSubframeToBack exampleHeap 0 (some f)).1 = false ∧
          (SendSubframeToBack exampleHeap 0 (some f)).2.frames = exampleHeap.frames) :=
  ⟨by decide, SendSubframeToBack_spec exampleHeap 0 1 0 (by decide) (by decide) (by decide)⟩

/-! ## The claims released by RemoveSubframe -/

theorem releaseClaims_screens (w : World) (s : ScreenPtr) (f : FramePtr) (n : Bool)
    (t : ScreenPtr) :
    (releaseClaims w s f n).screens t =
      if t = s then
        { rootFrame := (w.screens t).rootFrame
          resolution := (w.screens t).resolution
          hoverFrames := removeClaims (w.screens t).hoverFrames f
          focusFrames := removeClaims (w.screens t).focusFrames f
          keyFrames := removeClaims (w.screens t).keyFrames f }
      else w.screens t := by
  unfold releaseClaims World.modScreen DKScreen.LeaveHoverFrame
    DKScreen.RemoveFocusFrameForAnyDevices DKScreen.RemoveKeyFrameForAnyDevices
  by_cases h : t = s
  · simp [h]
  · simp [h]

/-- C10: with `sw = max(s.width, minimumScaleFactor)` and `sh = max(s.height,
minimumScaleFactor)`, for a positive minimumScaleFactor: if `|sw - cw| < FLT_EPSILON` and
`|sh - ch| < FLT_EPSILON`, `SetContentScale(s)` leaves the heap (content scale and redraw flag
included) as it was; otherwise the content scale becomes exactly `(sw, sh)`, both positive, and
the redraw flag is set.  With a minimumScaleFactor of at most 1, from the scale `(1, 1)` the call
with `(1, 1)` changes nothing and the call with `(2, 1)` sets the scale `(2, 1)` and the redraw
flag. -/
theorem SetContentScale_spec (minimumScaleFactor : ℚ) (hm : 0 < minimumScaleFactor) (w : World)
    (p : FramePtr) (s : DKSize) :
    ((|max s.width minimumScaleFactor - (w.frames p).contentScale.width| < FLT_EPSILON ∧
        |max s.height minimumScaleFactor - (w.frames p).contentScale.height| < FLT_EPSILON) →
        SetContentScale minimumScaleFactor w p s = w) ∧
      (¬ (|max s.width minimumScaleFactor - (w.frames p).contentScale.width| < FLT_EPSILON ∧
        |max s.height minimumScaleFactor - (w.frames p).contentScale.height| < FLT_EPSILON) →
        ((SetContentScale minimumScaleFactor w p s).frames p).contentScale =
            { width := max s.width minimumScaleFactor,
              height := max s.height minimumScaleFactor } ∧
          0 < ((SetContentScale minimumScaleFactor w p s).frames p).contentScale.width ∧
          0 < ((SetContentScale minimumScaleFactor w p s).frames p).contentScale.height ∧
          ((SetContentScale minimumScaleFactor w p s).frames p).drawSurface = true) ∧
      (minimumScaleFactor ≤ 1 → (w.frames p).contentScale = { width := 1, height := 1 } →
        SetContentScale minimumScaleFactor w p { width := 1, height := 1 } = w ∧
          ((SetContentScale minimumScaleFactor w p { width := 2, height := 1 }).frames
            p).drawSurface = true ∧
          ((SetContentScale minimumScaleFactor w p { width := 2, height := 1 }).frames
            p).contentScale = { width := 2, height := 1 }) := by
  have hset : ∀ s : DKSize,
      ¬ (|max s.width minimumScaleFactor - (w.frames p).contentScale.width| < FLT_EPSILON ∧
        |max s.height minimumScaleFactor - (w.frames p).contentScale.height| < FLT_EPSILON) →
      ((SetContentScale minimumScaleFactor w p s).frames p).contentScale =
          { width := max s.width minimumScaleFactor,
            height := max s.height minimumScaleFactor } ∧
        ((SetContentScale minimumScaleFactor w p s).frames p).drawSurface = true := by
    intro s h
    unfold SetContentScale
    simp only
    rw [if_neg h]
    unfold SetRedraw
    simp only [modFrame_frames_same, and_self]
  refine ⟨?_, ?_, ?_⟩
  · intro h
    unfold SetContentScale
    simp only
    rw [if_pos h]
  · intro h
    obtain ⟨h1, h2⟩ := hset s h
    refine ⟨h1, ?_, ?_, h2⟩
    · rw [h1]
      exact lt_of_lt_of_le hm (le_max_right _ _)
    · rw [h1]
      exact lt_of_lt_of_le hm (le_max_right _ _)
  · intro hm1 hscale
    have hmax1 : max (1 : ℚ) minimumScaleFactor = 1 := max_eq_left hm1
    have hmax2 : max (2 : ℚ) minimumScaleFactor = 2 := max_eq_left (by linarith)
    constructor
    · unfold SetContentScale
      simp only [hscale, hmax1, sub_self, abs_zero]
      rw [if_pos (by unfold FLT_EPSILON; norm_num)]
    · have hne : ¬ (|max (2 : ℚ) minimumScaleFactor - (w.frames p).contentScale.width| <
            FLT_EPSILON ∧
          |max (1 : ℚ) minimumScaleFactor - (w.frames p).contentScale.height| <
            FLT_EPSILON) := by
        rw [hscale, hmax2]
        intro h
        have := h.1
        unfold FLT_EPSILON at this
        norm_num at this
      obtain ⟨h1, h2⟩ := hset { width := 2, height := 1 } hne
      refine ⟨h2, ?_⟩
      rw [h1, hmax1, hmax2]

theorem SetContentScale_spec_witness :
    (World.fresh.frames 0).contentScale = { width := 1, height := 1 } ∧
      SetContentScale (1 / 1000000) World.fresh 0 { width := 1, height := 1 } = World.fresh ∧
      ((SetContentScale (1 / 1000000) World.fresh 0 { width := 2, height := 1 }).frames
        0).drawSurface = true ∧
      ((SetContentScale (1 / 1000000) World.fresh 0 { width := 2, height := 1 }).frames
        0).contentScale = { width := 2, height := 1 } :=
  ⟨rfl, (SetContentScale_spec (1 / 1000000) (by norm_num) World.fresh 0
    { width := 1, height := 1 }).2.2 (by norm_num) rfl⟩

/-! ## What the setters and the structural operations leave alone -/

theorem linkSubframe_keeps {α : Type} {π : DKFrame → α} (hb : IgnoresBookkeeping π)
    (w : World) (p f : FramePtr) : Keeps π w (linkSubframe w p f) :=
  Keeps_trans (Keeps_modFrame w p _ (fun g => hb.subframes g _))
    (Keeps_modFrame _ f _ (fun g => hb.superframe g _))

theorem AddSubframe_keeps {α : Type} {π : DKFrame → α} (hb : IgnoresBookkeeping π)
    (hc : ∀ (f : DKFrame) c, π { f with contentResolution := c } = π f)
    {sqrtf : ℚ → ℚ} {fuel : Nat} {w w' : World} {p : FramePtr} {frame : Option FramePtr}
    {r : Bool} (h : AddSubframe sqrtf fuel w p frame = some (r, w')) : Keeps π w w' := by
  unfold AddSubframe at h
  cases frame with
  | none =>
    simp only [Option.some.injEq, Prod.mk.injEq] at h
    rw [← h.2]; exact Keeps_refl _ _
  | some f =>
    simp only at h
    by_cases hs : (w.frames f).superframe = none
    swap
    · rw [if_neg hs] at h
      simp only [Option.some.injEq, Prod.mk.injEq] at h
      rw [← h.2]; exact Keeps_refl _ _
    rw [if_pos hs] at h
    cases hd : IsDescendantOf fuel w p (some f) with
    | none => rw [hd] at h; cases h
    | some b =>
      rw [hd] at h
      cases b with
      | true =>
        simp only [Option.some.injEq, Prod.mk.injEq] at h
        rw [← h.2]; exact Keeps_refl _ _
      | false =>
        simp only at h
        split_ifs at h
        · simp only [Option.bind_eq_some, Option.some.injEq, Prod.mk.injEq] at h
          obtain ⟨w3, h3, w4, h4, _, h6⟩ := h
          rw [← h6]
          exact Keeps_trans (linkSubframe_keeps hb w p f)
            (Keeps_trans (Load_keeps hb.drawSurface hb.renderTarget hc hb.loadState sqrtf
              _ _ _ _ _ _ h3)
            (Keeps_trans (UpdateContentResolution_keeps hb.drawSurface hb.renderTarget hc sqrtf
              _ _ _ _ h4) (SetRedraw_keeps hb.drawSurface _ _)))
        · simp only [Option.some.injEq, Prod.mk.injEq] at h
          rw [← h.2]
          exact linkSubframe_keeps hb w p f

theorem unlinkSubframe_keeps {α : Type} {π : DKFrame → α} (hb : IgnoresBookkeeping π)
    (w : World) (p f : FramePtr) (i : Nat) : Keeps π w (unlinkSubframe w p f i) :=
  Keeps_trans (Keeps_trans (Keeps_modFrame w f _ (fun g => hb.superframe g _))
    (Keeps_modFrame _ p _ (fun g => hb.subframes g _))) (SetRedraw_keeps hb.drawSurface _ p)

theorem RemoveSubframe_keeps {α : Type} {π : DKFrame → α} (hb : IgnoresBookkeeping π)
    (w : World) (p : FramePtr) (frame : Option FramePtr) :
    Keeps π w (RemoveSubframe w p frame) := by
  unfold RemoveSubframe
  cases frame with
  | none => exact Keeps_refl _ _
  | some f =>
    simp only
    split_ifs
    swap
    · exact Keeps_refl _ _
    have key : ∀ w1 : World, w1.frames = w.frames →
        Keeps π w (match findSubframe (w1.frames p).subframes f with
          | some index => unlinkSubframe w1 p f index
          | none => w1) := by
      intro w1 h1
      have k1 : Keeps π w w1 := Keeps_of_frames_eq h1
      cases findSubframe (w1.frames p).subframes f with
      | none => exact k1
      | some index => exact Keeps_trans k1 (unlinkSubframe_keeps hb w1 p f index)
    cases (w.frames f).screen with
    | none => exact key w rfl
    | some s => exact key (releaseClaims w s f true) rfl

theorem RemoveFromSuperframe_keeps {α : Type} {π : DKFrame → α} (hb : IgnoresBookkeeping π)
    (w : World) (p : FramePtr) : Keeps π w (RemoveFromSuperframe w p) := by
  unfold RemoveFromSuperframe
  cases (w.frames p).superframe with
  | none => exact Keeps_refl _ _
  | some sup => exact RemoveSubframe_keeps hb w sup (some p)

theorem moveToFront_keeps {α : Type} {π : DKFrame → α} (hb : IgnoresBookkeeping π)
    (w : World) (p f : FramePtr) (i : Nat) : Keeps π w (moveToFront w p f i) :=
  Keeps_trans (Keeps_trans (Keeps_modFrame w p _ (fun g => hb.subframes g _))
    (Keeps_modFrame _ p _ (fun g => hb.subframes g _))) (SetRedraw_keeps hb.drawSurface _ p)

theorem moveToBack_keeps {α : Type} {π : DKFrame → α} (hb : IgnoresBookkeeping π)
    (w : World) (p f : FramePtr) (i : Nat) : Keeps π w (moveToBack w p f i) :=
  Keeps_trans (Keeps_trans (Keeps_modFrame w p _ (fun g => hb.subframes g _))
    (Keeps_modFrame _ p _ (fun g => hb.subframes g _))) (SetRedraw_keeps hb.drawSurface _ p)

theorem BringSubframeToFront_keeps {α : Type} {π : DKFrame → α} (hb : IgnoresBookkeeping π)
    (w : World) (p : FramePtr) (frame : Option FramePtr) :
    Keeps π w (BringSubframeToFront w p frame).2 := by
  unfold BringSubframeToFront
  cases frame with
  | none => exact Keeps_refl _ _
  | some f =>
    simp only
    split_ifs
    swap
    · exact Keeps_refl _ _
    cases findSubframe (w.frames p).subframes f with
    | none => exact Keeps_refl _ _
    | some index =>
      simp only
      split_ifs
      · exact moveToFront_keeps hb w p f index
      · exact Keeps_refl _ _

theorem SendSubframeToBack_keeps {α : Type} {π : DKFrame → α} (hb : IgnoresBookkeeping π)
    (w : World) (p : FramePtr) (frame : Option FramePtr) :
    Keeps π w (SendSubframeToBack w p frame).2 := by
  unfold SendSubframeToBack
  cases frame with
  | none => exact Keeps_refl _ _
  | some f =>
    simp only
    split_ifs
    swap
    · exact Keeps_refl _ _
    have k0 : Keeps π w (leaveHover w p) := Keeps_of_frames_eq (leaveHover_frames w p)
    cases findSubframe ((leaveHover w p).frames p).subframes f with
    | none => exact k0
    | some index =>
      simp only
      split_ifs
      · exact Keeps_trans k0 (moveToBack_keeps hb _ p f index)
      · exact k0

theorem SetContentScale_keeps {α : Type} {π : DKFrame → α} (hb : IgnoresBookkeeping π)
    (hs : ∀ (f : DKFrame) c, π { f with contentScale := c } = π f)
    (m : ℚ) (w : World) (p : FramePtr) (s : DKSize) : Keeps π w (SetContentScale m w p s) := by
  unfold SetContentScale
  simp only
  split_ifs
  · exact Keeps_refl _ _
  · exact Keeps_trans (Keeps_modFrame w p _ (fun g => hs g _)) (SetRedraw_keeps hb.drawSurface _ p)

theorem SetContentTransform_keeps {α : Type} {π : DKFrame → α} (hb : IgnoresBookkeeping π)
    (h1 : ∀ (f : DKFrame) c, π { f with contentTransform := c } = π f)
    (h2 : ∀ (f : DKFrame) c, π { f with contentTransformInverse := c } = π f)
    (w : World) (p : FramePtr) (m : DKMatrix3) : Keeps π w (SetContentTransform w p m) := by
  unfold SetContentTransform
  split_ifs
  · exact Keeps_trans (Keeps_trans (Keeps_modFrame w p _ (fun g => h1 g _))
      (Keeps_modFrame _ p _ (fun g => h2 g _))) (SetRedraw_keeps hb.drawSurface _ p)
  · exact Keeps_trans (Keeps_trans (Keeps_modFrame w p _ (fun g => h1 g _))
      (Keeps_modFrame _ p _ (fun g => h2 g _))) (SetRedraw_keeps hb.drawSurface _ p)
  · exact Keeps_refl _ _

/-- What SetTransform does to a projection that ignores the content resolution: either the heap is
as before, or the frame is not a root frame, the matrix is a new one, and the projection is that
of the heap with the two assignments made. -/
theorem SetTransform_inv {α : Type} {π : DKFrame → α} (hb : IgnoresBookkeeping π)
    (hc : ∀ (f : DKFrame) c, π { f with contentResolution := c } = π f)
    {sqrtf : ℚ → ℚ} {fuel : Nat} {w w' : World} {p : FramePtr} {m : DKMatrix3}
    (h : SetTransform sqrtf fuel w p m = some w') :
    w' = w ∨ (isRootFrame w p = false ∧ (w.frames p).transform ≠ m ∧
      Keeps π ((w.modFrame p (fun f => { f with transform := m })).modFrame p
        (fun f => { f with transformInverse := m.Inverse })) w') := by
  unfold SetTransform at h
  by_cases hr : isRootFrame w p = true
  · rw [if_pos hr] at h
    cases h; exact Or.inl rfl
  rw [if_neg hr] at h
  by_cases hm : (w.frames p).transform ≠ m
  swap
  · rw [if_neg hm] at h
    cases h; exact Or.inl rfl
  rw [if_pos hm] at h
  simp only [Option.bind_eq_some] at h
  obtain ⟨w3, h3, h4⟩ := h
  have k3 := UpdateContentResolution_keeps hb.drawSurface hb.renderTarget hc sqrtf _ _ _ _ h3
  refine Or.inr ⟨by simpa using hr, hm, ?_⟩
  cases hsup : (w3.frames p).superframe with
  | none =>
    rw [hsup] at h4
    cases h4; exact k3
  | some sup =>
    rw [hsup] at h4
    cases h4
    exact Keeps_trans k3 (SetRedraw_keeps hb.drawSurface _ _)

theorem SetTransform_keeps {α : Type} {π : DKFrame → α} (hb : IgnoresBookkeeping π)
    (hc : ∀ (f : DKFrame) c, π { f with contentResolution := c } = π f)
    (h1 : ∀ (f : DKFrame) c, π { f with transform := c } = π f)
    (h2 : ∀ (f : DKFrame) c, π { f with transformInverse := c } = π f)
    {sqrtf : ℚ → ℚ} {fuel : Nat} {w w' : World} {p : FramePtr} {m : DKMatrix3}
    (h : SetTransform sqrtf fuel w p m = some w') : Keeps π w w' := by
  rcases SetTransform_inv hb hc h with e | ⟨_, _, k⟩
  · rw [e]; exact Keeps_refl _ _
  · exact Keeps_trans (Keeps_trans (Keeps_modFrame w p _ (fun g => h1 g _))
      (Keeps_modFrame _ p _ (fun g => h2 g _))) k

theorem SetColor_keeps {α : Type} {π : DKFrame → α} (hb : IgnoresBookkeeping π)
    (v : DKColor → Nat) (w : World) (p : FramePtr) (c : DKColor) :
    Keeps π w (SetColor v w p c) := by
  unfold SetColor
  split_ifs
  · exact Keeps_refl _ _
  · simp only
    have k := Keeps_modFrame (π := π) w p (fun f => { f with color := v c })
      (fun g => hb.color g _)
    split
    · exact Keeps_trans k (SetRedraw_keeps hb.drawSurface _ _)
    · exact k

theorem SetBlendState_keeps {α : Type} {π : DKFrame → α} (hb : IgnoresBookkeeping π)
    (w : World) (p : FramePtr) (b : DKBlendState) : Keeps π w (SetBlendState w p b) := by
  unfold SetBlendState
  split_ifs
  · exact Keeps_refl _ _
  · simp only
    have k := Keeps_modFrame (π := π) w p (fun f => { f with blendState := b })
      (fun g => hb.blendState g _)
    split
    · exact Keeps_trans k (SetRedraw_keeps hb.drawSurface _ _)
    · exact k

theorem SetPixelFormat_keeps {α : Type} {π : DKFrame → α} (hb : IgnoresBookkeeping π)
    (isColor : DKPixelFormat → Bool) (w : World) (p : FramePtr) (fmt : DKPixelFormat) :
    Keeps π w (SetPixelFormat isColor w p fmt) := by
  unfold SetPixelFormat
  split_ifs
  · exact Keeps_refl _ _
  · exact Keeps_trans (Keeps_trans (Keeps_modFrame w p _ (fun g => hb.pixelFormat g _))
      (Keeps_modFrame _ p _ (fun g => hb.renderTarget g _))) (SetRedraw_keeps hb.drawSurface _ p)
  · exact Keeps_refl _ _
  · exact Keeps_refl _ _

theorem Pres_of_keeps {α : Type} {π : DKFrame → α} {P : DKFrame → Prop} (Q : α → Prop)
    (hP : ∀ f, P f ↔ Q (π f)) {w w' : World} (k : Keeps π w w') : Pres P w w' := by
  intro q hq
  rw [hP] at hq ⊢
  rwa [k q]

/-! ## Matrices and their inverses -/

theorem mul_adjugateOver (m : DKMatrix3) (d : ℚ) (hd : d = m.Determinant) (h0 : d ≠ 0) :
    m.mul (m.adjugateOver d) = DKMatrix3.identity := by
  unfold DKMatrix3.Determinant at hd
  simp only [DKMatrix3.mul, DKMatrix3.adjugateOver, DKMatrix3.identity, DKMatrix3.mk.injEq]
  refine ⟨?_, ?_, ?_, ?_, ?_, ?_, ?_, ?_, ?_⟩ <;> field_simp <;>
    first
    | ring1
    | linear_combination -hd

theorem adjugateOver_mul (m : DKMatrix3) (d : ℚ) (hd : d = m.Determinant) (h0 : d ≠ 0) :
    (m.adjugateOver d).mul m = DKMatrix3.identity := by
  unfold DKMatrix3.Determinant at hd
  simp only [DKMatrix3.mul, DKMatrix3.adjugateOver, DKMatrix3.identity, DKMatrix3.mk.injEq]
  refine ⟨?_, ?_, ?_, ?_, ?_, ?_, ?_, ?_, ?_⟩ <;> field_simp <;>
    first
    | ring1
    | linear_combination -hd

theorem InverseMatrix_flag (m : DKMatrix3) : m.InverseMatrix.2 = true ↔ m.Determinant ≠ 0 := by
  unfold DKMatrix3.InverseMatrix
  split_ifs with h <;> simp [h]

theorem InverseMatrix_of_det {m : DKMatrix3} (h : m.Determinant ≠ 0) :
    m.InverseMatrix = (m.adjugateOver m.Determinant, true) := by
  unfold DKMatrix3.InverseMatrix
  rw [if_neg h]

theorem Inverse_of_det {m : DKMatrix3} (h : m.Determinant ≠ 0) :
    m.Inverse = m.adjugateOver m.Determinant := by
  unfold DKMatrix3.Inverse
  rw [InverseMatrix_of_det h]
  rfl

theorem mul_InverseMatrix {m : DKMatrix3} (h : m.Determinant ≠ 0) :
    m.mul m.InverseMatrix.1 = DKMatrix3.identity ∧
      m.InverseMatrix.1.mul m = DKMatrix3.identity := by
  rw [InverseMatrix_of_det h]
  exact ⟨mul_adjugateOver m _ rfl h, adjugateOver_mul m _ rfl h⟩

theorem InversePair_identity : InversePair DKMatrix3.identity DKMatrix3.identity := by
  intro v
  simp [DKVector2.Transform, DKMatrix3.identity]

theorem InversePair_adjugateOver {m : DKMatrix3} (ha : m.IsAffine) (h : m.Determinant ≠ 0) :
    InversePair m (m.adjugateOver m.Determinant) := by
  obtain ⟨h13, h23, h33⟩ := ha
  have hd : m.Determinant = m.m11 * m.m22 - m.m12 * m.m21 := by
    unfold DKMatrix3.Determinant
    rw [h13, h23, h33]; ring
  rw [hd] at h ⊢
  intro v
  obtain ⟨x, y⟩ := v
  simp only [DKVector2.Transform, DKMatrix3.adjugateOver, h13, h23, h33, DKVector2.mk.injEq]
  refine ⟨⟨?_, ?_⟩, ⟨?_, ?_⟩⟩ <;> field_simp <;> ring

theorem InversePair_InverseMatrix {m : DKMatrix3} (ha : m.IsAffine) (h : m.Determinant ≠ 0) :
    InversePair m m.InverseMatrix.1 := by
  rw [InverseMatrix_of_det h]
  exact InversePair_adjugateOver ha h

theorem InversePair_Inverse {m : DKMatrix3} (ha : m.IsAffine) (h : m.Determinant ≠ 0) :
    InversePair m m.Inverse := by
  rw [Inverse_of_det h]
  exact InversePair_adjugateOver ha h

theorem Determinant_identity : DKMatrix3.identity.Determinant = 1 := by
  simp [DKMatrix3.Determinant, DKMatrix3.identity]

theorem ContentPairOK_fresh : ContentPairOK DKFrame.fresh := by
  have h : DKMatrix3.identity.Determinant ≠ 0 := by rw [Determinant_identity]; exact one_ne_zero
  refine ⟨h, ?_, ?_⟩
  · show DKMatrix3.identity = DKMatrix3.identity.InverseMatrix.1
    rw [InverseMatrix_of_det h]
    simp [DKMatrix3.adjugateOver, DKMatrix3.identity, DKMatrix3.Determinant]
  · show DKMatrix3.identity.mul DKMatrix3.identity = DKMatrix3.identity
    simp [DKMatrix3.mul, DKMatrix3.identity]

/-! ## Invariants of the operations -/

/-- A property of the frame state that is read off a projection ignoring the bookkeeping fields
is preserved by a step as soon as it is preserved by the six operations that write other
fields. -/
theorem Step_pres {α : Type} {π : DKFrame → α} (hb : IgnoresBookkeeping π) {P : DKFrame → Prop}
    (Q : α → Prop) (hP : ∀ f, P f ↔ Q (π f)) {ext : Externals} {okT okC : DKMatrix3 → Prop}
    (hLoad : ∀ fuel w this sc res w', Load ext.sqrtf fuel w this sc res = some w' → Pres P w w')
    (hAdd : ∀ fuel w this frame r w',
      AddSubframe ext.sqrtf fuel w this frame = some (r, w') → Pres P w w')
    (hSetT : ∀ fuel w this m w', okT m → SetTransform ext.sqrtf fuel w this m = some w' →
      Pres P w w')
    (hScale : ∀ w this s, Pres P w (SetContentScale ext.minimumScaleFactor w this s))
    (hCT : ∀ w this m, okC m → Pres P w (SetContentTransform w this m))
    (hUpd : ∀ fuel w this w', UpdateContentResolution ext.sqrtf fuel w this = some w' →
      Pres P w w')
    {w w' : World} (h : Step ext okT okC w w') : Pres P w w' := by
  cases h with
  | load fuel this screen resolution h => exact hLoad _ _ _ _ _ _ h
  | unload fuel this h =>
    exact Pres_of_keeps Q hP (Unload_keeps hb.renderTarget hb.loadState _ _ _ _ h)
  | addSubframe fuel this frame r h => exact hAdd _ _ _ _ _ _ h
  | removeSubframe this frame => exact Pres_of_keeps Q hP (RemoveSubframe_keeps hb _ _ _)
  | removeFromSuperframe this => exact Pres_of_keeps Q hP (RemoveFromSuperframe_keeps hb _ _)
  | bringSubframeToFront this frame =>
    exact Pres_of_keeps Q hP (BringSubframeToFront_keeps hb _ _ _)
  | sendSubframeToBack this frame =>
    exact Pres_of_keeps Q hP (SendSubframeToBack_keeps hb _ _ _)
  | setTransform fuel this m hm h => exact hSetT _ _ _ _ _ hm h
  | setContentScale this s => exact hScale _ _ _
  | setContentTransform this m hm => exact hCT _ _ _ hm
  | updateContentResolution fuel this h => exact hUpd _ _ _ _ h
  | setColor this color => exact Pres_of_keeps Q hP (SetColor_keeps hb _ _ _ _)
  | setBlendState this blend => exact Pres_of_keeps Q hP (SetBlendState_keeps hb _ _ _)
  | setPixelFormat this fmt => exact Pres_of_keeps Q hP (SetPixelFormat_keeps hb _ _ _ _)

theorem Steps_pres {P : DKFrame → Prop} {ext : Externals} {okT okC : DKMatrix3 → Prop}
    (hstep : ∀ w w', Step ext okT okC w w' → Pres P w w') {w w' : World}
    (h : Steps ext okT okC w w') : Pres P w w' := by
  induction h with
  | here => exact Pres_refl _ _
  | next _ hs ih => exact Pres_trans ih (hstep _ _ hs)

theorem Steps_trans {ext : Externals} {okT okC : DKMatrix3 → Prop} {a b c : World}
    (h1 : Steps ext okT okC a b) (h2 : Steps ext okT okC b c) : Steps ext okT okC a c := by
  induction h2 with
  | here => exact h1
  | next _ hs ih => exact Steps.next ih hs

theorem Steps_one {ext : Externals} {okT okC : DKMatrix3 → Prop} {a b : World}
    (h : Step ext okT okC a b) : Steps ext okT okC a b :=
  Steps.next (Steps.here a) h

theorem contentPair_ignoresBookkeeping : IgnoresBookkeeping contentPair :=
  ⟨fun _ _ => rfl, fun _ _ => rfl, fun _ _ => rfl, fun _ _ => rfl, fun _ _ _ => rfl,
    fun _ _ => rfl, fun _ _ => rfl, fun _ _ => rfl⟩

theorem matrices_ignoresBookkeeping : IgnoresBookkeeping matrices :=
  ⟨fun _ _ => rfl, fun _ _ => rfl, fun _ _ => rfl, fun _ _ => rfl, fun _ _ _ => rfl,
    fun _ _ => rfl, fun _ _ => rfl, fun _ _ => rfl⟩

theorem contentResolution_ignoresBookkeeping :
    IgnoresBookkeeping (fun f : DKFrame => f.contentResolution) :=
  ⟨fun _ _ => rfl, fun _ _ => rfl, fun _ _ => rfl, fun _ _ => rfl, fun _ _ _ => rfl,
    fun _ _ => rfl, fun _ _ => rfl, fun _ _ => rfl⟩

/-! ## SetContentTransform -/

theorem SetContentTransform_frames_ne (w : World) {this q : FramePtr} (m : DKMatrix3)
    (h : q ≠ this) : (SetContentTransform w this m).frames q = w.frames q := by
  unfold SetContentTransform
  split_ifs <;> simp [SetRedraw, modFrame_frames_ne, h]

theorem SetContentTransform_same (w : World) (this : FramePtr) (m : DKMatrix3)
    (h : (w.frames this).contentTransform = m) : SetContentTransform w this m = w := by
  unfold SetContentTransform
  rw [if_neg (by simpa using h)]

theorem SetContentTransform_changed (w : World) (this : FramePtr) (m : DKMatrix3)
    (h : (w.frames this).contentTransform ≠ m) :
    contentPair ((SetContentTransform w this m).frames this) =
        (if m.InverseMatrix.2 then (m, m.InverseMatrix.1)
          else (DKMatrix3.identity, DKMatrix3.identity)) ∧
      ((SetContentTransform w this m).frames this).drawSurface = true := by
  unfold SetContentTransform
  rw [if_pos h]
  split_ifs <;> simp [SetRedraw, contentPair]

theorem SetContentTransform_contentPairOK (w : World) (this : FramePtr) (m : DKMatrix3) :
    Pres ContentPairOK w (SetContentTransform w this m) := by
  intro q hq
  by_cases hqp : q = this
  swap
  · rwa [SetContentTransform_frames_ne w m hqp]
  subst hqp
  by_cases hm : (w.frames q).contentTransform = m
  · rwa [SetContentTransform_same w q m hm]
  have h := (SetContentTransform_changed w q m hm).1
  simp only [contentPair, Prod.ext_iff] at h
  unfold ContentPairOK
  by_cases hf : m.InverseMatrix.2 = true
  · rw [if_pos hf] at h
    rw [h.1, h.2]
    have hd := (InverseMatrix_flag m).1 hf
    exact ⟨hd, rfl, (mul_InverseMatrix hd).1⟩
  · rw [if_neg hf] at h
    rw [h.1, h.2]
    exact ContentPairOK_fresh

theorem Step_contentPairOK {ext : Externals} {okT okC : DKMatrix3 → Prop} {w w' : World}
    (h : Step ext okT okC w w') : Pres ContentPairOK w w' := by
  have hb := contentPair_ignoresBookkeeping
  let Q : DKMatrix3 × DKMatrix3 → Prop := fun p =>
    p.1.Determinant ≠ 0 ∧ p.2 = p.1.InverseMatrix.1 ∧ p.1.mul p.2 = DKMatrix3.identity
  have hP : ∀ f, ContentPairOK f ↔ Q (contentPair f) := fun _ => Iff.rfl
  refine Step_pres hb Q hP ?_ ?_ ?_ ?_ ?_ ?_ h
  · intro fuel w this sc res w' h
    exact Pres_of_keeps Q hP (Load_keeps hb.drawSurface hb.renderTarget (fun _ _ => rfl)
      hb.loadState _ _ _ _ _ _ _ h)
  · intro fuel w this frame r w' h
    exact Pres_of_keeps Q hP (AddSubframe_keeps hb (fun _ _ => rfl) h)
  · intro fuel w this m w' _ h
    exact Pres_of_keeps Q hP (SetTransform_keeps hb (fun _ _ => rfl) (fun _ _ => rfl)
      (fun _ _ => rfl) h)
  · intro w this s
    exact Pres_of_keeps Q hP (SetContentScale_keeps hb (fun _ _ => rfl) _ _ _ _)
  · intro w this m _
    exact SetContentTransform_contentPairOK w this m
  · intro fuel w this w' h
    exact Pres_of_keeps Q hP (UpdateContentResolution_keeps hb.drawSurface hb.renderTarget
      (fun _ _ => rfl) _ _ _ _ _ h)

theorem Determinant_mul (a b : DKMatrix3) :
    (a.mul b).Determinant = a.Determinant * b.Determinant := by
  simp only [DKMatrix3.Determinant, DKMatrix3.mul]
  ring

theorem Determinant_ne_zero_iff (m : DKMatrix3) :
    m.Determinant ≠ 0 ↔ ∃ n : DKMatrix3, m.mul n = DKMatrix3.identity := by
  constructor
  · intro h
    exact ⟨m.InverseMatrix.1, (mul_InverseMatrix h).1⟩
  · rintro ⟨n, hn⟩ h0
    have := Determinant_mul m n
    rw [hn, Determinant_identity, h0, zero_mul] at this
    exact one_ne_zero this

/-- C15: in a heap reached by the operations from frames whose content transform is stored with
its inverse (as it is in freshly constructed frames), `SetContentTransform(m)` leaves in the frame
the pair `(m, inverse of m)` when `m` has an inverse, and `(identity, identity)` when it has
none; the inverse is a two-sided inverse of `m`; and the product of contentTransform and
contentTransformInverse is the identity in every frame, before the call and after it. -/
theorem SetContentTransform_stores_inverse (ext : Externals) (okT okC : DKMatrix3 → Prop)
    (w0 w : World) (h0 : ∀ q, ContentPairOK (w0.frames q)) (hs : Steps ext okT okC w0 w)
    (this : FramePtr) (m : DKMatrix3) :
    contentPair ((SetContentTransform w this m).frames this) =
        (if m.InverseMatrix.2 then (m, m.InverseMatrix.1)
          else (DKMatrix3.identity, DKMatrix3.identity)) ∧
      (m.InverseMatrix.2 = true ↔ ∃ n : DKMatrix3, m.mul n = DKMatrix3.identity) ∧
      (m.InverseMatrix.2 = true → m.mul m.InverseMatrix.1 = DKMatrix3.identity ∧
        m.InverseMatrix.1.mul m = DKMatrix3.identity) ∧
      (∀ q, (w.frames q).contentTransform.mul (w.frames q).contentTransformInverse =
        DKMatrix3.identity) ∧
      (∀ q, ((SetContentTransform w this m).frames q).contentTransform.mul
        ((SetContentTransform w this m).frames q).contentTransformInverse = DKMatrix3.identity) ∧
      ContentPairOK DKFrame.fresh := by
  have hw : ∀ q, ContentPairOK (w.frames q) := fun q =>
    Steps_pres (fun _ _ h => Step_contentPairOK h) hs q (h0 q)
  refine ⟨?_, ?_, ?_, fun q => (hw q).2.2, ?_, ContentPairOK_fresh⟩
  · by_cases hm : (w.frames this).contentTransform = m
    · rw [SetContentTransform_same w this m hm]
      have h := hw this
      unfold ContentPairOK at h
      rw [hm] at h
      rw [if_pos ((InverseMatrix_flag m).2 h.1)]
      simp only [contentPair, hm, h.2.1]
    · exact (SetContentTransform_changed w this m hm).1
  · rw [InverseMatrix_flag, Determinant_ne_zero_iff]
  · intro hf
    exact mul_InverseMatrix ((InverseMatrix_flag m).1 hf)
  · intro q
    exact (SetContentTransform_contentPairOK w this m q (hw q)).2.2

theorem SetContentTransform_stores_inverse_witness :
    (∀ q, ContentPairOK (World.fresh.frames q)) ∧
      contentPair ((SetContentTransform
          (SetContentTransform World.fresh 0 (scaleTranslate 0 0 0 0)) 0
          (scaleTranslate 2 4 1 1)).frames 0) =
        (if (scaleTranslate 2 4 1 1).InverseMatrix.2
          then (scaleTranslate 2 4 1 1, (scaleTranslate 2 4 1 1).InverseMatrix.1)
          else (DKMatrix3.identity, DKMatrix3.identity)) :=
  ⟨fun _ => ContentPairOK_fresh,
    (SetContentTransform_stores_inverse exampleExternals anyMatrix anyMatrix World.fresh
      (SetContentTransform World.fresh 0 (scaleTranslate 0 0 0 0))
      (fun _ => ContentPairOK_fresh)
      (Steps.next (Steps.here _)
        (Step.setContentTransform World.fresh 0 (scaleTranslate 0 0 0 0) trivial))
      0 (scaleTranslate 2 4 1 1)).1⟩

/-- C16, as stated, fails: a freshly constructed frame has the identity for content transform and
a clear redraw flag, and `SetContentTransform(identity)` leaves the flag clear. -/
theorem SetContentTransform_redraw_counterexample :
    (World.fresh.frames 0).drawSurface = false ∧
      ((SetContentTransform World.fresh 0 DKMatrix3.identity).frames 0).drawSurface = false := by
  decide

/-- C16 (amended): `SetContentTransform(m)` with a matrix `m` (invertible or not) that differs
from the current content transform leaves the redraw flag of the frame set; with `m` equal to the
current content transform it leaves the whole heap, the redraw flag included, as it was. -/
theorem SetContentTransform_redraw (w : World) (this : FramePtr) (m : DKMatrix3) :
    ((w.frames this).contentTransform ≠ m →
        ((SetContentTransform w this m).frames this).drawSurface = true) ∧
      ((w.frames this).contentTransform = m → SetContentTransform w this m = w) :=
  ⟨fun h => (SetContentTransform_changed w this m h).2, SetContentTransform_same w this m⟩

theorem SetContentTransform_redraw_witness :
    (World.fresh.frames 0).contentTransform ≠ scaleTranslate 0 0 0 0 ∧
      ((SetContentTransform World.fresh 0 (scaleTranslate 0 0 0 0)).frames 0).drawSurface = true ∧
      (World.fresh.frames 0).contentTransform = DKMatrix3.identity ∧
      SetContentTransform World.fresh 0 DKMatrix3.identity = World.fresh :=
  ⟨by decide,
    (SetContentTransform_redraw World.fresh 0 (scaleTranslate 0 0 0 0)).1 (by decide),
    rfl, (SetContentTransform_redraw World.fresh 0 DKMatrix3.identity).2 rfl⟩

/-! ## The setters on a root frame -/

/-- C17: for a frame that is the root frame of its screen, SetTransform, SetColor, SetBlendState
and SetPixelFormat, with any argument, leave the whole heap as it was; and for any frame,
SetPixelFormat with a format that is not a colour format leaves the whole heap as it was. -/
theorem root_setters_change_nothing (ext : Externals) (fuel : Nat) (w : World) (this : FramePtr)
    (m : DKMatrix3) (color : DKColor) (blend : DKBlendState) (fmt : DKPixelFormat) :
    (isRootFrame w this = true →
        SetTransform ext.sqrtf fuel w this m = some w ∧
        SetColor ext.RGBA32Value w this color = w ∧
        SetBlendState w this blend = w ∧
        SetPixelFormat ext.DKPixelFormatIsColorFormat w this fmt = w) ∧
      (ext.DKPixelFormatIsColorFormat fmt = false →
        SetPixelFormat ext.DKPixelFormatIsColorFormat w this fmt = w) := by
  constructor
  · intro hr
    refine ⟨?_, ?_, ?_, ?_⟩
    · unfold SetTransform; rw [if_pos hr]
    · unfold SetColor; rw [if_pos hr]
    · unfold SetBlendState; rw [if_pos hr]
    · unfold SetPixelFormat; rw [if_pos hr]
  · intro hf
    unfold SetPixelFormat
    split_ifs <;> simp_all

theorem root_setters_change_nothing_witness :
    isRootFrame exampleHeap 0 = true ∧
      SetTransform exampleExternals.sqrtf 0 exampleHeap 0 (scaleTranslate 2 2 0 0) =
        some exampleHeap ∧
      exampleExternals.DKPixelFormatIsColorFormat 200 = false ∧
      isRootFrame exampleHeap 1 = false ∧
      SetPixelFormat exampleExternals.DKPixelFormatIsColorFormat exampleHeap 1 200 =
        exampleHeap :=
  ⟨by decide,
    ((root_setters_change_nothing exampleExternals 0 exampleHeap 0 (scaleTranslate 2 2 0 0)
      ⟨1, 0, 0, 1⟩ 3 5).1 (by decide)).1,
    by decide, by decide,
    (root_setters_change_nothing exampleExternals 0 exampleHeap 1 (scaleTranslate 2 2 0 0)
      ⟨1, 0, 0, 1⟩ 3 200).2 (by decide)⟩

/-! ## Round trips of the coordinate conversions -/

theorem SetContentTransform_contentInverseOK (w : World) (this : FramePtr) (m : DKMatrix3)
    (ha : m.IsAffine) : Pres ContentInverseOK w (SetContentTransform w this m) := by
  intro q hq
  by_cases hqp : q = this
  swap
  · rwa [SetContentTransform_frames_ne w m hqp]
  subst hqp
  by_cases hm : (w.frames q).contentTransform = m
  · rwa [SetContentTransform_same w q m hm]
  have h := (SetContentTransform_changed w q m hm).1
  simp only [contentPair, Prod.ext_iff] at h
  unfold ContentInverseOK
  by_cases hf : m.InverseMatrix.2 = true
  · rw [if_pos hf] at h
    rw [h.1, h.2]
    exact InversePair_InverseMatrix ha ((InverseMatrix_flag m).1 hf)
  · rw [if_neg hf] at h
    rw [h.1, h.2]
    exact InversePair_identity

theorem Step_contentInverseOK {ext : Externals} {okT : DKMatrix3 → Prop} {w w' : World}
    (h : Step ext okT DKMatrix3.IsAffine w w') : Pres ContentInverseOK w w' := by
  have hb := contentPair_ignoresBookkeeping
  let Q : DKMatrix3 × DKMatrix3 → Prop := fun p => InversePair p.1 p.2
  have hP : ∀ f, ContentInverseOK f ↔ Q (contentPair f) := fun _ => Iff.rfl
  refine Step_pres hb Q hP ?_ ?_ ?_ ?_ ?_ ?_ h
  · intro fuel w this sc res w' h
    exact Pres_of_keeps Q hP (Load_keeps hb.drawSurface hb.renderTarget (fun _ _ => rfl)
      hb.loadState _ _ _ _ _ _ _ h)
  · intro fuel w this frame r w' h
    exact Pres_of_keeps Q hP (AddSubframe_keeps hb (fun _ _ => rfl) h)
  · intro fuel w this m w' _ h
    exact Pres_of_keeps Q hP (SetTransform_keeps hb (fun _ _ => rfl) (fun _ _ => rfl)
      (fun _ _ => rfl) h)
  · intro w this s
    exact Pres_of_keeps Q hP (SetContentScale_keeps hb (fun _ _ => rfl) _ _ _ _)
  · intro w this m hm
    exact SetContentTransform_contentInverseOK w this m hm
  · intro fuel w this w' h
    exact Pres_of_keeps Q hP (UpdateContentResolution_keeps hb.drawSurface hb.renderTarget
      (fun _ _ => rfl) _ _ _ _ _ h)

theorem Step_matricesOK {ext : Externals} {w w' : World}
    (h : Step ext invertibleAffine DKMatrix3.IsAffine w w') : Pres MatricesOK w w' := by
  have hb := matrices_ignoresBookkeeping
  let Q : DKMatrix3 × DKMatrix3 × DKMatrix3 × DKMatrix3 → Prop := fun p =>
    InversePair p.1 p.2.1 ∧ InversePair p.2.2.1 p.2.2.2
  have hP : ∀ f, MatricesOK f ↔ Q (matrices f) := fun _ => Iff.rfl
  refine Step_pres hb Q hP ?_ ?_ ?_ ?_ ?_ ?_ h
  · intro fuel w this sc res w' h
    exact Pres_of_keeps Q hP (Load_keeps hb.drawSurface hb.renderTarget (fun _ _ => rfl)
      hb.loadState _ _ _ _ _ _ _ h)
  · intro fuel w this frame r w' h
    exact Pres_of_keeps Q hP (AddSubframe_keeps hb (fun _ _ => rfl) h)
  · intro fuel w this m w' hm h
    rcases SetTransform_inv hb (fun _ _ => rfl) h with e | ⟨_, _, k⟩
    · rw [e]; exact Pres_refl _ _
    · intro q hq
      rw [hP, k q]
      by_cases hqp : q = this
      · subst hqp
        simp only [modFrame_frames_same]
        exact ⟨InversePair_Inverse hm.1 hm.2, hq.2⟩
      · rw [modFrame_frames_ne _ _ hqp, modFrame_frames_ne _ _ hqp]
        exact hq
  · intro w this s
    exact Pres_of_keeps Q hP (SetContentScale_keeps hb (fun _ _ => rfl) _ _ _ _)
  · intro w this m hm q hq
    have k := SetContentTransform_keeps (π := fun f : DKFrame => (f.transform, f.transformInverse))
      ⟨fun _ _ => rfl, fun _ _ => rfl, fun _ _ => rfl, fun _ _ => rfl, fun _ _ _ => rfl,
        fun _ _ => rfl, fun _ _ => rfl, fun _ _ => rfl⟩ (fun _ _ => rfl) (fun _ _ => rfl)
      w this m q
    simp only [Prod.ext_iff] at k
    refine ⟨?_, SetContentTransform_contentInverseOK w this m hm q hq.2⟩
    rw [k.1, k.2]
    exact hq.1
  · intro fuel w this w' h
    exact Pres_of_keeps Q hP (UpdateContentResolution_keeps hb.drawSurface hb.renderTarget
      (fun _ _ => rfl) _ _ _ _ _ h)

theorem MatricesOK_fresh : MatricesOK DKFrame.fresh :=
  ⟨InversePair_identity, InversePair_identity⟩

theorem super_round_trip (w : World) (this : FramePtr) (p : DKPoint)
    (hm : MatricesOK (w.frames this)) (hw : (w.frames this).contentScale.width ≠ 0)
    (hh : (w.frames this).contentScale.height ≠ 0) :
    LocalToSuper w this (SuperToLocal w this p) = p ∧
      SuperToLocal w this (LocalToSuper w this p) = p := by
  cases hsup : (w.frames this).superframe with
  | none => simp only [LocalToSuper, SuperToLocal, hsup, and_self]
  | some sup =>
    simp only [LocalToSuper, SuperToLocal, hsup]
    constructor
    · rw [(hm.2 _).2]
      simp only [mul_div_assoc, div_self hw, div_self hh, mul_one]
      exact (hm.1 p).2
    · rw [(hm.1 _).1]
      simp only [div_mul_cancel₀ _ hw, div_mul_cancel₀ _ hh]
      exact (hm.2 p).1

theorem pixel_round_trip (w : World) (this : FramePtr) (p : DKPoint)
    (hm : ContentInverseOK (w.frames this)) (hw : (w.frames this).contentScale.width ≠ 0)
    (hh : (w.frames this).contentScale.height ≠ 0)
    (rw0 : (w.frames this).contentResolution.width ≠ 0)
    (rh0 : (w.frames this).contentResolution.height ≠ 0) :
    LocalToPixel w this (PixelToLocal w this p) = p ∧
      PixelToLocal w this (LocalToPixel w this p) = p := by
  unfold LocalToPixel PixelToLocal
  simp only
  constructor
  · rw [(hm _).2]
    simp only [mul_div_assoc, div_self hw, div_self hh, mul_one, div_mul_cancel₀ _ rw0,
      div_mul_cancel₀ _ rh0]
  · simp only [mul_div_assoc, div_self rw0, div_self rh0, mul_one, div_mul_cancel₀ _ hw,
      div_mul_cancel₀ _ hh]
    exact (hm p).1

theorem placedHeap_frame (m : DKMatrix3) :
    (placedHeap m).frames 1 =
      { DKFrame.fresh with superframe := some 0, transform := m, transformInverse := m.Inverse } :=
  rfl

/-- C13, as stated, fails: after `0.AddSubframe(1)` and `1.SetTransform(m)` with the matrix `m`
that scales by zero, frame 1 has the content scale (1, 1), LocalToSuper sends every point to
(0, 0), so that going to the local space and back does not return (1, 1), and going to the
superframe space and back cannot return both (0, 0) and (1, 0). -/
theorem LocalToSuper_SuperToLocal_counterexample :
    AddSubframe exampleSqrt 1 World.fresh 0 (some 1) =
        some (true, linkSubframe World.fresh 0 1) ∧
      SetTransform exampleSqrt 1 (linkSubframe World.fresh 0 1) 1 (scaleTranslate 0 0 0 0) =
        some (placedHeap (scaleTranslate 0 0 0 0)) ∧
      ((placedHeap (scaleTranslate 0 0 0 0)).frames 1).contentScale = ⟨1, 1⟩ ∧
      LocalToSuper (placedHeap (scaleTranslate 0 0 0 0)) 1
        (SuperToLocal (placedHeap (scaleTranslate 0 0 0 0)) 1 ⟨1, 1⟩) ≠ ⟨1, 1⟩ ∧
      ¬ ∀ p : DKPoint, SuperToLocal (placedHeap (scaleTranslate 0 0 0 0)) 1
        (LocalToSuper (placedHeap (scaleTranslate 0 0 0 0)) 1 p) = p := by
  have hL : ∀ p : DKPoint, LocalToSuper (placedHeap (scaleTranslate 0 0 0 0)) 1 p = ⟨0, 0⟩ := by
    intro p
    simp [LocalToSuper, placedHeap_frame, DKVector2.Transform, scaleTranslate]
  refine ⟨rfl, rfl, rfl, ?_, ?_⟩
  · rw [hL]
    simp
  · intro h
    have h1 := h ⟨0, 0⟩
    have h2 := h ⟨1, 0⟩
    rw [hL] at h1 h2
    rw [h1] at h2
    simp at h2

/-- C13 (amended): in a heap reached by the operations from frames whose stored inverses undo
their transforms (as in freshly constructed frames), where every matrix given to SetTransform is
affine with an inverse and every matrix given to SetContentTransform is affine, for every frame
whose content scale has no zero component and every point `p`,
`LocalToSuper(SuperToLocal(p)) = p` and `SuperToLocal(LocalToSuper(p)) = p`. -/
theorem LocalToSuper_SuperToLocal (ext : Externals) (w0 w : World)
    (h0 : ∀ q, MatricesOK (w0.frames q))
    (hs : Steps ext invertibleAffine DKMatrix3.IsAffine w0 w) (this : FramePtr) (p : DKPoint)
    (hw : (w.frames this).contentScale.width ≠ 0)
    (hh : (w.frames this).contentScale.height ≠ 0) :
    LocalToSuper w this (SuperToLocal w this p) = p ∧
      SuperToLocal w this (LocalToSuper w this p) = p :=
  super_round_trip w this p (Steps_pres (fun _ _ h => Step_matricesOK h) hs this (h0 this)) hw hh

theorem LocalToSuper_SuperToLocal_witness :
    (∀ q, MatricesOK (World.fresh.frames q)) ∧
      Steps exampleExternals invertibleAffine DKMatrix3.IsAffine World.fresh
        (placedHeap (scaleTranslate 2 4 1 1)) ∧
      ((placedHeap (scaleTranslate 2 4 1 1)).frames 1).superframe = some 0 ∧
      ((placedHeap (scaleTranslate 2 4 1 1)).frames 1).transform = scaleTranslate 2 4 1 1 ∧
      LocalToSuper (placedHeap (scaleTranslate 2 4 1 1)) 1
        (SuperToLocal (placedHeap (scaleTranslate 2 4 1 1)) 1 ⟨3, 5⟩) = ⟨3, 5⟩ ∧
      SuperToLocal (placedHeap (scaleTranslate 2 4 1 1)) 1
        (LocalToSuper (placedHeap (scaleTranslate 2 4 1 1)) 1 ⟨3, 5⟩) = ⟨3, 5⟩ :=
  have hs : Steps exampleExternals invertibleAffine DKMatrix3.IsAffine World.fresh
      (placedHeap (scaleTranslate 2 4 1 1)) :=
    Steps.next (Steps.next (Steps.here _)
      (Step.addSubframe 1 0 (some 1) true
        (show AddSubframe exampleExternals.sqrtf 1 World.fresh 0 (some 1) =
          some (true, linkSubframe World.fresh 0 1) from rfl)))
      (Step.setTransform (w := linkSubframe World.fresh 0 1) 1 1 (scaleTranslate 2 4 1 1)
        ⟨by decide, by norm_num [DKMatrix3.Determinant, scaleTranslate]⟩ rfl)
  ⟨fun _ => MatricesOK_fresh, hs, rfl, rfl,
    LocalToSuper_SuperToLocal exampleExternals World.fresh (placedHeap (scaleTranslate 2 4 1 1))
      (fun _ => MatricesOK_fresh) hs 1 ⟨3, 5⟩ (by decide) (by decide)⟩

/-- C14 (amended): in a heap reached by the operations from frames whose stored
content-transform inverse undoes the content transform (as in freshly constructed frames), where
every matrix given to SetContentTransform is affine, for every frame whose content scale and
content resolution have positive components and every point `p`,
`LocalToPixel(PixelToLocal(p)) = p` and
`PixelToLocal(LocalToPixel(p)) = p`. -/
theorem LocalToPixel_PixelToLocal (ext : Externals) (okT : DKMatrix3 → Prop) (w0 w : World)
    (h0 : ∀ q, ContentInverseOK (w0.frames q))
    (hs : Steps ext okT DKMatrix3.IsAffine w0 w) (this : FramePtr) (p : DKPoint)
    (hw : 0 < (w.frames this).contentScale.width)
    (hh : 0 < (w.frames this).contentScale.height)
    (hrw : 0 < (w.frames this).contentResolution.width)
    (hrh : 0 < (w.frames this).contentResolution.height) :
    LocalToPixel w this (PixelToLocal w this p) = p ∧
      PixelToLocal w this (LocalToPixel w this p) = p :=
  pixel_round_trip w this p
    (Steps_pres (fun _ _ h => Step_contentInverseOK h) hs this (h0 this))
    (ne_of_gt hw) (ne_of_gt hh) (ne_of_gt hrw) (ne_of_gt hrh)

theorem ContentInverseOK_exampleHeap : ∀ q, ContentInverseOK (exampleHeap.frames q) := by
  intro q
  have h : contentPair (exampleHeap.frames q) = (DKMatrix3.identity, DKMatrix3.identity) := by
    unfold exampleHeap
    simp only
    split_ifs <;> rfl
  simp only [contentPair, Prod.ext_iff] at h
  unfold ContentInverseOK
  rw [h.1, h.2]
  exact InversePair_identity

theorem SetContentTransform_frame (w : World) (this : FramePtr) (m : DKMatrix3) :
    ((SetContentTransform w this m).frames this).contentScale = (w.frames this).contentScale ∧
      ((SetContentTransform w this m).frames this).contentResolution =
        (w.frames this).contentResolution :=
  ⟨SetContentTransform_keeps (π := fun f : DKFrame => f.contentScale)
      ⟨fun _ _ => rfl, fun _ _ => rfl, fun _ _ => rfl, fun _ _ => rfl, fun _ _ _ => rfl,
        fun _ _ => rfl, fun _ _ => rfl, fun _ _ => rfl⟩ (fun _ _ => rfl) (fun _ _ => rfl)
      w this m this,
    SetContentTransform_keeps (π := fun f : DKFrame => f.contentResolution)
      contentResolution_ignoresBookkeeping (fun _ _ => rfl) (fun _ _ => rfl) w this m this⟩

theorem LocalToPixel_PixelToLocal_witness :
    (∀ q, ContentInverseOK (exampleHeap.frames q)) ∧
      Steps exampleExternals anyMatrix DKMatrix3.IsAffine exampleHeap
        (SetContentTransform exampleHeap 0 (scaleTranslate 2 4 1 1)) ∧
      LocalToPixel (SetContentTransform exampleHeap 0 (scaleTranslate 2 4 1 1)) 0
        (PixelToLocal (SetContentTransform exampleHeap 0 (scaleTranslate 2 4 1 1)) 0
          ⟨400, 300⟩) = ⟨400, 300⟩ ∧
      PixelToLocal (SetContentTransform exampleHeap 0 (scaleTranslate 2 4 1 1)) 0
        (LocalToPixel (SetContentTransform exampleHeap 0 (scaleTranslate 2 4 1 1)) 0
          ⟨400, 300⟩) = ⟨400, 300⟩ :=
  have hs : Steps exampleExternals anyMatrix DKMatrix3.IsAffine exampleHeap
      (SetContentTransform exampleHeap 0 (scaleTranslate 2 4 1 1)) :=
    Steps.next (Steps.here _)
      (Step.setContentTransform exampleHeap 0 (scaleTranslate 2 4 1 1) (by decide))
  have hf := SetContentTransform_frame exampleHeap 0 (scaleTranslate 2 4 1 1)
  ⟨ContentInverseOK_exampleHeap, hs,
    LocalToPixel_PixelToLocal exampleExternals anyMatrix exampleHeap
      (SetContentTransform exampleHeap 0 (scaleTranslate 2 4 1 1))
      ContentInverseOK_exampleHeap hs 0 ⟨400, 300⟩
      (by rw [hf.1]; decide) (by rw [hf.1]; decide) (by rw [hf.2]; decide)
      (by rw [hf.2]; decide)⟩

/-! ## Content resolution across the operations -/

theorem Pres_resOK_of_keeps {w w' : World}
    (k : Keeps (fun f : DKFrame => f.contentResolution) w w') : Pres ResOK w w' :=
  Pres_of_keeps (fun c : DKSize => 1 ≤ c.width ∧ 1 ≤ c.height) (fun _ => Iff.rfl) k

theorem Load_pres (sqrtf : ℚ → ℚ) :
    ∀ (fuel : Nat) (w : World) (p : FramePtr) (sc : Option ScreenPtr) (res : DKSize) (w' : World),
      Load sqrtf fuel w p sc res = some w' → Pres ResOK w w' := by
  have hb := contentResolution_ignoresBookkeeping
  intro fuel
  induction fuel with
  | zero => intro w p sc res w' h; simp [Load] at h
  | succ n ih =>
    intro w p sc res w' h
    unfold Load at h
    by_cases hne : (w.frames p).screen ≠ sc
    swap
    · rw [if_neg hne] at h
      cases h; exact Pres_refl _ _
    · rw [if_pos hne] at h
      simp only [Option.bind_eq_some] at h
      obtain ⟨w1, h1, h2⟩ := h
      have k1 : Pres ResOK w w1 :=
        Pres_resOK_of_keeps (Unload_keeps hb.renderTarget hb.loadState _ _ _ _ h1)
      cases sc with
      | none =>
        simp only at h2
        cases h2
        exact Pres_trans k1 (Pres_resOK_of_keeps
          (Keeps_modFrame _ p _ (fun f => hb.loadState f none f.loaded)))
      | some s =>
        simp only [Option.bind_eq_some] at h2
        obtain ⟨w6, h6, w7, h7, h8⟩ := h2
        cases h8
        have k7 : Pres ResOK w6 w7 :=
          foldlM_rel (Pres_refl ResOK) (fun _ _ _ => Pres_trans) _ _ _ _
            (fun a x b _ hx => ih a x _ _ b hx) h7
        have k8 : Pres ResOK w7 (SetRedraw w7 p) :=
          Pres_resOK_of_keeps (SetRedraw_keeps hb.drawSurface _ _)
        have k6 : Pres ResOK w1 w6 := by
          intro q hq
          by_cases hqp : q = p
          · subst hqp
            obtain ⟨_, hl, hw, hh⟩ := loadOwnState_frames_same sqrtf w1 q s res
            exact UpdateContentResolution_resOK sqrtf hl hw hh h6
          · apply UpdateContentResolution_pres sqrtf _ _ _ _ h6 q
            rw [loadOwnState_frames_ne sqrtf w1 s res hqp]
            exact hq
        exact Pres_trans k1 (Pres_trans k6 (Pres_trans k7 k8))

theorem AddSubframe_pres {sqrtf : ℚ → ℚ} {fuel : Nat} {w w' : World} {p : FramePtr}
    {frame : Option FramePtr} {r : Bool}
    (h : AddSubframe sqrtf fuel w p frame = some (r, w')) : Pres ResOK w w' := by
  have hb := contentResolution_ignoresBookkeeping
  unfold AddSubframe at h
  cases frame with
  | none =>
    simp only [Option.some.injEq, Prod.mk.injEq] at h
    rw [← h.2]; exact Pres_refl _ _
  | some f =>
    simp only at h
    by_cases hs : (w.frames f).superframe = none
    swap
    · rw [if_neg hs] at h
      simp only [Option.some.injEq, Prod.mk.injEq] at h
      rw [← h.2]; exact Pres_refl _ _
    rw [if_pos hs] at h
    cases hd : IsDescendantOf fuel w p (some f) with
    | none => rw [hd] at h; cases h
    | some b =>
      rw [hd] at h
      cases b with
      | true =>
        simp only [Option.some.injEq, Prod.mk.injEq] at h
        rw [← h.2]; exact Pres_refl _ _
      | false =>
        simp only at h
        have k0 : Pres ResOK w (linkSubframe w p f) :=
          Pres_resOK_of_keeps (linkSubframe_keeps hb w p f)
        split_ifs at h
        · simp only [Option.bind_eq_some, Option.some.injEq, Prod.mk.injEq] at h
          obtain ⟨w3, h3, w4, h4, _, h6⟩ := h
          rw [← h6]
          exact Pres_trans k0 (Pres_trans (Load_pres sqrtf _ _ _ _ _ _ h3)
            (Pres_trans (UpdateContentResolution_pres sqrtf _ _ _ _ h4)
              (Pres_resOK_of_keeps (SetRedraw_keeps hb.drawSurface _ _))))
        · simp only [Option.some.injEq, Prod.mk.injEq] at h
          rw [← h.2]
          exact k0

theorem SetTransform_pres {sqrtf : ℚ → ℚ} {fuel : Nat} {w w' : World} {p : FramePtr}
    {m : DKMatrix3} (h : SetTransform sqrtf fuel w p m = some w') : Pres ResOK w w' := by
  have hb := contentResolution_ignoresBookkeeping
  unfold SetTransform at h
  split_ifs at h with hr hm
  · cases h; exact Pres_refl _ _
  · simp only [Option.bind_eq_some] at h
    obtain ⟨w3, h3, h4⟩ := h
    have k2 : Pres ResOK w ((w.modFrame p (fun f => { f with transform := m })).modFrame p
        (fun f => { f with transformInverse := m.Inverse })) :=
      Pres_resOK_of_keeps (Keeps_trans
        (Keeps_modFrame w p (fun f => { f with transform := m }) (fun _ => rfl))
        (Keeps_modFrame _ p (fun f => { f with transformInverse := m.Inverse }) (fun _ => rfl)))
    have k3 := UpdateContentResolution_pres sqrtf _ _ _ _ h3
    cases hsup : (w3.frames p).superframe with
    | none =>
      rw [hsup] at h4
      cases h4; exact Pres_trans k2 k3
    | some sup =>
      rw [hsup] at h4
      cases h4
      exact Pres_trans k2 (Pres_trans k3 (Pres_resOK_of_keeps (SetRedraw_keeps hb.drawSurface _ _)))
  · cases h; exact Pres_refl _ _

theorem Step_resOK {ext : Externals} {okT okC : DKMatrix3 → Prop} {w w' : World}
    (h : Step ext okT okC w w') : Pres ResOK w w' := by
  have hb := contentResolution_ignoresBookkeeping
  let Q : DKSize → Prop := fun c => 1 ≤ c.width ∧ 1 ≤ c.height
  have hP : ∀ f, ResOK f ↔ Q ((fun g : DKFrame => g.contentResolution) f) := fun _ => Iff.rfl
  refine Step_pres hb Q hP ?_ ?_ ?_ ?_ ?_ ?_ h
  · intro fuel w this sc res w' h
    exact Load_pres _ _ _ _ _ _ _ h
  · intro fuel w this frame r w' h
    exact AddSubframe_pres h
  · intro fuel w this m w' _ h
    exact SetTransform_pres h
  · intro w this s
    exact Pres_of_keeps Q hP (SetContentScale_keeps hb (fun _ _ => rfl) _ _ _ _)
  · intro w this m _
    exact Pres_of_keeps Q hP (SetContentTransform_keeps hb (fun _ _ => rfl) (fun _ _ => rfl) _ _ _)
  · intro fuel w this w' h
    exact UpdateContentResolution_pres _ _ _ _ _ h

theorem ResOK_exampleHeap : ∀ q, ResOK (exampleHeap.frames q) := by
  intro q
  unfold exampleHeap
  simp only
  split_ifs <;> decide

theorem tinyHeap_footprint :
    CalculateContentResolution exampleSqrt (linkSubframe tinyHeap 0 6) 6 = ⟨0, 0⟩ := by
  simp [CalculateContentResolution, LocalToPixel, LocalToSuper, linkSubframe, tinyHeap,
    exampleHeap, World.modFrame, DKFrame.fresh, DKVector2.Transform, DKVector2.sub,
    DKVector2.Length, exampleSqrt, roundHalfUp, scaleTranslate, DKMatrix3.identity]
  norm_num

/-- C11: a freshly constructed frame has the content resolution 1x1, and in a heap reached by
the operations (Load with any requested resolution, Unload, AddSubframe, RemoveSubframe,
SetTransform with any matrix, SetContentScale, SetContentTransform, UpdateContentResolution and
the other modelled operations, hooks doing nothing) from a heap in which both components of the
content resolution of every frame are at least 1, both components of the content resolution of
every frame are at least 1. -/
theorem contentResolution_at_least_one (ext : Externals) (okT okC : DKMatrix3 → Prop)
    (w0 w : World) (h0 : ∀ q, ResOK (w0.frames q)) (hs : Steps ext okT okC w0 w) :
    DKFrame.fresh.contentResolution = ⟨1, 1⟩ ∧
      ∀ q, 1 ≤ (w.frames q).contentResolution.width ∧
        1 ≤ (w.frames q).contentResolution.height :=
  ⟨rfl, fun q => Steps_pres (fun _ _ h => Step_resOK h) hs q (h0 q)⟩

theorem contentResolution_at_least_one_witness :
    (∀ q, ResOK (exampleHeap.frames q)) ∧
      SetTransform exampleSqrt 1 exampleHeap 6 (scaleTranslate (1 / 10000) (1 / 10000) 0 0) =
        some tinyHeap ∧
      CalculateContentResolution exampleSqrt (linkSubframe tinyHeap 0 6) 6 = ⟨0, 0⟩ ∧
      ∃ w, AddSubframe exampleSqrt 2 tinyHeap 0 (some 6) = some (true, w) ∧
        (w.frames 6).loaded = true ∧
        ∀ q, 1 ≤ (w.frames q).contentResolution.width ∧
          1 ≤ (w.frames q).contentResolution.height := by
  have hd : DepthAtMost tinyHeap.children 1 6 := by decide
  obtain ⟨w, h1, _, _, h4⟩ := AddSubframe_accept_core exampleSqrt 2 1 1 tinyHeap 0 6 (by decide)
    (by decide) (by decide) (by decide) hd (by decide)
    (fun hr => absurd (reach_mem_subtree hd hr) (by decide))
    (fun X hX => by
      have hm := reach_mem_subtree hd hX
      have hX6 : X = 6 := by simpa [subtree, World.children, tinyHeap, exampleHeap] using hm
      subst hX6
      decide)
  have hset : SetTransform exampleSqrt 1 exampleHeap 6
      (scaleTranslate (1 / 10000) (1 / 10000) 0 0) = some tinyHeap := by
    have hne : (exampleHeap.frames 6).transform ≠ scaleTranslate (1 / 10000) (1 / 10000) 0 0 := by
      intro h
      have := congrArg DKMatrix3.m11 h
      norm_num [exampleHeap, DKFrame.fresh, DKMatrix3.identity, scaleTranslate] at this
    unfold SetTransform
    rw [if_neg (by decide), if_pos hne]
    rfl
  have hl : (w.frames 6).loaded = true := by
    have := (h4 0 (by decide) (by decide) (fun X hX => by
      have hm := reach_mem_subtree hd hX
      have hX6 : X = 6 := by simpa [subtree, World.children, tinyHeap, exampleHeap] using hm
      subst hX6
      exact ⟨by decide, fun hs => absurd hs (by decide)⟩)).1 6 (Reach.refl 6)
    exact this.2.1
  exact ⟨ResOK_exampleHeap, hset, tinyHeap_footprint, w, h1, hl,
    (contentResolution_at_least_one exampleExternals anyMatrix anyMatrix exampleHeap w
      ResOK_exampleHeap
      (Steps.next (Steps.next (Steps.here _)
        (Step.setTransform (w := exampleHeap) 1 6 (scaleTranslate (1 / 10000) (1 / 10000) 0 0)
          trivial hset))
        (Step.addSubframe (w := tinyHeap) 2 0 (some 6) true h1))).2⟩

/-! ## IsVisibleOnScreen -/

theorem IsVisibleOnScreen_succ :
    ∀ (fuel : Nat) (w : World) (N : FramePtr) (b : Bool),
      IsVisibleOnScreen fuel w N = some b → IsVisibleOnScreen (fuel + 1) w N = some b := by
  intro fuel
  induction fuel with
  | zero => intro w N b h; simp [IsVisibleOnScreen] at h
  | succ m ih =>
    intro w N b h
    unfold IsVisibleOnScreen at h ⊢
    cases hs : (w.frames N).screen with
    | none => rw [hs] at h; exact h
    | some s =>
      rw [hs] at h
      simp only at h ⊢
      split_ifs at h ⊢ with h1 h2
      · exact h
      · exact h
      · cases hp : (w.frames N).superframe with
        | none => rw [hp] at h; exact h
        | some sup =>
          rw [hp] at h
          exact ih w sup b h

theorem IsVisibleOnScreen_total :
    ∀ (fuel n : Nat) (w : World) (N : FramePtr), ancestorAt w.parent n N = none → n ≤ fuel →
      ∃ b, IsVisibleOnScreen fuel w N = some b := by
  intro fuel
  induction fuel with
  | zero =>
    intro n w N h hn
    have : n = 0 := by omega
    subst this
    simp [ancestorAt] at h
  | succ m ih =>
    intro n w N h hn
    cases n with
    | zero => simp [ancestorAt] at h
    | succ n =>
      unfold IsVisibleOnScreen
      cases (w.frames N).screen with
      | none => exact ⟨false, rfl⟩
      | some s =>
        simp only
        split_ifs
        · exact ⟨true, rfl⟩
        · exact ⟨false, rfl⟩
        · cases hp : (w.frames N).superframe with
          | none => exact ⟨false, rfl⟩
          | some sup =>
            have h' : ancestorAt w.parent n sup = none := by
              have e : w.parent N = some sup := hp
              simpa [ancestorAt, e] using h
            exact ih n w sup h' (by omega)

theorem isRootFrame_iff (w : World) (N : FramePtr) :
    isRootFrame w N = true ↔
      ∃ s, (w.frames N).screen = some s ∧ (w.screens s).rootFrame = some N := by
  unfold isRootFrame
  cases (w.frames N).screen with
  | none => simp
  | some s => simp

theorem VisibleChain_root {w : World} {N : FramePtr} (h : isRootFrame w N = true) :
    VisibleChain w N :=
  ⟨0, N, rfl, h, fun j _ hj _ => absurd hj (Nat.not_lt_zero j)⟩

theorem VisibleChain_step {w : World} {N : FramePtr} (hr : isRootFrame w N = false) :
    VisibleChain w N ↔
      (w.frames N).screen ≠ none ∧ (w.frames N).hidden = false ∧
        ∃ sup, (w.frames N).superframe = some sup ∧ VisibleChain w sup := by
  constructor
  · rintro ⟨k, r, hk, hroot, hall⟩
    cases k with
    | zero =>
      simp only [ancestorAt, Option.some.injEq] at hk
      subst hk
      rw [hr] at hroot
      cases hroot
    | succ k =>
      obtain ⟨h1, h2⟩ := hall 0 N (Nat.succ_pos k) rfl
      cases hp : (w.frames N).superframe with
      | none =>
        have e : w.parent N = none := hp
        simp [ancestorAt, e] at hk
      | some sup =>
        have e : w.parent N = some sup := hp
        refine ⟨h1, h2, sup, rfl, k, r, ?_, hroot, ?_⟩
        · simpa [ancestorAt, e] using hk
        · intro j a hj ha
          exact hall (j + 1) a (by omega) (by simpa [ancestorAt, e] using ha)
  · rintro ⟨h1, h2, sup, hp, k, r, hk, hroot, hall⟩
    have e : w.parent N = some sup := hp
    refine ⟨k + 1, r, by simpa [ancestorAt, e] using hk, hroot, ?_⟩
    intro j a hj ha
    cases j with
    | zero =>
      simp only [ancestorAt, Option.some.injEq] at ha
      subst ha
      exact ⟨h1, h2⟩
    | succ j =>
      exact hall j a (by omega) (by simpa [ancestorAt, e] using ha)

theorem IsVisibleOnScreen_iff :
    ∀ (fuel : Nat) (w : World) (N : FramePtr) (b : Bool),
      IsVisibleOnScreen fuel w N = some b → (b = true ↔ VisibleChain w N) := by
  intro fuel
  induction fuel with
  | zero => intro w N b h; simp [IsVisibleOnScreen] at h
  | succ m ih =>
    intro w N b h
    unfold IsVisibleOnScreen at h
    cases hs : (w.frames N).screen with
    | none =>
      rw [hs] at h
      simp only [Option.some.injEq] at h
      subst h
      have hr : isRootFrame w N = false := by simp [isRootFrame, hs]
      rw [VisibleChain_step hr]
      simp [hs]
    | some s =>
      rw [hs] at h
      simp only at h
      by_cases h1 : (w.screens s).rootFrame = some N
      · rw [if_pos h1] at h
        simp only [Option.some.injEq] at h
        subst h
        exact ⟨fun _ => VisibleChain_root ((isRootFrame_iff w N).2 ⟨s, hs, h1⟩), fun _ => rfl⟩
      · rw [if_neg h1] at h
        have hr : isRootFrame w N = false := by simp [isRootFrame, hs, h1]
        rw [VisibleChain_step hr]
        by_cases h2 : (w.frames N).hidden = true
        · rw [if_pos h2] at h
          simp only [Option.some.injEq] at h
          subst h
          simp [h2]
        · rw [if_neg h2] at h
          cases hp : (w.frames N).superframe with
          | none =>
            rw [hp] at h
            simp only [Option.some.injEq] at h
            subst h
            simp
          | some sup =>
            rw [hp] at h
            rw [ih w sup b h]
            simp [hs, h2]

/-- C12: for a frame `N` attached to a screen `s` whose superframe chain ends within the fuel,
IsVisibleOnScreen returns, and its value is: true if `N` is the root frame of `s`, whatever its
hidden flag; false if `N` is not the root frame and is hidden, whatever its ancestors are; and
otherwise the value of IsVisibleOnScreen on the superframe, false without a superframe.  Hence a
frame that is not the root frame is visible on screen exactly when its superframe chain reaches
the root frame of a screen and neither `N` nor any frame of the chain below that root frame is
hidden (each being attached to a screen). -/
theorem IsVisibleOnScreen_spec (fuel n : Nat) (w : World) (N : FramePtr) (s : ScreenPtr)
    (hchain : ancestorAt w.parent n N = none) (hn : n ≤ fuel)
    (hs : (w.frames N).screen = some s) :
    ∃ b, IsVisibleOnScreen fuel w N = some b ∧
      ((w.screens s).rootFrame = some N → b = true) ∧
      ((w.screens s).rootFrame ≠ some N → (w.frames N).hidden = true → b = false) ∧
      ((w.screens s).rootFrame ≠ some N → (w.frames N).hidden = false →
        (∀ sup, (w.frames N).superframe = some sup → IsVisibleOnScreen fuel w sup = some b) ∧
          ((w.frames N).superframe = none → b = false)) ∧
      ((w.screens s).rootFrame ≠ some N → (b = true ↔ VisibleChain w N)) := by
  obtain ⟨b, hb⟩ := IsVisibleOnScreen_total fuel n w N hchain hn
  refine ⟨b, hb, ?_, ?_, ?_, fun _ => IsVisibleOnScreen_iff fuel w N b hb⟩
  · intro hroot
    exact (IsVisibleOnScreen_iff fuel w N b hb).2
      (VisibleChain_root ((isRootFrame_iff w N).2 ⟨s, hs, hroot⟩))
  · intro hroot hh
    have hr : isRootFrame w N = false := by simp [isRootFrame, hs, hroot]
    cases hbv : b with
    | false => rfl
    | true =>
      have := (VisibleChain_step hr).1 ((IsVisibleOnScreen_iff fuel w N b hb).1 hbv)
      rw [hh] at this
      exact absurd this.2.1 (by simp)
  · intro hroot hh
    have hr : isRootFrame w N = false := by simp [isRootFrame, hs, hroot]
    have hstep := VisibleChain_step hr
    have hiff := IsVisibleOnScreen_iff fuel w N b hb
    constructor
    · intro sup hp
      have hc : ancestorAt w.parent (n - 1) sup = none := by
        cases n with
        | zero => simp [ancestorAt] at hchain
        | succ n =>
          have e : w.parent N = some sup := hp
          simpa [ancestorAt, e] using hchain
      obtain ⟨b', hb'⟩ := IsVisibleOnScreen_total fuel (n - 1) w sup hc (by omega)
      have hiff' := IsVisibleOnScreen_iff fuel w sup b' hb'
      have : b' = true ↔ b = true := by
        rw [hiff, hiff', hstep]
        constructor
        · intro h
          exact ⟨by simp [hs], hh, sup, hp, h⟩
        · rintro ⟨_, _, sup', hp', h⟩
          rw [hp] at hp'
          cases hp'
          exact h
      rw [hb']
      cases b <;> cases b' <;> simp_all
    · intro hp
      cases hbv : b with
      | false => rfl
      | true =>
        obtain ⟨_, _, sup, hp', _⟩ := hstep.1 (hiff.1 hbv)
        rw [hp] at hp'
        cases hp'

theorem IsVisibleOnScreen_spec_witness :
    ancestorAt exampleHeap.parent 3 2 = none ∧ (exampleHeap.frames 2).screen = some 0 ∧
      (exampleHeap.screens 0).rootFrame ≠ some 2 ∧ (exampleHeap.frames 2).hidden = false ∧
      (exampleHeap.frames 2).superframe = some 1 ∧
      ∃ b, IsVisibleOnScreen 3 exampleHeap 2 = some b ∧
        IsVisibleOnScreen 3 exampleHeap 1 = some b ∧ (b = true ↔ VisibleChain exampleHeap 2) := by
  obtain ⟨b, h1, _, _, h4, h5⟩ :=
    IsVisibleOnScreen_spec 3 3 exampleHeap 2 0 (by decide) (by decide) (by decide)
  exact ⟨by decide, by decide, by decide, by decide, by decide, b, h1,
    (h4 (by decide) (by decide)).1 1 (by decide), h5 (by decide)⟩

/-! ## Superframe chains and the intercept pass -/

theorem superChain_stable (par : FramePtr → Option FramePtr) :
    ∀ (m : Nat) (N : FramePtr), ancestorAt par (m + 1) N = none →
      ∀ k, m ≤ k → superChain par k N = superChain par m N := by
  intro m
  induction m with
  | zero =>
    intro N h k _
    have hp : par N = none := by
      cases hp : par N with
      | none => rfl
      | some sup => simp [ancestorAt, hp] at h
    cases k <;> simp [superChain, hp]
  | succ m ih =>
    intro N h k hk
    obtain ⟨k, rfl⟩ : ∃ j, k = j + 1 := ⟨k - 1, by omega⟩
    cases hp : par N with
    | none => simp [superChain, hp]
    | some sup =>
      have h' : ancestorAt par (m + 1) sup = none := by simpa [ancestorAt, hp] using h
      simp only [superChain, hp]
      rw [ih sup h' k (by omega)]

theorem superChain_reverse (par : FramePtr → Option FramePtr) :
    ∀ (m : Nat) (N : FramePtr), ancestorAt par (m + 1) N = none →
      ∀ i, (superChain par m N).reverse[i]? = ancestorAt par i N := by
  intro m
  induction m with
  | zero =>
    intro N h i
    have hp : par N = none := by
      cases hp : par N with
      | none => rfl
      | some sup => simp [ancestorAt, hp] at h
    cases i <;> simp [superChain, ancestorAt, hp]
  | succ m ih =>
    intro N h i
    cases hp : par N with
    | none => cases i <;> simp [superChain, ancestorAt, hp]
    | some sup =>
      have h' : ancestorAt par (m + 1) sup = none := by simpa [ancestorAt, hp] using h
      cases i with
      | zero => simp [superChain, ancestorAt, hp]
      | succ i =>
        simp only [superChain, hp, List.reverse_append, List.reverse_cons, List.reverse_nil,
          List.nil_append, List.singleton_append, List.getElem?_cons_succ, ancestorAt,
          Option.some_bind]
        exact ih sup h' i

theorem takeThrough_of_none {α : Type} (p : α → Bool) :
    ∀ l : List α, l.any p = false → takeThrough p l = l := by
  intro l
  induction l with
  | nil => intro _; rfl
  | cons x xs ih =>
    intro h
    simp only [List.any_cons, Bool.or_eq_false_iff] at h
    simp [takeThrough, h.1, ih h.2]

theorem takeThrough_append_of_any {α : Type} (p : α → Bool) :
    ∀ (l r : List α), l.any p = true → takeThrough p (l ++ r) = takeThrough p l := by
  intro l
  induction l with
  | nil => intro r h; simp at h
  | cons x xs ih =>
    intro r h
    by_cases hx : p x = true
    · simp [takeThrough, hx]
    · have hxs : xs.any p = true := by
        simp only [List.any_cons, Bool.or_eq_true] at h
        exact h.resolve_left hx
      simp [takeThrough, hx, ih r hxs]

/-- The closed form of a pass over a chain given topmost frame first: the answer is whether some
frame claims the event, and the calls are those on the frames up to and including the first
one that claims it. -/
theorem pass_step {α : Type} (p : α → Bool) (mk : α → Call) (chain : List α) (x : α) :
    (if chain.any p = true then
        ((true, (takeThrough p chain).map mk) : Bool × List Call)
      else (p x, (takeThrough p chain).map mk ++ [mk x])) =
      ((chain ++ [x]).any p, (takeThrough p (chain ++ [x])).map mk) := by
  by_cases h : chain.any p = true
  · rw [if_pos h, takeThrough_append_of_any p chain [x] h]
    simp [h]
  · rw [if_neg h]
    have h' : chain.any p = false := by simpa using h
    have hx : takeThrough p (chain ++ [x]) = chain ++ [x] := by
      by_cases hpx : p x = true
      · have : ∀ l : List α, l.any p = false → takeThrough p (l ++ [x]) = l ++ [x] := by
          intro l
          induction l with
          | nil => intro _; simp [takeThrough, hpx]
          | cons y ys ih =>
            intro hl
            simp only [List.any_cons, Bool.or_eq_false_iff] at hl
            simp [takeThrough, hl.1, ih hl.2]
        exact this chain h'
      · apply takeThrough_of_none
        simp only [List.any_append, h', List.any_cons, List.any_nil, Bool.or_false,
          Bool.false_or]
        simpa using hpx
    rw [hx, takeThrough_of_none p chain h']
    simp [h']

theorem keyboard_Preprocess_eq (h : Hooks) (w : World) (ep : KeyboardEvent) :
    ∀ (fuel : Nat) (N : FramePtr), ancestorAt w.parent (fuel + 1) N = none →
      ProcessKeyboardEvent.Preprocess h (fuel + 1) w N ep =
        some ((superChain w.parent fuel N).any (fun a => h.PreprocessKeyboardEvent a ep),
          (takeThrough (fun a => h.PreprocessKeyboardEvent a ep) (superChain w.parent fuel N)).map
            (fun a => Call.PreprocessKeyboardEvent a ep)) := by
  intro fuel
  induction fuel with
  | zero =>
    intro N hc
    have hp : (w.frames N).superframe = none := by
      cases hp : (w.frames N).superframe with
      | none => rfl
      | some sup =>
        have e : w.parent N = some sup := hp
        simp [ancestorAt, e] at hc
    simp [ProcessKeyboardEvent.Preprocess, hp, superChain, takeThrough]
  | succ m ih =>
    intro N hc
    cases hp : (w.frames N).superframe with
    | none =>
      have e : w.parent N = none := hp
      simp [ProcessKeyboardEvent.Preprocess, hp, superChain, takeThrough, e]
    | some sup =>
      have e : w.parent N = some sup := hp
      have hc' : ancestorAt w.parent (m + 1) sup = none := by simpa [ancestorAt, e] using hc
      rw [ProcessKeyboardEvent.Preprocess]
      simp only [hp, ih sup hc', Option.some_bind, superChain, e]
      rw [← pass_step]
      split_ifs <;> rfl

theorem superChain_of_le (par : FramePtr → Option FramePtr) {n : Nat} {N : FramePtr}
    (h : ancestorAt par n N = none) {k : Nat} (hk : n ≤ k + 1) :
    superChain par k N = superChain par n N ∧
      ∀ i, (superChain par n N).reverse[i]? = ancestorAt par i N := by
  cases n with
  | zero => simp [ancestorAt] at h
  | succ m =>
    have e1 := superChain_stable par m N h k (by omega)
    have e2 := superChain_stable par m N h (m + 1) (by omega)
    rw [e1, e2]
    exact ⟨rfl, superChain_reverse par m N h⟩

/-- C18: for a frame `N` whose superframe chain, topmost frame first, is `A0, ..., Ak = N` (it
ends within the fuel), ProcessKeyboardEvent returns; it calls PreprocessKeyboardEvent on
`A0, A1, ...` in this order and stops at the first one that answers true, with result true and no
further call; if none answers true, it calls OnKeyboardEvent of `N` once with result true when
`N` is enabled and has user input events enabled, and otherwise calls no handler, with result
false. -/
theorem ProcessKeyboardEvent_spec (h : Hooks) (fuel n : Nat) (w : World) (N : FramePtr)
    (event : KeyboardEvent) (hchain : ancestorAt w.parent n N = none) (hn : n ≤ fuel) :
    (∀ i, (superChain w.parent n N).reverse[i]? = ancestorAt w.parent i N) ∧
      ProcessKeyboardEvent h fuel w N event =
        some (keyboardOutcome h w N event (superChain w.parent n N)) := by
  obtain ⟨f, rfl⟩ : ∃ f, fuel = f + 1 := by
    cases n with
    | zero => simp [ancestorAt] at hchain
    | succ m => exact ⟨fuel - 1, by omega⟩
  obtain ⟨e1, e2⟩ := superChain_of_le w.parent hchain (k := f) hn
  refine ⟨e2, ?_⟩
  have hf : ancestorAt w.parent (f + 1) N = none := ancestorAt_none_of_le hchain hn
  unfold ProcessKeyboardEvent keyboardOutcome CanHandleKeyboard
  rw [keyboard_Preprocess_eq h w event f N hf, e1]
  simp only [Option.some_bind]
  by_cases hany : (superChain w.parent n N).any (fun a => h.PreprocessKeyboardEvent a event) = true
  · rw [if_pos hany, if_pos hany]
  · rw [if_neg hany, if_neg hany]
    have hnone : (superChain w.parent n N).any (fun a => h.PreprocessKeyboardEvent a event) =
        false := by simpa using hany
    rw [takeThrough_of_none _ _ hnone]
    split_ifs <;> rfl

theorem ProcessKeyboardEvent_spec_witness :
    ancestorAt exampleHeap.parent 3 2 = none ∧
      superChain exampleHeap.parent 3 2 = [0, 1, 2] ∧
      ProcessKeyboardEvent exampleHooks 3 exampleHeap 2 7 =
        some (keyboardOutcome exampleHooks exampleHeap 2 7 (superChain exampleHeap.parent 3 2)) ∧
      keyboardOutcome exampleHooks exampleHeap 2 7 [0, 1, 2] =
        (true, [Call.PreprocessKeyboardEvent 0 7, Call.PreprocessKeyboardEvent 1 7]) ∧
      keyboardOutcome exampleHooks exampleHeap 2 6 [0, 1, 2] =
        (true, [Call.PreprocessKeyboardEvent 0 6, Call.PreprocessKeyboardEvent 1 6,
          Call.PreprocessKeyboardEvent 2 6, Call.OnKeyboardEvent 2 6]) :=
  ⟨by decide, by decide,
    (ProcessKeyboardEvent_spec exampleHooks 3 3 exampleHeap 2 7 (by decide) (by decide)).2,
    by decide, by decide⟩

/-! ## The intercept pass of ProcessMouseEvent -/

theorem mouseChain_stable (w : World) :
    ∀ (m : Nat) (N : FramePtr) (pos posOld : DKPoint), ancestorAt w.parent (m + 1) N = none →
      ∀ k, m ≤ k → mouseChain w k N pos posOld = mouseChain w m N pos posOld := by
  intro m
  induction m with
  | zero =>
    intro N pos posOld h k _
    have hp : (w.frames N).superframe = none := by
      cases hp : (w.frames N).superframe with
      | none => rfl
      | some sup =>
        have e : w.parent N = some sup := hp
        simp [ancestorAt, e] at h
    cases k <;> simp [mouseChain, hp]
  | succ m ih =>
    intro N pos posOld h k hk
    obtain ⟨k, rfl⟩ : ∃ j, k = j + 1 := ⟨k - 1, by omega⟩
    cases hp : (w.frames N).superframe with
    | none => simp [mouseChain, hp]
    | some sup =>
      have e : w.parent N = some sup := hp
      have h' : ancestorAt w.parent (m + 1) sup = none := by simpa [ancestorAt, e] using h
      simp only [mouseChain, hp]
      rw [ih sup _ _ h' k (by omega)]

theorem mouseChain_reverse (w : World) :
    ∀ (m : Nat) (N : FramePtr) (pos posOld : DKPoint), ancestorAt w.parent (m + 1) N = none →
      ∀ i, (mouseChain w m N pos posOld).reverse[i]? =
        (ancestorAt w.parent i N).map (fun a => (a, superPos w i N pos, superPos w i N posOld)) := by
  intro m
  induction m with
  | zero =>
    intro N pos posOld h i
    have hp : (w.frames N).superframe = none := by
      cases hp : (w.frames N).superframe with
      | none => rfl
      | some sup =>
        have e : w.parent N = some sup := hp
        simp [ancestorAt, e] at h
    have e : w.parent N = none := hp
    cases i <;> simp [mouseChain, ancestorAt, superPos, e]
  | succ m ih =>
    intro N pos posOld h i
    cases hp : (w.frames N).superframe with
    | none =>
      have e : w.parent N = none := hp
      cases i <;> simp [mouseChain, ancestorAt, superPos, hp, e]
    | some sup =>
      have e : w.parent N = some sup := hp
      have h' : ancestorAt w.parent (m + 1) sup = none := by simpa [ancestorAt, e] using h
      cases i with
      | zero => simp [mouseChain, ancestorAt, superPos, hp]
      | succ i =>
        simp only [mouseChain, hp, List.reverse_append, List.reverse_cons, List.reverse_nil,
          List.nil_append, List.singleton_append, List.getElem?_cons_succ, ancestorAt,
          Option.some_bind, e, superPos]
        exact ih sup _ _ h' i

theorem mouseChain_of_le (w : World) {n : Nat} {N : FramePtr} (pos posOld : DKPoint)
    (h : ancestorAt w.parent n N = none) {k : Nat} (hk : n ≤ k + 1) :
    mouseChain w k N pos posOld = mouseChain w n N pos posOld ∧
      ∀ i, (mouseChain w n N pos posOld).reverse[i]? =
        (ancestorAt w.parent i N).map (fun a => (a, superPos w i N pos, superPos w i N posOld)) := by
  cases n with
  | zero => simp [ancestorAt] at h
  | succ m =>
    have e1 := mouseChain_stable w m N pos posOld h k (by omega)
    have e2 := mouseChain_stable w m N pos posOld h (m + 1) (by omega)
    rw [e1, e2]
    exact ⟨rfl, mouseChain_reverse w m N pos posOld h⟩

theorem mouse_Preprocess_eq (h : Hooks) (w : World) (event : MouseEvent) :
    ∀ (fuel : Nat) (N : FramePtr) (pos posOld : DKPoint),
      ancestorAt w.parent (fuel + 1) N = none →
      ProcessMouseEvent.Preprocess h (fuel + 1) w N event pos posOld =
        some ((mouseChain w fuel N pos posOld).any
            (fun e => h.PreprocessMouseEvent e.1 event e.2.1 (e.2.1.sub e.2.2)),
          (takeThrough (fun e => h.PreprocessMouseEvent e.1 event e.2.1 (e.2.1.sub e.2.2))
            (mouseChain w fuel N pos posOld)).map
            (fun e => Call.PreprocessMouseEvent e.1 event e.2.1 (e.2.1.sub e.2.2))) := by
  intro fuel
  induction fuel with
  | zero =>
    intro N pos posOld hc
    have hp : (w.frames N).superframe = none := by
      cases hp : (w.frames N).superframe with
      | none => rfl
      | some sup =>
        have e : w.parent N = some sup := hp
        simp [ancestorAt, e] at hc
    simp [ProcessMouseEvent.Preprocess, hp, mouseChain, takeThrough]
  | succ m ih =>
    intro N pos posOld hc
    cases hp : (w.frames N).superframe with
    | none => simp [ProcessMouseEvent.Preprocess, hp, mouseChain, takeThrough]
    | some sup =>
      have e : w.parent N = some sup := hp
      have hc' : ancestorAt w.parent (m + 1) sup = none := by simpa [ancestorAt, e] using hc
      rw [ProcessMouseEvent.Preprocess]
      simp only [hp, ih sup _ _ hc', Option.some_bind, mouseChain]
      rw [← pass_step]
      split_ifs <;> rfl

theorem CanHandleMouse_eq (h : Hooks) {up : Nat} {w : World} {N : FramePtr} {visible : Bool}
    (hv : IsVisibleOnScreen up w N = some visible) :
    CanHandleMouse h up w N =
      some ((w.frames N).enabled && visible && h.UserInputEventEnabled N) := by
  unfold CanHandleMouse
  rw [hv]
  cases (w.frames N).enabled <;> simp

theorem bySelf_eq (h : Hooks) (up n : Nat) (w : World) (N : FramePtr) (event : MouseEvent)
    (lp lpo : DKVector2) (visible : Bool) (hchain : ancestorAt w.parent n N = none)
    (hn : n ≤ up) (hv : IsVisibleOnScreen up w N = some visible) :
    ProcessMouseEvent.bySelf h up w N event lp lpo true =
        some (mouseOutcome h w N event lp lpo true visible (mouseChain w n N lp lpo)) ∧
      ProcessMouseEvent.bySelf h up w N event lp lpo false =
        some (if (w.frames N).enabled && visible && h.UserInputEventEnabled N
          then (true, [Call.OnMouseEvent N event lp (lp.sub lpo)]) else (false, [])) := by
  obtain ⟨f, rfl⟩ : ∃ f, up = f + 1 := by
    cases n with
    | zero => simp [ancestorAt] at hchain
    | succ m => exact ⟨up - 1, by omega⟩
  have e1 := (mouseChain_of_le w lp lpo hchain (k := f) hn).1
  have hf : ancestorAt w.parent (f + 1) N = none := ancestorAt_none_of_le hchain hn
  unfold ProcessMouseEvent.bySelf mouseOutcome
  rw [CanHandleMouse_eq h hv, mouse_Preprocess_eq h w event f N lp lpo hf, e1]
  simp only [Option.some_bind]
  constructor
  · cases hcan : ((w.frames N).enabled && visible && h.UserInputEventEnabled N)
    · simp
    · simp only [if_true, Option.some_bind, Bool.not_true, Bool.and_false]
      by_cases hany : (mouseChain w n N lp lpo).any
          (fun e => h.PreprocessMouseEvent e.1 event e.2.1 (e.2.1.sub e.2.2)) = true
      · simp [hany]
      · have hnone : (mouseChain w n N lp lpo).any
            (fun e => h.PreprocessMouseEvent e.1 event e.2.1 (e.2.1.sub e.2.2)) = false := by
          simpa using hany
        rw [takeThrough_of_none _ _ hnone]
        simp [hnone]
  · cases hcan : ((w.frames N).enabled && visible && h.UserInputEventEnabled N) <;> simp

/-! ## ProcessMouseEvent -/

theorem ProcessMouseEvent_succ (h : Hooks) (up fuel : Nat) (w : World) (N : FramePtr)
    (event : MouseEvent) (pos : DKPoint) (delta : DKVector2) (propagate : Bool) :
    ProcessMouseEvent h up (fuel + 1) w N event pos delta propagate =
      if propagate then
        if !h.HitTest N (toContent w N pos) then some (false, [])
        else
          (if h.ContentHitTest N (toContent w N pos) then
              ProcessMouseEvent.subframesLoop w event propagate (toContent w N pos)
                (toContent w N (pos.sub delta))
                (fun frame p d => ProcessMouseEvent h up fuel w frame event p d propagate)
                (w.frames N).subframes
            else some (false, [])).bind fun r =>
            if r.1 then some (true, r.2)
            else
              (ProcessMouseEvent.bySelf h up w N event (toContent w N pos)
                (toContent w N (pos.sub delta)) propagate).map fun s => (s.1, r.2 ++ s.2)
      else
        (ProcessMouseEvent.Preprocess h up w N event (toContent w N pos)
          (toContent w N (pos.sub delta))).bind fun pre =>
          if pre.1 then some (true, pre.2)
          else
            (ProcessMouseEvent.bySelf h up w N event (toContent w N pos)
              (toContent w N (pos.sub delta)) propagate).map fun s => (s.1, pre.2 ++ s.2) :=
  rfl

/-- C20, as stated, fails: a freshly constructed frame is not attached to a screen, so it cannot
handle mouse events; with `propagate` set and no subframe, ProcessMouseEvent reaches the own
handling and returns false without calling any intercept hook, although the hook of the frame
claims the event.  With `propagate` clear the hook is called and the result is true. -/
theorem ProcessMouseEvent_own_counterexample :
    claimAll.PreprocessMouseEvent 0 5 ⟨1 / 2, 1 / 2⟩ ⟨0, 0⟩ = true ∧
      CanHandleMouse claimAll 1 World.fresh 0 = some false ∧
      ProcessMouseEvent claimAll 1 1 World.fresh 0 5 ⟨1 / 2, 1 / 2⟩ ⟨0, 0⟩ true =
        some (false, []) ∧
      ProcessMouseEvent claimAll 1 1 World.fresh 0 5 ⟨1 / 2, 1 / 2⟩ ⟨0, 0⟩ false =
        some (true, [Call.PreprocessMouseEvent 0 5 ⟨1 / 2, 1 / 2⟩ ⟨0, 0⟩]) := by
  refine ⟨rfl, by decide, by decide, ?_⟩
  rw [ProcessMouseEvent_succ]
  simp [ProcessMouseEvent.Preprocess, toContent, World.fresh, DKFrame.fresh, claimAll,
    DKVector2.Transform, DKVector2.sub, DKMatrix3.identity]

/-- C20 (amended): for a frame `N` whose superframe chain ends within the fuel, the own handling
of ProcessMouseEvent is as follows.  With `propagate` clear, PreprocessMouseEvent is called on
the frames of the chain from the topmost one down to `N`, each with the position mapped into its
space by successive LocalToSuper, and the pass stops with result true at the first hook that
claims the event; if none claims it, OnMouseEvent of `N` is called, with result true, if and only
if `N` can handle mouse events (enabled, visible on screen, user input events enabled), and the
result is false otherwise; no subframe receives the event.  With `propagate` set, when the hit
test passes and no subframe consumed the event, the same pass and handler run only when `N` can
handle mouse events; when it cannot, no hook and no handler is called and the result is false. -/
theorem ProcessMouseEvent_own (h : Hooks) (up n fuel : Nat) (w : World) (N : FramePtr)
    (event : MouseEvent) (pos : DKPoint) (delta : DKVector2)
    (hchain : ancestorAt w.parent n N = none) (hn : n ≤ up) :
    (∀ i, (mouseChain w n N (toContent w N pos) (toContent w N (pos.sub delta))).reverse[i]? =
        (ancestorAt w.parent i N).map (fun a => (a, superPos w i N (toContent w N pos),
          superPos w i N (toContent w N (pos.sub delta))))) ∧
      ∃ visible, IsVisibleOnScreen up w N = some visible ∧
        ProcessMouseEvent h up (fuel + 1) w N event pos delta false =
          some (mouseOutcome h w N event (toContent w N pos) (toContent w N (pos.sub delta))
            false visible
            (mouseChain w n N (toContent w N pos) (toContent w N (pos.sub delta)))) ∧
        (∀ f e p d pr, Call.ProcessMouseEvent f e p d pr ∉
          (mouseOutcome h w N event (toContent w N pos) (toContent w N (pos.sub delta))
            false visible
            (mouseChain w n N (toContent w N pos) (toContent w N (pos.sub delta)))).2) ∧
        ∀ tr, h.HitTest N (toContent w N pos) = true →
          (if h.ContentHitTest N (toContent w N pos) then
              ProcessMouseEvent.subframesLoop w event true (toContent w N pos)
                (toContent w N (pos.sub delta))
                (fun frame p d => ProcessMouseEvent h up fuel w frame event p d true)
                (w.frames N).subframes
            else some (false, [])) = some (false, tr) →
          ProcessMouseEvent h up (fuel + 1) w N event pos delta true =
            some ((mouseOutcome h w N event (toContent w N pos)
                (toContent w N (pos.sub delta)) true visible
                (mouseChain w n N (toContent w N pos) (toContent w N (pos.sub delta)))).1,
              tr ++ (mouseOutcome h w N event (toContent w N pos)
                (toContent w N (pos.sub delta)) true visible
                (mouseChain w n N (toContent w N pos) (toContent w N (pos.sub delta)))).2) := by
  obtain ⟨visible, hv⟩ := IsVisibleOnScreen_total up n w N hchain hn
  obtain ⟨f, hf⟩ : ∃ f, up = f + 1 := by
    cases n with
    | zero => simp [ancestorAt] at hchain
    | succ m => exact ⟨up - 1, by omega⟩
  have hn' : n ≤ f + 1 := by omega
  obtain ⟨e1, e2⟩ := mouseChain_of_le w (toContent w N pos) (toContent w N (pos.sub delta))
    hchain (k := f) hn'
  have hcf : ancestorAt w.parent (f + 1) N = none := ancestorAt_none_of_le hchain hn'
  obtain ⟨b1, b2⟩ := bySelf_eq h up n w N event (toContent w N pos)
    (toContent w N (pos.sub delta)) visible hchain hn hv
  refine ⟨e2, visible, hv, ?_, ?_, ?_⟩
  · rw [ProcessMouseEvent_succ]
    simp only [Bool.false_eq_true, if_false]
    rw [b2, hf, mouse_Preprocess_eq h w event f N _ _ hcf, e1]
    unfold mouseOutcome
    simp only [Option.some_bind, Bool.false_and]
    by_cases hany : (mouseChain w n N (toContent w N pos) (toContent w N (pos.sub delta))).any
        (fun e => h.PreprocessMouseEvent e.1 event e.2.1 (e.2.1.sub e.2.2)) = true
    · simp [hany]
    · have hnone : (mouseChain w n N (toContent w N pos) (toContent w N (pos.sub delta))).any
          (fun e => h.PreprocessMouseEvent e.1 event e.2.1 (e.2.1.sub e.2.2)) = false := by
        simpa using hany
      rw [takeThrough_of_none _ _ hnone]
      cases hcan : ((w.frames N).enabled && visible && h.UserInputEventEnabled N) <;>
        simp [hnone]
  · intro f' e p d pr
    unfold mouseOutcome
    simp only [Bool.false_and]
    split_ifs <;> simp
  · intro tr hhit hloop
    rw [ProcessMouseEvent_succ]
    simp only [if_true, hhit, Bool.not_true, Bool.false_eq_true, if_false]
    rw [hloop, b1]
    simp

theorem ProcessMouseEvent_own_witness :
    ancestorAt sceneHeap.parent 2 2 = none ∧
      (∀ i, (mouseChain sceneHeap 2 2 (toContent sceneHeap 2 ⟨1 / 2, 1 / 2⟩)
          (toContent sceneHeap 2 (DKVector2.sub ⟨1 / 2, 1 / 2⟩ ⟨0, 0⟩))).reverse[i]? =
        (ancestorAt sceneHeap.parent i 2).map (fun a =>
          (a, superPos sceneHeap i 2 (toContent sceneHeap 2 ⟨1 / 2, 1 / 2⟩),
            superPos sceneHeap i 2
              (toContent sceneHeap 2 (DKVector2.sub ⟨1 / 2, 1 / 2⟩ ⟨0, 0⟩))))) ∧
      ProcessMouseEvent exampleHooks 2 1 sceneHeap 2 5 ⟨1 / 2, 1 / 2⟩ ⟨0, 0⟩ false =
        some (true, [Call.PreprocessMouseEvent 0 5 ⟨1 / 4, 1 / 2⟩ ⟨0, 0⟩,
          Call.PreprocessMouseEvent 2 5 ⟨1 / 2, 1 / 2⟩ ⟨0, 0⟩,
          Call.OnMouseEvent 2 5 ⟨1 / 2, 1 / 2⟩ ⟨0, 0⟩]) :=
  ⟨by decide,
    (ProcessMouseEvent_own exampleHooks 2 2 0 sceneHeap 2 5 ⟨1 / 2, 1 / 2⟩ ⟨0, 0⟩ (by decide)
      (by decide)).1,
    by decide!⟩

/-! ## The dispatch of a mouse event to the subframes -/

theorem subframesLoop_cons (w : World) (event : MouseEvent) (propagate : Bool)
    (lp lpo : DKVector2) (call : FramePtr → DKPoint → DKVector2 → Option (Bool × List Call))
    (c : FramePtr) (rest : List FramePtr) :
    ProcessMouseEvent.subframesLoop w event propagate lp lpo call (c :: rest) =
      if receives w lp c then
        (call c (toSubframe w c lp) ((toSubframe w c lp).sub (toSubframe w c lpo))).bind fun r =>
          if r.1 then
            some (true, Call.ProcessMouseEvent c event (toSubframe w c lp)
              ((toSubframe w c lp).sub (toSubframe w c lpo)) propagate :: r.2)
          else
            (ProcessMouseEvent.subframesLoop w event propagate lp lpo call rest).map fun s =>
              (s.1, (Call.ProcessMouseEvent c event (toSubframe w c lp)
                ((toSubframe w c lp).sub (toSubframe w c lpo)) propagate :: r.2) ++ s.2)
      else ProcessMouseEvent.subframesLoop w event propagate lp lpo call rest := by
  rw [ProcessMouseEvent.subframesLoop]
  unfold receives
  cases hh : (w.frames c).hidden
  · cases hi : DKRect.IsPointInside ⟨⟨0, 0⟩, ⟨1, 1⟩⟩ (toSubframe w c lp)
    · have hi' : DKRect.IsPointInside ⟨⟨0, 0⟩, ⟨1, 1⟩⟩
          (lp.Transform (w.frames c).transformInverse) = false := hi
      simp [hi']
    · have hi' : DKRect.IsPointInside ⟨⟨0, 0⟩, ⟨1, 1⟩⟩
          (lp.Transform (w.frames c).transformInverse) = true := hi
      simp only [Bool.false_eq_true, if_false, hi', if_true, Bool.not_false, Bool.and_self]
      rfl
  · simp

theorem subframesLoop_eq (w : World) (event : MouseEvent) (lp lpo : DKVector2)
    (call : FramePtr → DKPoint → DKVector2 → Option (Bool × List Call))
    (res : FramePtr → Bool × List Call) :
    ∀ L : List FramePtr,
      (∀ c ∈ L, receives w lp c = true →
        call c (toSubframe w c lp) ((toSubframe w c lp).sub (toSubframe w c lpo)) =
          some (res c)) →
      ProcessMouseEvent.subframesLoop w event true lp lpo call L =
        some (subframesOutcome w event lp lpo res L) := by
  intro L
  induction L with
  | nil => intro _; rfl
  | cons c rest ih =>
    intro hall
    have ih' := ih (fun x hx => hall x (List.mem_cons_of_mem _ hx))
    rw [subframesLoop_cons]
    by_cases hr : receives w lp c = true
    · rw [if_pos hr, hall c (List.mem_cons_self _ _) hr, ih']
      simp only [Option.some_bind, Option.map_some']
      unfold subframesOutcome
      simp only [List.filter_cons, hr, if_true, takeThrough, subframeCall]
      cases hres : (res c).1
      · simp [hres]
      · simp [hres]
    · rw [if_neg hr, ih']
      unfold subframesOutcome
      simp only [List.filter_cons, hr, Bool.false_eq_true, if_false]

theorem subframesLoop_total (w : World) (event : MouseEvent) (propagate : Bool)
    (lp lpo : DKVector2) (call : FramePtr → DKPoint → DKVector2 → Option (Bool × List Call)) :
    ∀ L : List FramePtr, (∀ c ∈ L, ∀ p d, ∃ r, call c p d = some r) →
      ∃ r, ProcessMouseEvent.subframesLoop w event propagate lp lpo call L = some r := by
  intro L
  induction L with
  | nil => intro _; exact ⟨_, rfl⟩
  | cons c rest ih =>
    intro hall
    obtain ⟨s, hs⟩ := ih (fun x hx => hall x (List.mem_cons_of_mem _ hx))
    rw [subframesLoop_cons]
    split_ifs
    · obtain ⟨r, hr⟩ := hall c (List.mem_cons_self _ _) (toSubframe w c lp)
        ((toSubframe w c lp).sub (toSubframe w c lpo))
      rw [hr, hs]
      simp only [Option.some_bind, Option.map_some']
      split_ifs <;> exact ⟨_, rfl⟩
    · exact ⟨s, hs⟩

theorem mouse_Preprocess_total (h : Hooks) (w : World) (event : MouseEvent) {n up : Nat}
    {N : FramePtr} (pos posOld : DKPoint) (hchain : ancestorAt w.parent n N = none)
    (hn : n ≤ up) : ∃ r, ProcessMouseEvent.Preprocess h up w N event pos posOld = some r := by
  obtain ⟨f, rfl⟩ : ∃ f, up = f + 1 := by
    cases n with
    | zero => simp [ancestorAt] at hchain
    | succ m => exact ⟨up - 1, by omega⟩
  exact ⟨_, mouse_Preprocess_eq h w event f N pos posOld (ancestorAt_none_of_le hchain hn)⟩

theorem bySelf_total (h : Hooks) (w : World) (event : MouseEvent) {n up : Nat} {N : FramePtr}
    (lp lpo : DKVector2) (propagate : Bool) (hchain : ancestorAt w.parent n N = none)
    (hn : n ≤ up) : ∃ r, ProcessMouseEvent.bySelf h up w N event lp lpo propagate = some r := by
  obtain ⟨visible, hv⟩ := IsVisibleOnScreen_total up n w N hchain hn
  obtain ⟨b1, b2⟩ := bySelf_eq h up n w N event lp lpo visible hchain hn hv
  cases propagate
  · exact ⟨_, b2⟩
  · exact ⟨_, b1⟩

theorem ProcessMouseEvent_total (h : Hooks) (up : Nat) (w : World) (event : MouseEvent)
    (propagate : Bool) :
    ∀ (fuel d : Nat) (N : FramePtr) (pos : DKPoint) (delta : DKVector2),
      DepthAtMost w.children d N → d ≤ fuel →
      (∀ X, Reach w.children N X → ancestorAt w.parent up X = none) →
      ∃ r, ProcessMouseEvent h up fuel w N event pos delta propagate = some r := by
  intro fuel
  induction fuel with
  | zero =>
    intro d N pos delta hd hle
    have : d = 0 := by omega
    subst this
    exact absurd hd (by simp [DepthAtMost])
  | succ m ih =>
    intro d N pos delta hd hle hup
    cases d with
    | zero => exact absurd hd (by simp [DepthAtMost])
    | succ d =>
      obtain ⟨own, hown⟩ := bySelf_total h w event (toContent w N pos)
        (toContent w N (pos.sub delta)) propagate (hup N (Reach.refl N)) (le_refl up)
      rw [ProcessMouseEvent_succ, hown]
      cases propagate
      · obtain ⟨pre, hpre⟩ := mouse_Preprocess_total h w event (toContent w N pos)
          (toContent w N (pos.sub delta)) (hup N (Reach.refl N)) (le_refl up)
        rw [hpre]
        simp only [Bool.false_eq_true, if_false, Option.some_bind, Option.map_some']
        split_ifs <;> exact ⟨_, rfl⟩
      · simp only [if_true]
        split_ifs
        · exact ⟨_, rfl⟩
        · obtain ⟨r, hr⟩ := subframesLoop_total w event true (toContent w N pos)
            (toContent w N (pos.sub delta))
            (fun frame p d' => ProcessMouseEvent h up m w frame event p d' true)
            (w.frames N).subframes (fun c hc p d' =>
              ih d c p d' (hd c hc) (by omega)
                (fun X hX => hup X (Reach.step hc hX)))
          rw [hr]
          simp only [Option.some_bind, Option.map_some']
          split_ifs <;> exact ⟨_, rfl⟩
        · simp only [Option.some_bind, Option.map_some']
          exact ⟨_, rfl⟩

theorem mouse_Preprocess_calls (h : Hooks) (w : World) (event : MouseEvent) :
    ∀ (fuel : Nat) (N : FramePtr) (pos posOld : DKPoint) (r : Bool × List Call),
      ProcessMouseEvent.Preprocess h fuel w N event pos posOld = some r →
      ∀ f e p d, Call.OnMouseEvent f e p d ∉ r.2 := by
  intro fuel
  induction fuel with
  | zero => intro N pos posOld r hr; simp [ProcessMouseEvent.Preprocess] at hr
  | succ m ih =>
    intro N pos posOld r hr f e p d
    rw [ProcessMouseEvent.Preprocess] at hr
    cases hp : (w.frames N).superframe with
    | none =>
      rw [hp] at hr
      simp only [Option.some.injEq] at hr
      subst hr
      simp
    | some sup =>
      rw [hp] at hr
      simp only [Option.bind_eq_some] at hr
      obtain ⟨parent, h1, h2⟩ := hr
      have := ih sup _ _ parent h1 f e p d
      split_ifs at h2
      · simp only [Option.some.injEq] at h2
        subst h2
        exact this
      · simp only [Option.some.injEq] at h2
        subst h2
        simpa using this

theorem bySelf_calls (h : Hooks) (up : Nat) (w : World) (N : FramePtr) (event : MouseEvent)
    (lp lpo : DKVector2) (propagate : Bool) (r : Bool × List Call)
    (hr : ProcessMouseEvent.bySelf h up w N event lp lpo propagate = some r) :
    ∀ f e p d, Call.OnMouseEvent f e p d ∈ r.2 → f = N := by
  intro f e p d hmem
  unfold ProcessMouseEvent.bySelf at hr
  simp only [Option.bind_eq_some] at hr
  obtain ⟨can, _, h2⟩ := hr
  split_ifs at h2
  · simp only [Option.bind_eq_some] at h2
    obtain ⟨pre, hpre, h3⟩ := h2
    have hno := mouse_Preprocess_calls h w event up N lp lpo pre hpre f e p d
    split_ifs at h3
    · simp only [Option.some.injEq] at h3
      subst h3
      exact absurd hmem hno
    · simp only [Option.some.injEq] at h3
      subst h3
      simp only [List.mem_append, List.mem_singleton, Call.OnMouseEvent.injEq] at hmem
      rcases hmem with hm | hm
      · exact absurd hm hno
      · exact hm.1
  · simp only [Option.some.injEq] at h2
    subst h2
    simp only [List.mem_singleton, Call.OnMouseEvent.injEq] at hmem
    exact hmem.1
  · simp only [Option.some.injEq] at h2
    subst h2
    simp at hmem

theorem subframesLoop_calls (w : World) (event : MouseEvent) (propagate : Bool)
    (lp lpo : DKVector2) (call : FramePtr → DKPoint → DKVector2 → Option (Bool × List Call))
    (f : FramePtr) (e : MouseEvent) (p : DKPoint) (d : DKVector2) :
    ∀ (L : List FramePtr) (r : Bool × List Call),
      (∀ c ∈ L, ∀ p' d' s, call c p' d' = some s → Call.OnMouseEvent f e p d ∈ s.2 →
        Reach w.children c f) →
      ProcessMouseEvent.subframesLoop w event propagate lp lpo call L = some r →
      Call.OnMouseEvent f e p d ∈ r.2 → ∃ c ∈ L, Reach w.children c f := by
  intro L
  induction L with
  | nil =>
    intro r _ hr hmem
    simp only [ProcessMouseEvent.subframesLoop, Option.some.injEq] at hr
    subst hr
    simp at hmem
  | cons c rest ih =>
    intro r hall hr hmem
    have ih' := fun r' => ih r' (fun x hx => hall x (List.mem_cons_of_mem _ hx))
    rw [subframesLoop_cons] at hr
    split_ifs at hr
    · simp only [Option.bind_eq_some] at hr
      obtain ⟨s, hs, h2⟩ := hr
      have hc := hall c (List.mem_cons_self _ _) _ _ s hs
      split_ifs at h2
      · simp only [Option.some.injEq] at h2
        subst h2
        simp only [List.mem_cons, reduceCtorEq, false_or] at hmem
        exact ⟨c, List.mem_cons_self _ _, hc hmem⟩
      · simp only [Option.map_eq_some'] at h2
        obtain ⟨t, ht, h3⟩ := h2
        subst h3
        simp only [List.cons_append, List.mem_cons, reduceCtorEq, false_or,
          List.mem_append] at hmem
        rcases hmem with hm | hm
        · exact ⟨c, List.mem_cons_self _ _, hc hm⟩
        · obtain ⟨x, hx, hxr⟩ := ih' t ht hm
          exact ⟨x, List.mem_cons_of_mem _ hx, hxr⟩
    · obtain ⟨x, hx, hxr⟩ := ih' r hr hmem
      exact ⟨x, List.mem_cons_of_mem _ hx, hxr⟩

/-- Every handler called by ProcessMouseEvent on a frame is the handler of a frame of its
subtree. -/
theorem ProcessMouseEvent_calls (h : Hooks) (up : Nat) (w : World) (event : MouseEvent)
    (propagate : Bool) :
    ∀ (fuel : Nat) (N : FramePtr) (pos : DKPoint) (delta : DKVector2) (r : Bool × List Call),
      ProcessMouseEvent h up fuel w N event pos delta propagate = some r →
      ∀ f e p d, Call.OnMouseEvent f e p d ∈ r.2 → Reach w.children N f := by
  intro fuel
  induction fuel with
  | zero => intro N pos delta r hr; simp [ProcessMouseEvent] at hr
  | succ m ih =>
    intro N pos delta r hr f e p d hmem
    rw [ProcessMouseEvent_succ] at hr
    have hself : ∀ s, ProcessMouseEvent.bySelf h up w N event (toContent w N pos)
        (toContent w N (pos.sub delta)) propagate = some s →
        Call.OnMouseEvent f e p d ∈ s.2 → Reach w.children N f := by
      intro s hs hm
      rw [bySelf_calls h up w N event _ _ propagate s hs f e p d hm]
      exact Reach.refl N
    cases propagate
    · simp only [Bool.false_eq_true, if_false, Option.bind_eq_some] at hr
      obtain ⟨pre, hpre, h2⟩ := hr
      have hno := mouse_Preprocess_calls h w event up N _ _ pre hpre f e p d
      split_ifs at h2
      · simp only [Option.some.injEq] at h2
        subst h2
        exact absurd hmem hno
      · simp only [Option.map_eq_some'] at h2
        obtain ⟨s, hs, h3⟩ := h2
        subst h3
        simp only [List.mem_append] at hmem
        rcases hmem with hm | hm
        · exact absurd hm hno
        · exact hself s hs hm
    · simp only [if_true] at hr
      split_ifs at hr with hhit hcontent
      · simp only [Option.some.injEq] at hr
        subst hr
        simp at hmem
      · simp only [Option.bind_eq_some] at hr
        obtain ⟨t, ht, h2⟩ := hr
        have hkids : Call.OnMouseEvent f e p d ∈ t.2 → Reach w.children N f := by
          intro hm
          obtain ⟨c, hc, hcr⟩ := subframesLoop_calls w event true _ _ _ f e p d
            (w.frames N).subframes t
            (fun c _ p' d' s hs hm' => ih c p' d' s hs f e p d hm') ht hm
          exact Reach.step hc hcr
        split_ifs at h2
        · simp only [Option.some.injEq] at h2
          subst h2
          exact hkids hmem
        · simp only [Option.map_eq_some'] at h2
          obtain ⟨s, hs, h3⟩ := h2
          subst h3
          simp only [List.mem_append] at hmem
          rcases hmem with hm | hm
          · exact hkids hm
          · exact hself s hs hm
      · simp only [Option.some_bind, Bool.false_eq_true, if_false, Option.map_eq_some'] at hr
        obtain ⟨s, hs, h3⟩ := hr
        subst h3
        simp only [List.nil_append] at hmem
        exact hself s hs hmem

/-- C19: ProcessMouseEvent with `propagate` set on a frame `N` (the fuel covering the depth of
its subtree and the superframe chains) returns.  When HitTest of `N` rejects the local position
it returns false and calls no hook and no handler.  When HitTest and ContentHitTest pass, the
subframes are visited front to back (index 0 first); ProcessMouseEvent is called on a subframe
if and only if it is not hidden, the position mapped through its transformInverse lies in the
unit square and no earlier subframe returned handled; the first subframe that returns handled
ends the dispatch with result true and the handler of `N` is not called; when none returns
handled (or ContentHitTest fails) the own handling of `N` follows. -/
theorem ProcessMouseEvent_propagate (h : Hooks) (up fuel d : Nat) (w : World) (N : FramePtr)
    (event : MouseEvent) (pos : DKPoint) (delta : DKVector2)
    (hdepth : DepthAtMost w.children d N) (hd : d ≤ fuel)
    (hup : ∀ X ∈ subtree w.children d N, ancestorAt w.parent up X = none) :
    ∃ r, ProcessMouseEvent h up fuel w N event pos delta true = some r ∧
      (h.HitTest N (toContent w N pos) = false → r = (false, [])) ∧
      (h.HitTest N (toContent w N pos) = true →
        h.ContentHitTest N (toContent w N pos) = true →
        ∃ res : FramePtr → Bool × List Call,
          (∀ c ∈ (w.frames N).subframes, receives w (toContent w N pos) c = true →
            ProcessMouseEvent h up (fuel - 1) w c event (toSubframe w c (toContent w N pos))
              ((toSubframe w c (toContent w N pos)).sub
                (toSubframe w c (toContent w N (pos.sub delta)))) true = some (res c)) ∧
          ((subframesOutcome w event (toContent w N pos) (toContent w N (pos.sub delta)) res
              (w.frames N).subframes).1 = true →
            r = (true, (subframesOutcome w event (toContent w N pos)
              (toContent w N (pos.sub delta)) res (w.frames N).subframes).2) ∧
            ∀ e p d', Call.OnMouseEvent N e p d' ∉ r.2) ∧
          ((subframesOutcome w event (toContent w N pos) (toContent w N (pos.sub delta)) res
              (w.frames N).subframes).1 = false →
            ∃ own, ProcessMouseEvent.bySelf h up w N event (toContent w N pos)
                (toContent w N (pos.sub delta)) true = some own ∧
              r = (own.1, (subframesOutcome w event (toContent w N pos)
                (toContent w N (pos.sub delta)) res (w.frames N).subframes).2 ++ own.2))) ∧
      (h.HitTest N (toContent w N pos) = true →
        h.ContentHitTest N (toContent w N pos) = false →
        ∃ own, ProcessMouseEvent.bySelf h up w N event (toContent w N pos)
            (toContent w N (pos.sub delta)) true = some own ∧ r = own) := by
  have hup' : ∀ X, Reach w.children N X → ancestorAt w.parent up X = none :=
    fun X hX => hup X (reach_mem_subtree hdepth hX)
  obtain ⟨f, rfl⟩ : ∃ f, fuel = f + 1 := by
    cases d with
    | zero => exact absurd hdepth (by simp [DepthAtMost])
    | succ d => exact ⟨fuel - 1, by omega⟩
  obtain ⟨d', rfl⟩ : ∃ d', d = d' + 1 := by
    cases d with
    | zero => exact absurd hdepth (by simp [DepthAtMost])
    | succ d => exact ⟨d, rfl⟩
  obtain ⟨own, hown⟩ := bySelf_total h w event (toContent w N pos)
    (toContent w N (pos.sub delta)) true (hup' N (Reach.refl N)) (le_refl up)
  have hkid : ∀ c ∈ (w.frames N).subframes, ∀ p dd,
      ∃ r, ProcessMouseEvent h up f w c event p dd true = some r := fun c hc p dd =>
    ProcessMouseEvent_total h up w event true f d' c p dd (hdepth c hc) (by omega)
      (fun X hX => hup' X (Reach.step hc hX))
  obtain ⟨r, hr⟩ := ProcessMouseEvent_total h up w event true (f + 1) (d' + 1) N pos delta
    hdepth hd hup'
  refine ⟨r, hr, ?_, ?_, ?_⟩
  · intro hhit
    rw [ProcessMouseEvent_succ] at hr
    simp only [if_true, hhit, Bool.not_false] at hr
    exact (Option.some.inj hr).symm
  · intro hhit hcontent
    let res : FramePtr → Bool × List Call := fun c =>
      (ProcessMouseEvent h up f w c event (toSubframe w c (toContent w N pos))
        ((toSubframe w c (toContent w N pos)).sub
          (toSubframe w c (toContent w N (pos.sub delta)))) true).getD (false, [])
    have hres : ∀ c ∈ (w.frames N).subframes, receives w (toContent w N pos) c = true →
        ProcessMouseEvent h up f w c event (toSubframe w c (toContent w N pos))
          ((toSubframe w c (toContent w N pos)).sub
            (toSubframe w c (toContent w N (pos.sub delta)))) true = some (res c) := by
      intro c hc _
      obtain ⟨s, hs⟩ := hkid c hc (toSubframe w c (toContent w N pos))
        ((toSubframe w c (toContent w N pos)).sub
          (toSubframe w c (toContent w N (pos.sub delta))))
      simp only [res, hs, Option.getD_some]
    have hloop := subframesLoop_eq w event (toContent w N pos) (toContent w N (pos.sub delta))
      (fun frame p dd => ProcessMouseEvent h up f w frame event p dd true) res
      (w.frames N).subframes hres
    have hr' := hr
    rw [ProcessMouseEvent_succ] at hr'
    simp only [if_true, hhit, Bool.not_true, Bool.false_eq_true, if_false, hcontent, hloop,
      Option.some_bind, hown, Option.map_some'] at hr'
    refine ⟨res, hres, ?_, ?_⟩
    · intro hone
      rw [if_pos hone] at hr'
      have hreq := (Option.some.inj hr').symm
      refine ⟨hreq, ?_⟩
      intro e p dd hmem
      rw [ProcessMouseEvent_succ] at hr
      simp only [if_true, hhit, Bool.not_true, Bool.false_eq_true, if_false, hcontent,
        Option.bind_eq_some] at hr
      obtain ⟨t, ht, h2⟩ := hr
      have ht' : t = subframesOutcome w event (toContent w N pos)
          (toContent w N (pos.sub delta)) res (w.frames N).subframes := by
        rw [hloop] at ht
        exact (Option.some.inj ht).symm
      rw [hreq] at hmem
      obtain ⟨c, hc, hcr⟩ := subframesLoop_calls w event true _ _ _ N e p dd
        (w.frames N).subframes t
        (fun c _ p' d'' s hs hm' => ProcessMouseEvent_calls h up w event true f c p' d'' s hs
          N e p dd hm') ht (by rw [ht']; exact hmem)
      exact DepthAtMost_no_cycle hdepth hc hcr
    · intro hnone
      rw [if_neg (by simp [hnone])] at hr'
      exact ⟨own, hown, (Option.some.inj hr').symm⟩
  · intro hhit hcontent
    rw [ProcessMouseEvent_succ] at hr
    simp only [if_true, hhit, Bool.not_true, Bool.false_eq_true, if_false, hcontent,
      Option.some_bind, hown, Option.map_some', List.nil_append] at hr
    exact ⟨own, hown, (Option.some.inj hr).symm⟩

theorem ProcessMouseEvent_propagate_witness :
    DepthAtMost sceneHeap.children 2 0 ∧
      (∀ X ∈ subtree sceneHeap.children 2 0, ancestorAt sceneHeap.parent 2 X = none) ∧
      receives sceneHeap (toContent sceneHeap 0 ⟨1 / 4, 1 / 2⟩) 2 = true ∧
      receives sceneHeap (toContent sceneHeap 0 ⟨3 / 4, 1 / 2⟩) 2 = false ∧
      receives sceneHeap (toContent sceneHeap 0 ⟨3 / 4, 1 / 2⟩) 1 = true ∧
      ProcessMouseEvent exampleHooks 2 2 sceneHeap 0 5 ⟨1 / 4, 1 / 2⟩ ⟨0, 0⟩ true =
        some (true, [Call.ProcessMouseEvent 2 5 ⟨1 / 2, 1 / 2⟩ ⟨0, 0⟩ true,
          Call.PreprocessMouseEvent 0 5 ⟨1 / 4, 1 / 2⟩ ⟨0, 0⟩,
          Call.PreprocessMouseEvent 2 5 ⟨1 / 2, 1 / 2⟩ ⟨0, 0⟩,
          Call.OnMouseEvent 2 5 ⟨1 / 2, 1 / 2⟩ ⟨0, 0⟩]) ∧
      ProcessMouseEvent exampleHooks 2 2 sceneHeap 0 5 ⟨3 / 4, 1 / 2⟩ ⟨0, 0⟩ true =
        some (true, [Call.ProcessMouseEvent 1 5 ⟨3 / 4, 1 / 2⟩ ⟨0, 0⟩ true,
          Call.PreprocessMouseEvent 0 5 ⟨3 / 4, 1 / 2⟩ ⟨0, 0⟩,
          Call.PreprocessMouseEvent 1 5 ⟨3 / 4, 1 / 2⟩ ⟨0, 0⟩,
          Call.OnMouseEvent 1 5 ⟨3 / 4, 1 / 2⟩ ⟨0, 0⟩]) ∧
      ∃ r, ProcessMouseEvent exampleHooks 2 2 sceneHeap 0 5 ⟨1 / 4, 1 / 2⟩ ⟨0, 0⟩ true =
          some r ∧
        (exampleHooks.HitTest 0 (toContent sceneHeap 0 ⟨1 / 4, 1 / 2⟩) = false →
          r = (false, [])) := by
  obtain ⟨r, h1, h2, _⟩ := ProcessMouseEvent_propagate exampleHooks 2 2 2 sceneHeap 0 5
    ⟨1 / 4, 1 / 2⟩ ⟨0, 0⟩ (by decide) (by decide) (by decide)
  exact ⟨by decide, by decide, by decide!, by decide!, by decide!, by decide!, by decide!,
    r, h1, h2⟩

/-! ## What a resolution update writes -/

theorem updateOwnResolution_screens (sqrtf : ℚ → ℚ) (w : World) (p : FramePtr) :
    (updateOwnResolution sqrtf w p).screens = w.screens := by
  unfold updateOwnResolution
  simp only
  split_ifs
  · split
    · split_ifs <;> rfl
    · rfl
  · rfl
  · rfl

theorem updateOwnResolution_frames_ne (sqrtf : ℚ → ℚ) (w : World) {p q : FramePtr}
    (h : q ≠ p) : (updateOwnResolution sqrtf w p).frames q = w.frames q := by
  unfold updateOwnResolution
  simp only
  split_ifs
  · split
    · split_ifs
      · simp [SetRedraw, modFrame_frames_ne, h]
      · rfl
    · rfl
  · simp [SetRedraw, DiscardSurface, modFrame_frames_ne, h]
  · rfl

/-- UpdateContentResolution on `c` leaves the screens and the frames outside the subtree of `c`
as they were. -/
theorem UpdateContentResolution_outside (sqrtf : ℚ → ℚ) :
    ∀ (fuel : Nat) (w : World) (c : FramePtr) (w' : World),
      UpdateContentResolution sqrtf fuel w c = some w' →
      w'.screens = w.screens ∧ ∀ Y, ¬ Reach w.children c Y → w'.frames Y = w.frames Y := by
  intro fuel
  induction fuel with
  | zero => intro w c w' h; simp [UpdateContentResolution] at h
  | succ n ih =>
    intro w c w' h
    have hlinks := UpdateContentResolution_links sqrtf h
    unfold UpdateContentResolution at h
    split_ifs at h with hl
    · cases h; exact ⟨rfl, fun _ _ => rfl⟩
    · have k0 : (updateOwnResolution sqrtf w c).children = w.children :=
        Keeps_children (updateOwnResolution_links sqrtf w c)
      have hL : ((updateOwnResolution sqrtf w c).frames c).subframes = w.children c :=
        congrFun k0 c
      simp only [hL] at h
      have key := foldlM_rel
        (R := fun a b => b.children = a.children ∧ b.screens = a.screens ∧
          ∀ Y, (∀ x ∈ w.children c, ¬ Reach a.children x Y) → b.frames Y = a.frames Y)
        (fun a => ⟨rfl, rfl, fun _ _ => rfl⟩)
        (fun a b d hab hbd => ⟨hbd.1.trans hab.1, hbd.2.1.trans hab.2.1, fun Y hY => by
          rw [hbd.2.2 Y (by rw [hab.1]; exact hY), hab.2.2 Y hY]⟩)
        (fun acc frame => UpdateContentResolution sqrtf n acc frame) (w.children c) _ w'
        (fun a x b hx hstep => ⟨Keeps_children (UpdateContentResolution_links sqrtf hstep),
          (ih a x b hstep).1, fun Y hY => (ih a x b hstep).2 Y (hY x hx)⟩) h
      refine ⟨key.2.1.trans (updateOwnResolution_screens sqrtf w c), fun Y hY => ?_⟩
      have hYc : Y ≠ c := fun e => hY (by rw [e]; exact Reach.refl c)
      rw [key.2.2 Y (fun x hx hr => hY (Reach.step hx (by rw [← k0]; exact hr))),
        updateOwnResolution_frames_ne sqrtf w hYc]

theorem updateOwnResolution_frame (sqrtf : ℚ → ℚ) (w : World) (p : FramePtr) :
    (updateOwnResolution sqrtf w p).frames p =
      resized (w.frames p) (targetResolution sqrtf w p).1 (targetResolution sqrtf w p).2
        (!isRootFrame w p) := by
  unfold updateOwnResolution targetResolution resized
  simp only
  by_cases hr : isRootFrame w p = true
  · rw [if_pos hr, if_pos hr]
    cases hs : (w.frames p).screen with
    | none => simp [isRootFrame, hs] at hr
    | some s =>
      simp only [hr, Bool.not_true, Bool.false_eq_true, if_false]
      by_cases hne : roundU32 (w.frames p).contentResolution.width ≠
          max (roundU32 (w.screens s).resolution.width) 1 ∨
          roundU32 (w.frames p).contentResolution.height ≠
            max (roundU32 (w.screens s).resolution.height) 1
      · rw [if_pos hne, if_pos hne]
        simp [SetRedraw, hs]
      · rw [if_neg hne, if_neg hne]
  · rw [if_neg hr, if_neg hr]
    have hr' : isRootFrame w p = false := by simpa using hr
    simp only [hr', Bool.not_false, if_true]
    by_cases hne : roundU32 (w.frames p).contentResolution.width ≠
        Clamp (roundU32 (CalculateContentResolution sqrtf w p).width) 1 maxTexSize ∨
        roundU32 (w.frames p).contentResolution.height ≠
          Clamp (roundU32 (CalculateContentResolution sqrtf w p).height) 1 maxTexSize
    · rw [if_pos hne, if_pos hne]
      simp [SetRedraw, DiscardSurface]
    · rw [if_neg hne, if_neg hne]

theorem isRootFrame_congr {v v' : World} {X : FramePtr} (hs : v.screens = v'.screens)
    (hX : v.frames X = v'.frames X) : isRootFrame v X = isRootFrame v' X := by
  unfold isRootFrame
  rw [hX, hs]

theorem CalculateContentResolution_congr (sqrtf : ℚ → ℚ) {v v' : World} {X : FramePtr}
    (hX : v.frames X = v'.frames X)
    (hP : ∀ P, (v.frames X).superframe = some P → v.frames P = v'.frames P) :
    CalculateContentResolution sqrtf v X = CalculateContentResolution sqrtf v' X := by
  unfold CalculateContentResolution
  simp only
  rw [← hX]
  cases hp : (v.frames X).superframe with
  | none => rfl
  | some P =>
    have hPe := hP P hp
    simp only [LocalToPixel, LocalToSuper, ← hX, ← hPe]

theorem targetResolution_congr (sqrtf : ℚ → ℚ) {v v' : World} {X : FramePtr}
    (hs : v.screens = v'.screens) (hX : v.frames X = v'.frames X)
    (hP : ∀ P, (v.frames X).superframe = some P → v.frames P = v'.frames P) :
    targetResolution sqrtf v X = targetResolution sqrtf v' X := by
  unfold targetResolution
  rw [isRootFrame_congr hs hX, CalculateContentResolution_congr sqrtf hX hP, ← hX, ← hs]

theorem updateOwnResolution_congr (sqrtf : ℚ → ℚ) {v v' : World} {X : FramePtr}
    (hs : v.screens = v'.screens) (hX : v.frames X = v'.frames X)
    (hP : ∀ P, (v.frames X).superframe = some P → v.frames P = v'.frames P) :
    (updateOwnResolution sqrtf v X).frames X = (updateOwnResolution sqrtf v' X).frames X := by
  rw [updateOwnResolution_frame, updateOwnResolution_frame, targetResolution_congr sqrtf hs hX hP,
    isRootFrame_congr hs hX, hX]

/-! ## Facts about well-formed trees -/

theorem WellFormed_child_not_reach {w : World} (hw : WellFormed w) {c x : FramePtr}
    (hx : x ∈ w.children c) : ¬ Reach w.children x c := by
  intro hr
  obtain ⟨k, hk⟩ := Reach_ancestor hw hr
  have hp : w.parent x = some c := (hw.child_iff x c).mp hx
  have : ancestorAt w.parent (k + 1) c = some c := by
    rw [ancestorAt_add, hk]
    simp [ancestorAt, hp]
  exact no_return (hw.chain_ends c) (k + 1) (Nat.succ_pos k) this

theorem WellFormed_parent_not_reach {w : World} (hw : WellFormed w) {c P : FramePtr}
    (hp : w.parent c = some P) : ¬ Reach w.children c P :=
  WellFormed_child_not_reach hw ((hw.child_iff c P).mpr hp)

theorem WellFormed_parent_reach {w : World} (hw : WellFormed w) {x X P : FramePtr}
    (hr : Reach w.children x X) (hp : w.parent X = some P) : X = x ∨ Reach w.children x P := by
  induction hr with
  | refl c => exact Or.inl rfl
  | @step c y z hy _ ih =>
    right
    rcases ih hp with e | hrp
    · rw [e] at hp
      have : w.parent y = some c := (hw.child_iff y c).mp hy
      rw [hp] at this
      cases this
      exact Reach.refl P
    · exact Reach.step hy hrp

theorem WellFormed_siblings_disjoint {w : World} (hw : WellFormed w) {c x y X : FramePtr}
    (hx : x ∈ w.children c) (hy : y ∈ w.children c) (hne : x ≠ y)
    (h1 : Reach w.children x X) (h2 : Reach w.children y X) : False := by
  obtain ⟨k, hk⟩ := Reach_ancestor hw h1
  obtain ⟨k', hk'⟩ := Reach_ancestor hw h2
  have hpx : w.parent x = some c := (hw.child_iff x c).mp hx
  have hpy : w.parent y = some c := (hw.child_iff y c).mp hy
  have main : ∀ {a b : FramePtr} {i j : Nat}, w.parent a = some c → w.parent b = some c →
      ancestorAt w.parent i X = some a → ancestorAt w.parent j X = some b → i < j → False := by
    intro a b i j hpa hpb hi hj hlt
    obtain ⟨e, rfl⟩ : ∃ e, j = i + (e + 1) := ⟨j - i - 1, by omega⟩
    rw [ancestorAt_add, hi] at hj
    simp only [Option.some_bind, ancestorAt, hpa] at hj
    have : ancestorAt w.parent (e + 1) c = some c := by
      rw [ancestorAt_add, hj]
      simp [ancestorAt, hpb]
    exact no_return (hw.chain_ends c) (e + 1) (Nat.succ_pos e) this
  rcases Nat.lt_trichotomy k k' with hlt | heq | hgt
  · exact main hpx hpy hk hk' hlt
  · subst heq
    rw [hk] at hk'
    exact hne (Option.some.inj hk')
  · exact main hpy hpx hk' hk hgt

theorem WellFormed_of_links {w a : World} (hw : WellFormed w) (hc : a.children = w.children)
    (hp : a.parent = w.parent) : WellFormed a := by
  unfold WellFormed at hw ⊢
  rw [hc, hp]
  exact hw

/-! ## UpdateContentResolution on a loaded tree -/

theorem withOld_screens (w' w : World) (X : FramePtr) : (w'.withOld w X).screens = w'.screens :=
  rfl

theorem withOld_frames_same (w' w : World) (X : FramePtr) :
    (w'.withOld w X).frames X = w.frames X := by
  simp [World.withOld]

theorem withOld_frames_ne (w' w : World) {X P : FramePtr} (h : P ≠ X) :
    (w'.withOld w X).frames P = w'.frames P := by
  simp [World.withOld, modFrame_frames_ne, h]

/-- The own update of `X` gives the same in two heaps with the state of `X` put back to that of
`w`, when the screens and the superframe of `X` are the same in both. -/
theorem updateOwnResolution_withOld (sqrtf : ℚ → ℚ) {a b w : World} {X : FramePtr}
    (hs : a.screens = b.screens)
    (hP : ∀ P, (w.frames X).superframe = some P → P ≠ X → a.frames P = b.frames P) :
    (updateOwnResolution sqrtf (a.withOld w X) X).frames X =
      (updateOwnResolution sqrtf (b.withOld w X) X).frames X := by
  apply updateOwnResolution_congr sqrtf
  · exact hs
  · rw [withOld_frames_same, withOld_frames_same]
  · intro P hp
    rw [withOld_frames_same] at hp
    by_cases hPX : P = X
    · rw [hPX, withOld_frames_same, withOld_frames_same]
    · rw [withOld_frames_ne _ _ hPX, withOld_frames_ne _ _ hPX]
      exact hP P hp hPX

/-- UpdateContentResolution on a well-formed tree whose frames are all loaded returns once the
fuel covers the depth of the tree, and the state of every frame of the tree afterwards is what
its own update gives in the final heap: the resolution of a frame is computed from the new
resolution of its superframe. -/
theorem UpdateContentResolution_frames (sqrtf : ℚ → ℚ) :
    ∀ (fuel d : Nat) (w : World) (c : FramePtr), WellFormed w → DepthAtMost w.children d c →
      d ≤ fuel → (∀ X, Reach w.children c X → (w.frames X).loaded = true) →
      ∃ w', UpdateContentResolution sqrtf fuel w c = some w' ∧
        ∀ X, Reach w.children c X →
          w'.frames X = (updateOwnResolution sqrtf (w'.withOld w X) X).frames X := by
  intro fuel
  induction fuel with
  | zero =>
    intro d w c _ h hn
    have : d = 0 := by omega
    subst this
    exact absurd h (by simp [DepthAtMost])
  | succ m ih =>
    intro d w c hw hd hfuel hloaded
    cases d with
    | zero => exact absurd hd (by simp [DepthAtMost])
    | succ d =>
    have hl : ¬ (w.frames c).loaded = false := by
      rw [hloaded c (Reach.refl c)]; simp
    have k0 := updateOwnResolution_links sqrtf w c
    have kc : (updateOwnResolution sqrtf w c).children = w.children := Keeps_children k0
    have kp : (updateOwnResolution sqrtf w c).parent = w.parent := Keeps_parent k0
    have hnodup : (w.children c).Nodup := hw.nodup c
    have key : ∀ (l done : List FramePtr) (a : World), done ++ l = w.children c →
        a.children = w.children → a.parent = w.parent → a.screens = w.screens →
        (∀ Y, (∀ x ∈ done, ¬ Reach w.children x Y) →
          a.frames Y = (updateOwnResolution sqrtf w c).frames Y) →
        (∀ x ∈ done, ∀ X, Reach w.children x X →
          a.frames X = (updateOwnResolution sqrtf (a.withOld w X) X).frames X) →
        ∃ w', l.foldlM (fun acc frame => UpdateContentResolution sqrtf m acc frame) a =
            some w' ∧ w'.screens = w.screens ∧
          (∀ Y, (∀ x ∈ w.children c, ¬ Reach w.children x Y) →
            w'.frames Y = (updateOwnResolution sqrtf w c).frames Y) ∧
          (∀ x ∈ w.children c, ∀ X, Reach w.children x X →
            w'.frames X = (updateOwnResolution sqrtf (w'.withOld w X) X).frames X) := by
      intro l
      induction l with
      | nil =>
        intro done a hL _ _ hs hout hfin
        rw [List.append_nil] at hL
        subst hL
        exact ⟨a, rfl, hs, hout, hfin⟩
      | cons x rest ihl =>
        intro done a hL hac hap hs hout hfin
        have hxL : x ∈ w.children c := by rw [← hL]; simp
        have hnd : (done ++ x :: rest).Nodup := by rw [hL]; exact hnodup
        have hxdone : ∀ x' ∈ done, x' ≠ x := by
          intro x' hx' e
          rw [e] at hx'
          have := (List.nodup_append.mp hnd).2.2
          exact this hx' (List.mem_cons_self _ _)
        have hdoneL : ∀ x' ∈ done, x' ∈ w.children c := by
          intro x' hx'; rw [← hL]; exact List.mem_append_left _ hx'
        have hold : ∀ X, Reach w.children x X → a.frames X = w.frames X := by
          intro X hX
          rw [hout X (fun x' hx' hr =>
            WellFormed_siblings_disjoint hw (hdoneL x' hx') hxL (hxdone x' hx') hr hX)]
          apply updateOwnResolution_frames_ne
          intro e
          rw [e] at hX
          exact WellFormed_child_not_reach hw hxL hX
        obtain ⟨a1, h1, hf1⟩ := ih d a x (WellFormed_of_links hw hac hap)
          (by rw [hac]; exact hd x hxL) (by omega)
          (fun X hX => by rw [hac] at hX; rw [hold X hX]; exact hloaded X (Reach.step hxL hX))
        have ho1 := UpdateContentResolution_outside sqrtf m a x a1 h1
        have hk1 := UpdateContentResolution_links sqrtf h1
        obtain ⟨w', hw', hres⟩ := ihl (done ++ [x]) a1 (by rw [List.append_assoc]; exact hL)
          ((Keeps_children hk1).trans hac) ((Keeps_parent hk1).trans hap) (ho1.1.trans hs)
          (fun Y hY => by
            rw [ho1.2 Y (by rw [hac]; exact hY x (by simp))]
            exact hout Y (fun x' hx' => hY x' (List.mem_append_left _ hx')))
          (fun x' hx' X hX => by
            rcases List.mem_append.mp hx' with hd' | hx1
            · have hXx : ¬ Reach w.children x X := fun hr =>
                WellFormed_siblings_disjoint hw (hdoneL x' hd') hxL (hxdone x' hd') hX hr
              rw [ho1.2 X (by rw [hac]; exact hXx), hfin x' hd' X hX]
              apply updateOwnResolution_withOld sqrtf ho1.1.symm
              intro P hp _
              have hpP : w.parent X = some P := hp
              have hPx : ¬ Reach w.children x P := by
                rcases WellFormed_parent_reach hw hX hpP with e | hr
                · intro hr
                  rw [e] at hpP
                  have : w.parent x' = some c := (hw.child_iff x' c).mp (hdoneL x' hd')
                  rw [hpP] at this
                  cases this
                  exact WellFormed_child_not_reach hw hxL hr
                · exact fun hr' =>
                    WellFormed_siblings_disjoint hw (hdoneL x' hd') hxL (hxdone x' hd') hr hr'
              exact (ho1.2 P (by rw [hac]; exact hPx)).symm
            · have e : x' = x := by simpa using hx1
              subst e
              rw [hf1 X (by rw [hac]; exact hX)]
              have : a1.withOld a X = a1.withOld w X := by
                unfold World.withOld
                rw [hold X hX]
              rw [this])
        exact ⟨w', by simp [List.foldlM_cons, h1, hw'], hres⟩
    obtain ⟨w', hw', hs', hout', hfin'⟩ := key (w.children c) [] (updateOwnResolution sqrtf w c)
      rfl kc kp (updateOwnResolution_screens sqrtf w c) (fun _ _ => rfl)
      (fun x hx => absurd hx (List.not_mem_nil x))
    have hrun : UpdateContentResolution sqrtf (m + 1) w c = some w' := by
      rw [UpdateContentResolution, if_neg hl]
      have hL : ((updateOwnResolution sqrtf w c).frames c).subframes = w.children c :=
        congrFun kc c
      simp only [hL]
      exact hw'
    refine ⟨w', hrun, ?_⟩
    intro X hX
    rcases Reach_head hX with e | ⟨y, hy, hyX⟩
    · subst e
      rw [hout' X (fun x hx hr => WellFormed_child_not_reach hw hx hr)]
      have e1 : (updateOwnResolution sqrtf w X).frames X =
          (updateOwnResolution sqrtf (w.withOld w X) X).frames X := by
        have : w.withOld w X = w := by
          unfold World.withOld World.modFrame
          cases w
          simp only [World.mk.injEq, and_true]
          funext q
          split_ifs with hq
          · rw [hq]
          · rfl
        rw [this]
      rw [e1]
      apply updateOwnResolution_withOld sqrtf hs'.symm
      intro P hp hPX
      have hpP : w.parent X = some P := hp
      rw [hout' P (fun x hx hr =>
        WellFormed_parent_not_reach hw hpP (Reach.step hx hr))]
      exact (updateOwnResolution_frames_ne sqrtf w hPX).symm
    · exact hfin' y hy X hyX

/-! ## What Load and Unload leave alone -/

theorem SameOutside_refl (L : List FramePtr) (a : World) : SameOutside L a a :=
  ⟨rfl, fun _ => rfl, fun _ _ => rfl⟩

theorem SameOutside_trans {L : List FramePtr} {a b c : World} (h1 : SameOutside L a b)
    (h2 : SameOutside L b c) : SameOutside L a c :=
  ⟨h2.1.trans h1.1, fun t => (h2.2.1 t).trans (h1.2.1 t), fun Y hY => by
    rw [h2.2.2 Y (by rw [h1.1]; exact hY), h1.2.2 Y hY]⟩

theorem SameOutside_mono {L : List FramePtr} {x : FramePtr} {a b : World} (hx : x ∈ L)
    (h : SameOutside [x] a b) : SameOutside L a b :=
  ⟨h.1, h.2.1, fun Y hY => h.2.2 Y (fun y hy => by
    have : y = x := by simpa using hy
    rw [this]; exact hY x hx)⟩

theorem SameOutside_of_children {c : FramePtr} {a b : World}
    (h : SameOutside (a.children c) a b) : SameOutside [c] a b :=
  ⟨h.1, h.2.1, fun Y hY => h.2.2 Y (fun _ hx hr =>
    hY c (List.mem_singleton_self c) (Reach.step hx hr))⟩

/-- A write to the frame `c` that keeps its links, and writes to the claim tables of the
screens. -/
theorem SameOutside_write {c : FramePtr} {a b : World} (hc : b.children = a.children)
    (hs : ∀ t, screenStatic (b.screens t) = screenStatic (a.screens t))
    (hf : ∀ Y, Y ≠ c → b.frames Y = a.frames Y) : SameOutside [c] a b :=
  ⟨hc, hs, fun Y hY => hf Y (fun e => hY c (List.mem_singleton_self c)
    (by rw [e]; exact Reach.refl c))⟩

theorem releaseClaims_static (w : World) (s : ScreenPtr) (f : FramePtr) (n : Bool)
    (t : ScreenPtr) :
    screenStatic ((releaseClaims w s f n).screens t) = screenStatic (w.screens t) := by
  rw [releaseClaims_screens]
  split_ifs <;> rfl

theorem SameOutside_modFrame (w : World) (c : FramePtr) (g : DKFrame → DKFrame)
    (hg : ∀ f, (g f).subframes = f.subframes) : SameOutside [c] w (w.modFrame c g) := by
  refine SameOutside_write ?_ (fun _ => rfl) (fun Y hY => modFrame_frames_ne _ _ hY)
  funext q
  show ((w.modFrame c g).frames q).subframes = (w.frames q).subframes
  by_cases hq : q = c
  · rw [hq, modFrame_frames_same, hg]
  · rw [modFrame_frames_ne _ _ hq]

theorem SameOutside_releaseClaims (L : List FramePtr) (w : World) (s : ScreenPtr)
    (f : FramePtr) (n : Bool) : SameOutside L w (releaseClaims w s f n) :=
  ⟨rfl, releaseClaims_static w s f n, fun _ _ => rfl⟩

theorem Unload_outside :
    ∀ (fuel : Nat) (w : World) (c : FramePtr) (w' : World),
      Unload fuel w c = some w' → SameOutside [c] w w' := by
  intro fuel
  induction fuel with
  | zero => intro w c w' h; simp [Unload] at h
  | succ n ih =>
    intro w c w' h
    unfold Unload at h
    simp only [Option.bind_eq_some] at h
    obtain ⟨w1, h1, h2⟩ := h
    have k1 : SameOutside (w.children c) w w1 :=
      foldlM_rel (R := SameOutside (w.children c)) (SameOutside_refl _)
        (fun _ _ _ => SameOutside_trans) _ _ _ _
        (fun a x b hx hstep => SameOutside_mono hx (ih a x b hstep)) h1
    have k1' := SameOutside_of_children k1
    split_ifs at h2 with hl
    · split at h2
      · rename_i s hs
        cases h2
        exact SameOutside_trans k1' (SameOutside_trans (SameOutside_releaseClaims _ w1 s c false)
          (SameOutside_trans
            (SameOutside_modFrame _ c (fun f => { f with renderTarget := none }) (fun _ => rfl))
            (SameOutside_modFrame _ c (fun f => { f with screen := none, loaded := false })
              (fun _ => rfl))))
      · cases h2
    · cases h2
      exact SameOutside_trans k1'
        (SameOutside_modFrame _ c (fun f => { f with screen := none, loaded := false })
          (fun _ => rfl))

theorem UpdateContentResolution_sameOutside (sqrtf : ℚ → ℚ) {fuel : Nat} {w w' : World}
    {c : FramePtr} (h : UpdateContentResolution sqrtf fuel w c = some w') :
    SameOutside [c] w w' := by
  obtain ⟨hs, hf⟩ := UpdateContentResolution_outside sqrtf fuel w c w' h
  exact ⟨Keeps_children (UpdateContentResolution_links sqrtf h), fun t => by rw [hs],
    fun Y hY => hf Y (hY c (List.mem_singleton_self c))⟩

theorem loadOwnState_sameOutside (sqrtf : ℚ → ℚ) (w : World) (c : FramePtr) (s : ScreenPtr)
    (res : DKSize) : SameOutside [c] w (loadOwnState sqrtf w c s res) :=
  SameOutside_write
    (Keeps_children (loadOwnState_keeps (π := links) (fun _ _ => rfl) (fun _ _ _ => rfl)
      sqrtf w c s res))
    (fun _ => rfl) (fun _ hY => loadOwnState_frames_ne sqrtf w s res hY)

theorem SetRedraw_sameOutside (w : World) (c : FramePtr) : SameOutside [c] w (SetRedraw w c) :=
  SameOutside_write
    (Keeps_children (SetRedraw_keeps (π := links) (fun _ _ => rfl) w c))
    (fun _ => rfl) (fun _ hY => modFrame_frames_ne _ _ hY)

theorem Load_outside (sqrtf : ℚ → ℚ) :
    ∀ (fuel : Nat) (w : World) (c : FramePtr) (sc : Option ScreenPtr) (res : DKSize)
      (w' : World), Load sqrtf fuel w c sc res = some w' → SameOutside [c] w w' := by
  intro fuel
  induction fuel with
  | zero => intro w c sc res w' h; simp [Load] at h
  | succ n ih =>
    intro w c sc res w' h
    unfold Load at h
    by_cases hne : (w.frames c).screen ≠ sc
    swap
    · rw [if_neg hne] at h
      cases h; exact SameOutside_refl _ _
    · rw [if_pos hne] at h
      simp only [Option.bind_eq_some] at h
      obtain ⟨w1, h1, h2⟩ := h
      have k1 := Unload_outside _ _ _ _ h1
      cases sc with
      | none =>
        simp only at h2
        cases h2
        refine SameOutside_trans k1 (SameOutside_write ?_ (fun _ => rfl)
          (fun Y hY => modFrame_frames_ne _ _ hY))
        exact Keeps_children (Keeps_modFrame (π := links) w1 c _ (fun _ => rfl))
      | some s =>
        simp only [Option.bind_eq_some] at h2
        obtain ⟨w6, h6, w7, h7, h8⟩ := h2
        cases h8
        have k5 := loadOwnState_sameOutside sqrtf w1 c s res
        have k6 := UpdateContentResolution_sameOutside sqrtf h6
        have k7 : SameOutside ((w6.frames c).subframes) w6 w7 :=
          foldlM_rel (R := SameOutside ((w6.frames c).subframes)) (SameOutside_refl _)
            (fun _ _ _ => SameOutside_trans) _ _ _ _
            (fun a x b hx hstep => SameOutside_mono hx (ih a x _ _ b hstep)) h7
        exact SameOutside_trans k1 (SameOutside_trans k5 (SameOutside_trans k6
          (SameOutside_trans (SameOutside_of_children k7) (SetRedraw_sameOutside w7 c))))

/-- The state of a loaded frame after UpdateContentResolution on it is what its own update
gives: the updates of the subframes do not write it. -/
theorem UpdateContentResolution_own (sqrtf : ℚ → ℚ) {fuel d : Nat} {w w' : World} {c : FramePtr}
    (hd : DepthAtMost w.children d c) (hl : (w.frames c).loaded = true)
    (h : UpdateContentResolution sqrtf fuel w c = some w') :
    w'.frames c = (updateOwnResolution sqrtf w c).frames c := by
  cases fuel with
  | zero => simp [UpdateContentResolution] at h
  | succ n =>
    unfold UpdateContentResolution at h
    rw [if_neg (by simp [hl])] at h
    have kc : (updateOwnResolution sqrtf w c).children = w.children :=
      Keeps_children (updateOwnResolution_links sqrtf w c)
    have k : SameOutside (((updateOwnResolution sqrtf w c).frames c).subframes)
        (updateOwnResolution sqrtf w c) w' :=
      foldlM_rel (R := SameOutside (((updateOwnResolution sqrtf w c).frames c).subframes))
        (SameOutside_refl _) (fun _ _ _ => SameOutside_trans) _ _ _ _
        (fun a x b hx hstep => SameOutside_mono hx
          (UpdateContentResolution_sameOutside sqrtf hstep)) h
    apply k.2.2 c
    intro x hx hr
    have hx' : x ∈ w.children c := by
      have : ((updateOwnResolution sqrtf w c).frames c).subframes = w.children c :=
        congrFun kc c
      rw [← this]; exact hx
    rw [kc] at hr
    cases d with
    | zero => exact absurd hd (by simp [DepthAtMost])
    | succ d => exact DepthAtMost_no_cycle hd hx' hr

/-! ## The resolution of a root frame -/

theorem roundU32_natCast (n : Nat) : roundU32 (n : ℚ) = n := by
  unfold roundU32 roundHalfUp
  have : ⌊(n : ℚ) + 1 / 2⌋ = (n : ℤ) := by
    rw [Int.floor_eq_iff]
    constructor
    · push_cast; linarith
    · push_cast; linarith
  rw [this]
  simp

theorem resized_rounded (f : DKFrame) (a b : Nat) (d : Bool) :
    roundU32 (resized f a b d).contentResolution.width = a ∧
      roundU32 (resized f a b d).contentResolution.height = b := by
  unfold resized
  by_cases h : roundU32 f.contentResolution.width ≠ a ∨ roundU32 f.contentResolution.height ≠ b
  · rw [if_pos h]
    exact ⟨roundU32_natCast a, roundU32_natCast b⟩
  · rw [if_neg h]
    push_neg at h
    exact h

theorem targetResolution_root (sqrtf : ℚ → ℚ) {w : World} {R : FramePtr} {s : ScreenPtr}
    (hs : (w.frames R).screen = some s) (hr : (w.screens s).rootFrame = some R) :
    isRootFrame w R = true ∧
      targetResolution sqrtf w R =
        (max (roundU32 (w.screens s).resolution.width) 1,
          max (roundU32 (w.screens s).resolution.height) 1) := by
  have h1 : isRootFrame w R = true := (isRootFrame_iff w R).2 ⟨s, hs, hr⟩
  refine ⟨h1, ?_⟩
  unfold targetResolution
  rw [if_pos h1, hs]

/-- C25, as stated, fails: the example screen has the resolution 800x600 and the root frame 0;
after `Load(screen, (800.25, 600))` the root frame is loaded with the content resolution
(800.25, 600), not (800, 600), and UpdateContentResolution leaves it so, because the resolution
is compared after rounding. -/
theorem root_resolution_counterexample :
    (unloadedRootHeap.screens 0).rootFrame = some 0 ∧
      (unloadedRootHeap.screens 0).resolution = ⟨800, 600⟩ ∧
      (Load exampleSqrt 1 unloadedRootHeap 0 (some 0) ⟨3201 / 4, 600⟩).map
          (fun w => ((w.frames 0).loaded, (w.frames 0).contentResolution)) =
        some (true, ⟨3201 / 4, 600⟩) ∧
      ((Load exampleSqrt 1 unloadedRootHeap 0 (some 0) ⟨3201 / 4, 600⟩).bind
          (fun w => UpdateContentResolution exampleSqrt 1 w 0)).map
          (fun w => (w.frames 0).contentResolution) = some ⟨3201 / 4, 600⟩ ∧
      ((3201 / 4 : ℚ) ≠ ((max (roundU32 800) 1 : ℕ) : ℚ)) := by
  refine ⟨rfl, rfl, by decide!, by decide!, by decide!⟩

theorem loadOwnState_screens (sqrtf : ℚ → ℚ) (w : World) (p : FramePtr) (s : ScreenPtr)
    (res : DKSize) : (loadOwnState sqrtf w p s res).screens = w.screens := rfl

theorem loadOwnState_resolution (sqrtf : ℚ → ℚ) (w : World) (p : FramePtr) (s : ScreenPtr)
    (res : DKSize) (hp : (w.frames p).superframe = none) :
    ((loadOwnState sqrtf w p s res).frames p).contentResolution =
      { width := if res.width < 1 then 1 else res.width
        height := if res.height < 1 then 1 else res.height } := by
  unfold loadOwnState
  simp only [modFrame_frames_same]
  unfold CalculateContentResolution
  simp only [modFrame_frames_same, hp]

/-- The state of the frame `R` after it is loaded on a screen of which it is the root frame. -/
theorem Load_root_frame (sqrtf : ℚ → ℚ) {fuel d : Nat} {w w' : World} {R : FramePtr}
    {s : ScreenPtr} {r : DKSize} (hd : DepthAtMost w.children d R)
    (hne : (w.frames R).screen ≠ some s) (hroot : (w.screens s).rootFrame = some R)
    (h : Load sqrtf fuel w R (some s) r = some w') :
    ∃ f : DKFrame, (w'.frames R).contentResolution =
        (resized f (max (roundU32 (w.screens s).resolution.width) 1)
          (max (roundU32 (w.screens s).resolution.height) 1) false).contentResolution ∧
      (w'.frames R).loaded = true ∧
      ((w.frames R).superframe = none → f.contentResolution =
        { width := if r.width < 1 then 1 else r.width
          height := if r.height < 1 then 1 else r.height }) := by
  cases fuel with
  | zero => simp [Load] at h
  | succ m =>
    unfold Load at h
    rw [if_pos hne] at h
    simp only [Option.bind_eq_some] at h
    obtain ⟨w1, h1, w6, h6, w7, h7, h8⟩ := h
    cases h8
    have k1 := Unload_outside _ _ _ _ h1
    have l1 := Unload_links h1
    have hc5 : (loadOwnState sqrtf w1 R s r).children = w.children :=
      (Keeps_children (loadOwnState_keeps (π := links) (fun _ _ => rfl) (fun _ _ _ => rfl)
        sqrtf w1 R s r)).trans k1.1
    obtain ⟨hs5, hl5, _⟩ := loadOwnState_frames_same sqrtf w1 R s r
    have hstat : screenStatic ((loadOwnState sqrtf w1 R s r).screens s) =
        screenStatic (w.screens s) := k1.2.1 s
    simp only [screenStatic, Prod.mk.injEq] at hstat
    have e6 : w6.frames R = (updateOwnResolution sqrtf (loadOwnState sqrtf w1 R s r) R).frames R :=
      UpdateContentResolution_own sqrtf (d := d) (by rw [hc5]; exact hd) hl5 h6
    obtain ⟨hr5, ht5⟩ := targetResolution_root sqrtf hs5 (hstat.1.trans hroot)
    rw [updateOwnResolution_frame, ht5, hr5, hstat.2] at e6
    have hc6 : w6.children = w.children :=
      (Keeps_children (UpdateContentResolution_links sqrtf h6)).trans hc5
    have k7 : SameOutside ((w6.frames R).subframes) w6 w7 :=
      foldlM_rel (R := SameOutside ((w6.frames R).subframes)) (SameOutside_refl _)
        (fun _ _ _ => SameOutside_trans) _ _ _ _
        (fun a x b hx hstep => SameOutside_mono hx (Load_outside sqrtf _ a x _ _ b hstep)) h7
    have e7 : w7.frames R = w6.frames R := by
      apply k7.2.2 R
      intro x hx hr
      have hx' : x ∈ w.children R := by
        have : (w6.frames R).subframes = w.children R := congrFun hc6 R
        rw [← this]; exact hx
      rw [hc6] at hr
      cases d with
      | zero => exact absurd hd (by simp [DepthAtMost])
      | succ d => exact DepthAtMost_no_cycle hd hx' hr
    refine ⟨(loadOwnState sqrtf w1 R s r).frames R, ?_, ?_, ?_⟩
    · simp only [SetRedraw, modFrame_frames_same, e7, e6, Bool.not_true]
    · have hload : (resized ((loadOwnState sqrtf w1 R s r).frames R)
          (max (roundU32 (w.screens s).resolution.width) 1)
          (max (roundU32 (w.screens s).resolution.height) 1) false).loaded = true := by
        unfold resized
        split_ifs <;> exact hl5
      simp only [SetRedraw, modFrame_frames_same, e7, e6, Bool.not_true]
      exact hload
    · intro hp
      apply loadOwnState_resolution
      have := l1 R
      simp only [links, Prod.mk.injEq] at this
      rw [this.1]; exact hp

theorem roundHalfUp_natCast (n : Nat) : roundHalfUp (n : ℚ) = (n : ℤ) := by
  unfold roundHalfUp
  rw [Int.floor_eq_iff]
  constructor
  · push_cast; linarith
  · push_cast; linarith

theorem roundU32_cast {x : ℚ} (h : 0 ≤ roundHalfUp x) : ((roundU32 x : ℕ) : ℤ) = roundHalfUp x :=
  Int.toNat_of_nonneg h

theorem max_roundU32_cast {x : ℚ} (h : 0 ≤ roundHalfUp x) :
    ((max (roundU32 x) 1 : ℕ) : ℤ) = max (roundHalfUp x) 1 := by
  rw [Nat.cast_max, roundU32_cast h]
  rfl

theorem resized_roundHalfUp (f : DKFrame) (a b : Nat) (d : Bool)
    (hf : SizeFits f.contentResolution) :
    roundHalfUp (resized f a b d).contentResolution.width = (a : ℤ) ∧
      roundHalfUp (resized f a b d).contentResolution.height = (b : ℤ) := by
  unfold resized
  by_cases h : roundU32 f.contentResolution.width ≠ a ∨ roundU32 f.contentResolution.height ≠ b
  · rw [if_pos h]
    exact ⟨roundHalfUp_natCast a, roundHalfUp_natCast b⟩
  · rw [if_neg h]
    push_neg at h
    rw [← h.1, ← h.2]
    exact ⟨(roundU32_cast hf.1.1).symm, (roundU32_cast hf.2.1).symm⟩

/-- C25 (amended): for a frame `R` that is the root frame of the screen `s`, whose resolution
`(sw, sh)` has positive components (the fuel covering the depth of the tree; the values converted
to `uint32_t` in range).  If `R` is loaded on `s`, UpdateContentResolution on `R` returns and the
content resolution of `R` afterwards rounds (half up) to `(max(round(sw), 1), max(round(sh), 1))`:
`R` takes exactly this pair when its rounded resolution differed from it, and keeps its
resolution otherwise; the resolution stays in range.  If `R`, without superframe, is not on
`s`, `Load(s, r)` returns for any requested resolution `r`, `R` is loaded, and its content resolution rounds to the same pair: it
is the pair itself when `r`, clamped to at least 1, rounds to something else, and the clamped `r`
otherwise.  For a frame that is not loaded UpdateContentResolution changes nothing. -/
theorem root_resolution (sqrtf : ℚ → ℚ) (fuel d : Nat) (w : World) (R : FramePtr)
    (s : ScreenPtr) (r : DKSize) (hd : DepthAtMost w.children d R) (hfuel : d ≤ fuel)
    (hroot : (w.screens s).rootFrame = some R)
    (hpos : 0 < (w.screens s).resolution.width ∧ 0 < (w.screens s).resolution.height)
    (hfit : SizeFits (w.screens s).resolution) :
    ((w.frames R).screen = some s → (w.frames R).loaded = true →
      SizeFits (w.frames R).contentResolution →
      ∃ w', UpdateContentResolution sqrtf fuel w R = some w' ∧
        w'.frames R = resized (w.frames R) (max (roundU32 (w.screens s).resolution.width) 1)
          (max (roundU32 (w.screens s).resolution.height) 1) false ∧
        roundHalfUp (w'.frames R).contentResolution.width =
          max (roundHalfUp (w.screens s).resolution.width) 1 ∧
        roundHalfUp (w'.frames R).contentResolution.height =
          max (roundHalfUp (w.screens s).resolution.height) 1 ∧
        SizeFits (w'.frames R).contentResolution) ∧
      ((w.frames R).screen ≠ some s → (∀ X, Reach w.children R X → Sane (w.frames X)) →
        (w.frames R).superframe = none →
        SizeFits { width := if r.width < 1 then 1 else r.width
                   height := if r.height < 1 then 1 else r.height } →
        ∃ w', Load sqrtf fuel w R (some s) r = some w' ∧ (w'.frames R).loaded = true ∧
          roundHalfUp (w'.frames R).contentResolution.width =
            max (roundHalfUp (w.screens s).resolution.width) 1 ∧
          roundHalfUp (w'.frames R).contentResolution.height =
            max (roundHalfUp (w.screens s).resolution.height) 1 ∧
          (w'.frames R).contentResolution =
            if roundU32 (if r.width < 1 then 1 else r.width) ≠
                  max (roundU32 (w.screens s).resolution.width) 1 ∨
                roundU32 (if r.height < 1 then 1 else r.height) ≠
                  max (roundU32 (w.screens s).resolution.height) 1 then
              { width := ((max (roundU32 (w.screens s).resolution.width) 1 : ℕ) : ℚ)
                height := ((max (roundU32 (w.screens s).resolution.height) 1 : ℕ) : ℚ) }
            else
              { width := if r.width < 1 then 1 else r.width
                height := if r.height < 1 then 1 else r.height }) ∧
      (∀ N, (w.frames N).loaded = false → UpdateContentResolution sqrtf fuel w N = some w) := by
  have hsw : 0 ≤ roundHalfUp (w.screens s).resolution.width := by
    unfold roundHalfUp
    exact Int.floor_nonneg.2 (by linarith [hpos.1])
  have hsh : 0 ≤ roundHalfUp (w.screens s).resolution.height := by
    unfold roundHalfUp
    exact Int.floor_nonneg.2 (by linarith [hpos.2])
  refine ⟨?_, ?_, ?_⟩
  · intro hs hl hcr
    obtain ⟨w', hw'⟩ := UpdateContentResolution_total sqrtf fuel d w R hd hfuel
    have e := UpdateContentResolution_own sqrtf hd hl hw'
    obtain ⟨hr, ht⟩ := targetResolution_root sqrtf hs hroot
    rw [updateOwnResolution_frame, ht, hr] at e
    simp only [Bool.not_true] at e
    have hround := resized_roundHalfUp (w.frames R)
      (max (roundU32 (w.screens s).resolution.width) 1)
      (max (roundU32 (w.screens s).resolution.height) 1) false hcr
    rw [max_roundU32_cast hsw, max_roundU32_cast hsh] at hround
    refine ⟨w', hw', e, ?_, ?_, ?_⟩
    · rw [e]; exact hround.1
    · rw [e]; exact hround.2
    · rw [e]
      unfold SizeFits FitsU32
      rw [hround.1, hround.2]
      have b1 := hfit.1.2
      have b2 := hfit.2.2
      refine ⟨⟨le_max_of_le_right (by norm_num), max_lt b1 (by norm_num)⟩,
        ⟨le_max_of_le_right (by norm_num), max_lt b2 (by norm_num)⟩⟩
  · intro hne hsane hp hr
    obtain ⟨w', hw', _⟩ := Load_spec sqrtf s r fuel d w R hd hfuel hsane
    obtain ⟨f, hf, hl, hres⟩ := Load_root_frame sqrtf hd hne hroot hw'
    have hc := hres hp
    have hfits : SizeFits f.contentResolution := by rw [hc]; exact hr
    refine ⟨w', hw', hl, ?_, ?_, ?_⟩
    · rw [hf, ← max_roundU32_cast hsw]
      exact (resized_roundHalfUp _ _ _ _ hfits).1
    · rw [hf, ← max_roundU32_cast hsh]
      exact (resized_roundHalfUp _ _ _ _ hfits).2
    · rw [hf]
      unfold resized
      rw [hc]
      split_ifs <;> simp_all
  · intro N hN
    cases fuel with
    | zero =>
      have : d = 0 := by omega
      subst this
      exact absurd hd (by simp [DepthAtMost])
    | succ m =>
      unfold UpdateContentResolution
      rw [if_pos hN]

theorem root_resolution_witness :
    DepthAtMost exampleHeap.children 3 0 ∧ (exampleHeap.screens 0).rootFrame = some 0 ∧
      (exampleHeap.screens 0).resolution = ⟨800, 600⟩ ∧
      (∃ w', UpdateContentResolution exampleSqrt 3 exampleHeap 0 = some w' ∧
        w'.frames 0 = resized (exampleHeap.frames 0)
          (max (roundU32 (exampleHeap.screens 0).resolution.width) 1)
          (max (roundU32 (exampleHeap.screens 0).resolution.height) 1) false ∧
        roundHalfUp (w'.frames 0).contentResolution.width =
          max (roundHalfUp (exampleHeap.screens 0).resolution.width) 1 ∧
        roundHalfUp (w'.frames 0).contentResolution.height =
          max (roundHalfUp (exampleHeap.screens 0).resolution.height) 1 ∧
        SizeFits (w'.frames 0).contentResolution) ∧
      (∃ w', Load exampleSqrt 1 unloadedRootHeap 0 (some 0) ⟨1024, 1 / 2⟩ = some w' ∧
        (w'.frames 0).loaded = true ∧
        roundHalfUp (w'.frames 0).contentResolution.width =
          max (roundHalfUp (unloadedRootHeap.screens 0).resolution.width) 1 ∧
        roundHalfUp (w'.frames 0).contentResolution.height =
          max (roundHalfUp (unloadedRootHeap.screens 0).resolution.height) 1) ∧
      max (roundHalfUp (800 : ℚ)) 1 = 800 ∧ max (roundHalfUp (600 : ℚ)) 1 = 600 ∧
      UpdateContentResolution exampleSqrt 3 exampleHeap 4 = some exampleHeap :=
  have h := root_resolution exampleSqrt 3 3 exampleHeap 0 0 ⟨800, 600⟩ (by decide) (by decide)
    (by decide) (by decide!) (by decide!)
  have g := root_resolution exampleSqrt 1 1 unloadedRootHeap 0 0 ⟨1024, 1 / 2⟩ (by decide)
    (by decide) (by decide) (by decide!) (by decide!)
  have g2 := g.2.1 (by decide) (fun X _ hl => by simp [unloadedRootHeap, DKFrame.fresh] at hl)
    (by decide) (by decide!)
  ⟨by decide, by decide, by decide, h.1 (by decide) (by decide) (by decide!),
    (by
      obtain ⟨w', a1, a2, a3, a4, _⟩ := g2
      exact ⟨w', a1, a2, a3, a4⟩),
    by decide!, by decide!, h.2.2 4 (by decide)⟩

/-! ## The footprint of a frame placed by an axis-aligned scale -/

theorem Length_horizontal (sqrtf : ℚ → ℚ) (a : ℚ) :
    DKVector2.Length sqrtf ⟨a, 0⟩ = sqrtf (a * a) := by
  simp [DKVector2.Length]

theorem Length_vertical (sqrtf : ℚ → ℚ) (b : ℚ) :
    DKVector2.Length sqrtf ⟨0, -b⟩ = sqrtf (b * b) := by
  simp [DKVector2.Length]

/-- The calculated resolution of a frame placed by the scale `(sx, sy)` (and any translation),
with identity content transforms, under a superframe with content scale `(pw, ph)` and
resolution `(W, H)`: the rounded `(sx*W/pw, sy*H/ph)`, when the square root is exact on the
squares of these two values. -/
theorem CalculateContentResolution_scaled (sqrtf : ℚ → ℚ) (v : World) (X P : FramePtr)
    (sx sy tx ty : ℚ) (hsup : (v.frames X).superframe = some P)
    (ht : (v.frames X).transform = scaleTranslate sx sy tx ty)
    (hct : (v.frames X).contentTransform = DKMatrix3.identity)
    (hctP : (v.frames P).contentTransform = DKMatrix3.identity)
    (hcw : (v.frames X).contentScale.width ≠ 0) (hch : (v.frames X).contentScale.height ≠ 0)
    (hpw : (v.frames P).contentScale.width ≠ 0) (hph : (v.frames P).contentScale.height ≠ 0)
    (hW : 0 < (v.frames P).contentResolution.width)
    (hH : 0 < (v.frames P).contentResolution.height)
    (hs1 : sqrtf ((sx * (v.frames P).contentResolution.width / (v.frames P).contentScale.width) *
        (sx * (v.frames P).contentResolution.width / (v.frames P).contentScale.width)) =
      sx * (v.frames P).contentResolution.width / (v.frames P).contentScale.width)
    (hs2 : sqrtf ((sy * (v.frames P).contentResolution.height /
          (v.frames P).contentScale.height) *
        (sy * (v.frames P).contentResolution.height / (v.frames P).contentScale.height)) =
      sy * (v.frames P).contentResolution.height / (v.frames P).contentScale.height) :
    CalculateContentResolution sqrtf v X =
      { width := (roundHalfUp
          (sx * (v.frames P).contentResolution.width / (v.frames P).contentScale.width) : ℚ)
        height := (roundHalfUp
          (sy * (v.frames P).contentResolution.height / (v.frames P).contentScale.height) : ℚ) } := by
  have hor : ∀ y : ℚ,
      (LocalToPixel v P (LocalToSuper v X ⟨(v.frames X).contentScale.width, y⟩)).sub
        (LocalToPixel v P (LocalToSuper v X ⟨0, y⟩)) =
      ⟨sx * (v.frames P).contentResolution.width / (v.frames P).contentScale.width, 0⟩ := by
    intro y
    simp only [LocalToPixel, LocalToSuper, hsup, ht, hct, hctP, DKVector2.Transform,
      DKVector2.sub, scaleTranslate, DKMatrix3.identity, DKVector2.mk.injEq]
    constructor
    · field_simp
      ring
    · field_simp
  have ver : ∀ x : ℚ,
      (LocalToPixel v P (LocalToSuper v X ⟨x, 0⟩)).sub
        (LocalToPixel v P (LocalToSuper v X ⟨x, (v.frames X).contentScale.height⟩)) =
      ⟨0, -(sy * (v.frames P).contentResolution.height / (v.frames P).contentScale.height)⟩ := by
    intro x
    simp only [LocalToPixel, LocalToSuper, hsup, ht, hct, hctP, DKVector2.Transform,
      DKVector2.sub, scaleTranslate, DKMatrix3.identity, DKVector2.mk.injEq]
    constructor
    · field_simp
    · field_simp
      ring
  unfold CalculateContentResolution
  simp only [hsup]
  rw [if_pos ⟨hW, hH⟩]
  rw [hor, hor, ver, ver, Length_horizontal, Length_vertical, hs1, hs2, max_self, max_self]

/-- The calculated resolution of a frame placed by the scale `(sx, sy)` (and any translation),
with identity content transforms, under a superframe with content scale `(pw, ph)` and
resolution `(W, H)`: the rounded lengths `L1` and `L2` that the square root gives for the squares
of `sx*W/pw` and `sy*H/ph`. -/
theorem CalculateContentResolution_scaled_to (sqrtf : ℚ → ℚ) (v : World) (X P : FramePtr)
    (sx sy tx ty L1 L2 : ℚ) (hsup : (v.frames X).superframe = some P)
    (ht : (v.frames X).transform = scaleTranslate sx sy tx ty)
    (hct : (v.frames X).contentTransform = DKMatrix3.identity)
    (hctP : (v.frames P).contentTransform = DKMatrix3.identity)
    (hcw : (v.frames X).contentScale.width ≠ 0) (hch : (v.frames X).contentScale.height ≠ 0)
    (hpw : (v.frames P).contentScale.width ≠ 0) (hph : (v.frames P).contentScale.height ≠ 0)
    (hW : 0 < (v.frames P).contentResolution.width)
    (hH : 0 < (v.frames P).contentResolution.height)
    (hs1 : sqrtf ((sx * (v.frames P).contentResolution.width / (v.frames P).contentScale.width) *
        (sx * (v.frames P).contentResolution.width / (v.frames P).contentScale.width)) = L1)
    (hs2 : sqrtf ((sy * (v.frames P).contentResolution.height /
          (v.frames P).contentScale.height) *
        (sy * (v.frames P).contentResolution.height / (v.frames P).contentScale.height)) = L2) :
    CalculateContentResolution sqrtf v X =
      { width := (roundHalfUp L1 : ℚ), height := (roundHalfUp L2 : ℚ) } := by
  have hor : ∀ y : ℚ,
      (LocalToPixel v P (LocalToSuper v X ⟨(v.frames X).contentScale.width, y⟩)).sub
        (LocalToPixel v P (LocalToSuper v X ⟨0, y⟩)) =
      ⟨sx * (v.frames P).contentResolution.width / (v.frames P).contentScale.width, 0⟩ := by
    intro y
    simp only [LocalToPixel, LocalToSuper, hsup, ht, hct, hctP, DKVector2.Transform,
      DKVector2.sub, scaleTranslate, DKMatrix3.identity, DKVector2.mk.injEq]
    constructor
    · field_simp
      ring
    · field_simp
  have ver : ∀ x : ℚ,
      (LocalToPixel v P (LocalToSuper v X ⟨x, 0⟩)).sub
        (LocalToPixel v P (LocalToSuper v X ⟨x, (v.frames X).contentScale.height⟩)) =
      ⟨0, -(sy * (v.frames P).contentResolution.height / (v.frames P).contentScale.height)⟩ := by
    intro x
    simp only [LocalToPixel, LocalToSuper, hsup, ht, hct, hctP, DKVector2.Transform,
      DKVector2.sub, scaleTranslate, DKMatrix3.identity, DKVector2.mk.injEq]
    constructor
    · field_simp
    · field_simp
      ring
  unfold CalculateContentResolution
  simp only [hsup]
  rw [if_pos ⟨hW, hH⟩]
  rw [hor, hor, ver, ver, Length_horizontal, Length_vertical, hs1, hs2, max_self, max_self]

theorem Clamp_le_max (v : Nat) : Clamp v 1 maxTexSize ≤ maxTexSize := by
  unfold Clamp maxTexSize
  split_ifs <;> omega

/-! ## Resize propagation -/

theorem roundU32_roundHalfUp (q : ℚ) : roundU32 ((roundHalfUp q : ℤ) : ℚ) = roundU32 q := by
  have : roundHalfUp ((roundHalfUp q : ℤ) : ℚ) = roundHalfUp q := by
    generalize roundHalfUp q = z
    unfold roundHalfUp
    rw [Int.floor_eq_iff]
    constructor <;> linarith
  unfold roundU32
  rw [this]

/-- C24, as stated, fails: after the screen went from 800x600 to 1600x1200,
UpdateContentResolution on the loaded root frame 0 gives it the resolution 1600x1200 and marks it
for redraw, but its subframe 1, scaled by 1/10000, has a footprint that is clamped to 1x1
before and after: it keeps its resolution, is not marked for redraw and keeps its cached
surface.  And a subframe that is mirrored (scale -1 along x) takes the resolution 1600x1200, the
length of its footprint, where the formula of the claim gives 1 for its width. -/
theorem resize_propagation_counterexample :
    (tinyResizeHeap.frames 0).contentResolution = ⟨800, 600⟩ ∧
      (tinyResizeHeap.frames 1).superframe = some 0 ∧
      (tinyResizeHeap.frames 1).loaded = true ∧
      (UpdateContentResolution exampleSqrt 2 tinyResizeHeap 0).map
          (fun w => ((w.frames 0).contentResolution, (w.frames 0).drawSurface,
            (w.frames 1).contentResolution, (w.frames 1).drawSurface,
            (w.frames 1).renderTarget)) =
        some (⟨1600, 1200⟩, true, ⟨1, 1⟩, false, some 7) ∧
      (mirrorResizeHeap.frames 1).transform = scaleTranslate (-1) 1 1 0 ∧
      (UpdateContentResolution exampleNewtonSqrt 2 mirrorResizeHeap 0).map
          (fun w => ((w.frames 0).contentResolution, (w.frames 0).contentScale,
            (w.frames 1).contentResolution)) =
        some (⟨1600, 1200⟩, ⟨1, 1⟩, ⟨1600, 1200⟩) ∧
      Clamp (roundU32 ((-1 : ℚ) * 1600 / 1)) 1 maxTexSize = 1 := by
  refine ⟨rfl, rfl, rfl, by decide!, rfl, by decide!, by decide!⟩

theorem WellFormed_parent_ne {w : World} (hw : WellFormed w) {X P : FramePtr}
    (hp : w.parent X = some P) : P ≠ X := by
  intro e
  rw [e] at hp
  exact no_return (hw.chain_ends X) 1 Nat.one_pos (by simp [ancestorAt, hp])

/-- C24 (amended): UpdateContentResolution on the loaded root frame `R` of a screen `s`, in a
well-formed tree whose frames are all loaded, returns (the fuel covering the depth of the tree).
When every value converted to `uint32_t` is in range (the screen resolution, the resolutions the
frames hold, the footprints calculated): `R` takes the screen resolution, rounded and at least 1,
and is marked for redraw when its rounded resolution differs from it, and is left as it is
otherwise.  Every frame `X` of the tree has its resolution recomputed from the new resolution of
its superframe: when its rounded resolution differs from the recomputed target, `X` takes the
target, is marked for redraw and (if it is no root frame) loses its cached surface; when it does
not differ, `X` is left as it is.  For a frame placed by the scale `(sx, sy)`, with identity
content transforms, under a superframe with content scale `(pw, ph)` and new resolution `(W, H)`,
the target is `(clamp(round(|sx*W/pw|), 1, 16384), clamp(round(|sy*H/ph|), 1, 16384))`, the
square root of a square being the absolute value. -/
theorem resize_propagation (sqrtf : ℚ → ℚ) (fuel d : Nat) (w : World) (R : FramePtr)
    (s : ScreenPtr) (hw : WellFormed w) (hd : DepthAtMost w.children d R) (hfuel : d ≤ fuel)
    (hloaded : ∀ X, Reach w.children R X → (w.frames X).loaded = true)
    (hs : (w.frames R).screen = some s) (hroot : (w.screens s).rootFrame = some R)
    (hscreen : SizeFits (w.screens s).resolution)
    (hold : ∀ X, Reach w.children R X → SizeFits (w.frames X).contentResolution) :
    ∃ w', UpdateContentResolution sqrtf fuel w R = some w' ∧
      ((∀ X, Reach w.children R X →
          SizeFits (CalculateContentResolution sqrtf (w'.withOld w X) X)) →
        (w'.frames R = resized (w.frames R) (max (roundU32 (w.screens s).resolution.width) 1)
            (max (roundU32 (w.screens s).resolution.height) 1) false ∧
          roundHalfUp (w'.frames R).contentResolution.width =
            max (roundHalfUp (w.screens s).resolution.width) 1 ∧
          roundHalfUp (w'.frames R).contentResolution.height =
            max (roundHalfUp (w.screens s).resolution.height) 1) ∧
        (∀ X, Reach w.children R X →
          w'.frames X = resized (w.frames X) (targetResolution sqrtf (w'.withOld w X) X).1
            (targetResolution sqrtf (w'.withOld w X) X).2 (!isRootFrame w X)) ∧
        (∀ X P sx sy tx ty, Reach w.children R X → isRootFrame w X = false →
          (w.frames X).superframe = some P →
          (w.frames X).transform = scaleTranslate sx sy tx ty →
          (w.frames X).contentTransform = DKMatrix3.identity →
          (w'.frames P).contentTransform = DKMatrix3.identity →
          (w.frames X).contentScale.width ≠ 0 → (w.frames X).contentScale.height ≠ 0 →
          (w'.frames P).contentScale.width ≠ 0 → (w'.frames P).contentScale.height ≠ 0 →
          0 < (w'.frames P).contentResolution.width →
          0 < (w'.frames P).contentResolution.height →
          sqrtf ((sx * (w'.frames P).contentResolution.width /
                (w'.frames P).contentScale.width) *
              (sx * (w'.frames P).contentResolution.width /
                (w'.frames P).contentScale.width)) =
            |sx * (w'.frames P).contentResolution.width / (w'.frames P).contentScale.width| →
          sqrtf ((sy * (w'.frames P).contentResolution.height /
                (w'.frames P).contentScale.height) *
              (sy * (w'.frames P).contentResolution.height /
                (w'.frames P).contentScale.height)) =
            |sy * (w'.frames P).contentResolution.height /
              (w'.frames P).contentScale.height| →
          targetResolution sqrtf (w'.withOld w X) X =
            (Clamp (roundU32 |sx * (w'.frames P).contentResolution.width /
                (w'.frames P).contentScale.width|) 1 maxTexSize,
              Clamp (roundU32 |sy * (w'.frames P).contentResolution.height /
                (w'.frames P).contentScale.height|) 1 maxTexSize))) := by
  obtain ⟨w', hw', hfr⟩ := UpdateContentResolution_frames sqrtf fuel d w R hw hd hfuel hloaded
  have hscr : w'.screens = w.screens := (UpdateContentResolution_outside sqrtf _ _ _ _ hw').1
  have hroot' : ∀ X, isRootFrame (w'.withOld w X) X = isRootFrame w X := fun X =>
    isRootFrame_congr (by rw [withOld_screens, hscr]) (withOld_frames_same w' w X)
  refine ⟨w', hw', fun _ => ⟨?_, ?_, ?_⟩⟩
  · have e := UpdateContentResolution_own sqrtf hd (hloaded R (Reach.refl R)) hw'
    obtain ⟨hr, ht⟩ := targetResolution_root sqrtf hs hroot
    rw [updateOwnResolution_frame, ht, hr] at e
    have e' : w'.frames R = resized (w.frames R)
        (max (roundU32 (w.screens s).resolution.width) 1)
        (max (roundU32 (w.screens s).resolution.height) 1) false := by simpa using e
    have hround := resized_roundHalfUp (w.frames R)
      (max (roundU32 (w.screens s).resolution.width) 1)
      (max (roundU32 (w.screens s).resolution.height) 1) false (hold R (Reach.refl R))
    rw [max_roundU32_cast hscreen.1.1, max_roundU32_cast hscreen.2.1] at hround
    refine ⟨e', ?_, ?_⟩
    · rw [e']; exact hround.1
    · rw [e']; exact hround.2
  · intro X hX
    rw [hfr X hX, updateOwnResolution_frame, withOld_frames_same, hroot' X]
  · intro X P sx sy tx ty _ hnr hsup ht hct hctP hcw hch hpw hph hW hH hs1 hs2
    have hPX : P ≠ X := WellFormed_parent_ne hw hsup
    have eX : (w'.withOld w X).frames X = w.frames X := withOld_frames_same w' w X
    have eP : (w'.withOld w X).frames P = w'.frames P := withOld_frames_ne w' w hPX
    unfold targetResolution
    rw [hroot' X, hnr]
    simp only [Bool.false_eq_true, if_false]
    rw [CalculateContentResolution_scaled_to sqrtf (w'.withOld w X) X P sx sy tx ty _ _
      (by rw [eX]; exact hsup) (by rw [eX]; exact ht) (by rw [eX]; exact hct)
      (by rw [eP]; exact hctP) (by rw [eX]; exact hcw) (by rw [eX]; exact hch)
      (by rw [eP]; exact hpw) (by rw [eP]; exact hph) (by rw [eP]; exact hW)
      (by rw [eP]; exact hH) rfl rfl]
    simp only [roundU32_roundHalfUp, eP, hs1, hs2]

theorem WellFormed_resizeHeap : WellFormed resizeHeap := by
  apply WellFormedLinks_of
  · intro c p
    rcases p with _ | _ | _ | p <;> rcases c with _ | _ | _ | c <;>
      simp [World.children, World.parent, resizeHeap, DKFrame.fresh]
  · intro p
    rcases p with _ | _ | _ | p <;> simp [World.children, resizeHeap, DKFrame.fresh]
  · intro p
    refine ⟨3, ?_⟩
    rcases p with _ | _ | _ | p <;>
      simp [ancestorAt, World.parent, resizeHeap, DKFrame.fresh]

theorem resize_propagation_witness :
    (resizeHeap.screens 0).resolution = ⟨1600, 1200⟩ ∧
      (resizeHeap.frames 0).contentResolution = ⟨800, 600⟩ ∧
      (resizeHeap.frames 1).contentScale = ⟨100, 100⟩ ∧
      (∃ w', UpdateContentResolution exampleNewtonSqrt 3 resizeHeap 0 = some w' ∧
        w'.frames 0 = resized (resizeHeap.frames 0)
          (max (roundU32 (resizeHeap.screens 0).resolution.width) 1)
          (max (roundU32 (resizeHeap.screens 0).resolution.height) 1) false ∧
        targetResolution exampleNewtonSqrt (w'.withOld resizeHeap 1) 1 = (1600, 1200) ∧
        w'.frames 1 = resized (resizeHeap.frames 1) 1600 1200 true) ∧
      (UpdateContentResolution exampleNewtonSqrt 3 resizeHeap 0).map
          (fun w => ((w.frames 0).contentResolution, (w.frames 0).drawSurface,
            (w.frames 1).contentResolution, (w.frames 1).drawSurface,
            (w.frames 1).renderTarget)) =
        some (⟨1600, 1200⟩, true, ⟨1600, 1200⟩, true, none) ∧
      (UpdateContentResolution exampleNewtonSqrt 3 resizeHeap 0).map
          (fun w => ((w.frames 2).contentResolution, (w.frames 2).drawSurface,
            (w.frames 2).renderTarget)) =
        some (⟨16, 12⟩, true, none) := by
  have hsub : ∀ X, Reach resizeHeap.children 0 X → X ∈ [0, 1, 2] := by
    intro X hX
    have hm := reach_mem_subtree (n := 3) (by decide) hX
    simpa [subtree, World.children, resizeHeap, DKFrame.fresh] using hm
  obtain ⟨w', h1, hrest⟩ := resize_propagation exampleNewtonSqrt 3 3 resizeHeap 0 0
    WellFormed_resizeHeap (by decide) (by decide)
    (fun X hX => by
      have hX' := hsub X hX
      simp only [List.mem_cons, List.mem_singleton, List.not_mem_nil, or_false] at hX'
      rcases hX' with e | e | e <;> subst e <;> decide)
    (by decide) (by decide) (by decide!)
    (fun X hX => by
      have hX' := hsub X hX
      simp only [List.mem_cons, List.mem_singleton, List.not_mem_nil, or_false] at hX'
      rcases hX' with e | e | e <;> subst e <;> decide!)
  have hfoot : (UpdateContentResolution exampleNewtonSqrt 3 resizeHeap 0).map
      (fun v : World => decide
        (SizeFits (CalculateContentResolution exampleNewtonSqrt (v.withOld resizeHeap 0) 0) ∧
          SizeFits (CalculateContentResolution exampleNewtonSqrt (v.withOld resizeHeap 1) 1) ∧
          SizeFits (CalculateContentResolution exampleNewtonSqrt (v.withOld resizeHeap 2) 2))) =
      some true := by decide!
  rw [h1] at hfoot
  simp only [Option.map_some', Option.some.injEq, decide_eq_true_eq] at hfoot
  obtain ⟨⟨h2, _, _⟩, h3, h4⟩ := hrest (fun X hX => by
    have hX' := hsub X hX
    simp only [List.mem_cons, List.mem_singleton, List.not_mem_nil, or_false] at hX'
    rcases hX' with e | e | e <;> subst e
    · exact hfoot.1
    · exact hfoot.2.1
    · exact hfoot.2.2)
  have hR : Reach resizeHeap.children 0 1 :=
    Reach.step (show 1 ∈ resizeHeap.children 0 by decide) (Reach.refl 1)
  have ht := h4 1 0 1 1 0 0 hR (by decide) rfl (by decide) rfl
    (by rw [h2]; decide!) (by decide!) (by decide!) (by rw [h2]; decide!)
    (by rw [h2]; decide!) (by rw [h2]; decide!) (by rw [h2]; decide!)
    (by rw [h2]; decide!) (by rw [h2]; decide!)
  have ht' : targetResolution exampleNewtonSqrt (w'.withOld resizeHeap 1) 1 = (1600, 1200) := by
    rw [ht, h2]
    decide!
  have hA := h3 1 hR
  rw [ht'] at hA
  exact ⟨rfl, rfl, rfl, ⟨w', h1, h2, ht', hA⟩, by decide!, by decide!⟩


/-! ## Hover resolution -/

theorem FindHoverFrame_succ (h : Hooks) (up fuel : Nat) (w : World) (N : FramePtr)
    (pos : DKPoint) :
    FindHoverFrame h up (fuel + 1) w N pos =
      if !(w.frames N).hidden then
        if DKRect.IsPointInside ⟨⟨0, 0⟩, ⟨1, 1⟩⟩ pos then
          if h.HitTest N (toContent w N pos) then
            (if h.ContentHitTest N (toContent w N pos) then
                FindHoverFrame.subframesLoop w (toContent w N pos)
                  (fun frame p => FindHoverFrame h up fuel w frame p) (w.frames N).subframes
              else some none).bind fun hover =>
              if hover.isSome then some hover
              else (CanHandleMouse h up w N).map fun can => if can then some N else none
          else some none
        else some none
      else some none :=
  rfl

theorem hoverLoop_cons (w : World) (lp : DKVector2)
    (call : FramePtr → DKPoint → Option (Option FramePtr)) (c : FramePtr)
    (rest : List FramePtr) :
    FindHoverFrame.subframesLoop w lp call (c :: rest) =
      (call c (toSubframe w c lp)).bind fun hover =>
        if hover.isSome then some hover else FindHoverFrame.subframesLoop w lp call rest :=
  rfl

theorem hoverLoop_eq (w : World) (lp : DKVector2)
    (call : FramePtr → DKPoint → Option (Option FramePtr)) (res : FramePtr → Option FramePtr) :
    ∀ L : List FramePtr, (∀ c ∈ L, call c (toSubframe w c lp) = some (res c)) →
      FindHoverFrame.subframesLoop w lp call L = some (L.findSome? res) := by
  intro L
  induction L with
  | nil => intro _; rfl
  | cons c rest ih =>
    intro hall
    rw [hoverLoop_cons, hall c (List.mem_cons_self _ _),
      ih (fun x hx => hall x (List.mem_cons_of_mem _ hx))]
    simp only [Option.some_bind, List.findSome?_cons]
    cases hres : res c <;> simp

theorem hoverLoop_some (w : World) (lp : DKVector2)
    (call : FramePtr → DKPoint → Option (Option FramePtr)) (H : FramePtr) :
    ∀ L : List FramePtr, FindHoverFrame.subframesLoop w lp call L = some (some H) →
      ∃ c ∈ L, call c (toSubframe w c lp) = some (some H) := by
  intro L
  induction L with
  | nil => intro hh; simp [FindHoverFrame.subframesLoop] at hh
  | cons c rest ih =>
    intro hh
    rw [hoverLoop_cons] at hh
    simp only [Option.bind_eq_some] at hh
    obtain ⟨hover, hc, h2⟩ := hh
    cases hover with
    | some x =>
      simp only [Option.isSome_some, if_true, Option.some.injEq] at h2
      rw [h2] at hc
      exact ⟨c, List.mem_cons_self _ _, hc⟩
    | none =>
      simp only [Option.isSome_none, Bool.false_eq_true, if_false] at h2
      obtain ⟨x, hx, hx2⟩ := ih h2
      exact ⟨x, List.mem_cons_of_mem _ hx, hx2⟩

theorem CanHandleMouse_total (h : Hooks) {n up : Nat} {w : World} {N : FramePtr}
    (hchain : ancestorAt w.parent n N = none) (hn : n ≤ up) :
    ∃ can, CanHandleMouse h up w N = some can := by
  obtain ⟨visible, hv⟩ := IsVisibleOnScreen_total up n w N hchain hn
  exact ⟨_, CanHandleMouse_eq h hv⟩

theorem FindHoverFrame_total (h : Hooks) (up : Nat) (w : World) :
    ∀ (fuel d : Nat) (N : FramePtr) (pos : DKPoint),
      DepthAtMost w.children d N → d ≤ fuel →
      (∀ X, Reach w.children N X → ancestorAt w.parent up X = none) →
      ∃ r, FindHoverFrame h up fuel w N pos = some r := by
  intro fuel
  induction fuel with
  | zero =>
    intro d N pos hd hle
    have : d = 0 := by omega
    subst this
    exact absurd hd (by simp [DepthAtMost])
  | succ m ih =>
    intro d N pos hd hle hup
    cases d with
    | zero => exact absurd hd (by simp [DepthAtMost])
    | succ d =>
      obtain ⟨can, hcan⟩ := CanHandleMouse_total h (hup N (Reach.refl N)) (le_refl up)
      rw [FindHoverFrame_succ, hcan]
      split_ifs
      · let res : FramePtr → Option FramePtr := fun c =>
          (FindHoverFrame h up m w c (toSubframe w c (toContent w N pos))).getD none
        have hres : ∀ c ∈ (w.frames N).subframes,
            FindHoverFrame h up m w c (toSubframe w c (toContent w N pos)) =
              some (res c) := by
          intro c hc
          obtain ⟨s, hs⟩ := ih d c (toSubframe w c (toContent w N pos)) (hd c hc) (by omega)
            (fun X hX => hup X (Reach.step hc hX))
          simp only [res, hs, Option.getD_some]
        rw [hoverLoop_eq w (toContent w N pos)
          (fun frame p => FindHoverFrame h up m w frame p) res _ hres]
        simp only [Option.some_bind, Option.map_some']
        split_ifs <;> exact ⟨_, rfl⟩
      · simp only [Option.some_bind, Option.isSome_none, Bool.false_eq_true, if_false,
          Option.map_some']
        exact ⟨_, rfl⟩
      · exact ⟨_, rfl⟩
      · exact ⟨_, rfl⟩
      · exact ⟨_, rfl⟩

theorem FindHoverFrame_sound (h : Hooks) (up : Nat) (w : World) :
    ∀ (fuel : Nat) (N : FramePtr) (pos : DKPoint) (H : FramePtr),
      FindHoverFrame h up fuel w N pos = some (some H) →
      Reach w.children N H ∧ CanHandleMouse h up w H = some true ∧ HoverPath w N pos H := by
  intro fuel
  induction fuel with
  | zero => intro N pos H hh; simp [FindHoverFrame] at hh
  | succ m ih =>
    intro N pos H hh
    rw [FindHoverFrame_succ] at hh
    by_cases hhid : (w.frames N).hidden = true
    · simp [hhid] at hh
    have hhid' : (w.frames N).hidden = false := by simpa using hhid
    by_cases hin : DKRect.IsPointInside ⟨⟨0, 0⟩, ⟨1, 1⟩⟩ pos = true
    swap
    · simp [hhid', hin] at hh
    by_cases hhit : h.HitTest N (toContent w N pos) = true
    swap
    · simp [hhid', hin, hhit] at hh
    simp only [hhid', Bool.not_false, if_true, hin, hhit, Option.bind_eq_some] at hh
    obtain ⟨hover, hkids, hrest⟩ := hh
    have own : ((CanHandleMouse h up w N).map fun can => if can then some N else none) =
        some (some H) →
        Reach w.children N H ∧ CanHandleMouse h up w H = some true ∧ HoverPath w N pos H := by
      intro ho
      simp only [Option.map_eq_some'] at ho
      obtain ⟨can, hcan, hc2⟩ := ho
      cases can with
      | false => simp at hc2
      | true =>
        simp only [if_true, Option.some.injEq] at hc2
        subst hc2
        exact ⟨Reach.refl _, hcan, HoverPath.here _ pos hhid' hin⟩
    cases hover with
    | none =>
      simp only [Option.isSome_none, Bool.false_eq_true, if_false] at hrest
      exact own hrest
    | some x =>
      simp only [Option.isSome_some, if_true, Option.some.injEq] at hrest
      subst hrest
      by_cases hct : h.ContentHitTest N (toContent w N pos) = true
      · rw [if_pos hct] at hkids
        obtain ⟨c, hc, hcall⟩ := hoverLoop_some w _ _ x _ hkids
        obtain ⟨i1, i2, i3⟩ := ih c _ x hcall
        exact ⟨Reach.step hc i1, i2, HoverPath.down N pos c x hhid' hin hc i3⟩
      · rw [if_neg hct] at hkids
        simp at hkids


/-- C21, as stated, fails: in the scene with the root frame 0 and its subframes 2 and 1, with
hooks whose ContentHitTest rejects on frame 0, FindHoverFrame on frame 0 at (1/4, 1/2) returns
frame 0 itself, although its frontmost subframe 2 returns a frame (itself) from its own
FindHoverFrame at the mapped position. -/
theorem FindHoverFrame_spec_counterexample :
    (sceneHeap.frames 0).subframes = [2, 1] ∧
      opaqueRootHooks.ContentHitTest 0 (toContent sceneHeap 0 ⟨1 / 4, 1 / 2⟩) = false ∧
      FindHoverFrame opaqueRootHooks 2 1 sceneHeap 2
          (toSubframe sceneHeap 2 (toContent sceneHeap 0 ⟨1 / 4, 1 / 2⟩)) = some (some 2) ∧
      FindHoverFrame opaqueRootHooks 2 2 sceneHeap 0 ⟨1 / 4, 1 / 2⟩ = some (some 0) := by
  refine ⟨rfl, rfl, by decide!, by decide!⟩

/-- C21 (amended): FindHoverFrame on a frame `N` at the normalized position `pos` returns (the
fuel covering the depth of the subtree and the superframe chains).  It returns null when `N` is
hidden, `pos` is outside the unit square, or HitTest of `N` rejects the mapped position.  Any
frame `H` it returns is `N` or a descendant of `N`, satisfies CanHandleMouse, and every frame on
the path from `N` to `H` is not hidden and contains the successively mapped position in its unit
square.  When `N` is not hidden, contains `pos` and passes HitTest: if ContentHitTest of `N`
accepts the mapped position, the result is that of the frontmost (lowest-index) subframe whose
own FindHoverFrame is non-null, and if no subframe yields a frame it is `N` when
CanHandleMouse holds of `N` and null otherwise; if ContentHitTest rejects, the subframes are not
asked and the result is `N` when CanHandleMouse holds of `N` and null otherwise. -/
theorem FindHoverFrame_spec (h : Hooks) (up fuel d : Nat) (w : World) (N : FramePtr)
    (pos : DKPoint) (hdepth : DepthAtMost w.children d N) (hd : d ≤ fuel)
    (hup : ∀ X ∈ subtree w.children d N, ancestorAt w.parent up X = none) :
    ∃ r, FindHoverFrame h up fuel w N pos = some r ∧
      ((w.frames N).hidden = true ∨ DKRect.IsPointInside ⟨⟨0, 0⟩, ⟨1, 1⟩⟩ pos = false ∨
        h.HitTest N (toContent w N pos) = false → r = none) ∧
      (∀ H, r = some H →
        Reach w.children N H ∧ CanHandleMouse h up w H = some true ∧ HoverPath w N pos H) ∧
      ((w.frames N).hidden = false → DKRect.IsPointInside ⟨⟨0, 0⟩, ⟨1, 1⟩⟩ pos = true →
        h.HitTest N (toContent w N pos) = true →
        ∃ res : FramePtr → Option FramePtr,
          (∀ c ∈ (w.frames N).subframes,
            FindHoverFrame h up (fuel - 1) w c (toSubframe w c (toContent w N pos)) =
              some (res c)) ∧
          (h.ContentHitTest N (toContent w N pos) = true →
            ∀ H, (w.frames N).subframes.findSome? res = some H → r = some H) ∧
          (h.ContentHitTest N (toContent w N pos) = true →
            (w.frames N).subframes.findSome? res = none →
            r = if CanHandleMouse h up w N = some true then some N else none) ∧
          (h.ContentHitTest N (toContent w N pos) = false →
            r = if CanHandleMouse h up w N = some true then some N else none)) := by
  have hup' : ∀ X, Reach w.children N X → ancestorAt w.parent up X = none :=
    fun X hX => hup X (reach_mem_subtree hdepth hX)
  obtain ⟨f, rfl⟩ : ∃ f, fuel = f + 1 := by
    cases d with
    | zero => exact absurd hdepth (by simp [DepthAtMost])
    | succ d => exact ⟨fuel - 1, by omega⟩
  obtain ⟨d', rfl⟩ : ∃ d', d = d' + 1 := by
    cases d with
    | zero => exact absurd hdepth (by simp [DepthAtMost])
    | succ d => exact ⟨d, rfl⟩
  obtain ⟨r, hr⟩ := FindHoverFrame_total h up w (f + 1) (d' + 1) N pos hdepth hd hup'
  obtain ⟨can, hcan⟩ := CanHandleMouse_total h (hup' N (Reach.refl N)) (le_refl up)
  have hown : ((CanHandleMouse h up w N).map fun can => if can then some N else none) =
      some (if CanHandleMouse h up w N = some true then some N else none) := by
    rw [hcan]
    cases can <;> simp
  refine ⟨r, hr, ?_, ?_, ?_⟩
  · intro hcase
    rw [FindHoverFrame_succ] at hr
    rcases hcase with hc | hc | hc
    · simp only [hc, Bool.not_true, Bool.false_eq_true, if_false] at hr
      exact (Option.some.inj hr).symm
    · simp only [hc, Bool.false_eq_true, if_false, ite_self] at hr
      exact (Option.some.inj hr).symm
    · simp only [hc, Bool.false_eq_true, if_false, ite_self] at hr
      exact (Option.some.inj hr).symm
  · intro H hH
    rw [hH] at hr
    exact FindHoverFrame_sound h up w _ N pos H hr
  · intro hhid hin hhit
    let res : FramePtr → Option FramePtr := fun c =>
      (FindHoverFrame h up f w c (toSubframe w c (toContent w N pos))).getD none
    have hres : ∀ c ∈ (w.frames N).subframes,
        FindHoverFrame h up f w c (toSubframe w c (toContent w N pos)) = some (res c) := by
      intro c hc
      obtain ⟨s, hs⟩ := FindHoverFrame_total h up w f d' c (toSubframe w c (toContent w N pos))
        (hdepth c hc) (by omega) (fun X hX => hup' X (Reach.step hc hX))
      simp only [res, hs, Option.getD_some]
    have hloop := hoverLoop_eq w (toContent w N pos)
      (fun frame p => FindHoverFrame h up f w frame p) res _ hres
    rw [FindHoverFrame_succ] at hr
    simp only [hhid, Bool.not_false, if_true, hin, hhit] at hr
    refine ⟨res, hres, ?_, ?_, ?_⟩
    · intro hct H hfind
      rw [if_pos hct, hloop, hfind] at hr
      simp only [Option.some_bind, Option.isSome_some, if_true] at hr
      exact (Option.some.inj hr).symm
    · intro hct hfind
      rw [if_pos hct, hloop, hfind, hown] at hr
      simp only [Option.some_bind, Option.isSome_none, Bool.false_eq_true, if_false] at hr
      exact (Option.some.inj hr).symm
    · intro hct
      rw [if_neg (by simp [hct]), hown] at hr
      simp only [Option.some_bind, Option.isSome_none, Bool.false_eq_true, if_false] at hr
      exact (Option.some.inj hr).symm

theorem FindHoverFrame_spec_witness :
    DepthAtMost sceneHeap.children 2 0 ∧
      (∀ X ∈ subtree sceneHeap.children 2 0, ancestorAt sceneHeap.parent 2 X = none) ∧
      FindHoverFrame passAll 2 2 sceneHeap 0 ⟨1 / 4, 1 / 2⟩ = some (some 2) ∧
      FindHoverFrame passAll 2 2 sceneHeap 0 ⟨3 / 4, 1 / 2⟩ = some (some 1) ∧
      FindHoverFrame passAll 2 2 sceneHeap 0 ⟨3 / 2, 1 / 2⟩ = some none ∧
      ∃ r, FindHoverFrame passAll 2 2 sceneHeap 0 ⟨1 / 4, 1 / 2⟩ = some r ∧
        ∀ H, r = some H → Reach sceneHeap.children 0 H ∧
          CanHandleMouse passAll 2 sceneHeap H = some true ∧
          HoverPath sceneHeap 0 ⟨1 / 4, 1 / 2⟩ H := by
  obtain ⟨r, h1, _, h3, _⟩ := FindHoverFrame_spec passAll 2 2 2 sceneHeap 0 ⟨1 / 4, 1 / 2⟩
    (by decide) (by decide) (by decide)
  exact ⟨by decide, by decide, by decide!, by decide!, by decide!, r, h1, h3⟩


/-! ## Hover resolution and mouse dispatch -/

theorem handlerFrames_append (a b : List Call) :
    handlerFrames (a ++ b) = handlerFrames a ++ handlerFrames b := by
  unfold handlerFrames
  rw [List.filterMap_append]

theorem handlerFrames_hooks (event : MouseEvent) (chain : List (FramePtr × DKPoint × DKPoint)) :
    handlerFrames (chain.map fun e =>
      Call.PreprocessMouseEvent e.1 event e.2.1 (e.2.1.sub e.2.2)) = [] := by
  induction chain with
  | nil => rfl
  | cons e rest ih =>
    rw [List.map_cons]
    unfold handlerFrames at ih ⊢
    rw [List.filterMap_cons]
    exact ih

theorem bySelf_unclaimed (h : Hooks) (up : Nat) (w : World) (N : FramePtr)
    (event : MouseEvent) (lp lpo : DKVector2) (can : Bool)
    (hno : ∀ f p d, h.PreprocessMouseEvent f event p d = false)
    (hchain : ancestorAt w.parent up N = none) (hcan : CanHandleMouse h up w N = some can) :
    ∃ s, ProcessMouseEvent.bySelf h up w N event lp lpo true = some s ∧ s.1 = can ∧
      handlerFrames s.2 = if can then [N] else [] := by
  obtain ⟨visible, hv⟩ := IsVisibleOnScreen_total up up w N hchain (le_refl up)
  have hcan' := CanHandleMouse_eq h hv
  rw [hcan] at hcan'
  have hc : ((w.frames N).enabled && visible && h.UserInputEventEnabled N) = can :=
    (Option.some.inj hcan').symm
  refine ⟨_, (bySelf_eq h up up w N event lp lpo visible hchain (le_refl up) hv).1, ?_⟩
  unfold mouseOutcome
  simp only [hc]
  have hany : (mouseChain w up N lp lpo).any
      (fun e => h.PreprocessMouseEvent e.1 event e.2.1 (e.2.1.sub e.2.2)) = false := by
    rw [List.any_eq_false]
    intro e _
    simp [hno]
  rw [hany]
  cases can
  · simp only [Bool.not_false, Bool.and_true, if_true, Bool.false_eq_true, if_false, true_and]
    rfl
  · simp only [Bool.not_true, Bool.and_false, Bool.false_eq_true, if_false, if_true,
      handlerFrames_append, handlerFrames_hooks, List.nil_append, true_and]
    rfl

theorem FindHoverFrame_rejects (h : Hooks) (up fuel : Nat) (w : World) (N : FramePtr)
    (pos : DKPoint)
    (hr : (w.frames N).hidden = true ∨ DKRect.IsPointInside ⟨⟨0, 0⟩, ⟨1, 1⟩⟩ pos = false) :
    FindHoverFrame h up (fuel + 1) w N pos = some none := by
  rw [FindHoverFrame_succ]
  rcases hr with hc | hc
  · simp [hc]
  · simp [hc]

theorem hover_dispatch_loop (w : World) (event : MouseEvent) (lp lpo : DKVector2)
    (callP : FramePtr → DKPoint → DKVector2 → Option (Bool × List Call))
    (callH : FramePtr → DKPoint → Option (Option FramePtr)) :
    ∀ L : List FramePtr,
      (∀ c ∈ L, receives w lp c = true →
        ∃ r hov, callP c (toSubframe w c lp) ((toSubframe w c lp).sub (toSubframe w c lpo)) =
            some r ∧
          callH c (toSubframe w c lp) = some hov ∧ (r.1 = true ↔ hov.isSome = true) ∧
          handlerFrames r.2 = hov.toList) →
      (∀ c ∈ L, receives w lp c = false → callH c (toSubframe w c lp) = some none) →
      ∃ r hov, ProcessMouseEvent.subframesLoop w event true lp lpo callP L = some r ∧
        FindHoverFrame.subframesLoop w lp callH L = some hov ∧
        (r.1 = true ↔ hov.isSome = true) ∧ handlerFrames r.2 = hov.toList := by
  intro L
  induction L with
  | nil => intro _ _; exact ⟨(false, []), none, rfl, rfl, by simp, rfl⟩
  | cons c rest ih =>
    intro hk hrej
    obtain ⟨s, hovs, hs1, hs2, hs3, hs4⟩ :=
      ih (fun x hx => hk x (List.mem_cons_of_mem _ hx))
        (fun x hx => hrej x (List.mem_cons_of_mem _ hx))
    rw [subframesLoop_cons, hoverLoop_cons]
    by_cases hrec : receives w lp c = true
    · obtain ⟨r, hov, hr1, hr2, hr3, hr4⟩ := hk c (List.mem_cons_self _ _) hrec
      rw [if_pos hrec, hr1, hr2, hs1, hs2]
      simp only [Option.some_bind, Option.map_some']
      by_cases hone : r.1 = true
      · have hsome : hov.isSome = true := hr3.1 hone
        rw [if_pos hone, if_pos hsome]
        refine ⟨_, _, rfl, rfl, by simp [hsome], ?_⟩
        simp only [handlerFrames, List.filterMap_cons] at hr4 ⊢
        exact hr4
      · have hnone : ¬ hov.isSome = true := fun hx => hone (hr3.2 hx)
        rw [if_neg hone, if_neg hnone]
        refine ⟨_, _, rfl, rfl, hs3, ?_⟩
        have hov0 : hov = none := by
          cases hov with
          | none => rfl
          | some x => simp at hnone
        rw [hov0] at hr4
        rw [← hs4]
        show handlerFrames (_ :: (r.2 ++ s.2)) = handlerFrames s.2
        have e1 : handlerFrames (r.2 ++ s.2) = handlerFrames s.2 := by
          rw [handlerFrames_append, hr4]
          rfl
        rw [← e1]
        simp only [handlerFrames, List.filterMap_cons]
    · have hrec' : receives w lp c = false := by simpa using hrec
      rw [if_neg hrec, hrej c (List.mem_cons_self _ _) hrec', hs1, hs2]
      simp only [Option.some_bind, Option.isSome_none, Bool.false_eq_true, if_false]
      exact ⟨s, hovs, rfl, rfl, hs3, hs4⟩

theorem hover_dispatch_core (h : Hooks) (up : Nat) (w : World) (event : MouseEvent)
    (hno : ∀ f p d, h.PreprocessMouseEvent f event p d = false) :
    ∀ (fuel d : Nat) (N : FramePtr) (pos : DKPoint) (delta : DKVector2),
      DepthAtMost w.children d N → d ≤ fuel →
      (∀ X, Reach w.children N X → ancestorAt w.parent up X = none) →
      (w.frames N).hidden = false → DKRect.IsPointInside ⟨⟨0, 0⟩, ⟨1, 1⟩⟩ pos = true →
      ∃ r hov, ProcessMouseEvent h up fuel w N event pos delta true = some r ∧
        FindHoverFrame h up fuel w N pos = some hov ∧
        (r.1 = true ↔ hov.isSome = true) ∧ handlerFrames r.2 = hov.toList := by
  intro fuel
  induction fuel with
  | zero =>
    intro d N pos delta hd hle
    have : d = 0 := by omega
    subst this
    exact absurd hd (by simp [DepthAtMost])
  | succ m ih =>
    intro d N pos delta hd hle hup hhid hin
    cases d with
    | zero => exact absurd hd (by simp [DepthAtMost])
    | succ d =>
      obtain ⟨can, hcan⟩ := CanHandleMouse_total h (hup N (Reach.refl N)) (le_refl up)
      obtain ⟨s, hs, hs1, hs2⟩ := bySelf_unclaimed h up w N event (toContent w N pos)
        (toContent w N (pos.sub delta)) can hno (hup N (Reach.refl N)) hcan
      have hownres : ∃ r hov, (some s).map (fun t : Bool × List Call => (t.1, [] ++ t.2)) =
            some r ∧
          ((some can).map fun c => if c then some N else none) = some hov ∧
          (r.1 = true ↔ hov.isSome = true) ∧ handlerFrames r.2 = hov.toList := by
        refine ⟨_, _, rfl, rfl, ?_, ?_⟩
        · cases can <;> simp [hs1]
        · simp only [List.nil_append, hs2]
          cases can <;> rfl
      rw [ProcessMouseEvent_succ, FindHoverFrame_succ, hcan, hs]
      simp only [if_true, hhid, Bool.not_false, hin]
      by_cases hhit : h.HitTest N (toContent w N pos) = true
      swap
      · have hhit' : h.HitTest N (toContent w N pos) = false := by simpa using hhit
        simp only [hhit', Bool.not_false, if_true, Bool.false_eq_true, if_false]
        exact ⟨_, _, rfl, rfl, by simp, rfl⟩
      simp only [hhit, Bool.not_true, Bool.false_eq_true, if_false, if_true]
      by_cases hct : h.ContentHitTest N (toContent w N pos) = true
      swap
      · rw [if_neg hct, if_neg hct]
        simp only [Option.some_bind, Bool.false_eq_true, if_false, Option.isSome_none]
        exact hownres
      rw [if_pos hct, if_pos hct]
      obtain ⟨r, hov, hr1, hr2, hr3, hr4⟩ := hover_dispatch_loop w event (toContent w N pos)
        (toContent w N (pos.sub delta))
        (fun frame p dd => ProcessMouseEvent h up m w frame event p dd true)
        (fun frame p => FindHoverFrame h up m w frame p) (w.frames N).subframes
        (fun c hc hrec => by
          have hrec' := hrec
          unfold receives at hrec'
          simp only [Bool.and_eq_true, Bool.not_eq_true'] at hrec'
          exact ih d c _ _ (hd c hc) (by omega) (fun X hX => hup X (Reach.step hc hX))
            hrec'.1 hrec'.2)
        (fun c hc hrec => by
          obtain ⟨m', rfl⟩ : ∃ m', m = m' + 1 := by
            cases d with
            | zero => exact absurd (hd c hc) (by simp [DepthAtMost])
            | succ d => exact ⟨m - 1, by omega⟩
          apply FindHoverFrame_rejects
          unfold receives at hrec
          cases hh : (w.frames c).hidden
          · right
            simpa [hh] using hrec
          · left; rfl)
      rw [hr1, hr2]
      simp only [Option.some_bind]
      by_cases hone : r.1 = true
      · have hsome : hov.isSome = true := hr3.1 hone
        rw [if_pos hone, if_pos hsome]
        exact ⟨_, _, rfl, rfl, by simp [hsome], hr4⟩
      · have hnone : ¬ hov.isSome = true := fun hx => hone (hr3.2 hx)
        rw [if_neg hone, if_neg hnone]
        have hov0 : hov = none := by
          cases hov with
          | none => rfl
          | some x => simp at hnone
        rw [hov0] at hr4
        obtain ⟨r2, hov2, e1, e2, e3, e4⟩ := hownres
        simp only [Option.map_some', Option.some.injEq] at e1 e2 ⊢
        refine ⟨_, _, rfl, rfl, ?_, ?_⟩
        · rw [← e1, ← e2] at e3
          simpa using e3
        · rw [← e1, ← e2] at e4
          simp only [List.nil_append] at e4
          simp only [handlerFrames_append, hr4]
          exact e4


/-- C27: hover and dispatch agree.  For a frame `N` that is not hidden and a normalized position
`pos` inside the unit square (the fuel covering the depth of the subtree and the superframe
chains), when no PreprocessMouseEvent hook claims the event, ProcessMouseEvent with `propagate`
set and FindHoverFrame both return; ProcessMouseEvent returns true if and only if FindHoverFrame
returns a frame, and the frames whose OnMouseEvent is called are exactly that frame, once (and
none when FindHoverFrame returns null). -/
theorem hover_dispatch_agree (h : Hooks) (up fuel d : Nat) (w : World) (N : FramePtr)
    (event : MouseEvent) (pos : DKPoint) (delta : DKVector2)
    (hdepth : DepthAtMost w.children d N) (hd : d ≤ fuel)
    (hup : ∀ X ∈ subtree w.children d N, ancestorAt w.parent up X = none)
    (hno : ∀ f p dd, h.PreprocessMouseEvent f event p dd = false)
    (hhid : (w.frames N).hidden = false)
    (hin : DKRect.IsPointInside ⟨⟨0, 0⟩, ⟨1, 1⟩⟩ pos = true) :
    ∃ r hov, ProcessMouseEvent h up fuel w N event pos delta true = some r ∧
      FindHoverFrame h up fuel w N pos = some hov ∧
      (r.1 = true ↔ hov ≠ none) ∧ handlerFrames r.2 = hov.toList := by
  obtain ⟨r, hov, h1, h2, h3, h4⟩ := hover_dispatch_core h up w event hno fuel d N pos delta
    hdepth hd (fun X hX => hup X (reach_mem_subtree hdepth hX)) hhid hin
  refine ⟨r, hov, h1, h2, ?_, h4⟩
  rw [h3]
  cases hov <;> simp

theorem hover_dispatch_agree_witness :
    DepthAtMost sceneHeap.children 2 0 ∧
      (∀ X ∈ subtree sceneHeap.children 2 0, ancestorAt sceneHeap.parent 2 X = none) ∧
      FindHoverFrame passAll 2 2 sceneHeap 0 ⟨1 / 4, 1 / 2⟩ = some (some 2) ∧
      (ProcessMouseEvent passAll 2 2 sceneHeap 0 5 ⟨1 / 4, 1 / 2⟩ ⟨0, 0⟩ true).map
          (fun r => (r.1, handlerFrames r.2)) = some (true, [2]) ∧
      ∃ r hov, ProcessMouseEvent passAll 2 2 sceneHeap 0 5 ⟨1 / 4, 1 / 2⟩ ⟨0, 0⟩ true =
          some r ∧
        FindHoverFrame passAll 2 2 sceneHeap 0 ⟨1 / 4, 1 / 2⟩ = some hov ∧
        (r.1 = true ↔ hov ≠ none) ∧ handlerFrames r.2 = hov.toList :=
  ⟨by decide, by decide, by decide!, by decide!,
    hover_dispatch_agree passAll 2 2 2 sceneHeap 0 5 ⟨1 / 4, 1 / 2⟩ ⟨0, 0⟩ (by decide)
      (by decide) (by decide) (fun _ _ _ => rfl) rfl (by decide!)⟩


/-! ## Drawing: what a draw pass writes -/

theorem DrawSame_refl (w : World) : DrawSame w w := ⟨rfl, fun _ => rfl⟩

theorem DrawSame_trans {a b c : World} (h1 : DrawSame a b) (h2 : DrawSame b c) :
    DrawSame a c :=
  ⟨h2.1.trans h1.1, fun Z => (h2.2 Z).trans (h1.2 Z)⟩

theorem DrawSame_modFrame (w : World) (p : FramePtr) (g : DKFrame → DKFrame)
    (hg : drawStatic (g (w.frames p)) = drawStatic (w.frames p)) :
    DrawSame w (w.modFrame p g) := by
  refine ⟨rfl, fun Z => ?_⟩
  unfold World.modFrame
  by_cases hZ : Z = p
  · subst hZ; simpa using hg
  · simp [hZ]

theorem DrawSame_field {a b : World} (h : DrawSame a b) (Z : FramePtr) :
    (b.frames Z).subframes = (a.frames Z).subframes ∧
      (b.frames Z).hidden = (a.frames Z).hidden ∧
      (b.frames Z).screen = (a.frames Z).screen ∧
      (b.frames Z).transform = (a.frames Z).transform ∧
      (b.frames Z).transformInverse = (a.frames Z).transformInverse ∧
      (b.frames Z).contentTransform = (a.frames Z).contentTransform ∧
      (b.frames Z).contentTransformInverse = (a.frames Z).contentTransformInverse ∧
      (b.frames Z).contentScale = (a.frames Z).contentScale ∧
      (b.frames Z).contentResolution = (a.frames Z).contentResolution ∧
      (b.frames Z).color = (a.frames Z).color ∧
      (b.frames Z).blendState = (a.frames Z).blendState ∧
      (b.frames Z).pixelFormat = (a.frames Z).pixelFormat := by
  have e := h.2 Z
  have f : ∀ {α : Type} (π : DKFrame → α), (∀ g, π (drawStatic g) = π g) →
      π (b.frames Z) = π (a.frames Z) := fun π hπ => by
    rw [← hπ (b.frames Z), ← hπ (a.frames Z), e]
  exact ⟨f _ (fun _ => rfl), f _ (fun _ => rfl), f _ (fun _ => rfl), f _ (fun _ => rfl),
    f _ (fun _ => rfl), f _ (fun _ => rfl), f _ (fun _ => rfl), f _ (fun _ => rfl),
    f _ (fun _ => rfl), f _ (fun _ => rfl), f _ (fun _ => rfl), f _ (fun _ => rfl)⟩

theorem DrawSame_children {a b : World} (h : DrawSame a b) : b.children = a.children := by
  funext Z
  exact (DrawSame_field h Z).1

theorem DrawSame_inside (env : DrawEnv) {a b : World} (h : DrawSame a b) (N c : FramePtr)
    (bounds : DKRect) :
    InsideFrameRect env b c bounds (b.frames N).contentTransform
        (b.frames N).contentTransformInverse =
      InsideFrameRect env a c bounds (a.frames N).contentTransform
        (a.frames N).contentTransformInverse := by
  obtain ⟨_, _, _, h4, h5, _⟩ := DrawSame_field h c
  obtain ⟨_, _, _, _, _, h6, h7, _⟩ := DrawSame_field h N
  unfold InsideFrameRect
  simp only [h4, h5, h6, h7]

theorem markSubframe_same (w : World) (this frame : FramePtr) :
    DrawSame w (DrawInternal.markSubframe w this frame) := by
  unfold DrawInternal.markSubframe
  split_ifs
  · exact DrawSame_modFrame w frame _ rfl
  · exact DrawSame_refl w

theorem markSubframe_frames_ne (w : World) (this : FramePtr) {frame Z : FramePtr}
    (h : Z ≠ frame) : (DrawInternal.markSubframe w this frame).frames Z = w.frames Z := by
  unfold DrawInternal.markSubframe
  split_ifs
  · exact modFrame_frames_ne w _ h
  · rfl

theorem drawLoop_cons (env : DrawEnv) (this : FramePtr) (bounds : DKRect)
    (call : World → FramePtr → Option (Bool × World × List DrawCall)) (c : FramePtr)
    (rest : List FramePtr) (ds : Bool) (w : World) :
    DrawInternal.subframesLoop env this bounds call (c :: rest) ds w =
      if (w.frames c).hidden = false ∧
          (InsideFrameRect env w c bounds (w.frames this).contentTransform
            (w.frames this).contentTransformInverse).1 = true then
        (call (DrawInternal.markSubframe w this c) c).bind fun r =>
          (DrawInternal.subframesLoop env this bounds call rest (ds || r.1) r.2.1).map
            fun s => (s.1, s.2.1, DrawCall.DrawInternal this c :: r.2.2 ++ s.2.2)
      else DrawInternal.subframesLoop env this bounds call rest ds w := by
  rw [DrawInternal.subframesLoop]
  cases hh : (w.frames c).hidden
  · cases hi : (InsideFrameRect env w c bounds (w.frames this).contentTransform
        (w.frames this).contentTransformInverse).1
    · simp
    · simp
  · simp

theorem drawLoop_inv (env : DrawEnv) (this : FramePtr) (bounds : DKRect)
    (call : World → FramePtr → Option (Bool × World × List DrawCall))
    (P : World → Prop) (Q : DrawCall → Prop) :
    ∀ L : List FramePtr,
      (∀ c ∈ L, ∀ w1 r, P w1 → (w1.frames c).hidden = false →
        (InsideFrameRect env w1 c bounds (w1.frames this).contentTransform
          (w1.frames this).contentTransformInverse).1 = true →
        call (DrawInternal.markSubframe w1 this c) c = some r →
        P r.2.1 ∧ Q (DrawCall.DrawInternal this c) ∧ ∀ e ∈ r.2.2, Q e) →
      ∀ ds w s, P w → DrawInternal.subframesLoop env this bounds call L ds w = some s →
        P s.2.1 ∧ ∀ e ∈ s.2.2, Q e := by
  intro L
  induction L with
  | nil =>
    intro _ ds w s hP hs
    simp only [DrawInternal.subframesLoop, Option.some.injEq] at hs
    subst hs
    exact ⟨hP, fun e he => by simp at he⟩
  | cons c rest ih =>
    intro hstep ds w s hP hs
    have ih' := ih (fun x hx => hstep x (List.mem_cons_of_mem _ hx))
    rw [drawLoop_cons] at hs
    split_ifs at hs with hv
    · simp only [Option.bind_eq_some, Option.map_eq_some'] at hs
      obtain ⟨r, hr, t, ht, hst⟩ := hs
      obtain ⟨p1, q1, q2⟩ := hstep c (List.mem_cons_self _ _) w r hP hv.1 hv.2 hr
      obtain ⟨p2, q3⟩ := ih' _ _ t p1 ht
      subst hst
      refine ⟨p2, fun e he => ?_⟩
      have he' : e ∈ DrawCall.DrawInternal this c :: (r.2.2 ++ t.2.2) := he
      simp only [List.mem_cons, List.mem_append] at he'
      rcases he' with he | he | he
      · rw [he]; exact q1
      · exact q2 e he
      · exact q3 e he
    · exact ih' ds w s hP hs

theorem drawLoop_total (env : DrawEnv) (this : FramePtr) (bounds : DKRect)
    (call : World → FramePtr → Option (Bool × World × List DrawCall)) (P : World → Prop) :
    ∀ L : List FramePtr,
      (∀ c ∈ L, ∀ w1, P w1 →
        ∃ r, call (DrawInternal.markSubframe w1 this c) c = some r ∧ P r.2.1) →
      ∀ ds w, P w → ∃ s, DrawInternal.subframesLoop env this bounds call L ds w = some s := by
  intro L
  induction L with
  | nil => intro _ ds w _; exact ⟨_, rfl⟩
  | cons c rest ih =>
    intro hstep ds w hP
    have ih' := ih (fun x hx => hstep x (List.mem_cons_of_mem _ hx))
    rw [drawLoop_cons]
    split_ifs
    · obtain ⟨r, hr, hP'⟩ := hstep c (List.mem_cons_self _ _) w hP
      obtain ⟨s, hs⟩ := ih' (ds || r.1) r.2.1 hP'
      rw [hr, Option.some_bind, hs]
      exact ⟨_, rfl⟩
    · exact ih' ds w hP


theorem canvas_cases (env : DrawEnv) (w : World) (X : FramePtr) :
    (∃ s, (w.frames X).screen = some s ∧ (w.screens s).rootFrame = some X ∧
        DrawInternal.canvas env w X =
          (env.CreateCanvas X s, w.modFrame X (fun g => { g with renderTarget := none }),
            [DrawCall.CreateCanvas X])) ∨
      (isRootFrame w X = false ∧ (w.frames X).renderTarget.isNone = true ∧
        ∃ s, (w.frames X).screen = some s ∧
          DrawInternal.canvas env w X =
            (match env.CreateTexture X (roundHalfUp (w.frames X).contentResolution.width)
                (roundHalfUp (w.frames X).contentResolution.height)
                (w.frames X).pixelFormat with
              | some _ => env.CommandQueue X s
              | none => false,
              w.modFrame X (fun g =>
                { g with
                  renderTarget := env.CreateTexture X
                    (roundHalfUp (w.frames X).contentResolution.width)
                    (roundHalfUp (w.frames X).contentResolution.height) (w.frames X).pixelFormat
                  drawSurface := true }),
              DrawCall.CreateTexture X (roundHalfUp (w.frames X).contentResolution.width)
                  (roundHalfUp (w.frames X).contentResolution.height)
                  (w.frames X).pixelFormat ::
                match env.CreateTexture X (roundHalfUp (w.frames X).contentResolution.width)
                    (roundHalfUp (w.frames X).contentResolution.height)
                    (w.frames X).pixelFormat with
                | some _ => if env.CommandQueue X s then [DrawCall.CreateCommandBuffer X] else []
                | none => [])) ∨
      (isRootFrame w X = false ∧ (w.frames X).renderTarget.isNone = true ∧
        (w.frames X).screen = none ∧ DrawInternal.canvas env w X = (false, w, [])) ∨
      (isRootFrame w X = false ∧ (w.frames X).renderTarget.isSome = true ∧
        DrawInternal.canvas env w X =
          (match (w.frames X).screen with
            | some s => env.CommandQueue X s
            | none => false,
            w,
            match (w.frames X).screen with
            | some s => if env.CommandQueue X s then [DrawCall.CreateCommandBuffer X] else []
            | none => [])) := by
  cases hs : (w.frames X).screen with
  | none =>
    have hroot : isRootFrame w X = false := by simp [isRootFrame, hs]
    cases ht : (w.frames X).renderTarget with
    | none =>
      right; right; left
      refine ⟨hroot, rfl, rfl, ?_⟩
      simp [DrawInternal.canvas, hs, ht]
    | some t =>
      right; right; right
      refine ⟨hroot, rfl, ?_⟩
      simp [DrawInternal.canvas, hs, ht]
  | some s =>
    by_cases hr : (w.screens s).rootFrame = some X
    · left
      exact ⟨s, rfl, hr, by simp [DrawInternal.canvas, hs, hr]⟩
    · have hroot : isRootFrame w X = false := by simp [isRootFrame, hs, hr]
      cases ht : (w.frames X).renderTarget with
      | none =>
        right; left
        refine ⟨hroot, rfl, s, rfl, ?_⟩
        cases hc : env.CreateTexture X (roundHalfUp (w.frames X).contentResolution.width)
            (roundHalfUp (w.frames X).contentResolution.height) (w.frames X).pixelFormat with
        | none => simp [DrawInternal.canvas, hs, hr, ht, hc]
        | some t =>
          cases hq : env.CommandQueue X s <;>
            simp [DrawInternal.canvas, hs, hr, ht, hc, hq]
      | some t =>
        right; right; right
        refine ⟨hroot, rfl, ?_⟩
        cases hq : env.CommandQueue X s <;> simp [DrawInternal.canvas, hs, hr, ht, hq]


theorem canvas_facts (env : DrawEnv) (w : World) (X : FramePtr) :
    DrawSame w (DrawInternal.canvas env w X).2.1 ∧
      (∀ Z, Z ≠ X → (DrawInternal.canvas env w X).2.1.frames Z = w.frames Z) ∧
      (∀ e ∈ (DrawInternal.canvas env w X).2.2, e.source = X ∧ e.isRequest = true) ∧
      ((w.frames X).drawSurface = true →
        ((DrawInternal.canvas env w X).2.1.frames X).drawSurface = true) ∧
      ((∃ a b f, DrawCall.CreateTexture X a b f ∈ (DrawInternal.canvas env w X).2.2) →
        ((DrawInternal.canvas env w X).2.1.frames X).drawSurface = true) := by
  rcases canvas_cases env w X with ⟨s, _, _, e⟩ | ⟨_, _, s, _, e⟩ | ⟨_, _, _, e⟩ | ⟨_, _, e⟩
  · rw [e]
    refine ⟨DrawSame_modFrame w X _ rfl, fun Z hZ => by dsimp only; exact modFrame_frames_ne w _ hZ,
      ?_, ?_, ?_⟩
    · intro c hc
      simp only [List.mem_singleton] at hc
      subst hc
      exact ⟨rfl, rfl⟩
    · intro hd
      simpa using hd
    · rintro ⟨a, b, f, hm⟩
      simp at hm
  · rw [e]
    refine ⟨DrawSame_modFrame w X _ rfl, fun Z hZ => by dsimp only; exact modFrame_frames_ne w _ hZ,
      ?_, ?_, ?_⟩
    · intro c hc
      simp only [List.mem_cons] at hc
      rcases hc with hc | hc
      · subst hc; exact ⟨rfl, rfl⟩
      · split at hc
        · split_ifs at hc
          · simp only [List.mem_singleton] at hc
            subst hc; exact ⟨rfl, rfl⟩
          · simp at hc
        · simp at hc
    · intro _
      simp
    · intro _
      simp
  · rw [e]
    refine ⟨DrawSame_refl w, fun Z _ => rfl, ?_, fun hd => hd, ?_⟩
    · intro c hc
      simp at hc
    · rintro ⟨a, b, f, hm⟩
      simp at hm
  · rw [e]
    refine ⟨DrawSame_refl w, fun Z _ => rfl, ?_, fun hd => hd, ?_⟩
    · intro c hc
      split at hc
      · split_ifs at hc
        · simp only [List.mem_singleton] at hc
          subst hc; exact ⟨rfl, rfl⟩
        · simp at hc
      · simp at hc
    · rintro ⟨a, b, f, hm⟩
      split at hm
      · split_ifs at hm <;> simp at hm
      · simp at hm

theorem paint_true (env : DrawEnv) (w : World) (X : FramePtr) (ds : Bool)
    (h : (DrawInternal.paint env w X ds).1 = true) :
    (ds = true ∨ (w.frames X).drawSurface = true) ∧
      (DrawInternal.canvas env w X).1 = true ∧
      (DrawInternal.paint env w X ds).2.1 =
        (DrawInternal.canvas env w X).2.1.modFrame X
          (fun g => { g with drawSurface := false }) ∧
      (DrawInternal.paint env w X ds).2.2 =
        (DrawInternal.canvas env w X).2.2 ++ DrawCall.OnDraw X ::
          (DrawInternal.drawSubframes (DrawInternal.canvas env w X).2.1 X
              ((DrawInternal.canvas env w X).2.1.frames X).subframes.length ++
            [DrawCall.OnDrawOverlay X, DrawCall.Commit X]) := by
  by_cases h1 : (ds || (w.frames X).drawSurface) = true
  · by_cases h2 : (DrawInternal.canvas env w X).1 = true
    · have e : DrawInternal.paint env w X ds =
          (true, (DrawInternal.canvas env w X).2.1.modFrame X
              (fun g => { g with drawSurface := false }),
            (DrawInternal.canvas env w X).2.2 ++ DrawCall.OnDraw X ::
              (DrawInternal.drawSubframes (DrawInternal.canvas env w X).2.1 X
                  ((DrawInternal.canvas env w X).2.1.frames X).subframes.length ++
                [DrawCall.OnDrawOverlay X, DrawCall.Commit X])) := by
        unfold DrawInternal.paint
        rw [if_pos h1]
        simp only [h2, if_true]
      rw [e]
      exact ⟨by simpa using h1, h2, rfl, rfl⟩
    · unfold DrawInternal.paint at h
      rw [if_pos h1] at h
      simp [h2] at h
  · unfold DrawInternal.paint at h
    rw [if_neg h1] at h
    simp at h

theorem paint_false (env : DrawEnv) (w : World) (X : FramePtr) (ds : Bool)
    (h : (DrawInternal.paint env w X ds).1 = false) :
    (ds = false ∧ (w.frames X).drawSurface = false ∧
        (DrawInternal.paint env w X ds).2 = (w, [])) ∨
      ((ds = true ∨ (w.frames X).drawSurface = true) ∧
        (DrawInternal.canvas env w X).1 = false ∧
        (DrawInternal.paint env w X ds).2 = (DrawInternal.canvas env w X).2) := by
  by_cases h1 : (ds || (w.frames X).drawSurface) = true
  · by_cases h2 : (DrawInternal.canvas env w X).1 = true
    · unfold DrawInternal.paint at h
      rw [if_pos h1] at h
      simp [h2] at h
    · right
      have e : DrawInternal.paint env w X ds =
          (false, (DrawInternal.canvas env w X).2.1, (DrawInternal.canvas env w X).2.2) := by
        unfold DrawInternal.paint
        rw [if_pos h1]
        simp only [h2, Bool.false_eq_true, if_false]
      rw [e]
      exact ⟨by simpa using h1, by simpa using h2, rfl⟩
  · left
    have e : DrawInternal.paint env w X ds = (false, w, []) := by
      unfold DrawInternal.paint
      rw [if_neg h1]
    rw [e]
    simp only [Bool.or_eq_true, not_or, Bool.not_eq_true] at h1
    exact ⟨h1.1, h1.2, rfl⟩

theorem paint_facts (env : DrawEnv) (w : World) (X : FramePtr) (ds : Bool) :
    DrawSame w (DrawInternal.paint env w X ds).2.1 ∧
      (∀ Z, Z ≠ X → (DrawInternal.paint env w X ds).2.1.frames Z = w.frames Z) ∧
      (∀ e ∈ (DrawInternal.paint env w X ds).2.2, e.source = X ∧ e.isDescent = false) := by
  obtain ⟨c1, c2, c3, _, _⟩ := canvas_facts env w X
  cases hp : (DrawInternal.paint env w X ds).1
  · rcases paint_false env w X ds hp with ⟨_, _, e⟩ | ⟨_, _, e⟩
    · rw [e]
      exact ⟨DrawSame_refl w, fun _ _ => rfl, fun e he => by simp at he⟩
    · rw [e]
      refine ⟨c1, c2, fun e he => ⟨(c3 e he).1, ?_⟩⟩
      have := (c3 e he).2
      cases e <;> simp_all [DrawCall.isRequest, DrawCall.isDescent]
  · obtain ⟨_, _, e1, e2⟩ := paint_true env w X ds hp
    rw [e1, e2]
    refine ⟨DrawSame_trans c1 (DrawSame_modFrame _ X _ rfl), ?_, ?_⟩
    · intro Z hZ
      rw [modFrame_frames_ne _ _ hZ]
      exact c2 Z hZ
    · intro e he
      simp only [List.mem_append, List.mem_cons, List.mem_singleton] at he
      rcases he with he | he | he | he
      · refine ⟨(c3 e he).1, ?_⟩
        have := (c3 e he).2
        cases e <;> simp_all [DrawCall.isRequest, DrawCall.isDescent]
      · subst he; exact ⟨rfl, rfl⟩
      · have key : ∀ n, ∀ e ∈ DrawInternal.drawSubframes (DrawInternal.canvas env w X).2.1 X n,
            e.source = X ∧ e.isDescent = false := by
          intro n
          induction n with
          | zero => intro e he; simp [DrawInternal.drawSubframes] at he
          | succ i ih =>
            intro e he
            rw [DrawInternal.drawSubframes] at he
            split at he
            · split_ifs at he
              · exact ih e he
              · split at he
                · simp only [List.mem_cons] at he
                  rcases he with he | he
                  · subst he; exact ⟨rfl, rfl⟩
                  · exact ih e he
                · exact ih e he
            · exact ih e he
        exact key _ e he
      · rcases he with he | he
        · subst he; exact ⟨rfl, rfl⟩
        · rcases he with he | he
          · subst he; exact ⟨rfl, rfl⟩
          · simp at he


theorem DrawInternal_succ (env : DrawEnv) (fuel : Nat) (w : World) (X : FramePtr) :
    DrawInternal env (fuel + 1) w X =
      (DrawInternal.subframesLoop env X (Bounds w X)
        (fun w1 frame => DrawInternal env fuel w1 frame) (w.frames X).subframes false w).map
        fun r => ((DrawInternal.paint env r.2.1 X r.1).1, (DrawInternal.paint env r.2.1 X r.1).2.1,
          r.2.2 ++ (DrawInternal.paint env r.2.1 X r.1).2.2) :=
  rfl

theorem DrawSame_bounds {a b : World} (h : DrawSame a b) (N : FramePtr) :
    Bounds b N = Bounds a N := by
  obtain ⟨_, _, _, _, _, _, _, h8, _⟩ := DrawSame_field h N
  unfold Bounds
  rw [h8]

theorem DrawSame_visit (env : DrawEnv) {a b : World} (h : DrawSame a b) (p c : FramePtr) :
    (c ∈ (b.frames p).subframes ∧ (b.frames c).hidden = false ∧
        (InsideFrameRect env b c (Bounds b p) (b.frames p).contentTransform
          (b.frames p).contentTransformInverse).1 = true) ↔
      (c ∈ (a.frames p).subframes ∧ (a.frames c).hidden = false ∧
        (InsideFrameRect env a c (Bounds a p) (a.frames p).contentTransform
          (a.frames p).contentTransformInverse).1 = true) := by
  rw [(DrawSame_field h p).1, (DrawSame_field h c).2.1, DrawSame_bounds h p,
    DrawSame_inside env h p c]

theorem DrawSame_symm {a b : World} (h : DrawSame a b) : DrawSame b a :=
  ⟨h.1.symm, fun Z => (h.2 Z).symm⟩

theorem DrawInternal_frame (env : DrawEnv) :
    ∀ (fuel : Nat) (w : World) (X : FramePtr) (r : Bool × World × List DrawCall),
      DrawInternal env fuel w X = some r →
      DrawSame w r.2.1 ∧ (∀ Z, ¬ Reach w.children X Z → r.2.1.frames Z = w.frames Z) ∧
        ∀ e ∈ r.2.2, Reach w.children X e.source ∧
          ∀ p c, e = DrawCall.DrawInternal p c →
            c ∈ (w.frames p).subframes ∧ (w.frames c).hidden = false ∧
              (InsideFrameRect env w c (Bounds w p) (w.frames p).contentTransform
                (w.frames p).contentTransformInverse).1 = true := by
  intro fuel
  induction fuel with
  | zero => intro w X r h; simp [DrawInternal] at h
  | succ m ih =>
    intro w X r h
    rw [DrawInternal_succ] at h
    simp only [Option.map_eq_some'] at h
    obtain ⟨s, hs, hr⟩ := h
    obtain ⟨⟨p1, p2⟩, q⟩ := drawLoop_inv env X (Bounds w X)
      (fun w1 frame => DrawInternal env m w1 frame)
      (fun w1 => DrawSame w w1 ∧ ∀ Z, ¬ Reach w.children X Z → w1.frames Z = w.frames Z)
      (fun e => Reach w.children X e.source ∧
        ∀ p c, e = DrawCall.DrawInternal p c →
          c ∈ (w.frames p).subframes ∧ (w.frames c).hidden = false ∧
            (InsideFrameRect env w c (Bounds w p) (w.frames p).contentTransform
              (w.frames p).contentTransformInverse).1 = true)
      (w.frames X).subframes
      (fun c hc w1 t hP hhid hin ht => by
        obtain ⟨i1, i2, i3⟩ := ih _ c t ht
        have hm : DrawSame w (DrawInternal.markSubframe w1 X c) :=
          DrawSame_trans hP.1 (markSubframe_same w1 X c)
        have hch : (DrawInternal.markSubframe w1 X c).children = w.children :=
          DrawSame_children hm
        have hcX : Reach w.children X c := Reach.step hc (Reach.refl c)
        refine ⟨⟨DrawSame_trans hm i1, fun Z hZ => ?_⟩, ⟨Reach.refl X, ?_⟩, ?_⟩
        · have hZc : ¬ Reach (DrawInternal.markSubframe w1 X c).children c Z := by
            rw [hch]
            exact fun hx => hZ (Reach_trans hcX hx)
          have hne : Z ≠ c := fun e => hZ (by rw [e]; exact hcX)
          rw [i2 Z hZc, markSubframe_frames_ne w1 X hne]
          exact hP.2 Z hZ
        · intro p c' e
          simp only [DrawCall.DrawInternal.injEq] at e
          obtain ⟨e1, e2⟩ := e
          subst e1 e2
          have hv := (DrawSame_visit env hP.1 X c).1
            ⟨by rw [(DrawSame_field hP.1 X).1]; exact hc, hhid, by
              rw [DrawSame_bounds hP.1 X]; exact hin⟩
          exact hv
        · intro e he
          obtain ⟨j1, j2⟩ := i3 e he
          rw [hch] at j1
          exact ⟨Reach_trans hcX j1, fun p c' hpc => (DrawSame_visit env hm p c').1 (j2 p c' hpc)⟩)
      false w s ⟨DrawSame_refl w, fun _ _ => rfl⟩ hs
    obtain ⟨f1, f2, f3⟩ := paint_facts env s.2.1 X s.1
    subst hr
    refine ⟨DrawSame_trans p1 f1, fun Z hZ => ?_, fun e he => ?_⟩
    · have hne : Z ≠ X := fun e => hZ (by rw [e]; exact Reach.refl X)
      show (DrawInternal.paint env s.2.1 X s.1).2.1.frames Z = w.frames Z
      rw [f2 Z hne]
      exact p2 Z hZ
    · have he' : e ∈ s.2.2 ++ (DrawInternal.paint env s.2.1 X s.1).2.2 := he
      simp only [List.mem_append] at he'
      rcases he' with he' | he'
      · exact q e he'
      · obtain ⟨g1, g2⟩ := f3 e he'
        refine ⟨by rw [g1]; exact Reach.refl X, fun p c hpc => ?_⟩
        rw [hpc] at g2
        simp [DrawCall.isDescent] at g2

theorem DrawInternal_total (env : DrawEnv) :
    ∀ (fuel d : Nat) (w : World) (X : FramePtr), DepthAtMost w.children d X → d ≤ fuel →
      ∃ r, DrawInternal env fuel w X = some r := by
  intro fuel
  induction fuel with
  | zero =>
    intro d w X hd hle
    have : d = 0 := by omega
    subst this
    exact absurd hd (by simp [DepthAtMost])
  | succ m ih =>
    intro d w X hd hle
    cases d with
    | zero => exact absurd hd (by simp [DepthAtMost])
    | succ d =>
      obtain ⟨s, hs⟩ := drawLoop_total env X (Bounds w X)
        (fun w1 frame => DrawInternal env m w1 frame) (fun w1 => DrawSame w w1)
        (w.frames X).subframes
        (fun c hc w1 hP => by
          have hm : DrawSame w (DrawInternal.markSubframe w1 X c) :=
            DrawSame_trans hP (markSubframe_same w1 X c)
          have hdc : DepthAtMost (DrawInternal.markSubframe w1 X c).children d c := by
            rw [DrawSame_children hm]
            exact hd c hc
          obtain ⟨r, hr⟩ := ih d _ c hdc (by omega)
          exact ⟨r, hr, DrawSame_trans hm (DrawInternal_frame env m _ c r hr).1⟩)
        false w (DrawSame_refl w)
      rw [DrawInternal_succ, hs]
      exact ⟨_, rfl⟩


theorem DrawInternal_split (env : DrawEnv) (fuel d : Nat) (w : World) (N : FramePtr)
    (hdepth : DepthAtMost w.children d N) (hd : d ≤ fuel) :
    ∃ s : Bool × World × List DrawCall, DrawInternal env fuel w N =
        some ((DrawInternal.paint env s.2.1 N s.1).1, (DrawInternal.paint env s.2.1 N s.1).2.1,
          s.2.2 ++ (DrawInternal.paint env s.2.1 N s.1).2.2) ∧
      DrawSame w s.2.1 ∧ s.2.1.frames N = w.frames N ∧
      ∀ e ∈ s.2.2, e.isDescent = true ∨ e.source ≠ N := by
  obtain ⟨r, hr⟩ := DrawInternal_total env fuel d w N hdepth hd
  obtain ⟨f, rfl⟩ : ∃ f, fuel = f + 1 := by
    cases fuel with
    | zero => simp [DrawInternal] at hr
    | succ f => exact ⟨f, rfl⟩
  rw [DrawInternal_succ] at hr ⊢
  simp only [Option.map_eq_some'] at hr
  obtain ⟨s, hs, _⟩ := hr
  obtain ⟨⟨p1, p2⟩, q⟩ := drawLoop_inv env N (Bounds w N)
    (fun w1 frame => DrawInternal env f w1 frame)
    (fun w1 => DrawSame w w1 ∧ w1.frames N = w.frames N)
    (fun e => e.isDescent = true ∨ e.source ≠ N)
    (w.frames N).subframes
    (fun c hc w1 t hP _ _ ht => by
      obtain ⟨i1, i2, i3⟩ := DrawInternal_frame env f _ c t ht
      have hm : DrawSame w (DrawInternal.markSubframe w1 N c) :=
        DrawSame_trans hP.1 (markSubframe_same w1 N c)
      have hch : (DrawInternal.markSubframe w1 N c).children = w.children :=
        DrawSame_children hm
      have hno : ¬ Reach w.children c N := DepthAtMost_no_cycle hdepth hc
      have hne : N ≠ c := fun e => hno (by rw [← e]; exact Reach.refl N)
      refine ⟨⟨DrawSame_trans hm i1, ?_⟩, Or.inl rfl, fun e he => Or.inr ?_⟩
      · rw [i2 N (by rw [hch]; exact hno), markSubframe_frames_ne w1 N hne]
        exact hP.2
      · intro hsrc
        have := (i3 e he).1
        rw [hch, hsrc] at this
        exact hno this)
    false w s ⟨DrawSame_refl w, rfl⟩ hs
  exact ⟨s, by rw [hs]; rfl, p1, p2, q⟩

theorem drawSubframes_take (w : World) (X : FramePtr) :
    ∀ n, n ≤ (w.frames X).subframes.length →
      DrawInternal.drawSubframes w X n =
        (((w.frames X).subframes.take n).reverse).filterMap (childQuad w X) := by
  intro n
  induction n with
  | zero => intro _; rfl
  | succ i ih =>
    intro hle
    have hlt : i < (w.frames X).subframes.length := by omega
    have hget : (w.frames X).subframes[i]? = some ((w.frames X).subframes[i]) :=
      List.getElem?_eq_getElem hlt
    rw [DrawInternal.drawSubframes, hget, List.take_succ, hget, ih (by omega)]
    simp only [Option.toList_some, List.reverse_append, List.reverse_cons, List.reverse_nil,
      List.nil_append, List.singleton_append, List.filterMap_cons]
    unfold childQuad
    cases hh : (w.frames ((w.frames X).subframes[i])).hidden
    · cases ht : (w.frames ((w.frames X).subframes[i])).renderTarget <;> simp
    · simp

theorem drawSubframes_eq (w : World) (X : FramePtr) :
    DrawInternal.drawSubframes w X (w.frames X).subframes.length =
      ((w.frames X).subframes.reverse).filterMap (childQuad w X) := by
  rw [drawSubframes_take w X _ (le_refl _), List.take_length]

theorem childQuad_clear (w : World) (X N c : FramePtr) :
    childQuad (w.modFrame X (fun g => { g with drawSurface := false })) N c =
      childQuad w N c := by
  unfold childQuad
  by_cases hc : c = X
  · subst hc
    simp
  · rw [modFrame_frames_ne w _ hc]

/-- C23: DrawInternal on a frame `N` returns (the fuel covering the depth of the subtree).
Whenever it paints (OnDraw of `N` is called) the result is true; and when the result is true,
the redraw flag of `N` is cleared afterwards and the calls end with OnDraw of `N`, then one quad
for each subframe of `N` that is not hidden and has a cached texture, in reverse order of the
subframe array (last index first, index 0 last), each with the texture, transform, colour and
blend state of that subframe, then OnDrawOverlay of `N` and the commit; before that OnDraw there
is no paint hook of `N` and no quad on the canvas of `N`. -/
theorem DrawInternal_paints (env : DrawEnv) (fuel d : Nat) (w : World) (N : FramePtr)
    (hdepth : DepthAtMost w.children d N) (hd : d ≤ fuel) :
    ∃ r, DrawInternal env fuel w N = some r ∧
      (DrawCall.OnDraw N ∈ r.2.2 → r.1 = true) ∧
      (r.1 = true →
        (r.2.1.frames N).drawSurface = false ∧
        ∃ pre, r.2.2 = pre ++ DrawCall.OnDraw N ::
            (((r.2.1.frames N).subframes.reverse).filterMap (childQuad r.2.1 N) ++
              [DrawCall.OnDrawOverlay N, DrawCall.Commit N]) ∧
          ∀ e ∈ pre, e ≠ DrawCall.OnDraw N ∧ e ≠ DrawCall.OnDrawOverlay N ∧
            ∀ c t q col b, e ≠ DrawCall.DrawRect N c t q col b) := by
  obtain ⟨s, hs, _, _, hq⟩ := DrawInternal_split env fuel d w N hdepth hd
  have hloop : ∀ e ∈ s.2.2, e ≠ DrawCall.OnDraw N ∧ e ≠ DrawCall.OnDrawOverlay N ∧
      ∀ c t q col b, e ≠ DrawCall.DrawRect N c t q col b := by
    intro e he
    rcases hq e he with h1 | h1
    · refine ⟨?_, ?_, ?_⟩
      · intro e1; rw [e1] at h1; simp [DrawCall.isDescent] at h1
      · intro e1; rw [e1] at h1; simp [DrawCall.isDescent] at h1
      · intro c t q col b e1; rw [e1] at h1; simp [DrawCall.isDescent] at h1
    · refine ⟨?_, ?_, ?_⟩
      · intro e1; rw [e1] at h1; exact h1 rfl
      · intro e1; rw [e1] at h1; exact h1 rfl
      · intro c t q col b e1; rw [e1] at h1; exact h1 rfl
  have hreq : ∀ e ∈ (DrawInternal.canvas env s.2.1 N).2.2,
      e ≠ DrawCall.OnDraw N ∧ e ≠ DrawCall.OnDrawOverlay N ∧
        ∀ c t q col b, e ≠ DrawCall.DrawRect N c t q col b := by
    intro e he
    have h1 := ((canvas_facts env s.2.1 N).2.2.1 e he).2
    refine ⟨?_, ?_, ?_⟩
    · intro e1; rw [e1] at h1; simp [DrawCall.isRequest] at h1
    · intro e1; rw [e1] at h1; simp [DrawCall.isRequest] at h1
    · intro c t q col b e1; rw [e1] at h1; simp [DrawCall.isRequest] at h1
  refine ⟨_, hs, ?_, ?_⟩
  · intro hmem
    cases hp : (DrawInternal.paint env s.2.1 N s.1).1
    · exfalso
      have hmem' : DrawCall.OnDraw N ∈ s.2.2 ++ (DrawInternal.paint env s.2.1 N s.1).2.2 := hmem
      simp only [List.mem_append] at hmem'
      rcases hmem' with hm | hm
      · exact (hloop _ hm).1 rfl
      · rcases paint_false env s.2.1 N s.1 hp with ⟨_, _, e⟩ | ⟨_, _, e⟩
        · rw [e] at hm; simp at hm
        · rw [e] at hm; exact (hreq _ hm).1 rfl
    · rfl
  · intro hp
    have hp' : (DrawInternal.paint env s.2.1 N s.1).1 = true := hp
    obtain ⟨_, _, e1, e2⟩ := paint_true env s.2.1 N s.1 hp'
    refine ⟨?_, s.2.2 ++ (DrawInternal.canvas env s.2.1 N).2.2, ?_, ?_⟩
    · show ((DrawInternal.paint env s.2.1 N s.1).2.1.frames N).drawSurface = false
      rw [e1, modFrame_frames_same]
    · show s.2.2 ++ (DrawInternal.paint env s.2.1 N s.1).2.2 = _
      have e3 : ((DrawInternal.paint env s.2.1 N s.1).2.1.frames N).subframes =
          ((DrawInternal.canvas env s.2.1 N).2.1.frames N).subframes := by
        rw [e1, modFrame_frames_same]
      have e4 : childQuad (DrawInternal.paint env s.2.1 N s.1).2.1 N =
          childQuad (DrawInternal.canvas env s.2.1 N).2.1 N := by
        funext c
        rw [e1, childQuad_clear]
      show _ = (s.2.2 ++ (DrawInternal.canvas env s.2.1 N).2.2) ++ DrawCall.OnDraw N ::
        ((((DrawInternal.paint env s.2.1 N s.1).2.1.frames N).subframes.reverse).filterMap
            (childQuad (DrawInternal.paint env s.2.1 N s.1).2.1 N) ++
          [DrawCall.OnDrawOverlay N, DrawCall.Commit N])
      rw [e2, e3, e4, drawSubframes_eq, List.append_assoc]
    · intro e he
      simp only [List.mem_append] at he
      rcases he with he | he
      · exact hloop e he
      · exact hreq e he


theorem DrawInternal_paints_witness :
    DepthAtMost drawHeap.children 2 0 ∧
      (DrawInternal okEnv 2 drawHeap 0).map (fun r => (r.1, (r.2.1.frames 0).drawSurface, r.2.2)) =
        some (true, false,
          [DrawCall.DrawInternal 0 2, DrawCall.DrawInternal 0 1, DrawCall.CreateCanvas 0,
            DrawCall.OnDraw 0,
            DrawCall.DrawRect 0 1 DKMatrix3.identity 11 0xff0000ff 1,
            DrawCall.DrawRect 0 2 (scaleTranslate (1 / 2) 1 0 0) 12 0xffffffff 0,
            DrawCall.OnDrawOverlay 0, DrawCall.Commit 0]) ∧
      ∃ r, DrawInternal okEnv 2 drawHeap 0 = some r ∧
        (DrawCall.OnDraw 0 ∈ r.2.2 → r.1 = true) ∧
        (r.1 = true →
          (r.2.1.frames 0).drawSurface = false ∧
          ∃ pre, r.2.2 = pre ++ DrawCall.OnDraw 0 ::
              (((r.2.1.frames 0).subframes.reverse).filterMap (childQuad r.2.1 0) ++
                [DrawCall.OnDrawOverlay 0, DrawCall.Commit 0]) ∧
            ∀ e ∈ pre, e ≠ DrawCall.OnDraw 0 ∧ e ≠ DrawCall.OnDrawOverlay 0 ∧
              ∀ c t q col b, e ≠ DrawCall.DrawRect 0 c t q col b) :=
  ⟨by decide, by decide!, DrawInternal_paints okEnv 2 2 drawHeap 0 (by decide) (by decide)⟩


theorem NoSurface_canvas (env : DrawEnv) (w : World) (N : FramePtr)
    (h : NoSurface env w N) : (DrawInternal.canvas env w N).1 = false := by
  unfold NoSurface at h
  rcases canvas_cases env w N with ⟨s, hs, hr, e⟩ | ⟨hroot, ht, s, hs, e⟩ | ⟨_, _, _, e⟩ |
    ⟨hroot, ht, e⟩
  · rw [e]
    rw [hs] at h
    simp only [hr, if_true] at h
    exact h
  · rw [e]
    rw [hs] at h
    have hr : ¬ (w.screens s).rootFrame = some N := by
      intro hr
      simp [isRootFrame, hs, hr] at hroot
    simp only [hr, if_false] at h
    rcases h with ⟨_, h2⟩ | h2
    · simp only [h2]
    · cases env.CreateTexture N (roundHalfUp (w.frames N).contentResolution.width)
          (roundHalfUp (w.frames N).contentResolution.height) (w.frames N).pixelFormat with
      | none => rfl
      | some t => exact h2
  · rw [e]
  · rw [e]
    cases hs : (w.frames N).screen with
    | none => rfl
    | some s =>
      rw [hs] at h
      have hr : ¬ (w.screens s).rootFrame = some N := by
        intro hr
        simp [isRootFrame, hs, hr] at hroot
      simp only [hr, if_false] at h
      rcases h with ⟨h1, _⟩ | h2
      · rw [h1] at ht
        simp at ht
      · exact h2

theorem NoSurface_congr (env : DrawEnv) {a b : World} (N : FramePtr)
    (hs : b.screens = a.screens) (hf : b.frames N = a.frames N) (h : NoSurface env a N) :
    NoSurface env b N := by
  unfold NoSurface at h ⊢
  rw [hs, hf]
  exact h

/-- C22: the code breaks the claim.  In the scene with the clean root frame 0 and its subframe 1,
which is marked for redraw, with a screen that gives no canvas, DrawInternal on frame 0 repaints
frame 1 (its OnDraw and OnDrawOverlay are called), so frame 0 must repaint; the canvas of the
screen is null, DrawInternal returns false, and the redraw flag of frame 0 is clear after the
call, not set.  The repaint is not retried: a second pass on the heap left by the first, now with
surface creation succeeding, visits frame 1, paints nothing and returns false. -/
theorem DrawInternal_repaint_lost :
    (childDirtyHeap.frames 0).drawSurface = false ∧
      (childDirtyHeap.frames 0).subframes = [1] ∧
      (childDirtyHeap.frames 1).drawSurface = true ∧
      NoSurface noCanvasEnv childDirtyHeap 0 ∧
      (DrawInternal noCanvasEnv 2 childDirtyHeap 0).map
          (fun r => (r.1, (r.2.1.frames 0).drawSurface, r.2.2)) =
        some (false, false,
          [DrawCall.DrawInternal 0 1, DrawCall.CreateTexture 1 800 600 0,
            DrawCall.CreateCommandBuffer 1, DrawCall.OnDraw 1, DrawCall.OnDrawOverlay 1,
            DrawCall.Commit 1, DrawCall.CreateCanvas 0]) ∧
      ((DrawInternal noCanvasEnv 2 childDirtyHeap 0).bind
          (fun r => DrawInternal okEnv 2 r.2.1 0)).map (fun r => (r.1, r.2.2)) =
        some (false, [DrawCall.DrawInternal 0 1]) := by
  refine ⟨rfl, rfl, rfl, ?_, by decide!, by decide!⟩
  simp [NoSurface, childDirtyHeap, exampleScreen, noCanvasEnv]

/-- What a draw pass without surface leaves.  DrawInternal on a frame `N` for which no paint
surface can be obtained (for the root frame of a screen the canvas is null; otherwise there is no
screen, or the missing texture cannot be made, or there is no command queue) returns (the fuel
covering the depth of the subtree) with result false and calls no paint hook of `N`; the redraw
flag of `N` is set after the call if it was set before the call, or if a texture for `N` was
asked for during the call. -/
theorem DrawInternal_no_surface (env : DrawEnv) (fuel d : Nat) (w : World) (N : FramePtr)
    (hdepth : DepthAtMost w.children d N) (hd : d ≤ fuel) (hno : NoSurface env w N) :
    ∃ r, DrawInternal env fuel w N = some r ∧ r.1 = false ∧
      (DrawCall.OnDraw N ∉ r.2.2 ∧ DrawCall.OnDrawOverlay N ∉ r.2.2 ∧
        DrawCall.Commit N ∉ r.2.2 ∧ ∀ c t q col b, DrawCall.DrawRect N c t q col b ∉ r.2.2) ∧
      ((w.frames N).drawSurface = true → (r.2.1.frames N).drawSurface = true) ∧
      ((∃ a b f, DrawCall.CreateTexture N a b f ∈ r.2.2) →
        (r.2.1.frames N).drawSurface = true) := by
  obtain ⟨s, hs, hsame, hN, hq⟩ := DrawInternal_split env fuel d w N hdepth hd
  have hno' : NoSurface env s.2.1 N := NoSurface_congr env N hsame.1 hN hno
  have hc := NoSurface_canvas env s.2.1 N hno'
  have hp : (DrawInternal.paint env s.2.1 N s.1).1 = false := by
    cases hp : (DrawInternal.paint env s.2.1 N s.1).1
    · rfl
    · have := (paint_true env s.2.1 N s.1 hp).2.1
      rw [hc] at this
      exact absurd this (by simp)
  obtain ⟨_, _, c3, c4, c5⟩ := canvas_facts env s.2.1 N
  have hloop : ∀ e ∈ s.2.2, e.source = N → e.isDescent = true := by
    intro e he hsrc
    rcases hq e he with h1 | h1
    · exact h1
    · exact absurd hsrc h1
  have htrace : ∀ e ∈ s.2.2 ++ (DrawInternal.paint env s.2.1 N s.1).2.2,
      e.source = N → e.isDescent = true ∨ e.isRequest = true := by
    intro e he hsrc
    simp only [List.mem_append] at he
    rcases he with he | he
    · exact Or.inl (hloop e he hsrc)
    · rcases paint_false env s.2.1 N s.1 hp with ⟨_, _, e1⟩ | ⟨_, _, e1⟩
      · rw [e1] at he; simp at he
      · rw [e1] at he; exact Or.inr (c3 e he).2
  refine ⟨_, hs, hp, ⟨?_, ?_, ?_, ?_⟩, ?_, ?_⟩
  · intro hm
    have := htrace _ hm rfl
    simp [DrawCall.isDescent, DrawCall.isRequest] at this
  · intro hm
    have := htrace _ hm rfl
    simp [DrawCall.isDescent, DrawCall.isRequest] at this
  · intro hm
    have := htrace _ hm rfl
    simp [DrawCall.isDescent, DrawCall.isRequest] at this
  · intro c t q col b hm
    have := htrace _ hm rfl
    simp [DrawCall.isDescent, DrawCall.isRequest] at this
  · intro hdirty
    show ((DrawInternal.paint env s.2.1 N s.1).2.1.frames N).drawSurface = true
    rcases paint_false env s.2.1 N s.1 hp with ⟨_, h2, _⟩ | ⟨_, _, e1⟩
    · rw [hN, hdirty] at h2
      exact absurd h2 (by simp)
    · rw [e1]
      exact c4 (by rw [hN]; exact hdirty)
  · rintro ⟨a, b, f, hm⟩
    show ((DrawInternal.paint env s.2.1 N s.1).2.1.frames N).drawSurface = true
    have hm' : DrawCall.CreateTexture N a b f ∈
        s.2.2 ++ (DrawInternal.paint env s.2.1 N s.1).2.2 := hm
    simp only [List.mem_append] at hm'
    rcases hm' with hm' | hm'
    · have := hloop _ hm' rfl
      simp [DrawCall.isDescent] at this
    · rcases paint_false env s.2.1 N s.1 hp with ⟨_, _, e1⟩ | ⟨_, _, e1⟩
      · rw [e1] at hm'; simp at hm'
      · rw [e1] at hm' ⊢
        exact c5 ⟨a, b, f, hm'⟩

theorem DrawInternal_no_surface_witness :
    DepthAtMost drawHeap.children 2 0 ∧ NoSurface noCanvasEnv drawHeap 0 ∧
      (drawHeap.frames 0).drawSurface = true ∧
      (DrawInternal noCanvasEnv 2 drawHeap 0).map
          (fun r => (r.1, (r.2.1.frames 0).drawSurface, r.2.2)) =
        some (false, true,
          [DrawCall.DrawInternal 0 2, DrawCall.DrawInternal 0 1, DrawCall.CreateCanvas 0]) ∧
      ∃ r, DrawInternal noCanvasEnv 2 drawHeap 0 = some r ∧ r.1 = false ∧
        (DrawCall.OnDraw 0 ∉ r.2.2 ∧ DrawCall.OnDrawOverlay 0 ∉ r.2.2 ∧
          DrawCall.Commit 0 ∉ r.2.2 ∧ ∀ c t q col b, DrawCall.DrawRect 0 c t q col b ∉ r.2.2) ∧
        ((drawHeap.frames 0).drawSurface = true → (r.2.1.frames 0).drawSurface = true) ∧
        ((∃ a b f, DrawCall.CreateTexture 0 a b f ∈ r.2.2) →
          (r.2.1.frames 0).drawSurface = true) :=
  have hno : NoSurface noCanvasEnv drawHeap 0 := by
    simp [NoSurface, drawHeap, exampleScreen, noCanvasEnv]
  ⟨by decide, hno, rfl, by decide!,
    DrawInternal_no_surface noCanvasEnv 2 2 drawHeap 0 (by decide) (by decide) hno⟩


/-! ## Drawing: incremental redraw -/

theorem markSubframe_clean (w : World) (this frame : FramePtr)
    (h : (w.frames this).drawSurface = false) : DrawInternal.markSubframe w this frame = w := by
  unfold DrawInternal.markSubframe
  rw [h]
  simp

theorem drawLoop_clean (env : DrawEnv) (this : FramePtr) (bounds : DKRect)
    (call : World → FramePtr → Option (Bool × World × List DrawCall)) (w : World)
    (hclean : (w.frames this).drawSurface = false) :
    ∀ L : List FramePtr,
      (∀ c ∈ L, ∃ tr, call w c = some (false, w, tr) ∧ ∀ e ∈ tr, e.isDescent = true) →
      ∀ ds, ∃ tr, DrawInternal.subframesLoop env this bounds call L ds w = some (ds, w, tr) ∧
        ∀ e ∈ tr, e.isDescent = true := by
  intro L
  induction L with
  | nil => intro _ ds; exact ⟨[], rfl, fun e he => by simp at he⟩
  | cons c rest ih =>
    intro hall ds
    obtain ⟨tr, htr, hd⟩ := ih (fun x hx => hall x (List.mem_cons_of_mem _ hx)) ds
    rw [drawLoop_cons]
    split_ifs
    · obtain ⟨tc, htc, hdc⟩ := hall c (List.mem_cons_self _ _)
      rw [markSubframe_clean w this c hclean, htc]
      simp only [Option.some_bind, Bool.or_false, htr, Option.map_some']
      refine ⟨_, rfl, fun e he => ?_⟩
      simp only [List.mem_cons, List.mem_append] at he
      rcases he with (he | he) | he
      · subst he; rfl
      · exact hdc e he
      · exact hd e he
    · exact ⟨tr, htr, hd⟩

theorem DrawInternal_clean (env : DrawEnv) :
    ∀ (fuel d : Nat) (w : World) (X : FramePtr), DepthAtMost w.children d X → d ≤ fuel →
      (∀ Z, Reach w.children X Z → (w.frames Z).drawSurface = false) →
      ∃ tr, DrawInternal env fuel w X = some (false, w, tr) ∧ ∀ e ∈ tr, e.isDescent = true := by
  intro fuel
  induction fuel with
  | zero =>
    intro d w X hd hle
    have : d = 0 := by omega
    subst this
    exact absurd hd (by simp [DepthAtMost])
  | succ m ih =>
    intro d w X hd hle hclean
    cases d with
    | zero => exact absurd hd (by simp [DepthAtMost])
    | succ d =>
      have hX := hclean X (Reach.refl X)
      obtain ⟨tr, htr, hq⟩ := drawLoop_clean env X (Bounds w X)
        (fun w1 frame => DrawInternal env m w1 frame) w hX (w.frames X).subframes
        (fun c hc => ih d w c (hd c hc) (by omega)
          (fun Z hZ => hclean Z (Reach.step hc hZ))) false
      have hp : DrawInternal.paint env w X false = (false, w, []) := by
        unfold DrawInternal.paint
        rw [hX]
        simp
      rw [DrawInternal_succ, htr]
      simp only [Option.map_some', hp, List.append_nil]
      exact ⟨tr, rfl, hq⟩

theorem canvas_success (env : DrawEnv) (w : World) (X : FramePtr) (henv : env.succeeds)
    (hs : (w.frames X).screen ≠ none) : (DrawInternal.canvas env w X).1 = true := by
  obtain ⟨h1, h2, h3⟩ := henv
  rcases canvas_cases env w X with ⟨s, _, _, e⟩ | ⟨_, _, s, _, e⟩ | ⟨_, _, hn, _⟩ | ⟨_, _, e⟩
  · rw [e]; exact h1 X s
  · rw [e]
    have := h2 X (roundHalfUp (w.frames X).contentResolution.width)
      (roundHalfUp (w.frames X).contentResolution.height) (w.frames X).pixelFormat
    cases hc : env.CreateTexture X (roundHalfUp (w.frames X).contentResolution.width)
        (roundHalfUp (w.frames X).contentResolution.height) (w.frames X).pixelFormat with
    | none => rw [hc] at this; simp at this
    | some t => exact h3 X s
  · exact absurd hn hs
  · rw [e]
    cases hsc : (w.frames X).screen with
    | none => exact absurd hsc hs
    | some s => exact h3 X s

theorem paint_success (env : DrawEnv) (w : World) (X : FramePtr) (ds : Bool)
    (henv : env.succeeds) (hs : (w.frames X).screen ≠ none) :
    ((DrawInternal.paint env w X ds).2.1.frames X).drawSurface = false ∧
      (ds = true ∨ (w.frames X).drawSurface = true → (DrawInternal.paint env w X ds).1 = true) := by
  have hc := canvas_success env w X henv hs
  cases hp : (DrawInternal.paint env w X ds).1
  · rcases paint_false env w X ds hp with ⟨h1, h2, e⟩ | ⟨_, h2, _⟩
    · rw [e]
      refine ⟨h2, fun h => ?_⟩
      rcases h with h | h
      · rw [h1] at h; exact absurd h (by simp)
      · rw [h2] at h; exact absurd h (by simp)
    · rw [hc] at h2
      exact absurd h2 (by simp)
  · obtain ⟨_, _, e1, _⟩ := paint_true env w X ds hp
    rw [e1, modFrame_frames_same]
    exact ⟨rfl, fun _ => rfl⟩

theorem Drawn_congr (env : DrawEnv) {a b : World} (h : DrawSame a b) {N Z : FramePtr}
    (hd : Drawn env a N Z) : Drawn env b N Z := by
  induction hd with
  | here N => exact Drawn.here N
  | down N c Z hc hh hi _ ih =>
    obtain ⟨v1, v2, v3⟩ := (DrawSame_visit env h N c).2 ⟨hc, hh, hi⟩
    exact Drawn.down N c Z v1 v2 v3 ih

theorem Drawn_reach (env : DrawEnv) {w : World} {N Z : FramePtr} (hd : Drawn env w N Z) :
    Reach w.children N Z := by
  induction hd with
  | here N => exact Reach.refl N
  | down N c Z hc _ _ _ ih => exact Reach.step hc ih

theorem drawLoop_success (env : DrawEnv) (this : FramePtr) (w : World)
    (call : World → FramePtr → Option (Bool × World × List DrawCall)) :
    ∀ L : List FramePtr,
      (∀ c ∈ L, ∀ w1 r, DrawSame w w1 →
        call (DrawInternal.markSubframe w1 this c) c = some r →
        DrawSame w r.2.1 ∧
          (∀ Z, (w1.frames Z).drawSurface = false → (r.2.1.frames Z).drawSurface = false) ∧
          ∀ Z, Drawn env w c Z → (r.2.1.frames Z).drawSurface = false) →
      ∀ ds w1 s, DrawSame w w1 →
        DrawInternal.subframesLoop env this (Bounds w this) call L ds w1 = some s →
        DrawSame w s.2.1 ∧
          (∀ Z, (w1.frames Z).drawSurface = false → (s.2.1.frames Z).drawSurface = false) ∧
          ∀ c ∈ L, (w.frames c).hidden = false →
            (InsideFrameRect env w c (Bounds w this) (w.frames this).contentTransform
              (w.frames this).contentTransformInverse).1 = true →
            ∀ Z, Drawn env w c Z → (s.2.1.frames Z).drawSurface = false := by
  intro L
  induction L with
  | nil =>
    intro _ ds w1 s hsame hs
    simp only [DrawInternal.subframesLoop, Option.some.injEq] at hs
    subst hs
    exact ⟨hsame, fun Z hZ => hZ, fun c hc => by simp at hc⟩
  | cons c rest ih =>
    intro hstep ds w1 s hsame hs
    have ih' := ih (fun x hx => hstep x (List.mem_cons_of_mem _ hx))
    rw [drawLoop_cons] at hs
    split_ifs at hs with hv
    · simp only [Option.bind_eq_some, Option.map_eq_some'] at hs
      obtain ⟨r, hr, t, ht, hst⟩ := hs
      obtain ⟨a1, a2, a3⟩ := hstep c (List.mem_cons_self _ _) w1 r hsame hr
      obtain ⟨b1, b2, b3⟩ := ih' _ _ t a1 ht
      subst hst
      refine ⟨b1, fun Z hZ => b2 Z (a2 Z hZ), fun x hx hh hi Z hZ => ?_⟩
      simp only [List.mem_cons] at hx
      rcases hx with hx | hx
      · subst hx
        exact b2 Z (a3 Z hZ)
      · exact b3 x hx hh hi Z hZ
    · obtain ⟨b1, b2, b3⟩ := ih' ds w1 s hsame hs
      refine ⟨b1, b2, fun x hx hh hi Z hZ => ?_⟩
      simp only [List.mem_cons] at hx
      rcases hx with hx | hx
      · subst hx
        exfalso
        apply hv
        have hin := DrawSame_inside env hsame this x (Bounds w this)
        rw [(DrawSame_field hsame x).2.1, hin]
        exact ⟨hh, hi⟩
      · exact b3 x hx hh hi Z hZ

theorem DrawInternal_success (env : DrawEnv) (henv : env.succeeds) :
    ∀ (fuel : Nat) (w : World) (X : FramePtr) (r : Bool × World × List DrawCall),
      (∀ Z, Reach w.children X Z → (w.frames Z).screen ≠ none) →
      DrawInternal env fuel w X = some r →
      (∀ Z, (w.frames Z).drawSurface = false → (r.2.1.frames Z).drawSurface = false) ∧
        ∀ Z, Drawn env w X Z → (r.2.1.frames Z).drawSurface = false := by
  intro fuel
  induction fuel with
  | zero => intro w X r _ h; simp [DrawInternal] at h
  | succ m ih =>
    intro w X r hscreen h
    rw [DrawInternal_succ] at h
    simp only [Option.map_eq_some'] at h
    obtain ⟨s, hs, hr⟩ := h
    obtain ⟨p1, p2, p3⟩ := drawLoop_success env X w
      (fun w1 frame => DrawInternal env m w1 frame) (w.frames X).subframes
      (fun c hc w1 t hsame ht => by
        have hm : DrawSame w (DrawInternal.markSubframe w1 X c) :=
          DrawSame_trans hsame (markSubframe_same w1 X c)
        have hch : (DrawInternal.markSubframe w1 X c).children = w.children :=
          DrawSame_children hm
        obtain ⟨i1, i2⟩ := ih _ c t (fun Z hZ => by
          rw [(DrawSame_field hm Z).2.2.1]
          rw [hch] at hZ
          exact hscreen Z (Reach.step hc hZ)) ht
        have hcc : (t.2.1.frames c).drawSurface = false := i2 c (Drawn.here c)
        refine ⟨DrawSame_trans hm (DrawInternal_frame env m _ c t ht).1, fun Z hZ => ?_,
          fun Z hZ => i2 Z (Drawn_congr env hm hZ)⟩
        by_cases hZc : Z = c
        · rw [hZc]; exact hcc
        · apply i1
          rw [markSubframe_frames_ne w1 X hZc]
          exact hZ)
      false w s (DrawSame_refl w) hs
    have hsX : (s.2.1.frames X).screen ≠ none := by
      rw [(DrawSame_field p1 X).2.2.1]
      exact hscreen X (Reach.refl X)
    obtain ⟨q1, _⟩ := paint_success env s.2.1 X s.1 henv hsX
    obtain ⟨_, f2, _⟩ := paint_facts env s.2.1 X s.1
    have hfin : ∀ Z, (s.2.1.frames Z).drawSurface = false →
        ((DrawInternal.paint env s.2.1 X s.1).2.1.frames Z).drawSurface = false := by
      intro Z hZ
      by_cases hZX : Z = X
      · rw [hZX]; exact q1
      · rw [f2 Z hZX]; exact hZ
    subst hr
    refine ⟨fun Z hZ => hfin Z (p2 Z hZ), fun Z hZ => ?_⟩
    cases hZ with
    | here _ => exact q1
    | down _ c _ hc hh hi hd => exact hfin Z (p3 c hc hh hi Z hd)


/-- C26: incremental redraw.  DrawInternal on a frame `N` returns (the fuel covering the depth of
the subtree).  When `N` and every frame of its subtree has a clear redraw flag, the result is
false, the heap is unchanged, and the only calls made are DrawInternal on subframes: no paint
hook is called on any frame and no canvas, texture or command buffer is asked for.  DrawInternal
is never called on a hidden subframe.  Conversely, when surface creation always succeeds and the
frames of the subtree are attached to a screen, DrawInternal on `N` with the redraw flag set
returns true and leaves `N` and every frame reached by the pass (along subframes that are not
hidden and not culled) with a clear redraw flag. -/
theorem DrawInternal_incremental (env : DrawEnv) (fuel d : Nat) (w : World) (N : FramePtr)
    (hdepth : DepthAtMost w.children d N) (hd : d ≤ fuel) :
    ∃ r, DrawInternal env fuel w N = some r ∧
      ((∀ X, Reach w.children N X → (w.frames X).drawSurface = false) →
        r.1 = false ∧ r.2.1 = w ∧ ∀ e ∈ r.2.2, ∃ p c, e = DrawCall.DrawInternal p c) ∧
      (∀ p c, DrawCall.DrawInternal p c ∈ r.2.2 → (w.frames c).hidden = false) ∧
      (env.succeeds → (∀ X, Reach w.children N X → (w.frames X).screen ≠ none) →
        (w.frames N).drawSurface = true →
        r.1 = true ∧ ∀ Z, Drawn env w N Z → (r.2.1.frames Z).drawSurface = false) := by
  obtain ⟨r, hr⟩ := DrawInternal_total env fuel d w N hdepth hd
  refine ⟨r, hr, ?_, ?_, ?_⟩
  · intro hclean
    obtain ⟨tr, htr, hq⟩ := DrawInternal_clean env fuel d w N hdepth hd hclean
    rw [hr] at htr
    have e := Option.some.inj htr
    subst e
    refine ⟨rfl, rfl, fun e he => ?_⟩
    have := hq e he
    cases e <;> simp [DrawCall.isDescent] at this
    exact ⟨_, _, rfl⟩
  · intro p c hm
    exact (((DrawInternal_frame env fuel w N r hr).2.2 _ hm).2 p c rfl).2.1
  · intro henv hscreen hdirty
    refine ⟨?_, (DrawInternal_success env henv fuel w N r hscreen hr).2⟩
    obtain ⟨s, hs, hsame, hN, _⟩ := DrawInternal_split env fuel d w N hdepth hd
    rw [hr] at hs
    have e := Option.some.inj hs
    rw [e]
    have hsN : (s.2.1.frames N).screen ≠ none := by
      rw [hN]
      exact hscreen N (Reach.refl N)
    exact (paint_success env s.2.1 N s.1 henv hsN).2 (Or.inr (by rw [hN]; exact hdirty))

theorem DrawInternal_incremental_witness :
    DepthAtMost sceneHeap.children 2 0 ∧ DepthAtMost drawHeap.children 2 0 ∧
      (DrawInternal okEnv 2 sceneHeap 0).map (fun r => (r.1, r.2.2)) =
        some (false, [DrawCall.DrawInternal 0 2, DrawCall.DrawInternal 0 1]) ∧
      (∃ r, DrawInternal okEnv 2 sceneHeap 0 = some r ∧ r.1 = false ∧ r.2.1 = sceneHeap ∧
        ∀ e ∈ r.2.2, ∃ p c, e = DrawCall.DrawInternal p c) ∧
      (∃ r, DrawInternal okEnv 2 drawHeap 0 = some r ∧ r.1 = true ∧
        (∀ p c, DrawCall.DrawInternal p c ∈ r.2.2 → (drawHeap.frames c).hidden = false) ∧
        ∀ Z, Drawn okEnv drawHeap 0 Z → (r.2.1.frames Z).drawSurface = false) := by
  obtain ⟨r1, a1, a2, _, _⟩ := DrawInternal_incremental okEnv 2 2 sceneHeap 0 (by decide)
    (by decide)
  obtain ⟨r2, b1, _, b3, b4⟩ := DrawInternal_incremental okEnv 2 2 drawHeap 0 (by decide)
    (by decide)
  have hclean : ∀ X, Reach sceneHeap.children 0 X → (sceneHeap.frames X).drawSurface = false := by
    intro X hX
    have hm := reach_mem_subtree (n := 2) (by decide) hX
    have hX' : X = 0 ∨ X = 2 ∨ X = 1 := by
      simpa [subtree, World.children, sceneHeap, DKFrame.fresh] using hm
    rcases hX' with e | e | e <;> subst e <;> rfl
  have hscreen : ∀ X, Reach drawHeap.children 0 X → (drawHeap.frames X).screen ≠ none := by
    intro X hX
    have hm := reach_mem_subtree (n := 2) (by decide) hX
    have hX' : X = 0 ∨ X = 2 ∨ X = 3 ∨ X = 1 := by
      simpa [subtree, World.children, drawHeap, DKFrame.fresh] using hm
    rcases hX' with e | e | e | e <;> subst e <;> simp [drawHeap]
  have hok : okEnv.succeeds := ⟨fun _ _ => rfl, fun _ _ _ _ => rfl, fun _ _ => rfl⟩
  obtain ⟨c1, c2⟩ := b4 hok hscreen rfl
  exact ⟨by decide, by decide, by decide!, ⟨r1, a1, a2 hclean⟩, ⟨r2, b1, c1, b3, c2⟩⟩


/-! ## Revisions -/

/-- C14, as stated, fails: `SetContentTransform` on a freshly constructed frame with the
invertible matrix `perspectiveMatrix`, which is not affine, stores the matrix and its inverse;
the frame has content scale (1, 1) and content resolution (1, 1), and
`LocalToPixel(PixelToLocal((1, 0)))` is (2, 0), `PixelToLocal(LocalToPixel((0, 0)))` is (1, 0). -/
theorem LocalToPixel_PixelToLocal_counterexample :
    perspectiveMatrix.Determinant = 1 ∧ ¬ perspectiveMatrix.IsAffine ∧
      Steps exampleExternals anyMatrix anyMatrix World.fresh
        (SetContentTransform World.fresh 0 perspectiveMatrix) ∧
      ((SetContentTransform World.fresh 0 perspectiveMatrix).frames 0).contentTransform =
        perspectiveMatrix ∧
      ((SetContentTransform World.fresh 0 perspectiveMatrix).frames 0).contentScale = ⟨1, 1⟩ ∧
      ((SetContentTransform World.fresh 0 perspectiveMatrix).frames 0).contentResolution =
        ⟨1, 1⟩ ∧
      LocalToPixel (SetContentTransform World.fresh 0 perspectiveMatrix) 0
        (PixelToLocal (SetContentTransform World.fresh 0 perspectiveMatrix) 0 ⟨1, 0⟩) =
          ⟨2, 0⟩ ∧
      PixelToLocal (SetContentTransform World.fresh 0 perspectiveMatrix) 0
        (LocalToPixel (SetContentTransform World.fresh 0 perspectiveMatrix) 0 ⟨0, 0⟩) =
          ⟨1, 0⟩ :=
  ⟨by decide!, by decide!,
    Steps.next (Steps.here _) (Step.setContentTransform World.fresh 0 perspectiveMatrix trivial),
    by decide!, by decide!, by decide!, by decide!, by decide!⟩


/-- C6, as stated, fails: in the tree loaded on screen 0 (root frame 0, its subframe 1, frame 2
under frame 1), after `2.Unload()` and `0.RemoveSubframe(1)` frame 1 has no superframe and is
still loaded on screen 0, with the unloaded frame 2 in its subtree; `0.AddSubframe(1)` accepts
frame 1 on the loaded frame 0, Load is skipped because frame 1 is already on the screen of frame
0, and frame 2 is not loaded afterwards. -/
theorem AddSubframe_loads_counterexample :
    (Unload 1 exampleHeap 2).map
        (fun w => ((w.frames 0).loaded, ((RemoveSubframe w 0 (some 1)).frames 1).superframe,
          ((RemoveSubframe w 0 (some 1)).frames 1).screen,
          ((RemoveSubframe w 0 (some 1)).frames 1).subframes,
          ((RemoveSubframe w 0 (some 1)).frames 2).loaded)) =
        some (true, none, some 0, [2], false) ∧
      ((Unload 1 exampleHeap 2).bind
          (fun w => AddSubframe exampleNewtonSqrt 3 (RemoveSubframe w 0 (some 1)) 0 (some 1))).map
          (fun r => (r.1, (r.2.frames 1).superframe, (r.2.frames 1).subframes,
            (r.2.frames 2).loaded, (r.2.frames 2).screen)) =
        some (true, some 0, [2], false, none) := by
  refine ⟨by decide!, by decide!⟩

end DKFramework
